import Mathlib

/-!
# SharedPtr / WeakPtr reference counting (src/StackAllocator.cpp)

A shallow embedding of the control blocks, of `SharedPtr<T>` and of
`WeakPtr<T>` of `src/StackAllocator.cpp`, and the proofs of the counting
invariants of the handles.

## Model

* `size_t` counters are natural numbers reduced modulo `2 ^ 64`.
* A control block pointer is `Option Nat`: `none` is `nullptr`, `some cb` is
  the address of the `cb`-th block handed out by an allocator.  Addresses are
  never reused, so the record of a deallocated block stays readable and the
  trace tells whether it has been deallocated.
* Every C++ object of type `SharedPtr` / `WeakPtr` lives in a slot of the
  state; a slot holding `none` is an object whose lifetime has ended.
  Temporaries of the source (`tmp`, `SharedPtr().swap(*this)`) are slots too.
* An operation returns `none` where the source dereferences a null pointer or
  touches an object whose lifetime has ended (undefined behaviour); a member
  function first checks that `*this` is a live object.
* Calls of the allocator, of the deleter and of the payload destructor are
  recorded, in order, in the trace of the heap.  The payload is plain data:
  its destructor and the deleter do not touch handles.  A payload whose
  destruction runs client code is treated apart (`shared_release_running`).
* The class `SharedPtr` declares no copy assignment operator: both `operator=`
  of the source are templates.  The compiler therefore declares
  `operator=(const SharedPtr&)` implicitly; it copies the two members one by
  one and is the function selected for `a = b` when `b` is `const`
  (`SharedPtr.assign_implicit`).  For a non-const lvalue and for an rvalue
  operand the templates of the source are selected (`SharedPtr.assign`,
  `SharedPtr.assign_move`).
* `Op`, `step` and `run` are the programs that call only the functions written
  in the source; `Call`, `call` and `calls` are all programs, which may also
  assign from a `const` operand.
-/

namespace SmartPointers

/-- Number of values of `size_t` (64-bit). -/
def SIZE_T_MOD : Nat := 18446744073709551616

/-- Pre-increment `++n` of a `size_t`. -/
def incr (n : Nat) : Nat := (n + 1) % 18446744073709551616

/-- Pre-decrement `--n` of a `size_t` (wraps from 0 to `2 ^ 64 - 1`). -/
def decr (n : Nat) : Nat := (18446744073709551615 + n) % 18446744073709551616

/-- Values of a payload pointer `T*`. -/
inductive Ptr where
  /-- The null pointer `nullptr`. -/
  | null
  /-- A pointer supplied by the client (raw-pointer constructors). -/
  | raw (addr : Nat)
  /-- The address `&obj` of the payload stored inside control block `cb`
  (`ControlBlockMakeShared::get_ptr`). -/
  | obj (cb : Nat)
  deriving DecidableEq

/-- Observable calls made by the control blocks. -/
inductive Event where
  /-- Call `allocator_traits::allocate(alloc, 1)` returning block `cb`. -/
  | allocate (alloc : Nat) (cb : Nat)
  /-- Call `del(ptr)` made by `ControlBlockDirect::dispose` of block `cb`. -/
  | deleter (cb : Nat) (del : Nat) (ptr : Ptr)
  /-- Call `allocator_traits::destroy(tmp, &obj)` made by
  `ControlBlockMakeShared::dispose` of block `cb`. -/
  | destroyObj (cb : Nat)
  /-- Call `allocator_traits::deallocate(alloc, this, 1)` made by `destroy()`
  of block `cb`. -/
  | deallocate (alloc : Nat) (cb : Nat)
  deriving DecidableEq

/-- The members a derived control block adds to `BaseControlBlock`. -/
inductive BlockBody (T : Type) where
  /-- Members `ptr`, `alloc`, `del` of `ControlBlockDirect`. -/
  | ControlBlockDirect (ptr : Ptr) (alloc : Nat) (del : Nat)
  /-- Members `alloc`, `obj` of `ControlBlockMakeShared`. -/
  | ControlBlockMakeShared (alloc : Nat) (obj : T)
  deriving DecidableEq

/-- A constructed control block: `BaseControlBlock` and the derived part. -/
structure BaseControlBlock (T : Type) where
  shared_count : Nat
  weak_count : Nat
  body : BlockBody T
  deriving DecidableEq

/-- The storage obtained from allocators and the trace of calls.  A block that
is `none` is storage in which no control block has been constructed. -/
structure Heap (T : Type) where
  blocks : List (Option (BaseControlBlock T))
  trace : List Event
  deriving DecidableEq

/-- Members `control_block`, `ptr` of `SharedPtr<T>`. -/
structure SharedPtr where
  control_block : Option Nat
  ptr : Ptr
  deriving DecidableEq

/-- Members `control_block`, `ptr` of `WeakPtr<T>`. -/
structure WeakPtr where
  control_block : Option Nat
  ptr : Ptr
  deriving DecidableEq

/-- The heap and the handle objects of a program. -/
structure State (T : Type) where
  heap : Heap T
  shared : List (Option SharedPtr)
  weak : List (Option WeakPtr)
  deriving DecidableEq

/-- The outcome of evaluating `T(args...)` for the payload. -/
inductive Construct (T : Type) where
  /-- The constructor returns the value `obj`. -/
  | value (obj : T)
  /-- The constructor throws. -/
  | throws
  deriving DecidableEq

/-- How a call ends. -/
inductive Completion where
  /-- The call returns to the caller. -/
  | returned
  /-- An exception leaves the call. -/
  | threw
  deriving DecidableEq

/-- The allocator `std::allocator<T>()`. -/
def stdAllocator : Nat := 0

/-- The deleter `std::default_delete<T>()`. -/
def defaultDelete : Nat := 0

variable {T : Type}

/-! ## Heap access -/

/-- The control block constructed at address `cb`, if any. -/
def Heap.read (h : Heap T) (cb : Nat) : Option (BaseControlBlock T) :=
  match h.blocks[cb]? with
  | some (some c) => some c
  | _ => none

/-- Store to the members of block `cb`. -/
def Heap.write (h : Heap T) (cb : Nat) (c : BaseControlBlock T) : Heap T :=
  { h with blocks := h.blocks.set cb (some c) }

/-- Append a call to the trace. -/
def Heap.log (h : Heap T) (e : Event) : Heap T :=
  { h with trace := h.trace ++ [e] }

/-- The allocator of a block (member `alloc` of either derived block). -/
def BlockBody.alloc : BlockBody T → Nat
  | .ControlBlockDirect _ alloc _ => alloc
  | .ControlBlockMakeShared alloc _ => alloc

/-! ## BaseControlBlock -/

/-- Virtual `dispose()`: `del(ptr)` for `ControlBlockDirect`, destruction of
`obj` in place for `ControlBlockMakeShared`. -/
def dispose (cb : Nat) (h : Heap T) : Option (Heap T) :=
  match h.read cb with
  | none => none
  | some c =>
    match c.body with
    | .ControlBlockDirect ptr _ del => some (h.log (.deleter cb del ptr))
    | .ControlBlockMakeShared _ _ => some (h.log (.destroyObj cb))

/-- Virtual `destroy()`: both derived blocks deallocate `this` through their
allocator. -/
def destroy (cb : Nat) (h : Heap T) : Option (Heap T) :=
  match h.read cb with
  | none => none
  | some c => some (h.log (.deallocate c.body.alloc cb))

/-- Method `BaseControlBlock::shared_release`. -/
def shared_release (cb : Nat) (h : Heap T) : Option (Heap T) := do
  let c ← h.read cb
  let h1 := h.write cb { c with shared_count := decr c.shared_count }
  let c1 ← h1.read cb
  let h2 ← if c1.shared_count = 0 then dispose cb h1 else some h1
  let c2 ← h2.read cb
  if c2.shared_count = 0 ∧ c2.weak_count = 0 then destroy cb h2 else some h2

/-- Method `BaseControlBlock::weak_release`. -/
def weak_release (cb : Nat) (h : Heap T) : Option (Heap T) := do
  let c ← h.read cb
  let h1 := h.write cb { c with weak_count := decr c.weak_count }
  let c1 ← h1.read cb
  if c1.shared_count = 0 ∧ c1.weak_count = 0 then destroy cb h1 else some h1

/-- Statement `++(control_block->shared_count)`. -/
def shared_increment (cb : Nat) (h : Heap T) : Option (Heap T) := do
  let c ← h.read cb
  some (h.write cb { c with shared_count := incr c.shared_count })

/-- Statement `++(control_block->weak_count)`. -/
def weak_increment (cb : Nat) (h : Heap T) : Option (Heap T) := do
  let c ← h.read cb
  some (h.write cb { c with weak_count := incr c.weak_count })

/-- Call `allocator_traits::allocate(alloc, 1)`: fresh storage at the next
address, nothing constructed in it yet. -/
def Heap.allocate (h : Heap T) (alloc : Nat) : Heap T :=
  { blocks := h.blocks ++ [none], trace := h.trace ++ [.allocate alloc h.blocks.length] }

/-! ## Handle objects -/

/-- The live `SharedPtr` object in slot `i`. -/
def State.getShared (s : State T) (i : Nat) : Option SharedPtr :=
  match s.shared[i]? with
  | some (some x) => some x
  | _ => none

/-- The live `WeakPtr` object in slot `i`. -/
def State.getWeak (s : State T) (i : Nat) : Option WeakPtr :=
  match s.weak[i]? with
  | some (some x) => some x
  | _ => none

/-- Overwrite the `SharedPtr` slot `i`. -/
def State.setShared (s : State T) (i : Nat) (x : Option SharedPtr) : State T :=
  { s with shared := s.shared.set i x }

/-- Overwrite the `WeakPtr` slot `i`. -/
def State.setWeak (s : State T) (i : Nat) (x : Option WeakPtr) : State T :=
  { s with weak := s.weak.set i x }

/-- A new `SharedPtr` object, in the slot `s.shared.length`. -/
def State.pushShared (s : State T) (x : SharedPtr) : State T :=
  { s with shared := s.shared ++ [some x] }

/-- A new `WeakPtr` object, in the slot `s.weak.length`. -/
def State.pushWeak (s : State T) (x : WeakPtr) : State T :=
  { s with weak := s.weak ++ [some x] }

/-! ## SharedPtr -/

/-- Constructor `SharedPtr()`. -/
def SharedPtr.ctor_default (s : State T) : Option (State T) :=
  some (s.pushShared ⟨none, .null⟩)

/-- Constructor `SharedPtr(Y* p, const Deleter& del, const Allocator& alloc)`:
allocates one `ControlBlockDirect` and constructs it with `(1, 0, ptr, alloc, del)`. -/
def SharedPtr.ctor_raw (p : Ptr) (del alloc : Nat) (s : State T) : Option (State T) :=
  let cb := s.heap.blocks.length
  let h1 := s.heap.allocate alloc
  let h2 := h1.write cb ⟨1, 0, .ControlBlockDirect p alloc del⟩
  some ({ s with heap := h2 }.pushShared ⟨some cb, p⟩)

/-- Constructor `SharedPtr(Y* p, const Deleter& del)`. -/
def SharedPtr.ctor_raw_del (p : Ptr) (del : Nat) (s : State T) : Option (State T) :=
  SharedPtr.ctor_raw p del stdAllocator s

/-- Constructor `explicit SharedPtr(Y* p)`. -/
def SharedPtr.ctor_raw_ptr (p : Ptr) (s : State T) : Option (State T) :=
  SharedPtr.ctor_raw p defaultDelete stdAllocator s

/-- Private constructor `SharedPtr(ControlBlockMakeShared<T, Allocator>* cb)`. -/
def SharedPtr.ctor_block (cb : Nat) (s : State T) : State T :=
  s.pushShared ⟨some cb, .obj cb⟩

/-- Private constructor `SharedPtr(const WeakPtr<T>& weak_ptr)`: the increment
is not guarded by a null check. -/
def SharedPtr.ctor_weak (weak_ptr : Nat) (s : State T) : Option (State T) := do
  let w ← s.getWeak weak_ptr
  let s1 := s.pushShared ⟨w.control_block, w.ptr⟩
  let cb ← w.control_block
  let h ← shared_increment cb s1.heap
  some { s1 with heap := h }

/-- Copy constructors `SharedPtr(const SharedPtr& other)` and
`SharedPtr(const SharedPtr<Y>& other)`. -/
def SharedPtr.ctor_copy (other : Nat) (s : State T) : Option (State T) := do
  let o ← s.getShared other
  let s1 := s.pushShared ⟨o.control_block, o.ptr⟩
  match o.control_block with
  | none => some s1
  | some cb => do
    let h ← shared_increment cb s1.heap
    some { s1 with heap := h }

/-- Move constructor `SharedPtr(SharedPtr<Y>&& other)`. -/
def SharedPtr.ctor_move (other : Nat) (s : State T) : Option (State T) := do
  let o ← s.getShared other
  let s1 := s.pushShared ⟨o.control_block, o.ptr⟩
  some (s1.setShared other (some ⟨none, .null⟩))

/-- Destructor `~SharedPtr()` of the object in slot `this`. -/
def SharedPtr.dtor (this : Nat) (s : State T) : Option (State T) := do
  let a ← s.getShared this
  let h ← match a.control_block with
    | none => some s.heap
    | some cb => shared_release cb s.heap
  some { heap := h, shared := s.shared.set this none, weak := s.weak }

/-- Method `SharedPtr::swap(SharedPtr& other)`. -/
def SharedPtr.swap (this other : Nat) (s : State T) : Option (State T) := do
  let a ← s.getShared this
  let b ← s.getShared other
  some ((s.setShared this (some ⟨b.control_block, b.ptr⟩)).setShared other
    (some ⟨a.control_block, a.ptr⟩))

/-- Copy assignment `operator=(SharedPtr<Y>& other)`:
`auto tmp = SharedPtr<T>(other); swap(tmp);` and `tmp` dies at the end. -/
def SharedPtr.assign (this other : Nat) (s : State T) : Option (State T) := do
  let _ ← s.getShared this
  let tmp := s.shared.length
  let s1 ← SharedPtr.ctor_copy other s
  let s2 ← SharedPtr.swap this tmp s1
  SharedPtr.dtor tmp s2

/-- The copy assignment `SharedPtr& operator=(const SharedPtr&)` that the
compiler declares implicitly, selected for `a = b` with a `const` operand `b`:
the members `control_block` and `ptr` of `other` are assigned to those of
`*this`, no counter is touched and nothing is released. -/
def SharedPtr.assign_implicit (this other : Nat) (s : State T) : Option (State T) := do
  let _ ← s.getShared this
  let o ← s.getShared other
  some (s.setShared this (some ⟨o.control_block, o.ptr⟩))

/-- Move assignment `operator=(SharedPtr<Y>&& other)`:
`SharedPtr<T>(std::move(other)).swap(*this);`. -/
def SharedPtr.assign_move (this other : Nat) (s : State T) : Option (State T) := do
  let _ ← s.getShared this
  let tmp := s.shared.length
  let s1 ← SharedPtr.ctor_move other s
  let s2 ← SharedPtr.swap tmp this s1
  SharedPtr.dtor tmp s2

/-- Method `reset()`: `SharedPtr().swap(*this);`. -/
def SharedPtr.reset (this : Nat) (s : State T) : Option (State T) := do
  let _ ← s.getShared this
  let tmp := s.shared.length
  let s1 ← SharedPtr.ctor_default s
  let s2 ← SharedPtr.swap tmp this s1
  SharedPtr.dtor tmp s2

/-- Method `reset(Y* p)`: `SharedPtr<Y>(p).swap(*this);`. -/
def SharedPtr.reset_ptr (this : Nat) (p : Ptr) (s : State T) : Option (State T) := do
  let _ ← s.getShared this
  let tmp := s.shared.length
  let s1 ← SharedPtr.ctor_raw_ptr p s
  let s2 ← SharedPtr.swap tmp this s1
  SharedPtr.dtor tmp s2

/-- Method `get()`. -/
def SharedPtr.get (this : Nat) (s : State T) : Option Ptr := do
  let a ← s.getShared this
  some a.ptr

/-- Method `SharedPtr::use_count()`: `control_block->shared_count`. -/
def SharedPtr.use_count (this : Nat) (s : State T) : Option Nat := do
  let a ← s.getShared this
  let cb ← a.control_block
  let c ← s.heap.read cb
  some c.shared_count

/-- Function `allocateShared<T>(alloc, args...)`: allocate the combined
block, construct `ControlBlockMakeShared(1, 0, alloc, args...)` in it, return
`SharedPtr<T>(tmp_ptr)`.  The source has no handler around `construct`. -/
def allocateShared (alloc : Nat) (payload : Construct T) (s : State T) :
    Completion × State T :=
  let tmp_ptr := s.heap.blocks.length
  let h1 := s.heap.allocate alloc
  match payload with
  | .throws => (.threw, { s with heap := h1 })
  | .value obj =>
    let h2 := h1.write tmp_ptr ⟨1, 0, .ControlBlockMakeShared alloc obj⟩
    (.returned, SharedPtr.ctor_block tmp_ptr { s with heap := h2 })

/-- Function `makeShared<T>(args...)`. -/
def makeShared (payload : Construct T) (s : State T) : Completion × State T :=
  allocateShared stdAllocator payload s

/-! ## WeakPtr -/

/-- Constructor `WeakPtr()`. -/
def WeakPtr.ctor_default (s : State T) : Option (State T) :=
  some (s.pushWeak ⟨none, .null⟩)

/-- Constructor `WeakPtr(const SharedPtr<Y>& shared_ptr)`. -/
def WeakPtr.ctor_shared (shared_ptr : Nat) (s : State T) : Option (State T) := do
  let o ← s.getShared shared_ptr
  let s1 := s.pushWeak ⟨o.control_block, o.ptr⟩
  let cb ← o.control_block
  let h ← weak_increment cb s1.heap
  some { s1 with heap := h }

/-- Copy constructors `WeakPtr(const WeakPtr& other)` and
`WeakPtr(const WeakPtr<Y>& other)`. -/
def WeakPtr.ctor_copy (other : Nat) (s : State T) : Option (State T) := do
  let o ← s.getWeak other
  let s1 := s.pushWeak ⟨o.control_block, o.ptr⟩
  let cb ← o.control_block
  let h ← weak_increment cb s1.heap
  some { s1 with heap := h }

/-- Move constructor `WeakPtr(WeakPtr<Y>&& other)`. -/
def WeakPtr.ctor_move (other : Nat) (s : State T) : Option (State T) := do
  let o ← s.getWeak other
  let s1 := s.pushWeak ⟨o.control_block, o.ptr⟩
  some (s1.setWeak other (some ⟨none, .null⟩))

/-- Destructor `~WeakPtr()` of the object in slot `this`. -/
def WeakPtr.dtor (this : Nat) (s : State T) : Option (State T) := do
  let a ← s.getWeak this
  let h ← match a.control_block with
    | none => some s.heap
    | some cb => weak_release cb s.heap
  some { heap := h, shared := s.shared, weak := s.weak.set this none }

/-- Method `WeakPtr::swap(WeakPtr& other)`. -/
def WeakPtr.swap (this other : Nat) (s : State T) : Option (State T) := do
  let a ← s.getWeak this
  let b ← s.getWeak other
  some ((s.setWeak this (some ⟨b.control_block, b.ptr⟩)).setWeak other
    (some ⟨a.control_block, a.ptr⟩))

/-- Assignment `operator=(WeakPtr other)`: the parameter is copy-constructed
from the argument, swapped with `*this` and destroyed on return. -/
def WeakPtr.assign (this arg : Nat) (s : State T) : Option (State T) := do
  let _ ← s.getWeak this
  let other := s.weak.length
  let s1 ← WeakPtr.ctor_copy arg s
  let s2 ← WeakPtr.swap this other s1
  WeakPtr.dtor other s2

/-- Assignment `operator=(WeakPtr&& other)`:
`WeakPtr<T>(std::move(other)).swap(*this);`. -/
def WeakPtr.assign_move (this other : Nat) (s : State T) : Option (State T) := do
  let _ ← s.getWeak this
  let tmp := s.weak.length
  let s1 ← WeakPtr.ctor_move other s
  let s2 ← WeakPtr.swap tmp this s1
  WeakPtr.dtor tmp s2

/-- Assignment `operator=(SharedPtr<Y>& shared_ptr)`:
`WeakPtr<T>(shared_ptr).swap(*this);`. -/
def WeakPtr.assign_shared (this shared_ptr : Nat) (s : State T) : Option (State T) := do
  let _ ← s.getWeak this
  let tmp := s.weak.length
  let s1 ← WeakPtr.ctor_shared shared_ptr s
  let s2 ← WeakPtr.swap tmp this s1
  WeakPtr.dtor tmp s2

/-- Method `expired()`:
`control_block != nullptr && control_block->shared_count == 0`. -/
def WeakPtr.expired (this : Nat) (s : State T) : Option Bool := do
  let w ← s.getWeak this
  match w.control_block with
  | none => some false
  | some cb => do
    let c ← s.heap.read cb
    some (decide (c.shared_count = 0))

/-- Method `lock()`: `expired() ? SharedPtr<T>() : SharedPtr<T>(*this)`.  The
returned object is the new slot `s.shared.length`. -/
def WeakPtr.lock (this : Nat) (s : State T) : Option (State T) := do
  let e ← WeakPtr.expired this s
  if e then SharedPtr.ctor_default s else SharedPtr.ctor_weak this s

/-- Method `WeakPtr::use_count()`: `control_block->shared_count`. -/
def WeakPtr.use_count (this : Nat) (s : State T) : Option Nat := do
  let a ← s.getWeak this
  let cb ← a.control_block
  let c ← s.heap.read cb
  some c.shared_count

/-! ## Client programs -/

/-- One call of a function of the public interface that is written in the
source.  Constructors create their object in the next free slot; the other
operations name the slots of their operands.  The implicitly declared copy
assignment is not among them (see `Call`). -/
inductive Op (T : Type) where
  | shared_default
  | shared_raw (p : Ptr) (del alloc : Nat)
  | shared_raw_del (p : Ptr) (del : Nat)
  | shared_raw_ptr (p : Ptr)
  | allocate_shared (alloc : Nat) (payload : Construct T)
  | make_shared (payload : Construct T)
  | shared_copy (other : Nat)
  | shared_move (other : Nat)
  | shared_assign (this other : Nat)
  | shared_assign_move (this other : Nat)
  | shared_reset (this : Nat)
  | shared_reset_ptr (this : Nat) (p : Ptr)
  | shared_swap (this other : Nat)
  | shared_dtor (this : Nat)
  | weak_default
  | weak_shared (shared_ptr : Nat)
  | weak_copy (other : Nat)
  | weak_move (other : Nat)
  | weak_assign (this other : Nat)
  | weak_assign_move (this other : Nat)
  | weak_assign_shared (this shared_ptr : Nat)
  | weak_swap (this other : Nat)
  | weak_dtor (this : Nat)
  | weak_lock (this : Nat)
  deriving DecidableEq

/-- The state after one call of a function written in the source (an exception
thrown by the payload constructor is caught by the client, which goes on). -/
def step (op : Op T) (s : State T) : Option (State T) :=
  match op with
  | .shared_default => SharedPtr.ctor_default s
  | .shared_raw p del alloc => SharedPtr.ctor_raw p del alloc s
  | .shared_raw_del p del => SharedPtr.ctor_raw_del p del s
  | .shared_raw_ptr p => SharedPtr.ctor_raw_ptr p s
  | .allocate_shared alloc payload => some (allocateShared alloc payload s).2
  | .make_shared payload => some (makeShared payload s).2
  | .shared_copy other => SharedPtr.ctor_copy other s
  | .shared_move other => SharedPtr.ctor_move other s
  | .shared_assign this other => SharedPtr.assign this other s
  | .shared_assign_move this other => SharedPtr.assign_move this other s
  | .shared_reset this => SharedPtr.reset this s
  | .shared_reset_ptr this p => SharedPtr.reset_ptr this p s
  | .shared_swap this other => SharedPtr.swap this other s
  | .shared_dtor this => SharedPtr.dtor this s
  | .weak_default => WeakPtr.ctor_default s
  | .weak_shared shared_ptr => WeakPtr.ctor_shared shared_ptr s
  | .weak_copy other => WeakPtr.ctor_copy other s
  | .weak_move other => WeakPtr.ctor_move other s
  | .weak_assign this other => WeakPtr.assign this other s
  | .weak_assign_move this other => WeakPtr.assign_move this other s
  | .weak_assign_shared this shared_ptr => WeakPtr.assign_shared this shared_ptr s
  | .weak_swap this other => WeakPtr.swap this other s
  | .weak_dtor this => WeakPtr.dtor this s
  | .weak_lock this => WeakPtr.lock this s

/-- The state after a sequence of calls of functions written in the source. -/
def run : List (Op T) → State T → Option (State T)
  | [], s => some s
  | op :: ops, s => (step op s).bind (run ops)

/-- One call made by a program: a function written in the source, or
the implicitly declared copy assignment `this = other` with a `const` operand
`other`. -/
inductive Call (T : Type) where
  | source (op : Op T)
  | shared_assign_const (this other : Nat)
  deriving DecidableEq

/-- The state after one call of a program. -/
def call (c : Call T) (s : State T) : Option (State T) :=
  match c with
  | .source op => step op s
  | .shared_assign_const this other => SharedPtr.assign_implicit this other s

/-- The state after a sequence of calls of a program. -/
def calls : List (Call T) → State T → Option (State T)
  | [], s => some s
  | c :: cs, s => (call c s).bind (calls cs)

/-- The state of a program that has created no handle yet. -/
def State.init : State T := ⟨⟨[], []⟩, [], []⟩

/-! ## Observations -/

/-- Whether a `SharedPtr` slot holds a live handle of block `b`. -/
def sharedRefersTo (b : Nat) (x : Option SharedPtr) : Bool :=
  match x with
  | some sp => decide (sp.control_block = some b)
  | none => false

/-- Whether a `WeakPtr` slot holds a live handle of block `b`. -/
def weakRefersTo (b : Nat) (x : Option WeakPtr) : Bool :=
  match x with
  | some wp => decide (wp.control_block = some b)
  | none => false

/-- Number of live non-empty `SharedPtr` handles of block `b`. -/
def sharedRefs (s : State T) (b : Nat) : Nat := s.shared.countP (sharedRefersTo b)

/-- Number of live non-empty `WeakPtr` handles of block `b`. -/
def weakRefs (s : State T) (b : Nat) : Nat := s.weak.countP (weakRefersTo b)

/-- Whether an event is a `dispose()` of block `b`. -/
def Event.isDispose (b : Nat) : Event → Bool
  | .deleter cb _ _ => decide (cb = b)
  | .destroyObj cb => decide (cb = b)
  | _ => false

/-- Whether an event is the deallocation (`destroy()`) of block `b`. -/
def Event.isDeallocate (b : Nat) : Event → Bool
  | .deallocate _ cb => decide (cb = b)
  | _ => false

/-- Whether an event is the allocation of block `b`. -/
def Event.isAllocate (b : Nat) : Event → Bool
  | .allocate _ cb => decide (cb = b)
  | _ => false

/-- Number of `dispose()` calls on block `b` so far. -/
def Heap.disposeCount (h : Heap T) (b : Nat) : Nat := h.trace.countP (Event.isDispose b)

/-- Number of `destroy()` calls (deallocations) of block `b` so far. -/
def Heap.releaseCount (h : Heap T) (b : Nat) : Nat := h.trace.countP (Event.isDeallocate b)

/-- Number of allocations so far. -/
def Heap.allocations (h : Heap T) : Nat :=
  h.trace.countP (fun e => match e with | .allocate _ _ => true | _ => false)

/-- Number of deallocations so far. -/
def Heap.deallocations (h : Heap T) : Nat :=
  h.trace.countP (fun e => match e with | .deallocate _ _ => true | _ => false)

/-! ## Scenario A of the specification -/

/-- Program of Scenario A: `s1 = makeShared(0)`, `s2 = s1`, destroy `s1`,
destroy `s2`. -/
def scenarioA : List (Op Nat) :=
  [.make_shared (.value 0), .shared_copy 0, .shared_dtor 0, .shared_dtor 1]

/-- Program of Scenario B: `s = makeShared()`, `w = WeakPtr(s)`, `s.reset()`. -/
def scenarioB : List (Op Nat) :=
  [.make_shared (.value 0), .weak_shared 0, .shared_reset 0]

/-! ## Invariant and reference scenarios -/

/-- The event logged by `dispose()` of a block with the given body. -/
def disposeEvent (cb : Nat) : BlockBody T → Event
  | .ControlBlockDirect ptr _ del => .deleter cb del ptr
  | .ControlBlockMakeShared _ _ => .destroyObj cb

/-- Block `b` of heap `h` is consistent with `S` owning and `W` weak handles. -/
def BlockOK (h : Heap T) (b S W : Nat) : Prop :=
  match h.read b with
  | none => S = 0 ∧ W = 0 ∧ h.disposeCount b = 0 ∧ h.releaseCount b = 0
  | some c => c.shared_count = S ∧ c.weak_count = W ∧
      h.disposeCount b = (if S = 0 then 1 else 0) ∧
      h.releaseCount b = (if S = 0 ∧ W = 0 then 1 else 0)

/-- Every block is consistent with the handles that refer to it. -/
def Inv (s : State T) : Prop :=
  ∀ b, BlockOK s.heap b (sharedRefs s b) (weakRefs s b)

/-- The part of the heap that belongs to block `b` is the same in `h` and `h'`. -/
def SameBlock (h h' : Heap T) (b : Nat) : Prop :=
  h'.read b = h.read b ∧ h'.disposeCount b = h.disposeCount b ∧
    h'.releaseCount b = h.releaseCount b

/-- What a group of calls may change: the invariant holds afterwards, a block
loses at most `k` handles of either kind, constructed blocks stay, and at most
`n` (`m`) new `SharedPtr` (`WeakPtr`) objects appear, and the trace only grows. -/
structure Transition (k n m : Nat) (s s' : State T) : Prop where
  inv : Inv s'
  shared_drop : ∀ b, sharedRefs s b ≤ sharedRefs s' b + k
  weak_drop : ∀ b, weakRefs s b ≤ weakRefs s' b + k
  total_drop : ∀ b, sharedRefs s b + weakRefs s b ≤ sharedRefs s' b + weakRefs s' b + k
  blocks : ∀ b c, s.heap.read b = some c → ∃ c', s'.heap.read b = some c'
  shared_len : s'.shared.length ≤ s.shared.length + n
  weak_len : s'.weak.length ≤ s.weak.length + m
  trace_ext : ∃ t, s'.heap.trace = s.heap.trace ++ t

/-- States that calls of functions written in the source can reach from the
initial state with fewer than `2 ^ 64` calls (each call creates at most one
handle object). -/
def Reachable (s : State T) : Prop :=
  ∃ ops : List (Op T), ops.length < SIZE_T_MOD ∧ run ops State.init = some s

/-- Scenario A after `s1 = makeShared(0)`. -/
def scenarioA_1 : State Nat :=
  { heap := { blocks := [some ⟨1, 0, .ControlBlockMakeShared 0 0⟩],
              trace := [.allocate 0 0] },
    shared := [some ⟨some 0, .obj 0⟩],
    weak := [] }

/-- Scenario A after `s2 = s1`. -/
def scenarioA_2 : State Nat :=
  { heap := { blocks := [some ⟨2, 0, .ControlBlockMakeShared 0 0⟩],
              trace := [.allocate 0 0] },
    shared := [some ⟨some 0, .obj 0⟩, some ⟨some 0, .obj 0⟩],
    weak := [] }

/-- Scenario A after the destruction of `s1`. -/
def scenarioA_3 : State Nat :=
  { heap := { blocks := [some ⟨1, 0, .ControlBlockMakeShared 0 0⟩],
              trace := [.allocate 0 0] },
    shared := [none, some ⟨some 0, .obj 0⟩],
    weak := [] }

/-- Scenario A after the destruction of `s2`. -/
def scenarioA_4 : State Nat :=
  { heap := { blocks := [some ⟨0, 0, .ControlBlockMakeShared 0 0⟩],
              trace := [.allocate 0 0, .destroyObj 0, .deallocate 0 0] },
    shared := [none, none],
    weak := [] }

/-- Scenario B after `s.reset()`. -/
def scenarioB_3 : State Nat :=
  { heap := { blocks := [some ⟨0, 1, .ControlBlockMakeShared 0 0⟩],
              trace := [.allocate 0 0, .destroyObj 0] },
    shared := [some ⟨none, .null⟩, none],
    weak := [some ⟨some 0, .obj 0⟩] }

/-- Scenario B after the destruction of `w`. -/
def scenarioB_4 : State Nat :=
  { heap := { blocks := [some ⟨0, 0, .ControlBlockMakeShared 0 0⟩],
              trace := [.allocate 0 0, .destroyObj 0, .deallocate 0 0] },
    shared := [some ⟨none, .null⟩, none],
    weak := [none] }

/-- A program that creates an empty `WeakPtr` and a block with one owner and
one `WeakPtr`: `WeakPtr<T> e; s = makeShared(7); w = WeakPtr(s)`. -/
def lockProgram : List (Op Nat) :=
  [.weak_default, .make_shared (.value 7), .weak_shared 0]

/-- The state after `lockProgram`. -/
def lockState : State Nat :=
  { heap := { blocks := [some ⟨1, 1, .ControlBlockMakeShared 0 7⟩],
              trace := [.allocate 0 0] },
    shared := [some ⟨some 0, .obj 0⟩],
    weak := [some ⟨none, .null⟩, some ⟨some 0, .obj 0⟩] }

/-- Program creating two owners of two blocks: `a = makeShared(1)`,
`b = makeShared(2)`. -/
def twoOwnersProgram : List (Op Nat) :=
  [.make_shared (.value 1), .make_shared (.value 2)]

/-- The state after `twoOwnersProgram`. -/
def twoOwners : State Nat :=
  { heap := { blocks := [some ⟨1, 0, .ControlBlockMakeShared 0 1⟩,
                         some ⟨1, 0, .ControlBlockMakeShared 0 2⟩],
              trace := [.allocate 0 0, .allocate 0 1] },
    shared := [some ⟨some 0, .obj 0⟩, some ⟨some 1, .obj 1⟩],
    weak := [] }

/-- Program creating two empty handles: `SharedPtr<T> a; SharedPtr<T> b;`. -/
def emptyPairProgram : List (Op Nat) := [.shared_default, .shared_default]

/-- The state after `emptyPairProgram`. -/
def emptyPair : State Nat :=
  { heap := { blocks := [], trace := [] },
    shared := [some ⟨none, .null⟩, some ⟨none, .null⟩],
    weak := [] }

/-- The constructor, `swap` and destructor calls that the body of a public
function makes, in order, when it is called in state `s`: the assignment
operators and `reset` construct a temporary in the next free slot, swap it
with `*this` and destroy it; every other function is a single call. -/
def Op.body (s : State T) : Op T → List (Op T)
  | .shared_assign this other =>
    [.shared_copy other, .shared_swap this s.shared.length, .shared_dtor s.shared.length]
  | .shared_assign_move this other =>
    [.shared_move other, .shared_swap s.shared.length this, .shared_dtor s.shared.length]
  | .shared_reset this =>
    [.shared_default, .shared_swap s.shared.length this, .shared_dtor s.shared.length]
  | .shared_reset_ptr this p =>
    [.shared_raw_ptr p, .shared_swap s.shared.length this, .shared_dtor s.shared.length]
  | .weak_assign this arg =>
    [.weak_copy arg, .weak_swap this s.weak.length, .weak_dtor s.weak.length]
  | .weak_assign_move this other =>
    [.weak_move other, .weak_swap s.weak.length this, .weak_dtor s.weak.length]
  | .weak_assign_shared this shared_ptr =>
    [.weak_shared shared_ptr, .weak_swap s.weak.length this, .weak_dtor s.weak.length]
  | op => [op]

/-- A call that is not made of other calls of the interface. -/
def Op.isPrimitive : Op T → Bool
  | .shared_assign _ _ => false
  | .shared_assign_move _ _ => false
  | .shared_reset _ => false
  | .shared_reset_ptr _ _ => false
  | .weak_assign _ _ => false
  | .weak_assign_move _ _ => false
  | .weak_assign_shared _ _ => false
  | _ => true

/-- The events `t` are calls made on blocks of heap `h'`: a `dispose` of block
`b` is the call of the deleter (or payload destructor) stored in `b`, a
deallocation of `b` goes to the allocator stored in `b`, an allocation returns
an address `b` not below `lo`, through the allocator stored in the block
constructed there, and every address from `lo` on is allocated exactly once. -/
def EventsOK (lo : Nat) (h' : Heap T) (t : List Event) : Prop :=
  (∀ e ∈ t, ∀ b,
    (Event.isDispose b e = true → ∃ c', h'.read b = some c' ∧ e = disposeEvent b c'.body) ∧
    (Event.isDeallocate b e = true →
      ∃ c', h'.read b = some c' ∧ e = Event.deallocate c'.body.alloc b) ∧
    (Event.isAllocate b e = true → lo ≤ b ∧ b < h'.blocks.length ∧
      ∀ c', h'.read b = some c' → e = Event.allocate c'.body.alloc b)) ∧
  (∀ b, t.countP (Event.isAllocate b) = if lo ≤ b ∧ b < h'.blocks.length then 1 else 0)

/-- Heap `h'` comes from heap `h` by `n` allocations and by calls of the
control-block functions: the derived part of a constructed block never
changes, storage in which nothing was constructed stays so, and the trace
grows by calls made on the blocks. -/
structure Ext (n : Nat) (h h' : Heap T) : Prop where
  len : h'.blocks.length = h.blocks.length + n
  allocs : h'.allocations = h.allocations + n
  bodies : ∀ b c, h.read b = some c → ∃ c', h'.read b = some c' ∧ c'.body = c.body
  unconstructed : ∀ b, b < h.blocks.length → h.read b = none → h'.read b = none
  events : ∃ t, h'.trace = h.trace ++ t ∧ EventsOK h.blocks.length h' t

/-- Number of calls of `allocator_traits::allocate` that a call of the
interface makes: one in `allocateShared` (hence `makeShared`), one in the
raw-pointer constructor `SharedPtr(Y*, const Deleter&, const Allocator&)`
(hence in the constructors delegating to it and in `reset(Y*)`, which
constructs `SharedPtr<Y>(p)`), none elsewhere. -/
def Op.allocateCalls : Op T → Nat
  | .shared_raw _ _ _ => 1
  | .shared_raw_del _ _ => 1
  | .shared_raw_ptr _ => 1
  | .allocate_shared _ _ => 1
  | .make_shared _ => 1
  | .shared_reset_ptr _ _ => 1
  | _ => 0

/-- The calls on a `WeakPtr` other than `lock()` that change the state:
constructors, assignment operators, `swap` and the destructor. -/
def Op.isWeakNotLock : Op T → Bool
  | .weak_default => true
  | .weak_shared _ => true
  | .weak_copy _ => true
  | .weak_move _ => true
  | .weak_assign _ _ => true
  | .weak_assign_move _ _ => true
  | .weak_assign_shared _ _ => true
  | .weak_swap _ _ => true
  | .weak_dtor _ => true
  | _ => false

/-- Nothing that concerns the owners changes from `s` to `s'`: every
constructed block keeps its `shared_count`, no `dispose` is called, and the
`SharedPtr` objects are the same. -/
def OwnersUntouched (s s' : State T) : Prop :=
  (∀ b c, s.heap.read b = some c →
    ∃ c', s'.heap.read b = some c' ∧ c'.shared_count = c.shared_count) ∧
  (∃ t, s'.heap.trace = s.heap.trace ++ t ∧ ∀ e ∈ t, ∀ b, Event.isDispose b e = false) ∧
  s'.shared = s.shared

/-- Program of Scenario C: `s = SharedPtr(rawPtr, customDeleter)`, a copy, a
move from the copy, then the destruction of `s` and of the last owner. -/
def scenarioC : List (Op Nat) :=
  [.shared_raw_del (.raw 7) 3, .shared_copy 0, .shared_move 1, .shared_dtor 0, .shared_dtor 2]

/-- Scenario C before the destruction of the last owner. -/
def scenarioC_4 : State Nat :=
  { heap := { blocks := [some ⟨1, 0, .ControlBlockDirect (.raw 7) 0 3⟩],
              trace := [.allocate 0 0] },
    shared := [none, some ⟨none, .null⟩, some ⟨some 0, .raw 7⟩],
    weak := [] }

/-- Scenario C after the destruction of the last owner. -/
def scenarioC_5 : State Nat :=
  { heap := { blocks := [some ⟨0, 0, .ControlBlockDirect (.raw 7) 0 3⟩],
              trace := [.allocate 0 0, .deleter 0 3 (.raw 7), .deallocate 0 0] },
    shared := [none, some ⟨none, .null⟩, none],
    weak := [] }

/-- The calls that contain a call of `allocate`: `allocateShared`, `makeShared`
and the raw-pointer constructors of `SharedPtr`. -/
def Op.isAllocatingCtor : Op T → Bool
  | .shared_raw _ _ _ => true
  | .shared_raw_del _ _ => true
  | .shared_raw_ptr _ => true
  | .allocate_shared _ _ => true
  | .make_shared _ => true
  | _ => false

/-- The state after `a = b` in `twoOwners`. -/
def twoOwnersAssigned : State Nat :=
  { heap := { blocks := [some ⟨0, 0, .ControlBlockMakeShared 0 1⟩,
                         some ⟨2, 0, .ControlBlockMakeShared 0 2⟩],
              trace := [.allocate 0 0, .allocate 0 1, .destroyObj 0, .deallocate 0 0] },
    shared := [some ⟨some 1, .obj 1⟩, some ⟨some 1, .obj 1⟩, none],
    weak := [] }

/-- Virtual `dispose()` of block `cb` when the destruction of the payload runs
client code: the call of the deleter (of the payload destructor) is recorded,
then its code `payload_dtor` runs; it may destroy handles that the payload
owns. -/
def dispose_running (payload_dtor : State T → Option (State T)) (cb : Nat) (s : State T) :
    Option (State T) := do
  let h ← dispose cb s.heap
  payload_dtor { s with heap := h }

/-- First statements of `shared_release`:
`--shared_count; if (shared_count == 0) { dispose(); }`. -/
def shared_release_dispose (payload_dtor : State T → Option (State T)) (cb : Nat)
    (s : State T) : Option (State T) := do
  let c ← s.heap.read cb
  let h1 := s.heap.write cb { c with shared_count := decr c.shared_count }
  let c1 ← h1.read cb
  if c1.shared_count = 0 then dispose_running payload_dtor cb { s with heap := h1 }
  else some { s with heap := h1 }

/-- Last statement of `shared_release`:
`if (shared_count == 0 && weak_count == 0) { destroy(); }`.  The counters are
read from the storage of the block, whatever `dispose()` has done to it. -/
def shared_release_destroy (cb : Nat) (s : State T) : Option (State T) := do
  let c2 ← s.heap.read cb
  if c2.shared_count = 0 ∧ c2.weak_count = 0 then do
    let h ← destroy cb s.heap
    some { s with heap := h }
  else some s

/-- Method `BaseControlBlock::shared_release` when `dispose()` runs client
code. -/
def shared_release_running (payload_dtor : State T → Option (State T)) (cb : Nat)
    (s : State T) : Option (State T) := do
  let s1 ← shared_release_dispose payload_dtor cb s
  shared_release_destroy cb s1

/-- Destructor `~SharedPtr()` of the object in slot `this` when `dispose()`
runs client code. -/
def SharedPtr.dtor_running (payload_dtor : State T → Option (State T)) (this : Nat)
    (s : State T) : Option (State T) := do
  let a ← s.getShared this
  let s1 ← match a.control_block with
    | none => some s
    | some cb => shared_release_running payload_dtor cb s
  some { s1 with shared := s1.shared.set this none }

/-- A payload that owns the only `WeakPtr` to its own block:
`s = makeShared<Node>(); s->self = s;` (the `WeakPtr` member is slot 0 of the
`WeakPtr` objects). -/
def selfWeak : State Nat :=
  { heap := { blocks := [some ⟨1, 1, .ControlBlockMakeShared 0 0⟩],
              trace := [.allocate 0 0] },
    shared := [some ⟨some 0, .obj 0⟩],
    weak := [some ⟨some 0, .obj 0⟩] }

/-- The state of `selfWeak` when `dispose()` returns to `shared_release`: the
destructor of the payload has destroyed the `WeakPtr` member, whose
`weak_release` has deallocated the block. -/
def selfWeakDisposed : State Nat :=
  { heap := { blocks := [some ⟨0, 0, .ControlBlockMakeShared 0 0⟩],
              trace := [.allocate 0 0, .destroyObj 0, .deallocate 0 0] },
    shared := [some ⟨some 0, .obj 0⟩],
    weak := [none] }

/-- The state of `selfWeak` after the destruction of the `SharedPtr`. -/
def selfWeakDestroyed : State Nat :=
  { heap := { blocks := [some ⟨0, 0, .ControlBlockMakeShared 0 0⟩],
              trace := [.allocate 0 0, .destroyObj 0, .deallocate 0 0, .deallocate 0 0] },
    shared := [none],
    weak := [none] }

/-- In the trace `t` every deallocation of a block comes after a `dispose` of
that block. -/
def TraceOrdered (t : List Event) : Prop :=
  ∀ t1 e t2 b, t = t1 ++ e :: t2 → Event.isDeallocate b e = true →
    ∃ d ∈ t1, Event.isDispose b d = true

/-- The events `tn` appended to the trace `t` keep the order of `dispose` and
deallocation. -/
def AppendOrdered (t tn : List Event) : Prop :=
  ∀ n1 e n2 b, tn = n1 ++ e :: n2 → Event.isDeallocate b e = true →
    ∃ d ∈ t ++ n1, Event.isDispose b d = true

/-- Program `b = makeShared(0); SharedPtr a; a = cb;` where `cb` is a `const`
reference to `b` (slot 0 is `b`, slot 1 is `a`). -/
def constAssign : List (Call Nat) :=
  [.source (.make_shared (.value 0)), .source .shared_default, .shared_assign_const 1 0]

/-- Program `s1 = makeShared(0); SharedPtr s2(s1); SharedPtr s3(std::move(s2));
s2 = cs1;` where `cs1` is a `const` reference to `s1`: slots 0, 1, 2 are `s1`,
`s2`, `s3`, which all derive from `s1` and are the three live handles of
block 0. -/
def constAssignDerived : List (Call Nat) :=
  [.source (.make_shared (.value 0)), .source (.shared_copy 0), .source (.shared_move 1),
    .shared_assign_const 1 0]

/-- Program `s = makeShared(0); WeakPtr w(s); SharedPtr t; t = cs; s.reset();
t.reset();` where `cs` is a `const` reference to `s`. -/
def constAssignWeak : List (Call Nat) :=
  [.source (.make_shared (.value 0)), .source (.weak_shared 0), .source .shared_default,
    .shared_assign_const 1 0, .source (.shared_reset 0), .source (.shared_reset 1)]

/-- Program `s = SharedPtr(p, del); SharedPtr t(s); SharedPtr u(std::move(t));
t = cs; ~s; ~t;` with the raw pointer `p = 7`, the deleter `del = 3` and `cs` a
`const` reference to `s` (slots 0, 1, 2 are `s`, `t`, `u`). -/
def constAssignDeleter : List (Call Nat) :=
  [.source (.shared_raw_del (.raw 7) 3), .source (.shared_copy 0), .source (.shared_move 1),
    .shared_assign_const 1 0, .source (.shared_dtor 0), .source (.shared_dtor 1)]

end SmartPointers

/-!
# StackStorage (src/List.cpp)

`StackStorage<N>` is a buffer `char storage[N]` with a bump pointer `sz_`.
Only `sz_` matters for `allocate`; a returned pointer `storage + off` is
represented by its offset `off`.  `size_t` arithmetic and address arithmetic
are arithmetic modulo `2 ^ 64`.
-/

namespace StackStorages

/-- Number of values of `size_t` (64-bit). -/
def SIZE_T_MOD : Nat := 18446744073709551616

/-- Member `sz_` of `StackStorage<N>` (the contents of `storage` play no role
in `allocate`). -/
structure StackStorage (N : Nat) where
  sz_ : Nat
  deriving DecidableEq

/-- How a call of `allocate` ends. -/
inductive Allocation where
  /-- The call returns the pointer `storage + off`. -/
  | returned (off : Nat)
  /-- The call throws `std::bad_alloc`. -/
  | bad_alloc
  deriving DecidableEq

/-- Difference `a - b` of two `size_t` values. -/
def sub_size_t (a b : Nat) : Nat := (a % SIZE_T_MOD + (SIZE_T_MOD - b % SIZE_T_MOD)) % SIZE_T_MOD

/-- Call `allocate<T>(count)` for a type `T` with `sizeof(T) = size` and
`alignof(T) = align`: the outcome and the storage afterwards.  The pointer
`storage + sz_ - n` is the offset `sz_ - n`, taken modulo `2 ^ 64`, from the
start of the buffer. -/
def StackStorage.allocate {N : Nat} (size align : Nat) (st : StackStorage N) (count : Nat) :
    Allocation × StackStorage N :=
  let n := (count * size) % SIZE_T_MOD
  let sz1 := sub_size_t ((st.sz_ + n) % SIZE_T_MOD + align) (st.sz_ % align)
  if sz1 > N then (Allocation.bad_alloc, ⟨sz1⟩)
  else (Allocation.returned (sub_size_t sz1 n), ⟨sz1⟩)

end StackStorages

/-!
# String::find (src/String.cpp)

A `String` owns an array of `cap + 1` characters allocated by
`new char[cap + 1]`; the array is the list of the characters of that
allocation, so an index at or above its length lies outside the allocation.
`size_t` arithmetic is arithmetic modulo `2 ^ 64`.  `memcmp` is taken in its
most lenient form: it compares byte by byte and stops at the first
difference, so only the bytes up to that difference are read.
-/

namespace Strings

/-- Number of values of `size_t` (64-bit). -/
def SIZE_T_MOD : Nat := 18446744073709551616

/-- Members `cap`, `sz`, `array` of `String`; `array` lists the `cap + 1`
characters of the allocation `new char[cap + 1]`. -/
structure String where
  cap : Nat
  sz : Nat
  array : List Char
  deriving DecidableEq

/-- Constructor `String(const char* string)` for the C string with the
characters `chars` (none of them `'\0'`) followed by the terminator. -/
def String.ofCStr (chars : List Char) : String :=
  ⟨chars.length, chars.length, chars ++ [Char.ofNat 0]⟩

/-- Result of a computation that reads memory. -/
inductive Outcome (α : Type) where
  /-- The computation returns a value. -/
  | returned (value : α)
  /-- The computation reads `array[index]` with `index` outside the
  allocation of `array` (undefined behaviour). -/
  | out_of_bounds (index : Nat)
  /-- The model was given too few loop iterations. -/
  | out_of_fuel
  deriving DecidableEq

/-- Test `memcmp(array + i, data + j, n) == 0`, comparing byte by byte from
`array[i]` and `data[j]` and stopping at the first difference. -/
def memcmp_eq (array data : List Char) : Nat → Nat → Nat → Outcome Bool
  | _, _, 0 => Outcome.returned true
  | i, j, n + 1 =>
    match array[i]?, data[j]? with
    | none, _ => Outcome.out_of_bounds i
    | some _, none => Outcome.out_of_bounds j
    | some x, some y => if x = y then memcmp_eq array data (i + 1) (j + 1) n
      else Outcome.returned false

/-- Difference `a - b` of two `size_t` values. -/
def sub_size_t (a b : Nat) : Nat := (a % SIZE_T_MOD + (SIZE_T_MOD - b % SIZE_T_MOD)) % SIZE_T_MOD

/-- The loop of `find` from index `i`, with at most `fuel` iterations. -/
def String.find_loop (s substring : String) : Nat → Nat → Outcome Nat
  | 0, _ => Outcome.out_of_fuel
  | fuel + 1, i =>
    if i ≤ sub_size_t s.sz substring.sz then
      match memcmp_eq s.array substring.array i 0 substring.sz with
      | Outcome.returned true => Outcome.returned i
      | Outcome.returned false => String.find_loop s substring fuel ((i + 1) % SIZE_T_MOD)
      | Outcome.out_of_bounds k => Outcome.out_of_bounds k
      | Outcome.out_of_fuel => Outcome.out_of_fuel
    else Outcome.returned s.sz

/-- Member function `size_t find(const String& substring) const`, run for at
most `fuel` iterations of its loop. -/
def String.find (fuel : Nat) (s substring : String) : Outcome Nat :=
  String.find_loop s substring fuel 0

/-- A `String` as the constructors and member functions leave it: the array
has `cap + 1` characters and `sz <= cap`. -/
def String.WellFormed (s : String) : Prop := s.array.length = s.cap + 1 ∧ s.sz ≤ s.cap

/-- The characters of `substring` occur in `s` from index `i` on, inside the
first `size()` characters. -/
def Occurs (s substring : String) (i : Nat) : Prop :=
  i + substring.sz ≤ s.sz ∧ ∀ k, k < substring.sz → s.array[i + k]? = substring.array[k]?

end Strings

/-!
# BigInteger (src/BigInteger.cpp)

A `BigInteger` is the pair of its members `sign` and `digits`; `digits` is the
vector of limbs in base `10 ^ 9`, least significant limb first.  Values of
`int` and `long long` are integers: with limbs in `[0, 10 ^ 9)` every
intermediate value of the functions below is smaller than `2 ^ 63`, and
vectors are shorter than `2 ^ 31`.  Division `/` and remainder `%` of C++
truncate toward zero (`Int.tdiv`, `Int.tmod`).

A loop over the indices of a vector is a recursion over the list of the limbs
that are still to be visited; each recursive call is one iteration.
-/

namespace BigIntegers

/-- Constant `BigInteger::MOD`. -/
def MOD : Int := 1000000000

/-- Members `sign` and `digits` of `BigInteger`. -/
structure BigInteger where
  sign : Int
  digits : List Int
  deriving DecidableEq

/-! ## Free functions on digit vectors -/

/-- Iterations of the loop of `plus` at indices beyond both vectors: they run
while `carry` is non-zero, each pushes one limb.  The first argument bounds the
number of iterations. -/
def plus_carry (MOD : Int) : Nat → Int → List Int
  | 0, _ => []
  | fuel + 1, carry =>
    if carry ≠ 0 then Int.tmod (0 + (0 + carry)) MOD
      :: plus_carry MOD fuel (Int.tdiv (0 + (0 + carry)) MOD)
    else []

/-- Iterations of the loop of `plus` at indices `i >= a.size()`: `a` gets a
new limb 0, to which `b[i] + carry` is added; the argument is `b` from index
`i`. -/
def plus_rest (MOD : Int) : List Int → Int → List Int
  | [], carry => plus_carry MOD carry.natAbs carry
  | y :: b, carry =>
    Int.tmod (0 + (y + carry)) MOD :: plus_rest MOD b (Int.tdiv (0 + (y + carry)) MOD)

/-- The loop of `plus`; the arguments are `a` and `b` from index `i` and
`carry`, the result is `a` from index `i` after the loop. -/
def plus_loop (MOD : Int) : List Int → List Int → Int → List Int
  | [], b, carry => plus_rest MOD b carry
  | x :: a, [], carry =>
    if carry ≠ 0 then
      Int.tmod (x + (0 + carry)) MOD :: plus_loop MOD a [] (Int.tdiv (x + (0 + carry)) MOD)
    else x :: a
  | x :: a, y :: b, carry =>
    Int.tmod (x + (y + carry)) MOD :: plus_loop MOD a b (Int.tdiv (x + (y + carry)) MOD)

/-- Function `void plus(vector& a, const vector& b, long long MOD)`: the
vector `a` after the call. -/
def plus (a b : List Int) (MOD : Int) : List Int := plus_loop MOD a b 0

/-- The loop of `minus`; the arguments are `a` and `b` from index `i` and
`carry`, the result is `a` from index `i` after the loop. -/
def minus_loop (MOD : Int) : List Int → List Int → Int → List Int
  | [], _, _ => []
  | x :: a, [], carry =>
    if carry ≠ 0 then
      (if x - (0 + carry) < 0 then x - (0 + carry) + MOD else x - (0 + carry))
        :: minus_loop MOD a [] (if x - (0 + carry) < 0 then 1 else 0)
    else x :: a
  | x :: a, y :: b, carry =>
    (if x - (y + carry) < 0 then x - (y + carry) + MOD else x - (y + carry))
      :: minus_loop MOD a b (if x - (y + carry) < 0 then 1 else 0)

/-- Function `void minus(vector& a, const vector& b, long long MOD)`: the
vector `a` after the call. -/
def minus (a b : List Int) (MOD : Int) : List Int := minus_loop MOD a b 0

/-- The loop of `less` over two vectors of equal size, from the most
significant limb; the arguments list the limbs `a[i], ..., a[0]` and
`b[i], ..., b[0]`. -/
def less_loop : List Int → List Int → Bool
  | x :: a, y :: b => if x < y then true else if x > y then false else less_loop a b
  | _, _ => false

/-- Function `bool less(const vector& a, const vector& b)`. -/
def less (a b : List Int) : Bool :=
  if a.length < b.length then true
  else if a.length > b.length then false
  else less_loop a.reverse b.reverse

/-! ## Member functions -/

/-- The loop `while (digits.size() > 1 && digits.back() == 0) digits.pop_back()`
on the limbs listed from the most significant one. -/
def pop_zeroes : List Int → List Int
  | x :: y :: rest => if x = 0 then pop_zeroes (y :: rest) else x :: y :: rest
  | l => l

/-- Member function `removeLeadZeroes`. -/
def BigInteger.removeLeadZeroes (t : BigInteger) : BigInteger :=
  let digits := (pop_zeroes t.digits.reverse).reverse
  ⟨if digits.length = 1 ∧ digits.getLast? = some 0 then 0 else t.sign, digits⟩

/-- Member function `levelUp(x)`: every limb moves one index up and `x`
becomes limb 0; `sign` is set to 1 when a limb or `x` is non-zero. -/
def BigInteger.levelUp (t : BigInteger) (x : Int) : BigInteger :=
  let sign1 := if t.digits.any (fun d => decide (d ≠ 0)) then 1 else t.sign
  let sign2 := if x ≠ 0 then 1 else sign1
  BigInteger.removeLeadZeroes ⟨sign2, x :: t.digits⟩

/-- The loop `while (n > 0) { digits.push_back(n % MOD); n /= MOD; }` of the
constructor, with at most the given number of iterations. -/
def ctor_loop : Nat → Int → List Int
  | 0, _ => []
  | fuel + 1, n => if n > 0 then Int.tmod n MOD :: ctor_loop fuel (Int.tdiv n MOD) else []

/-- Constructor `BigInteger(long long n)`, for `n` other than the least
`long long` (for which `n *= -1` overflows).  A `long long` has at most three
limbs. -/
def BigInteger.ofLongLong (n : Int) : BigInteger :=
  if n ≠ 0 then ⟨if n > 0 then 1 else -1, ctor_loop 3 (if n < 0 then n * -1 else n)⟩
  else ⟨0, [0]⟩

/-- Member function `changeSign`. -/
def BigInteger.changeSign (t : BigInteger) : BigInteger := ⟨t.sign * -1, t.digits⟩

/-- Unary `operator-`. -/
def BigInteger.neg (t : BigInteger) : BigInteger := t.changeSign

/-- Member function `abs`. -/
def BigInteger.abs (t : BigInteger) : BigInteger := if t.sign = -1 then t.neg else t

/-- Member `operator+=`: the value of `*this` after `*this += other`. -/
def BigInteger.add_assign (t other : BigInteger) : BigInteger :=
  if t.sign * other.sign ≥ 0 then
    BigInteger.removeLeadZeroes ⟨t.sign, plus t.digits other.digits MOD⟩
  else if ¬ less t.digits other.digits = true then
    BigInteger.removeLeadZeroes ⟨t.sign, minus t.digits other.digits MOD⟩
  else
    BigInteger.removeLeadZeroes (BigInteger.changeSign ⟨t.sign, minus other.digits t.digits MOD⟩)

/-- Member `operator-=`. -/
def BigInteger.sub_assign (t other : BigInteger) : BigInteger := t.add_assign other.neg

/-- The inner loop of `operator*=` for one limb `d = digits[i]`; the arguments
are `other.digits` from index `j`, `res` from index `i + j` and `carry`, the
result is `res` from index `i + j` after the loop.  The loop does not go
beyond the end of `res` when the limbs are in `[0, MOD)`. -/
def mul_row (d : Int) : List Int → List Int → Int → List Int
  | _, [], _ => []
  | [], r :: res, carry =>
    if carry ≠ 0 then
      Int.tmod (r + d * 0 + carry) MOD :: mul_row d [] res (Int.tdiv (r + d * 0 + carry) MOD)
    else r :: res
  | y :: b, r :: res, carry =>
    Int.tmod (r + d * y + carry) MOD :: mul_row d b res (Int.tdiv (r + d * y + carry) MOD)

/-- The outer loop of `operator*=`; the arguments are `digits` from index `i`
and `res` from index `i`, the result is `res` from index `i` after the loop. -/
def mul_loop (other : List Int) : List Int → List Int → List Int
  | [], res => res
  | d :: a, res =>
    match mul_row d other res 0 with
    | [] => []
    | r :: res1 => r :: mul_loop other a res1

/-- Member `operator*=`. -/
def BigInteger.mul_assign (t other : BigInteger) : BigInteger :=
  BigInteger.removeLeadZeroes ⟨t.sign * other.sign,
    mul_loop other.digits t.digits
      (List.replicate (t.digits.length + other.digits.length + 1) 0)⟩

/-- Function `operator*`. -/
def BigInteger.mul (a b : BigInteger) : BigInteger := a.mul_assign b

/-- Function `operator<`. -/
def BigInteger.lt (a b : BigInteger) : Bool :=
  if a.sign < b.sign then true
  else if a.sign > b.sign then false
  else if a.sign ≥ 0 then less a.digits b.digits
  else less b.digits a.digits

/-- The loop of `operator==` over two vectors of equal size. -/
def eq_loop : List Int → List Int → Bool
  | x :: a, y :: b => if x ≠ y then false else eq_loop a b
  | _, _ => true

/-- Function `operator==`. -/
def BigInteger.eq (a b : BigInteger) : Bool :=
  if a.sign ≠ b.sign ∨ a.digits.length ≠ b.digits.length then false
  else eq_loop a.digits b.digits

/-- Function `operator+`. -/
def BigInteger.add (a b : BigInteger) : BigInteger := a.add_assign b

/-! ## Division -/

/-- The loop `while (i >= 0 && !digits[i]) { --i; tmp.push_back(0); }` of
`operator/=`; the first argument lists `digits[i], ..., digits[0]`, the second
is `tmp`. -/
def skip_zeroes : List Int → List Int → List Int × List Int
  | [], tmp => ([], tmp)
  | d :: rest, tmp => if d = 0 then skip_zeroes rest (tmp ++ [0]) else (d :: rest, tmp)

/-- The loop `while (i >= 0 && cur < mod_b)` of `operator/=`, which moves
limbs of the dividend into `cur`; the arguments are the limbs
`digits[i], ..., digits[0]`, `cur`, `cnt` and `tmp`. -/
def take_limbs (mod_b : BigInteger) :
    List Int → BigInteger → Nat → List Int → List Int × BigInteger × List Int
  | [], cur, _, tmp => ([], cur, tmp)
  | d :: rest, cur, cnt, tmp =>
    if cur.lt mod_b = true then
      take_limbs mod_b rest (cur.levelUp d) (cnt + 1) (if cnt + 1 > 1 then tmp ++ [0] else tmp)
    else (d :: rest, cur, tmp)

/-- The binary search `while (r - l > 1)` of `operator/=` with at most the
given number of iterations; it returns `l`. -/
def search (cur mod_b : BigInteger) : Nat → Int → Int → Int
  | 0, l, _ => l
  | fuel + 1, l, r =>
    if r - l > 1 then
      if cur.lt (mod_b.mul (BigInteger.ofLongLong (Int.tdiv (l + r) 2))) = true then
        search cur mod_b fuel l (Int.tdiv (l + r) 2)
      else search cur mod_b fuel (Int.tdiv (l + r) 2) r
    else l

/-- The loop `while (i >= 0)` of `operator/=` with at most the given number
of iterations; the arguments are the limbs `digits[i], ..., digits[0]` (the
same in `*this` and in `mod_a`), `cur` and `tmp`; the result is `tmp` after
the loop.  The binary search starts from `l = 0`, `r = MOD` and needs at most
30 iterations. -/
def div_loop (mod_b : BigInteger) : Nat → List Int → BigInteger → List Int → List Int
  | 0, _, _, tmp => tmp
  | fuel + 1, rest, cur, tmp =>
    match rest with
    | [] => tmp
    | _ :: _ =>
      let skipped := if cur.eq (BigInteger.ofLongLong 0) = true then skip_zeroes rest tmp
        else (rest, tmp)
      match skipped.1 with
      | [] => div_loop mod_b fuel [] cur skipped.2
      | _ :: _ =>
        let taken := take_limbs mod_b skipped.1 cur 0 skipped.2
        let l := search taken.2.1 mod_b 64 0 MOD
        div_loop mod_b fuel taken.1
          (taken.2.1.sub_assign (mod_b.mul (BigInteger.ofLongLong l))) (taken.2.2 ++ [l])

/-- Member `operator/=`.  Every iteration of the outer loop but the last
visits at least one limb, so one iteration more than there are limbs is
enough. -/
def BigInteger.div_assign (t other : BigInteger) : BigInteger :=
  if t.sign = 0 then t
  else if t.abs.lt other.abs = true then BigInteger.ofLongLong 0
  else
    BigInteger.removeLeadZeroes ⟨t.sign * other.sign,
      (div_loop other.abs (t.digits.length + 1) t.abs.digits.reverse
        (BigInteger.ofLongLong 0) []).reverse⟩

/-- Function `operator/`. -/
def BigInteger.div (a b : BigInteger) : BigInteger := a.div_assign b

/-! ## Denoted values -/

/-- The number denoted by the limbs, least significant limb first. -/
def value_digits : List Int → Int
  | [] => 0
  | d :: ds => d + MOD * value_digits ds

/-- The integer denoted by a `BigInteger`. -/
def BigInteger.value (t : BigInteger) : Int := t.sign * value_digits t.digits

/-- A normalised `BigInteger`: limbs in `[0, MOD)`, at least one limb, no
leading zero limb except for the single limb of zero, and `sign` is 0 for
zero and 1 or -1 otherwise. -/
def BigInteger.Normalised (t : BigInteger) : Prop :=
  (∀ d ∈ t.digits, 0 ≤ d ∧ d < MOD) ∧ t.digits ≠ [] ∧
  (1 < t.digits.length → t.digits.getLast? ≠ some 0) ∧
  (t.sign = 0 ∨ t.sign = 1 ∨ t.sign = -1) ∧ (t.sign = 0 ↔ t.digits = [0])

instance (t : BigInteger) : Decidable t.Normalised := by
  unfold BigInteger.Normalised
  infer_instance

/-- Limbs in `[0, MOD)`. -/
def Good (ds : List Int) : Prop := ∀ d ∈ ds, 0 ≤ d ∧ d < MOD

/-- A digit vector in canonical form: limbs in `[0, MOD)`, at least one limb,
and the most significant limb is not zero unless it is the only limb. -/
def Canonical (ds : List Int) : Prop :=
  Good ds ∧ ds ≠ [] ∧ (1 < ds.length → ds.getLast? ≠ some 0)

end BigIntegers

/-!
# Deque (src/Deque.cpp)

The member `data` points to an array of `block_count` block pointers, each
block being raw memory for `block_sz = 128` objects.  The array is the list
of its blocks, a block is the list of its 128 cells, and a cell is `none`
while it holds no object and `some x` while it holds the object `x`.
`size_t` arithmetic is arithmetic modulo `2 ^ 64`.  A function returns `none`
where the source writes or reads outside the allocated memory or destroys an
object that was not constructed (undefined behaviour).
-/

namespace Deques

variable {T : Type}

/-- Number of values of `size_t` (64-bit). -/
def SIZE_T_MOD : Nat := 18446744073709551616

/-- Constant `Deque::block_sz`. -/
def block_sz : Nat := 128

/-- Members `data`, `begin_pos`, `end_pos`, `block_count` of `Deque<T>`. -/
structure Deque (T : Type) where
  data : List (List (Option T))
  begin_pos : Nat
  end_pos : Nat
  block_count : Nat

/-- A block `new char[block_sz * sizeof(T)]`: 128 cells without objects. -/
def fresh_block (T : Type) : List (Option T) := List.replicate block_sz none

/-- Constructor `Deque()`. -/
def Deque.init : Deque T := ⟨[fresh_block T], 1, 1, 1⟩

/-- The cell `data[p / block_sz][p % block_sz]`, if it lies in allocated
memory. -/
def cell (data : List (List (Option T))) (p : Nat) : Option (Option T) :=
  (data[p / block_sz]?).bind (fun block => block[p % block_sz]?)

/-- Placement new `new(data[p / block_sz] + (p % block_sz)) T(value)`. -/
def construct (data : List (List (Option T))) (p : Nat) (value : T) :
    Option (List (List (Option T))) :=
  match data[p / block_sz]? with
  | none => none
  | some block =>
    if p % block_sz < block.length then
      some (data.set (p / block_sz) (block.set (p % block_sz) (some value)))
    else none

/-- Destructor call `(data[p / block_sz] + (p % block_sz))->~T()`. -/
def destroy (data : List (List (Option T))) (p : Nat) : Option (List (List (Option T))) :=
  match data[p / block_sz]? with
  | none => none
  | some block =>
    match block[p % block_sz]? with
    | some (some _) => some (data.set (p / block_sz) (block.set (p % block_sz) none))
    | _ => none

/-- Member function `relocate`: the old blocks become the middle third of an
array of `3 * block_count` block pointers, between new blocks.  The result is
`none` when `3 * block_count` wraps (the writes to `new_data` then leave the
array) or when `data` has fewer than `block_count` blocks. -/
def Deque.relocate (d : Deque T) : Option (Deque T) :=
  if 3 * d.block_count < SIZE_T_MOD ∧ d.block_count ≤ d.data.length then
    some {
      data := List.replicate d.block_count (fresh_block T) ++ d.data.take d.block_count
        ++ List.replicate d.block_count (fresh_block T)
      begin_pos := (d.begin_pos + (d.block_count * block_sz) % SIZE_T_MOD) % SIZE_T_MOD
      end_pos := (d.end_pos + (d.block_count * block_sz) % SIZE_T_MOD) % SIZE_T_MOD
      block_count := (d.block_count * 3) % SIZE_T_MOD }
  else none

/-- Member function `size`. -/
def Deque.size (d : Deque T) : Nat := (d.end_pos + (SIZE_T_MOD - d.begin_pos)) % SIZE_T_MOD

/-- Member `operator[]`: the object in the cell of index `n + begin_pos`, if
the cell is allocated and holds an object. -/
def Deque.subscript (d : Deque T) (n : Nat) : Option T :=
  (cell d.data ((n + d.begin_pos) % SIZE_T_MOD)).join

/-- Member function `push_back`. -/
def Deque.push_back (d : Deque T) (value : T) : Option (Deque T) :=
  (construct d.data d.end_pos value).bind fun data =>
    if (d.end_pos + 1) % SIZE_T_MOD = (block_sz * d.block_count) % SIZE_T_MOD then
      Deque.relocate { d with data := data, end_pos := (d.end_pos + 1) % SIZE_T_MOD }
    else some { d with data := data, end_pos := (d.end_pos + 1) % SIZE_T_MOD }

/-- Member function `push_front`. -/
def Deque.push_front (d : Deque T) (value : T) : Option (Deque T) :=
  (construct d.data ((d.begin_pos + (SIZE_T_MOD - 1)) % SIZE_T_MOD) value).bind fun data =>
    if (d.begin_pos + (SIZE_T_MOD - 1)) % SIZE_T_MOD = 0 then
      Deque.relocate
        { d with data := data, begin_pos := (d.begin_pos + (SIZE_T_MOD - 1)) % SIZE_T_MOD }
    else some { d with data := data, begin_pos := (d.begin_pos + (SIZE_T_MOD - 1)) % SIZE_T_MOD }

/-- Member function `pop_back`. -/
def Deque.pop_back (d : Deque T) : Option (Deque T) :=
  (destroy d.data ((d.end_pos + (SIZE_T_MOD - 1)) % SIZE_T_MOD)).bind fun data =>
    some { d with data := data, end_pos := (d.end_pos + (SIZE_T_MOD - 1)) % SIZE_T_MOD }

/-- Member function `pop_front`. -/
def Deque.pop_front (d : Deque T) : Option (Deque T) :=
  (destroy d.data d.begin_pos).bind fun data =>
    some { d with data := data, begin_pos := (d.begin_pos + 1) % SIZE_T_MOD }

/-- A call of one of the four functions that change the size by one. -/
inductive Op (T : Type) where
  | push_back (value : T)
  | push_front (value : T)
  | pop_back
  | pop_front

/-- The effect of one call on the deque. -/
def step : Op T → Deque T → Option (Deque T)
  | Op.push_back value, d => d.push_back value
  | Op.push_front value, d => d.push_front value
  | Op.pop_back, d => d.pop_back
  | Op.pop_front, d => d.pop_front

/-- The effect of a sequence of calls on the deque. -/
def run : List (Op T) → Deque T → Option (Deque T)
  | [], d => some d
  | op :: ops, d => (step op d).bind (run ops)

/-! ## The abstract sequence -/

/-- The effect of one call on the sequence of the elements; a pop of the
empty sequence is not allowed (`none`). -/
def abstract_step : Op T → List T → Option (List T)
  | Op.push_back value, l => some (l ++ [value])
  | Op.push_front value, l => some (value :: l)
  | Op.pop_back, l => if l.length = 0 then none else some l.dropLast
  | Op.pop_front, l => if l.length = 0 then none else some l.tail

/-- The effect of a sequence of calls on the sequence of the elements. -/
def abstract_run : List (Op T) → List T → Option (List T)
  | [], l => some l
  | op :: ops, l => (abstract_step op l).bind (abstract_run ops)

/-- The cells of `data` of index `b` to `e - 1` hold the elements of `l` in
order, the other cells below index `c` hold no object, and there is no cell
of index `c` or above. -/
def Layout (data : List (List (Option T))) (b e c : Nat) (l : List T) : Prop :=
  ∀ p, cell data p =
    if p < b then some none
    else if p < e then (l[p - b]?).map some
    else if p < c then some none
    else none

/-- The representation invariant of a deque that holds the sequence `l`
after `n` calls: `block_count` blocks of 128 cells, the cells of index
`begin_pos` to `end_pos - 1` hold the elements of `l` in order and all other
cells hold no object, and the allocated memory is bounded by the number of
calls. -/
def Rep (d : Deque T) (l : List T) (n : Nat) : Prop :=
  d.data.length = d.block_count ∧ (∀ block ∈ d.data, block.length = 128) ∧
  1 ≤ d.begin_pos ∧ d.end_pos = d.begin_pos + l.length ∧
  d.end_pos < 128 * d.block_count ∧
  4 * (128 * d.block_count) ≤ 9 * n + 503 + 9 * d.begin_pos ∧
  9 * d.end_pos ≤ 9 * n + 503 + 5 * (128 * d.block_count) ∧
  128 * d.block_count ≤ 9 * n + 503 ∧
  Layout d.data d.begin_pos d.end_pos (128 * d.block_count) l

/-- The deque `d` presents the sequence `l`: `size()` is the length of `l`,
`operator[]` yields the elements of `l`, the positions satisfy
`1 <= begin_pos <= end_pos < 128 * block_count`, and `data` has `block_count`
blocks of 128 cells. -/
def Refines (d : Deque T) (l : List T) : Prop :=
  d.size = l.length ∧ (∀ i, i < l.length → d.subscript i = l[i]?) ∧
  1 ≤ d.begin_pos ∧ d.begin_pos ≤ d.end_pos ∧ d.end_pos < 128 * d.block_count ∧
  d.data.length = d.block_count ∧ (∀ block ∈ d.data, block.length = 128)

end Deques

/-! # Theorems -/

namespace SmartPointers

variable {T : Type}

/-! ## Lists -/

theorem countP_set_add {α : Type} (p : α → Bool) (l : List α) (i : Nat) (x y : α)
    (h : l[i]? = some y) :
    (l.set i x).countP p + (if p y then 1 else 0) = l.countP p + (if p x then 1 else 0) := by
  induction l generalizing i with
  | nil => simp at h
  | cons a l ih =>
    cases i with
    | zero =>
      simp at h
      subst h
      simp only [List.set_cons_zero, List.countP_cons]
      omega
    | succ i =>
      simp at h
      have := ih i h
      simp only [List.set_cons_succ, List.countP_cons]
      omega

theorem countP_push {α : Type} (p : α → Bool) (l : List α) (x : α) :
    (l ++ [x]).countP p = l.countP p + (if p x then 1 else 0) := by
  simp [List.countP_append, List.countP_cons]

/-! ## Heap access -/

theorem Heap.read_some_lt {h : Heap T} {cb : Nat} {c : BaseControlBlock T}
    (hc : h.read cb = some c) : cb < h.blocks.length := by
  unfold Heap.read at hc
  by_contra hlt
  have : h.blocks[cb]? = none := List.getElem?_eq_none (by omega)
  rw [this] at hc
  simp at hc

theorem Heap.read_eq_some_iff {h : Heap T} {cb : Nat} {c : BaseControlBlock T} :
    h.read cb = some c ↔ h.blocks[cb]? = some (some c) := by
  unfold Heap.read
  split
  · next c' heq => simp [heq]
  · next hne =>
    constructor
    · intro h0; simp at h0
    · intro h0; exact absurd h0 (hne c)

theorem Heap.read_write_same {h : Heap T} {cb : Nat} (c : BaseControlBlock T)
    (hlt : cb < h.blocks.length) : (h.write cb c).read cb = some c := by
  rw [Heap.read_eq_some_iff]
  simp [Heap.write, List.getElem?_set, hlt]

theorem Heap.read_write_ne {h : Heap T} {cb b : Nat} (c : BaseControlBlock T)
    (hne : b ≠ cb) : (h.write cb c).read b = h.read b := by
  unfold Heap.read Heap.write
  simp [List.getElem?_set, Ne.symm hne]

@[simp] theorem Heap.write_trace (h : Heap T) (cb : Nat) (c : BaseControlBlock T) :
    (h.write cb c).trace = h.trace := rfl

@[simp] theorem Heap.log_read (h : Heap T) (e : Event) (b : Nat) :
    (h.log e).read b = h.read b := rfl

@[simp] theorem Heap.log_trace (h : Heap T) (e : Event) :
    (h.log e).trace = h.trace ++ [e] := rfl

theorem dispose_eq {h : Heap T} {cb : Nat} {c : BaseControlBlock T} (hc : h.read cb = some c) :
    dispose cb h = some (h.log (disposeEvent cb c.body)) := by
  unfold dispose
  rw [hc]
  rcases c with ⟨sc, wc, body⟩
  cases body <;> rfl

theorem destroy_eq {h : Heap T} {cb : Nat} {c : BaseControlBlock T} (hc : h.read cb = some c) :
    destroy cb h = some (h.log (.deallocate c.body.alloc cb)) := by
  unfold destroy
  rw [hc]

/-- Closed form of `shared_release` on a constructed block. -/
theorem shared_release_eq {h : Heap T} {cb : Nat} {c : BaseControlBlock T}
    (hc : h.read cb = some c) :
    shared_release cb h = some
      { blocks := h.blocks.set cb (some { c with shared_count := decr c.shared_count }),
        trace := h.trace
          ++ (if decr c.shared_count = 0 then [disposeEvent cb c.body] else [])
          ++ (if decr c.shared_count = 0 ∧ c.weak_count = 0
                then [Event.deallocate c.body.alloc cb] else []) } := by
  have hlt := Heap.read_some_lt hc
  have hr1 : (h.write cb { c with shared_count := decr c.shared_count }).read cb
      = some { c with shared_count := decr c.shared_count } := Heap.read_write_same _ hlt
  unfold shared_release
  rw [hc]
  simp only [Option.bind_eq_bind, Option.some_bind]
  rw [hr1, Option.some_bind]
  dsimp only
  by_cases h0 : decr c.shared_count = 0
  · rw [if_pos h0, dispose_eq hr1, Option.some_bind, Heap.log_read, hr1, Option.some_bind]
    dsimp only
    by_cases hw : c.weak_count = 0
    · have hr2 : ((h.write cb { c with shared_count := decr c.shared_count }).log
          (disposeEvent cb c.body)).read cb
          = some { c with shared_count := decr c.shared_count } := by
        rw [Heap.log_read]; exact hr1
      rw [if_pos ⟨h0, hw⟩, destroy_eq hr2, if_pos h0, if_pos ⟨h0, hw⟩]
      simp [Heap.log, Heap.write]
    · rw [if_neg (fun hh => hw hh.2), if_pos h0, if_neg (fun hh => hw hh.2)]
      simp [Heap.log, Heap.write]
  · rw [if_neg h0, Option.some_bind]
    dsimp only
    rw [if_neg (fun hh => h0 hh.1), if_neg h0, if_neg (fun hh => h0 hh.1)]
    simp [Heap.write]

/-- Closed form of `weak_release` on a constructed block. -/
theorem weak_release_eq {h : Heap T} {cb : Nat} {c : BaseControlBlock T}
    (hc : h.read cb = some c) :
    weak_release cb h = some
      { blocks := h.blocks.set cb (some { c with weak_count := decr c.weak_count }),
        trace := h.trace
          ++ (if c.shared_count = 0 ∧ decr c.weak_count = 0
                then [Event.deallocate c.body.alloc cb] else []) } := by
  have hlt := Heap.read_some_lt hc
  have hr1 : (h.write cb { c with weak_count := decr c.weak_count }).read cb
      = some { c with weak_count := decr c.weak_count } := Heap.read_write_same _ hlt
  unfold weak_release
  rw [hc]
  simp only [Option.bind_eq_bind, Option.some_bind]
  rw [hr1, Option.some_bind]
  dsimp only
  by_cases h0 : c.shared_count = 0 ∧ decr c.weak_count = 0
  · rw [if_pos h0, if_pos h0, destroy_eq hr1]
    simp [Heap.log, Heap.write]
  · rw [if_neg h0, if_neg h0]
    simp [Heap.write]

theorem shared_increment_eq {h : Heap T} {cb : Nat} {c : BaseControlBlock T}
    (hc : h.read cb = some c) :
    shared_increment cb h = some (h.write cb { c with shared_count := incr c.shared_count }) := by
  simp [shared_increment, hc]

theorem weak_increment_eq {h : Heap T} {cb : Nat} {c : BaseControlBlock T}
    (hc : h.read cb = some c) :
    weak_increment cb h = some (h.write cb { c with weak_count := incr c.weak_count }) := by
  simp [weak_increment, hc]

theorem shared_release_none {h : Heap T} {cb : Nat} (hc : h.read cb = none) :
    shared_release cb h = none := by
  simp [shared_release, hc]

theorem weak_release_none {h : Heap T} {cb : Nat} (hc : h.read cb = none) :
    weak_release cb h = none := by
  simp [weak_release, hc]

theorem shared_increment_none {h : Heap T} {cb : Nat} (hc : h.read cb = none) :
    shared_increment cb h = none := by
  simp [shared_increment, hc]

theorem weak_increment_none {h : Heap T} {cb : Nat} (hc : h.read cb = none) :
    weak_increment cb h = none := by
  simp [weak_increment, hc]

/-! ## Counters -/

theorem decr_succ {n : Nat} (h : n + 1 < SIZE_T_MOD) : decr (n + 1) = n := by
  unfold SIZE_T_MOD at h
  unfold decr
  omega

theorem incr_lt {n : Nat} (h : n + 1 < SIZE_T_MOD) : incr n = n + 1 := by
  unfold SIZE_T_MOD at h
  unfold incr
  omega

/-! ## Counting events -/

@[simp] theorem isDispose_disposeEvent (cb b : Nat) (body : BlockBody T) :
    Event.isDispose b (disposeEvent cb body) = decide (cb = b) := by
  cases body <;> rfl

@[simp] theorem isDeallocate_disposeEvent (cb b : Nat) (body : BlockBody T) :
    Event.isDeallocate b (disposeEvent cb body) = false := by
  cases body <;> rfl

@[simp] theorem isDispose_deallocate (a cb b : Nat) :
    Event.isDispose b (Event.deallocate a cb) = false := rfl

@[simp] theorem isDeallocate_deallocate (a cb b : Nat) :
    Event.isDeallocate b (Event.deallocate a cb) = decide (cb = b) := rfl

@[simp] theorem isDispose_allocate (a cb b : Nat) :
    Event.isDispose b (Event.allocate a cb) = false := rfl

@[simp] theorem isDeallocate_allocate (a cb b : Nat) :
    Event.isDeallocate b (Event.allocate a cb) = false := rfl

/-! ## Consistency of one block under the heap operations -/

theorem BlockOK.congr {h h' : Heap T} {b S W : Nat} (hread : h'.read b = h.read b)
    (hd : h'.disposeCount b = h.disposeCount b)
    (hrl : h'.releaseCount b = h.releaseCount b) (hok : BlockOK h b S W) :
    BlockOK h' b S W := by
  unfold BlockOK at hok ⊢
  rw [hread, hd, hrl]
  exact hok

theorem BlockOK.read_some {h : Heap T} {b S W : Nat} (hok : BlockOK h b S W)
    (hpos : 0 < S + W) : ∃ c, h.read b = some c ∧ c.shared_count = S ∧ c.weak_count = W := by
  unfold BlockOK at hok
  cases hc : h.read b with
  | none => rw [hc] at hok; simp only at hok; omega
  | some c => rw [hc] at hok; exact ⟨c, rfl, hok.1, hok.2.1⟩

theorem shared_release_some {h h' : Heap T} {cb : Nat} (hr : shared_release cb h = some h') :
    ∃ c, h.read cb = some c := by
  cases hc : h.read cb with
  | none => rw [shared_release_none hc] at hr; simp at hr
  | some c => exact ⟨c, rfl⟩

theorem weak_release_some {h h' : Heap T} {cb : Nat} (hr : weak_release cb h = some h') :
    ∃ c, h.read cb = some c := by
  cases hc : h.read cb with
  | none => rw [weak_release_none hc] at hr; simp at hr
  | some c => exact ⟨c, rfl⟩

theorem shared_increment_some {h h' : Heap T} {cb : Nat}
    (hr : shared_increment cb h = some h') : ∃ c, h.read cb = some c := by
  cases hc : h.read cb with
  | none => rw [shared_increment_none hc] at hr; simp at hr
  | some c => exact ⟨c, rfl⟩

theorem weak_increment_some {h h' : Heap T} {cb : Nat}
    (hr : weak_increment cb h = some h') : ∃ c, h.read cb = some c := by
  cases hc : h.read cb with
  | none => rw [weak_increment_none hc] at hr; simp at hr
  | some c => exact ⟨c, rfl⟩

theorem SameBlock.blockOK {h h' : Heap T} {b S W : Nat} (hs : SameBlock h h' b)
    (hok : BlockOK h b S W) : BlockOK h' b S W :=
  BlockOK.congr hs.1 hs.2.1 hs.2.2 hok

theorem read_set_ne {h : Heap T} {cb b : Nat} (x : Option (BaseControlBlock T)) (t : List Event)
    (hne : b ≠ cb) : (Heap.mk (h.blocks.set cb x) t).read b = h.read b := by
  unfold Heap.read
  simp [List.getElem?_set, Ne.symm hne]

theorem read_set_same {h : Heap T} {cb : Nat} (c : BaseControlBlock T) (t : List Event)
    (hlt : cb < h.blocks.length) : (Heap.mk (h.blocks.set cb (some c)) t).read cb = some c := by
  rw [Heap.read_eq_some_iff]
  simp [List.getElem?_set, hlt]

theorem shared_release_frame {h h' : Heap T} {cb b : Nat} (hne : b ≠ cb)
    (hr : shared_release cb h = some h') : SameBlock h h' b := by
  obtain ⟨c, hc⟩ := shared_release_some hr
  rw [shared_release_eq hc] at hr
  injection hr with hr
  subst hr
  have hcb : ¬ cb = b := fun e => hne e.symm
  refine ⟨read_set_ne _ _ hne, ?_, ?_⟩
  · simp only [Heap.disposeCount, List.countP_append]
    split_ifs <;> simp [List.countP_cons, hcb]
  · simp only [Heap.releaseCount, List.countP_append]
    split_ifs <;> simp [List.countP_cons, hcb]

theorem weak_release_frame {h h' : Heap T} {cb b : Nat} (hne : b ≠ cb)
    (hr : weak_release cb h = some h') : SameBlock h h' b := by
  obtain ⟨c, hc⟩ := weak_release_some hr
  rw [weak_release_eq hc] at hr
  injection hr with hr
  subst hr
  have hcb : ¬ cb = b := fun e => hne e.symm
  refine ⟨read_set_ne _ _ hne, ?_, ?_⟩
  · simp only [Heap.disposeCount, List.countP_append]
    split_ifs <;> simp [List.countP_cons]
  · simp only [Heap.releaseCount, List.countP_append]
    split_ifs <;> simp [List.countP_cons, hcb]

theorem shared_increment_frame {h h' : Heap T} {cb b : Nat} (hne : b ≠ cb)
    (hr : shared_increment cb h = some h') : SameBlock h h' b := by
  obtain ⟨c, hc⟩ := shared_increment_some hr
  rw [shared_increment_eq hc] at hr
  injection hr with hr
  subst hr
  exact ⟨Heap.read_write_ne _ hne, rfl, rfl⟩

theorem weak_increment_frame {h h' : Heap T} {cb b : Nat} (hne : b ≠ cb)
    (hr : weak_increment cb h = some h') : SameBlock h h' b := by
  obtain ⟨c, hc⟩ := weak_increment_some hr
  rw [weak_increment_eq hc] at hr
  injection hr with hr
  subst hr
  exact ⟨Heap.read_write_ne _ hne, rfl, rfl⟩

theorem BlockOK.shared_release {h h' : Heap T} {cb S W : Nat}
    (hok : BlockOK h cb (S + 1) W) (hS : S + 1 < SIZE_T_MOD)
    (hr : shared_release cb h = some h') : BlockOK h' cb S W := by
  obtain ⟨c, hc⟩ := shared_release_some hr
  have hlt := Heap.read_some_lt hc
  rw [shared_release_eq hc] at hr
  injection hr with hr
  subst hr
  unfold BlockOK at hok ⊢
  rw [hc] at hok
  obtain ⟨h1, h2, h3, h4⟩ := hok
  rw [read_set_same _ _ hlt]
  simp only [Heap.disposeCount, Heap.releaseCount] at h3 h4 ⊢
  rw [h1, decr_succ hS]
  have h3' : List.countP (Event.isDispose cb) h.trace = 0 := by rw [h3]; simp
  have h4' : List.countP (Event.isDeallocate cb) h.trace = 0 := by rw [h4]; simp
  refine ⟨rfl, h2, ?_, ?_⟩
  · simp only [List.countP_append, h3']
    by_cases hS0 : S = 0 <;> by_cases hW0 : c.weak_count = 0 <;>
      simp [List.countP_cons, hS0, hW0]
  · simp only [List.countP_append, h4']
    by_cases hS0 : S = 0 <;> by_cases hW0 : c.weak_count = 0 <;>
      simp [List.countP_cons, hS0, hW0, ← h2]

theorem BlockOK.weak_release {h h' : Heap T} {cb S W : Nat}
    (hok : BlockOK h cb S (W + 1)) (hW : W + 1 < SIZE_T_MOD)
    (hr : weak_release cb h = some h') : BlockOK h' cb S W := by
  obtain ⟨c, hc⟩ := weak_release_some hr
  have hlt := Heap.read_some_lt hc
  rw [weak_release_eq hc] at hr
  injection hr with hr
  subst hr
  unfold BlockOK at hok ⊢
  rw [hc] at hok
  obtain ⟨h1, h2, h3, h4⟩ := hok
  rw [read_set_same _ _ hlt]
  simp only [Heap.disposeCount, Heap.releaseCount] at h3 h4 ⊢
  rw [h1, h2, decr_succ hW]
  have h4' : List.countP (Event.isDeallocate cb) h.trace = 0 := by rw [h4]; simp
  refine ⟨rfl, rfl, ?_, ?_⟩
  · simp only [List.countP_append, h3]
    by_cases hS0 : S = 0 <;> by_cases hW0 : W = 0 <;>
      simp [List.countP_cons, hS0, hW0]
  · simp only [List.countP_append, h4']
    by_cases hS0 : S = 0 <;> by_cases hW0 : W = 0 <;>
      simp [List.countP_cons, hS0, hW0]

theorem BlockOK.shared_increment {h h' : Heap T} {cb S W : Nat}
    (hok : BlockOK h cb (S + 1) W) (hS : S + 2 < SIZE_T_MOD)
    (hr : shared_increment cb h = some h') : BlockOK h' cb (S + 2) W := by
  obtain ⟨c, hc⟩ := shared_increment_some hr
  have hlt := Heap.read_some_lt hc
  rw [shared_increment_eq hc] at hr
  injection hr with hr
  subst hr
  unfold BlockOK at hok ⊢
  rw [hc] at hok
  obtain ⟨h1, h2, h3, h4⟩ := hok
  rw [Heap.read_write_same _ hlt]
  simp only [Heap.disposeCount, Heap.releaseCount, Heap.write_trace] at h3 h4 ⊢
  rw [h1, incr_lt hS]
  refine ⟨rfl, h2, ?_, ?_⟩
  · rw [h3]; simp
  · rw [h4]; simp

theorem BlockOK.weak_increment {h h' : Heap T} {cb S W : Nat}
    (hok : BlockOK h cb S W) (hpos : 0 < S + W) (hW : W + 1 < SIZE_T_MOD)
    (hr : weak_increment cb h = some h') : BlockOK h' cb S (W + 1) := by
  obtain ⟨c, hc⟩ := weak_increment_some hr
  have hlt := Heap.read_some_lt hc
  rw [weak_increment_eq hc] at hr
  injection hr with hr
  subst hr
  unfold BlockOK at hok ⊢
  rw [hc] at hok
  obtain ⟨h1, h2, h3, h4⟩ := hok
  rw [Heap.read_write_same _ hlt]
  simp only [Heap.disposeCount, Heap.releaseCount, Heap.write_trace] at h3 h4 ⊢
  rw [h1, h2, incr_lt hW]
  refine ⟨rfl, rfl, h3, ?_⟩
  rw [h4]
  have : ¬ (S = 0 ∧ W = 0) := by omega
  simp [this]

/-! ## Allocation -/

theorem allocate_read_old {h : Heap T} {b : Nat} (alloc : Nat) (hne : b ≠ h.blocks.length) :
    (h.allocate alloc).read b = h.read b := by
  unfold Heap.read Heap.allocate
  by_cases hlt : b < h.blocks.length
  · simp [List.getElem?_append_left, hlt]
  · have h1 : (h.blocks ++ [none])[b]? = none :=
      List.getElem?_eq_none (by simp; omega)
    have h2 : h.blocks[b]? = none := List.getElem?_eq_none (by omega)
    simp [h1, h2]

theorem allocate_read_new (h : Heap T) (alloc : Nat) :
    (h.allocate alloc).read h.blocks.length = none := by
  unfold Heap.read Heap.allocate
  simp

theorem allocate_same {h : Heap T} {b : Nat} (alloc : Nat) (hne : b ≠ h.blocks.length) :
    SameBlock h (h.allocate alloc) b := by
  refine ⟨allocate_read_old alloc hne, ?_, ?_⟩
  · simp [Heap.disposeCount, Heap.allocate, List.countP_append, List.countP_cons]
  · simp [Heap.releaseCount, Heap.allocate, List.countP_append, List.countP_cons]

theorem allocate_write_same {h : Heap T} {b : Nat} (alloc : Nat) (c : BaseControlBlock T)
    (hne : b ≠ h.blocks.length) :
    SameBlock h ((h.allocate alloc).write h.blocks.length c) b := by
  obtain ⟨h1, h2, h3⟩ := allocate_same (h := h) alloc hne
  refine ⟨?_, h2, h3⟩
  rw [Heap.read_write_ne _ hne]
  exact h1

theorem BlockOK.read_none_new {h : Heap T} {S W : Nat}
    (hok : BlockOK h h.blocks.length S W) :
    S = 0 ∧ W = 0 ∧ h.disposeCount h.blocks.length = 0 ∧
      h.releaseCount h.blocks.length = 0 := by
  unfold BlockOK at hok
  have : h.read h.blocks.length = none := by
    cases hc : h.read h.blocks.length with
    | none => rfl
    | some c => exact absurd (Heap.read_some_lt hc) (lt_irrefl _)
  rw [this] at hok
  exact hok

theorem BlockOK.allocate_write {h : Heap T} {S W : Nat} (alloc : Nat) (body : BlockBody T)
    (hok : BlockOK h h.blocks.length S W) :
    BlockOK ((h.allocate alloc).write h.blocks.length ⟨1, 0, body⟩) h.blocks.length
      (S + 1) W := by
  obtain ⟨hS, hW, hd, hrl⟩ := hok.read_none_new
  unfold BlockOK
  have hlt : h.blocks.length < (h.allocate alloc).blocks.length := by
    simp [Heap.allocate]
  rw [Heap.read_write_same _ hlt]
  simp only [Heap.disposeCount, Heap.releaseCount] at hd hrl
  simp [Heap.disposeCount, Heap.releaseCount, Heap.allocate, List.countP_append,
    List.countP_cons, hS, hW, hd, hrl]

theorem BlockOK.allocate {h : Heap T} {S W : Nat} (alloc : Nat)
    (hok : BlockOK h h.blocks.length S W) :
    BlockOK (h.allocate alloc) h.blocks.length S W := by
  obtain ⟨hS, hW, hd, hrl⟩ := hok.read_none_new
  unfold BlockOK
  rw [allocate_read_new]
  simp only [Heap.disposeCount, Heap.releaseCount] at hd hrl
  simp [Heap.disposeCount, Heap.releaseCount, Heap.allocate, List.countP_append,
    List.countP_cons, hS, hW, hd, hrl]

/-! ## Handles -/

theorem getShared_eq_some {s : State T} {i : Nat} {a : SharedPtr} :
    s.getShared i = some a ↔ s.shared[i]? = some (some a) := by
  unfold State.getShared
  split
  · next c' heq => simp [heq]
  · next hne =>
    constructor
    · intro h0; simp at h0
    · intro h0; exact absurd h0 (hne a)

theorem getWeak_eq_some {s : State T} {i : Nat} {a : WeakPtr} :
    s.getWeak i = some a ↔ s.weak[i]? = some (some a) := by
  unfold State.getWeak
  split
  · next c' heq => simp [heq]
  · next hne =>
    constructor
    · intro h0; simp at h0
    · intro h0; exact absurd h0 (hne a)

theorem sharedRefs_le_length (s : State T) (b : Nat) : sharedRefs s b ≤ s.shared.length :=
  List.countP_le_length _

theorem weakRefs_le_length (s : State T) (b : Nat) : weakRefs s b ≤ s.weak.length :=
  List.countP_le_length _

theorem sharedRefs_pos {s : State T} {i b : Nat} {a : SharedPtr}
    (ha : s.getShared i = some a) (hb : a.control_block = some b) : 0 < sharedRefs s b := by
  rw [getShared_eq_some] at ha
  unfold sharedRefs
  rw [List.countP_pos_iff]
  exact ⟨some a, List.getElem?_mem ha, by simp [sharedRefersTo, hb]⟩

theorem weakRefs_pos {s : State T} {i b : Nat} {a : WeakPtr}
    (ha : s.getWeak i = some a) (hb : a.control_block = some b) : 0 < weakRefs s b := by
  rw [getWeak_eq_some] at ha
  unfold weakRefs
  rw [List.countP_pos_iff]
  exact ⟨some a, List.getElem?_mem ha, by simp [weakRefersTo, hb]⟩

theorem Inv.read_shared {s : State T} (hinv : Inv s) {i b : Nat} {a : SharedPtr}
    (ha : s.getShared i = some a) (hb : a.control_block = some b) :
    ∃ c, s.heap.read b = some c ∧ c.shared_count = sharedRefs s b ∧
      c.weak_count = weakRefs s b :=
  (hinv b).read_some (by have := sharedRefs_pos ha hb; omega)

theorem Inv.read_weak {s : State T} (hinv : Inv s) {i b : Nat} {a : WeakPtr}
    (ha : s.getWeak i = some a) (hb : a.control_block = some b) :
    ∃ c, s.heap.read b = some c ∧ c.shared_count = sharedRefs s b ∧
      c.weak_count = weakRefs s b :=
  (hinv b).read_some (by have := weakRefs_pos ha hb; omega)

theorem Transition.refl_of_inv {s : State T} (hinv : Inv s) : Transition 0 0 0 s s :=
  ⟨hinv, fun _ => le_refl _, fun _ => le_refl _, fun _ => le_refl _, fun _ c hc => ⟨c, hc⟩,
    le_refl _, le_refl _, ⟨[], by simp⟩⟩

theorem Transition.comp {k1 n1 m1 k2 n2 m2 : Nat} {s s1 s2 : State T}
    (h1 : Transition k1 n1 m1 s s1) (h2 : Transition k2 n2 m2 s1 s2) :
    Transition (k1 + k2) (n1 + n2) (m1 + m2) s s2 := by
  refine ⟨h2.inv, ?_, ?_, ?_, ?_, ?_, ?_, ?_⟩
  · intro b
    have := h1.shared_drop b
    have := h2.shared_drop b
    omega
  · intro b
    have := h1.weak_drop b
    have := h2.weak_drop b
    omega
  · intro b
    have := h1.total_drop b
    have := h2.total_drop b
    omega
  · intro b c hc
    obtain ⟨c1, hc1⟩ := h1.blocks b c hc
    exact h2.blocks b c1 hc1
  · have := h1.shared_len
    have := h2.shared_len
    omega
  · have := h1.weak_len
    have := h2.weak_len
    omega
  · obtain ⟨t1, ht1⟩ := h1.trace_ext
    obtain ⟨t2, ht2⟩ := h2.trace_ext
    exact ⟨t1 ++ t2, by rw [ht2, ht1, List.append_assoc]⟩

theorem Transition.mono {k n m k' n' m' : Nat} {s s' : State T} (h : Transition k n m s s')
    (hk : k ≤ k') (hn : n ≤ n') (hm : m ≤ m') : Transition k' n' m' s s' := by
  refine ⟨h.inv, ?_, ?_, ?_, h.blocks, ?_, ?_, h.trace_ext⟩
  · intro b
    have := h.shared_drop b
    omega
  · intro b
    have := h.weak_drop b
    omega
  · intro b
    have := h.total_drop b
    omega
  · have := h.shared_len
    omega
  · have := h.weak_len
    omega

theorem sharedRefersTo_some (b : Nat) (x : SharedPtr) :
    sharedRefersTo b (some x) = decide (x.control_block = some b) := rfl

theorem weakRefersTo_some (b : Nat) (x : WeakPtr) :
    weakRefersTo b (some x) = decide (x.control_block = some b) := rfl

theorem sharedRefs_congr {s s' : State T} (h : s'.shared = s.shared) (b : Nat) :
    sharedRefs s' b = sharedRefs s b := by
  unfold sharedRefs
  rw [h]

theorem weakRefs_congr {s s' : State T} (h : s'.weak = s.weak) (b : Nat) :
    weakRefs s' b = weakRefs s b := by
  unfold weakRefs
  rw [h]

theorem sharedRefs_push {s s' : State T} {x : SharedPtr} (h : s'.shared = s.shared ++ [some x])
    (b : Nat) :
    sharedRefs s' b = sharedRefs s b + (if x.control_block = some b then 1 else 0) := by
  unfold sharedRefs
  rw [h, countP_push, sharedRefersTo_some]
  simp

theorem weakRefs_push {s s' : State T} {x : WeakPtr} (h : s'.weak = s.weak ++ [some x])
    (b : Nat) :
    weakRefs s' b = weakRefs s b + (if x.control_block = some b then 1 else 0) := by
  unfold weakRefs
  rw [h, countP_push, weakRefersTo_some]
  simp

theorem sharedRefs_set {s s' : State T} {i : Nat} {a : SharedPtr} {x : Option SharedPtr}
    (ha : s.getShared i = some a) (h : s'.shared = s.shared.set i x) (b : Nat) :
    sharedRefs s' b + (if a.control_block = some b then 1 else 0) =
      sharedRefs s b + (if sharedRefersTo b x then 1 else 0) := by
  rw [getShared_eq_some] at ha
  unfold sharedRefs
  rw [h]
  have := countP_set_add (sharedRefersTo b) s.shared i x (some a) ha
  rw [sharedRefersTo_some] at this
  simpa using this

theorem weakRefs_set {s s' : State T} {i : Nat} {a : WeakPtr} {x : Option WeakPtr}
    (ha : s.getWeak i = some a) (h : s'.weak = s.weak.set i x) (b : Nat) :
    weakRefs s' b + (if a.control_block = some b then 1 else 0) =
      weakRefs s b + (if weakRefersTo b x then 1 else 0) := by
  rw [getWeak_eq_some] at ha
  unfold weakRefs
  rw [h]
  have := countP_set_add (weakRefersTo b) s.weak i x (some a) ha
  rw [weakRefersTo_some] at this
  simpa using this

/-! ## SharedPtr constructors -/

theorem SharedPtr.ctor_default_trans {s s' : State T} (hinv : Inv s)
    (h : SharedPtr.ctor_default s = some s') : Transition 0 1 0 s s' := by
  unfold SharedPtr.ctor_default at h
  injection h with h
  subst h
  have hrefs : ∀ b, sharedRefs (s.pushShared ⟨none, .null⟩) b = sharedRefs s b := by
    intro b
    rw [sharedRefs_push (s := s) (x := ⟨none, .null⟩) rfl b]
    simp
  have hW : ∀ b, weakRefs (s.pushShared ⟨none, .null⟩) b = weakRefs s b := fun _ => rfl
  refine ⟨?_, ?_, ?_, ?_, ?_, ?_, ?_, ⟨[], by simp [State.pushShared]⟩⟩
  · intro b
    rw [hrefs b]
    exact hinv b
  · intro b; rw [hrefs b]; omega
  · intro b; exact Nat.le_refl _
  · intro b; rw [hrefs b, hW b]; omega
  · intro b c hc; exact ⟨c, hc⟩
  · simp [State.pushShared]
  · simp [State.pushShared]

theorem SharedPtr.ctor_raw_trans {s s' : State T} {p : Ptr} {del alloc : Nat} (hinv : Inv s)
    (h : SharedPtr.ctor_raw p del alloc s = some s') : Transition 0 1 0 s s' := by
  unfold SharedPtr.ctor_raw at h
  injection h with h
  subst h
  have hrefs : ∀ (h' : Heap T) (b : Nat), sharedRefs (State.pushShared
      { s with heap := h' } ⟨some s.heap.blocks.length, p⟩) b =
      sharedRefs s b + (if s.heap.blocks.length = b then 1 else 0) := by
    intro h' b
    rw [sharedRefs_push (s := s) (x := ⟨some s.heap.blocks.length, p⟩) rfl b]
    simp
  have hW : ∀ (h' : Heap T) (b : Nat), weakRefs (State.pushShared
      { s with heap := h' } ⟨some s.heap.blocks.length, p⟩) b = weakRefs s b :=
    fun _ _ => rfl
  refine ⟨?_, ?_, ?_, ?_, ?_, ?_, ?_, ⟨[.allocate alloc s.heap.blocks.length], rfl⟩⟩
  · intro b
    rw [hrefs _ b]
    by_cases hb : s.heap.blocks.length = b
    · subst hb
      rw [if_pos rfl]
      exact BlockOK.allocate_write alloc _ (hinv _)
    · rw [if_neg hb]
      exact (allocate_write_same alloc _ (Ne.symm hb)).blockOK (hinv b)
  · intro b; rw [hrefs _ b]; omega
  · intro b; exact Nat.le_refl _
  · intro b; rw [hrefs _ b, hW _ b]; omega
  · intro b c hc
    have hne : b ≠ s.heap.blocks.length := Nat.ne_of_lt (Heap.read_some_lt hc)
    refine ⟨c, ?_⟩
    rw [← hc]
    exact (allocate_write_same alloc _ hne).1
  · simp [State.pushShared]
  · simp [State.pushShared]

theorem allocateShared_trans {s : State T} {alloc : Nat} {payload : Construct T}
    (hinv : Inv s) : Transition 0 1 0 s (allocateShared alloc payload s).2 := by
  unfold allocateShared
  cases payload with
  | throws =>
    refine ⟨?_, ?_, ?_, ?_, ?_, ?_, ?_, ⟨[.allocate alloc s.heap.blocks.length], rfl⟩⟩
    · intro b
      by_cases hb : s.heap.blocks.length = b
      · subst hb
        exact BlockOK.allocate alloc (hinv _)
      · exact (allocate_same alloc (Ne.symm hb)).blockOK (hinv b)
    · intro b; exact Nat.le_refl _
    · intro b; exact Nat.le_refl _
    · intro b; exact Nat.le_refl _
    · intro b c hc
      have hne : b ≠ s.heap.blocks.length := Nat.ne_of_lt (Heap.read_some_lt hc)
      refine ⟨c, ?_⟩
      rw [← hc]
      exact (allocate_same alloc hne).1
    · simp
    · simp
  | value obj =>
    have hrefs : ∀ (h' : Heap T) (b : Nat), sharedRefs (SharedPtr.ctor_block
        s.heap.blocks.length { s with heap := h' }) b =
        sharedRefs s b + (if s.heap.blocks.length = b then 1 else 0) := by
      intro h' b
      rw [sharedRefs_push (s := s)
        (x := ⟨some s.heap.blocks.length, .obj s.heap.blocks.length⟩) rfl b]
      simp
    have hW : ∀ (h' : Heap T) (b : Nat), weakRefs (SharedPtr.ctor_block
        s.heap.blocks.length { s with heap := h' }) b = weakRefs s b := fun _ _ => rfl
    refine ⟨?_, ?_, ?_, ?_, ?_, ?_, ?_, ⟨[.allocate alloc s.heap.blocks.length], rfl⟩⟩
    · intro b
      dsimp only
      rw [hrefs _ b]
      by_cases hb : s.heap.blocks.length = b
      · subst hb
        rw [if_pos rfl]
        exact BlockOK.allocate_write alloc _ (hinv _)
      · rw [if_neg hb]
        exact (allocate_write_same alloc _ (Ne.symm hb)).blockOK (hinv b)
    · intro b
      dsimp only
      rw [hrefs _ b]; omega
    · intro b; exact Nat.le_refl _
    · intro b
      dsimp only
      rw [hrefs _ b, hW _ b]; omega
    · intro b c hc
      have hne : b ≠ s.heap.blocks.length := Nat.ne_of_lt (Heap.read_some_lt hc)
      refine ⟨c, ?_⟩
      rw [← hc]
      exact (allocate_write_same alloc _ hne).1
    · simp [SharedPtr.ctor_block, State.pushShared]
    · simp [SharedPtr.ctor_block, State.pushShared]

/-! ## Constructed blocks stay constructed -/

theorem shared_release_persist {h h' : Heap T} {cb : Nat}
    (hr : shared_release cb h = some h') (b : Nat) (c : BaseControlBlock T)
    (hb : h.read b = some c) : ∃ c', h'.read b = some c' := by
  by_cases hne : b = cb
  · subst hne
    have hlt := Heap.read_some_lt hb
    rw [shared_release_eq hb] at hr
    injection hr with hr
    subst hr
    exact ⟨_, read_set_same _ _ hlt⟩
  · exact ⟨c, by rw [(shared_release_frame hne hr).1, hb]⟩

theorem weak_release_persist {h h' : Heap T} {cb : Nat}
    (hr : weak_release cb h = some h') (b : Nat) (c : BaseControlBlock T)
    (hb : h.read b = some c) : ∃ c', h'.read b = some c' := by
  by_cases hne : b = cb
  · subst hne
    have hlt := Heap.read_some_lt hb
    rw [weak_release_eq hb] at hr
    injection hr with hr
    subst hr
    exact ⟨_, read_set_same _ _ hlt⟩
  · exact ⟨c, by rw [(weak_release_frame hne hr).1, hb]⟩

theorem shared_increment_persist {h h' : Heap T} {cb : Nat}
    (hr : shared_increment cb h = some h') (b : Nat) (c : BaseControlBlock T)
    (hb : h.read b = some c) : ∃ c', h'.read b = some c' := by
  by_cases hne : b = cb
  · subst hne
    have hlt := Heap.read_some_lt hb
    rw [shared_increment_eq hb] at hr
    injection hr with hr
    subst hr
    exact ⟨_, Heap.read_write_same _ hlt⟩
  · exact ⟨c, by rw [(shared_increment_frame hne hr).1, hb]⟩

theorem weak_increment_persist {h h' : Heap T} {cb : Nat}
    (hr : weak_increment cb h = some h') (b : Nat) (c : BaseControlBlock T)
    (hb : h.read b = some c) : ∃ c', h'.read b = some c' := by
  by_cases hne : b = cb
  · subst hne
    have hlt := Heap.read_some_lt hb
    rw [weak_increment_eq hb] at hr
    injection hr with hr
    subst hr
    exact ⟨_, Heap.read_write_same _ hlt⟩
  · exact ⟨c, by rw [(weak_increment_frame hne hr).1, hb]⟩

/-! ## The trace only grows -/

theorem shared_release_trace {h h' : Heap T} {cb : Nat}
    (hr : shared_release cb h = some h') : ∃ t, h'.trace = h.trace ++ t := by
  obtain ⟨c, hc⟩ := shared_release_some hr
  rw [shared_release_eq hc] at hr
  injection hr with hr
  subst hr
  exact ⟨_, List.append_assoc _ _ _⟩

theorem weak_release_trace {h h' : Heap T} {cb : Nat}
    (hr : weak_release cb h = some h') : ∃ t, h'.trace = h.trace ++ t := by
  obtain ⟨c, hc⟩ := weak_release_some hr
  rw [weak_release_eq hc] at hr
  injection hr with hr
  subst hr
  exact ⟨_, rfl⟩

theorem shared_increment_trace {h h' : Heap T} {cb : Nat}
    (hr : shared_increment cb h = some h') : ∃ t, h'.trace = h.trace ++ t := by
  obtain ⟨c, hc⟩ := shared_increment_some hr
  rw [shared_increment_eq hc] at hr
  injection hr with hr
  subst hr
  exact ⟨[], by simp⟩

theorem weak_increment_trace {h h' : Heap T} {cb : Nat}
    (hr : weak_increment cb h = some h') : ∃ t, h'.trace = h.trace ++ t := by
  obtain ⟨c, hc⟩ := weak_increment_some hr
  rw [weak_increment_eq hc] at hr
  injection hr with hr
  subst hr
  exact ⟨[], by simp⟩

/-! ## What each member function returns -/

theorem SharedPtr.ctor_copy_inv {s s' : State T} {other : Nat}
    (h : SharedPtr.ctor_copy other s = some s') :
    ∃ o, s.getShared other = some o ∧
      s'.shared = s.shared ++ [some ⟨o.control_block, o.ptr⟩] ∧ s'.weak = s.weak ∧
      ((o.control_block = none ∧ s'.heap = s.heap) ∨
        (∃ cb, o.control_block = some cb ∧ shared_increment cb s.heap = some s'.heap)) := by
  unfold SharedPtr.ctor_copy at h
  cases ho : s.getShared other with
  | none => rw [ho] at h; simp at h
  | some o =>
    rw [ho] at h
    simp only [Option.bind_eq_bind, Option.some_bind] at h
    refine ⟨o, rfl, ?_⟩
    cases hcb : o.control_block with
    | none =>
      rw [hcb] at h
      injection h with h
      subst h
      exact ⟨rfl, rfl, Or.inl ⟨rfl, rfl⟩⟩
    | some cb =>
      rw [hcb] at h
      dsimp only at h
      cases hi : shared_increment cb (s.pushShared ⟨some cb, o.ptr⟩).heap with
      | none => rw [hi] at h; simp at h
      | some h1 =>
        rw [hi] at h
        rw [Option.some_bind] at h
        injection h with h
        subst h
        exact ⟨rfl, rfl, Or.inr ⟨cb, rfl, hi⟩⟩

theorem SharedPtr.ctor_weak_inv {s s' : State T} {weak_ptr : Nat}
    (h : SharedPtr.ctor_weak weak_ptr s = some s') :
    ∃ w cb, s.getWeak weak_ptr = some w ∧ w.control_block = some cb ∧
      s'.shared = s.shared ++ [some ⟨some cb, w.ptr⟩] ∧ s'.weak = s.weak ∧
      shared_increment cb s.heap = some s'.heap := by
  unfold SharedPtr.ctor_weak at h
  cases ho : s.getWeak weak_ptr with
  | none => rw [ho] at h; simp at h
  | some o =>
    rw [ho] at h
    simp only [Option.bind_eq_bind, Option.some_bind] at h
    cases hcb : o.control_block with
    | none => rw [hcb] at h; simp at h
    | some cb =>
      rw [hcb] at h
      rw [Option.some_bind] at h
      cases hi : shared_increment cb (s.pushShared ⟨some cb, o.ptr⟩).heap with
      | none => rw [hi] at h; simp at h
      | some h1 =>
        rw [hi] at h
        rw [Option.some_bind] at h
        injection h with h
        subst h
        exact ⟨o, cb, rfl, hcb, rfl, rfl, hi⟩

theorem SharedPtr.ctor_move_inv {s s' : State T} {other : Nat}
    (h : SharedPtr.ctor_move other s = some s') :
    ∃ o, s.getShared other = some o ∧
      s'.shared = (s.shared ++ [some (SharedPtr.mk o.control_block o.ptr)]).set other
        (some (SharedPtr.mk none Ptr.null)) ∧
      s'.weak = s.weak ∧ s'.heap = s.heap := by
  unfold SharedPtr.ctor_move at h
  cases ho : s.getShared other with
  | none => rw [ho] at h; simp at h
  | some o =>
    rw [ho] at h
    simp only [Option.bind_eq_bind, Option.some_bind] at h
    injection h with h
    subst h
    exact ⟨o, rfl, rfl, rfl, rfl⟩

theorem SharedPtr.dtor_inv {s s' : State T} {this : Nat}
    (h : SharedPtr.dtor this s = some s') :
    ∃ a, s.getShared this = some a ∧ s'.shared = s.shared.set this none ∧ s'.weak = s.weak ∧
      ((a.control_block = none ∧ s'.heap = s.heap) ∨
        (∃ cb, a.control_block = some cb ∧ shared_release cb s.heap = some s'.heap)) := by
  unfold SharedPtr.dtor at h
  cases ho : s.getShared this with
  | none => rw [ho] at h; simp at h
  | some a =>
    rw [ho] at h
    simp only [Option.bind_eq_bind, Option.some_bind] at h
    refine ⟨a, rfl, ?_⟩
    cases hcb : a.control_block with
    | none =>
      rw [hcb] at h
      dsimp only at h
      injection h with h
      subst h
      exact ⟨rfl, rfl, Or.inl ⟨rfl, rfl⟩⟩
    | some cb =>
      rw [hcb] at h
      dsimp only at h
      cases hi : shared_release cb s.heap with
      | none => rw [hi] at h; simp at h
      | some h1 =>
        rw [hi] at h
        rw [Option.some_bind] at h
        injection h with h
        subst h
        exact ⟨rfl, rfl, Or.inr ⟨cb, rfl, hi⟩⟩

theorem SharedPtr.swap_inv {s s' : State T} {this other : Nat}
    (h : SharedPtr.swap this other s = some s') :
    ∃ a b, s.getShared this = some a ∧ s.getShared other = some b ∧
      s'.shared = (s.shared.set this (some b)).set other (some a) ∧
      s'.weak = s.weak ∧ s'.heap = s.heap := by
  unfold SharedPtr.swap at h
  cases ha : s.getShared this with
  | none => rw [ha] at h; simp at h
  | some a =>
    cases hb : s.getShared other with
    | none => rw [ha, hb] at h; simp at h
    | some b =>
      rw [ha, hb] at h
      simp only [Option.bind_eq_bind, Option.some_bind] at h
      injection h with h
      subst h
      exact ⟨a, b, rfl, rfl, rfl, rfl, rfl⟩

/-! ## Generic transitions -/

theorem trans_same_refs {s s' : State T} {n m : Nat} (hinv : Inv s)
    (hS : ∀ b, sharedRefs s' b = sharedRefs s b) (hW : ∀ b, weakRefs s' b = weakRefs s b)
    (hheap : s'.heap = s.heap) (hl : s'.shared.length ≤ s.shared.length + n)
    (hlw : s'.weak.length ≤ s.weak.length + m) : Transition 0 n m s s' := by
  refine ⟨?_, ?_, ?_, ?_, ?_, hl, hlw, ⟨[], by rw [hheap]; simp⟩⟩
  · intro b
    rw [hS b, hW b, hheap]
    exact hinv b
  · intro b; rw [hS b]; omega
  · intro b; rw [hW b]; omega
  · intro b; rw [hS b, hW b]; omega
  · intro b c hc; rw [hheap]; exact ⟨c, hc⟩

theorem trans_shared_incr {s s' : State T} {cb : Nat} {x : SharedPtr} (hinv : Inv s)
    (hlen : s.shared.length + 1 < SIZE_T_MOD) (hx : x.control_block = some cb)
    (hpos : 0 < sharedRefs s cb) (hsh : s'.shared = s.shared ++ [some x])
    (hwk : s'.weak = s.weak) (hinc : shared_increment cb s.heap = some s'.heap) :
    Transition 0 1 0 s s' := by
  have hS := fun b => sharedRefs_push hsh b
  have hW := fun b => weakRefs_congr hwk b
  refine ⟨?_, ?_, ?_, ?_, shared_increment_persist hinc, ?_, ?_, shared_increment_trace hinc⟩
  · intro b
    rw [hS b, hW b, hx]
    by_cases hb : cb = b
    · subst hb
      have hle := sharedRefs_le_length s cb
      obtain ⟨S0, hS0⟩ : ∃ S0, sharedRefs s cb = S0 + 1 := ⟨sharedRefs s cb - 1, by omega⟩
      have hok := hinv cb
      rw [hS0] at hok ⊢
      rw [if_pos rfl]
      exact BlockOK.shared_increment hok (by omega) hinc
    · have hne : ¬ (some cb = some b) := by simpa using hb
      rw [if_neg hne]
      exact (shared_increment_frame (Ne.symm hb) hinc).blockOK (hinv b)
  · intro b; rw [hS b]; omega
  · intro b; rw [hW b]; omega
  · intro b; rw [hS b, hW b]; omega
  · rw [hsh]; simp
  · rw [hwk]; omega

theorem trans_weak_incr {s s' : State T} {cb : Nat} {x : WeakPtr} (hinv : Inv s)
    (hlen : s.weak.length + 1 < SIZE_T_MOD) (hx : x.control_block = some cb)
    (hpos : 0 < sharedRefs s cb + weakRefs s cb) (hwk : s'.weak = s.weak ++ [some x])
    (hsh : s'.shared = s.shared) (hinc : weak_increment cb s.heap = some s'.heap) :
    Transition 0 0 1 s s' := by
  have hW := fun b => weakRefs_push hwk b
  have hS := fun b => sharedRefs_congr hsh b
  refine ⟨?_, ?_, ?_, ?_, weak_increment_persist hinc, ?_, ?_, weak_increment_trace hinc⟩
  · intro b
    rw [hS b, hW b, hx]
    by_cases hb : cb = b
    · subst hb
      have hle := weakRefs_le_length s cb
      rw [if_pos rfl]
      exact BlockOK.weak_increment (hinv cb) hpos (by omega) hinc
    · have hne : ¬ (some cb = some b) := by simpa using hb
      rw [if_neg hne]
      exact (weak_increment_frame (Ne.symm hb) hinc).blockOK (hinv b)
  · intro b; rw [hS b]; omega
  · intro b; rw [hW b]; omega
  · intro b; rw [hS b, hW b]; omega
  · rw [hsh]; omega
  · rw [hwk]; simp

theorem trans_shared_release {s s' : State T} {i cb : Nat} {a : SharedPtr} (hinv : Inv s)
    (hlen : s.shared.length < SIZE_T_MOD) (ha : s.getShared i = some a)
    (hcb : a.control_block = some cb) (hsh : s'.shared = s.shared.set i none)
    (hwk : s'.weak = s.weak) (hrel : shared_release cb s.heap = some s'.heap) :
    Transition 1 0 0 s s' := by
  have hS : ∀ b, sharedRefs s' b + (if a.control_block = some b then 1 else 0)
      = sharedRefs s b := by
    intro b
    have := sharedRefs_set ha hsh b
    simpa [sharedRefersTo] using this
  have hW := fun b => weakRefs_congr hwk b
  refine ⟨?_, ?_, ?_, ?_, shared_release_persist hrel, ?_, ?_, shared_release_trace hrel⟩
  · intro b
    have hSb := hS b
    rw [hcb] at hSb
    rw [hW b]
    by_cases hb : cb = b
    · subst hb
      rw [if_pos rfl] at hSb
      have hle := sharedRefs_le_length s cb
      have hok := hinv cb
      rw [← hSb] at hok
      exact BlockOK.shared_release hok (by omega) hrel
    · have hne : ¬ (some cb = some b) := by simpa using hb
      rw [if_neg hne] at hSb
      have hok := hinv b
      rw [← hSb] at hok
      exact (shared_release_frame (Ne.symm hb) hrel).blockOK hok
  · intro b
    have hSb := hS b
    split_ifs at hSb <;> omega
  · intro b; rw [hW b]; omega
  · intro b
    have hSb := hS b
    rw [hW b]
    split_ifs at hSb <;> omega
  · rw [hsh]; simp
  · rw [hwk]; omega

theorem trans_weak_release {s s' : State T} {i cb : Nat} {a : WeakPtr} (hinv : Inv s)
    (hlen : s.weak.length < SIZE_T_MOD) (ha : s.getWeak i = some a)
    (hcb : a.control_block = some cb) (hwk : s'.weak = s.weak.set i none)
    (hsh : s'.shared = s.shared) (hrel : weak_release cb s.heap = some s'.heap) :
    Transition 1 0 0 s s' := by
  have hW : ∀ b, weakRefs s' b + (if a.control_block = some b then 1 else 0)
      = weakRefs s b := by
    intro b
    have := weakRefs_set ha hwk b
    simpa [weakRefersTo] using this
  have hS := fun b => sharedRefs_congr hsh b
  refine ⟨?_, ?_, ?_, ?_, weak_release_persist hrel, ?_, ?_, weak_release_trace hrel⟩
  · intro b
    have hWb := hW b
    rw [hcb] at hWb
    rw [hS b]
    by_cases hb : cb = b
    · subst hb
      rw [if_pos rfl] at hWb
      have hle := weakRefs_le_length s cb
      have hok := hinv cb
      rw [← hWb] at hok
      exact BlockOK.weak_release hok (by omega) hrel
    · have hne : ¬ (some cb = some b) := by simpa using hb
      rw [if_neg hne] at hWb
      have hok := hinv b
      rw [← hWb] at hok
      exact (weak_release_frame (Ne.symm hb) hrel).blockOK hok
  · intro b; rw [hS b]; omega
  · intro b
    have hWb := hW b
    split_ifs at hWb <;> omega
  · intro b
    have hWb := hW b
    rw [hS b]
    split_ifs at hWb <;> omega
  · rw [hsh]; omega
  · rw [hwk]; simp

theorem sharedRefs_swap {l : List (Option SharedPtr)} {i j : Nat} {a b : SharedPtr}
    (ha : l[i]? = some (some a)) (hb : l[j]? = some (some b)) (p : Nat) :
    ((l.set i (some b)).set j (some a)).countP (sharedRefersTo p) =
      l.countP (sharedRefersTo p) := by
  have h1 := countP_set_add (sharedRefersTo p) l i (some b) (some a) ha
  have hj : (l.set i (some b))[j]? = some (some b) := by
    rw [List.getElem?_set]
    by_cases hij : i = j
    · subst hij
      have hlt : i < l.length := by
        by_contra hge
        rw [List.getElem?_eq_none (by omega)] at ha
        simp at ha
      simp [hlt]
    · simp [hij, hb]
  have h2 := countP_set_add (sharedRefersTo p) (l.set i (some b)) j (some a) (some b) hj
  omega

theorem weakRefs_swap {l : List (Option WeakPtr)} {i j : Nat} {a b : WeakPtr}
    (ha : l[i]? = some (some a)) (hb : l[j]? = some (some b)) (p : Nat) :
    ((l.set i (some b)).set j (some a)).countP (weakRefersTo p) =
      l.countP (weakRefersTo p) := by
  have h1 := countP_set_add (weakRefersTo p) l i (some b) (some a) ha
  have hj : (l.set i (some b))[j]? = some (some b) := by
    rw [List.getElem?_set]
    by_cases hij : i = j
    · subst hij
      have hlt : i < l.length := by
        by_contra hge
        rw [List.getElem?_eq_none (by omega)] at ha
        simp at ha
      simp [hlt]
    · simp [hij, hb]
  have h2 := countP_set_add (weakRefersTo p) (l.set i (some b)) j (some a) (some b) hj
  omega

theorem sharedRefs_move {l : List (Option SharedPtr)} {i : Nat} {o : SharedPtr}
    (ho : l[i]? = some (some o)) (p : Nat) :
    ((l ++ [some (SharedPtr.mk o.control_block o.ptr)]).set i
        (some (SharedPtr.mk none Ptr.null))).countP (sharedRefersTo p) =
      l.countP (sharedRefersTo p) := by
  have hlt : i < l.length := by
    by_contra hge
    rw [List.getElem?_eq_none (by omega)] at ho
    simp at ho
  have hi : (l ++ [some (SharedPtr.mk o.control_block o.ptr)])[i]? = some (some o) := by
    rw [List.getElem?_append_left hlt]
    exact ho
  have h1 := countP_set_add (sharedRefersTo p)
    (l ++ [some (SharedPtr.mk o.control_block o.ptr)]) i
    (some (SharedPtr.mk none Ptr.null)) (some o) hi
  rw [countP_push] at h1
  simp only [sharedRefersTo_some, decide_eq_true_eq] at h1
  have h0 : ¬ ((none : Option Nat) = some p) := by simp
  rw [if_neg h0] at h1
  omega

theorem weakRefs_move {l : List (Option WeakPtr)} {i : Nat} {o : WeakPtr}
    (ho : l[i]? = some (some o)) (p : Nat) :
    ((l ++ [some (WeakPtr.mk o.control_block o.ptr)]).set i
        (some (WeakPtr.mk none Ptr.null))).countP (weakRefersTo p) =
      l.countP (weakRefersTo p) := by
  have hlt : i < l.length := by
    by_contra hge
    rw [List.getElem?_eq_none (by omega)] at ho
    simp at ho
  have hi : (l ++ [some (WeakPtr.mk o.control_block o.ptr)])[i]? = some (some o) := by
    rw [List.getElem?_append_left hlt]
    exact ho
  have h1 := countP_set_add (weakRefersTo p)
    (l ++ [some (WeakPtr.mk o.control_block o.ptr)]) i
    (some (WeakPtr.mk none Ptr.null)) (some o) hi
  rw [countP_push] at h1
  simp only [weakRefersTo_some, decide_eq_true_eq] at h1
  have h0 : ¬ ((none : Option Nat) = some p) := by simp
  rw [if_neg h0] at h1
  omega

/-! ## SharedPtr member functions preserve the invariant -/

theorem SharedPtr.ctor_copy_trans {s s' : State T} {other : Nat} (hinv : Inv s)
    (hlen : s.shared.length + 1 < SIZE_T_MOD)
    (h : SharedPtr.ctor_copy other s = some s') : Transition 0 1 0 s s' := by
  obtain ⟨o, ho, hsh, hwk, hheap⟩ := SharedPtr.ctor_copy_inv h
  rcases hheap with ⟨hnone, hh⟩ | ⟨cb, hcb, hinc⟩
  · refine trans_same_refs hinv ?_ (fun b => weakRefs_congr hwk b) hh ?_ ?_
    · intro b
      rw [sharedRefs_push hsh b]
      simp [hnone]
    · rw [hsh]; simp
    · rw [hwk]; omega
  · exact trans_shared_incr hinv hlen (x := ⟨o.control_block, o.ptr⟩) hcb
      (sharedRefs_pos ho hcb) hsh hwk hinc

theorem SharedPtr.ctor_move_trans {s s' : State T} {other : Nat} (hinv : Inv s)
    (h : SharedPtr.ctor_move other s = some s') : Transition 0 1 0 s s' := by
  obtain ⟨o, ho, hsh, hwk, hheap⟩ := SharedPtr.ctor_move_inv h
  refine trans_same_refs hinv ?_ (fun b => weakRefs_congr hwk b) hheap ?_ ?_
  · intro b
    unfold sharedRefs
    rw [hsh]
    exact sharedRefs_move (getShared_eq_some.mp ho) b
  · rw [hsh]; simp
  · rw [hwk]; omega

theorem SharedPtr.swap_trans {s s' : State T} {this other : Nat} (hinv : Inv s)
    (h : SharedPtr.swap this other s = some s') : Transition 0 0 0 s s' := by
  obtain ⟨a, b, ha, hb, hsh, hwk, hheap⟩ := SharedPtr.swap_inv h
  refine trans_same_refs hinv ?_ (fun b => weakRefs_congr hwk b) hheap ?_ ?_
  · intro p
    unfold sharedRefs
    rw [hsh]
    exact sharedRefs_swap (getShared_eq_some.mp ha) (getShared_eq_some.mp hb) p
  · rw [hsh]; simp
  · rw [hwk]; omega

theorem SharedPtr.dtor_trans {s s' : State T} {this : Nat} (hinv : Inv s)
    (hlen : s.shared.length < SIZE_T_MOD)
    (h : SharedPtr.dtor this s = some s') : Transition 1 0 0 s s' := by
  obtain ⟨a, ha, hsh, hwk, hheap⟩ := SharedPtr.dtor_inv h
  rcases hheap with ⟨hnone, hh⟩ | ⟨cb, hcb, hrel⟩
  · refine (trans_same_refs (n := 0) (m := 0) hinv ?_ (fun b => weakRefs_congr hwk b) hh
      ?_ ?_).mono (by omega) (le_refl _) (le_refl _)
    · intro b
      have := sharedRefs_set ha hsh b
      simpa [sharedRefersTo, hnone] using this
    · rw [hsh]; simp
    · rw [hwk]; omega
  · exact trans_shared_release hinv hlen ha hcb hsh hwk hrel

theorem SharedPtr.assign_trans {s s' : State T} {this other : Nat} (hinv : Inv s)
    (hlen : s.shared.length + 1 < SIZE_T_MOD)
    (h : SharedPtr.assign this other s = some s') : Transition 1 1 0 s s' := by
  unfold SharedPtr.assign at h
  simp only [Option.bind_eq_bind, Option.bind_eq_some] at h
  obtain ⟨_, _, s1, h1, s2, h2, h3⟩ := h
  have t1 := SharedPtr.ctor_copy_trans hinv hlen h1
  have t2 := SharedPtr.swap_trans t1.inv h2
  have hl1 := t1.shared_len
  have hl2 := t2.shared_len
  have t3 := SharedPtr.dtor_trans t2.inv (by omega) h3
  exact ((t1.comp t2).comp t3).mono (by omega) (by omega) (by omega)

theorem SharedPtr.assign_move_trans {s s' : State T} {this other : Nat} (hinv : Inv s)
    (hlen : s.shared.length + 1 < SIZE_T_MOD)
    (h : SharedPtr.assign_move this other s = some s') : Transition 1 1 0 s s' := by
  unfold SharedPtr.assign_move at h
  simp only [Option.bind_eq_bind, Option.bind_eq_some] at h
  obtain ⟨_, _, s1, h1, s2, h2, h3⟩ := h
  have t1 := SharedPtr.ctor_move_trans hinv h1
  have t2 := SharedPtr.swap_trans t1.inv h2
  have hl1 := t1.shared_len
  have hl2 := t2.shared_len
  have t3 := SharedPtr.dtor_trans t2.inv (by omega) h3
  exact ((t1.comp t2).comp t3).mono (by omega) (by omega) (by omega)

theorem SharedPtr.reset_trans {s s' : State T} {this : Nat} (hinv : Inv s)
    (hlen : s.shared.length + 1 < SIZE_T_MOD)
    (h : SharedPtr.reset this s = some s') : Transition 1 1 0 s s' := by
  unfold SharedPtr.reset at h
  simp only [Option.bind_eq_bind, Option.bind_eq_some] at h
  obtain ⟨_, _, s1, h1, s2, h2, h3⟩ := h
  have t1 := SharedPtr.ctor_default_trans hinv h1
  have t2 := SharedPtr.swap_trans t1.inv h2
  have hl1 := t1.shared_len
  have hl2 := t2.shared_len
  have t3 := SharedPtr.dtor_trans t2.inv (by omega) h3
  exact ((t1.comp t2).comp t3).mono (by omega) (by omega) (by omega)

theorem SharedPtr.reset_ptr_trans {s s' : State T} {this : Nat} {p : Ptr} (hinv : Inv s)
    (hlen : s.shared.length + 1 < SIZE_T_MOD)
    (h : SharedPtr.reset_ptr this p s = some s') : Transition 1 1 0 s s' := by
  unfold SharedPtr.reset_ptr at h
  simp only [Option.bind_eq_bind, Option.bind_eq_some] at h
  obtain ⟨_, _, s1, h1, s2, h2, h3⟩ := h
  have t1 := SharedPtr.ctor_raw_trans hinv h1
  have t2 := SharedPtr.swap_trans t1.inv h2
  have hl1 := t1.shared_len
  have hl2 := t2.shared_len
  have t3 := SharedPtr.dtor_trans t2.inv (by omega) h3
  exact ((t1.comp t2).comp t3).mono (by omega) (by omega) (by omega)

/-! ## WeakPtr member functions -/

theorem WeakPtr.ctor_shared_inv {s s' : State T} {shared_ptr : Nat}
    (h : WeakPtr.ctor_shared shared_ptr s = some s') :
    ∃ o cb, s.getShared shared_ptr = some o ∧ o.control_block = some cb ∧
      s'.weak = s.weak ++ [some (WeakPtr.mk (some cb) o.ptr)] ∧ s'.shared = s.shared ∧
      weak_increment cb s.heap = some s'.heap := by
  unfold WeakPtr.ctor_shared at h
  cases ho : s.getShared shared_ptr with
  | none => rw [ho] at h; simp at h
  | some o =>
    rw [ho] at h
    simp only [Option.bind_eq_bind, Option.some_bind] at h
    cases hcb : o.control_block with
    | none => rw [hcb] at h; simp at h
    | some cb =>
      rw [hcb] at h
      rw [Option.some_bind] at h
      cases hi : weak_increment cb (s.pushWeak ⟨some cb, o.ptr⟩).heap with
      | none => rw [hi] at h; simp at h
      | some h1 =>
        rw [hi] at h
        rw [Option.some_bind] at h
        injection h with h
        subst h
        exact ⟨o, cb, rfl, hcb, rfl, rfl, hi⟩

theorem WeakPtr.weak_ctor_copy_inv {s s' : State T} {other : Nat}
    (h : WeakPtr.ctor_copy other s = some s') :
    ∃ o cb, s.getWeak other = some o ∧ o.control_block = some cb ∧
      s'.weak = s.weak ++ [some (WeakPtr.mk (some cb) o.ptr)] ∧ s'.shared = s.shared ∧
      weak_increment cb s.heap = some s'.heap := by
  unfold WeakPtr.ctor_copy at h
  cases ho : s.getWeak other with
  | none => rw [ho] at h; simp at h
  | some o =>
    rw [ho] at h
    simp only [Option.bind_eq_bind, Option.some_bind] at h
    cases hcb : o.control_block with
    | none => rw [hcb] at h; simp at h
    | some cb =>
      rw [hcb] at h
      rw [Option.some_bind] at h
      cases hi : weak_increment cb (s.pushWeak ⟨some cb, o.ptr⟩).heap with
      | none => rw [hi] at h; simp at h
      | some h1 =>
        rw [hi] at h
        rw [Option.some_bind] at h
        injection h with h
        subst h
        exact ⟨o, cb, rfl, hcb, rfl, rfl, hi⟩

theorem WeakPtr.weak_ctor_move_inv {s s' : State T} {other : Nat}
    (h : WeakPtr.ctor_move other s = some s') :
    ∃ o, s.getWeak other = some o ∧
      s'.weak = (s.weak ++ [some (WeakPtr.mk o.control_block o.ptr)]).set other
        (some (WeakPtr.mk none Ptr.null)) ∧
      s'.shared = s.shared ∧ s'.heap = s.heap := by
  unfold WeakPtr.ctor_move at h
  cases ho : s.getWeak other with
  | none => rw [ho] at h; simp at h
  | some o =>
    rw [ho] at h
    simp only [Option.bind_eq_bind, Option.some_bind] at h
    injection h with h
    subst h
    exact ⟨o, rfl, rfl, rfl, rfl⟩

theorem WeakPtr.weak_dtor_inv {s s' : State T} {this : Nat}
    (h : WeakPtr.dtor this s = some s') :
    ∃ a, s.getWeak this = some a ∧ s'.weak = s.weak.set this none ∧ s'.shared = s.shared ∧
      ((a.control_block = none ∧ s'.heap = s.heap) ∨
        (∃ cb, a.control_block = some cb ∧ weak_release cb s.heap = some s'.heap)) := by
  unfold WeakPtr.dtor at h
  cases ho : s.getWeak this with
  | none => rw [ho] at h; simp at h
  | some a =>
    rw [ho] at h
    simp only [Option.bind_eq_bind, Option.some_bind] at h
    refine ⟨a, rfl, ?_⟩
    cases hcb : a.control_block with
    | none =>
      rw [hcb] at h
      dsimp only at h
      injection h with h
      subst h
      exact ⟨rfl, rfl, Or.inl ⟨rfl, rfl⟩⟩
    | some cb =>
      rw [hcb] at h
      dsimp only at h
      cases hi : weak_release cb s.heap with
      | none => rw [hi] at h; simp at h
      | some h1 =>
        rw [hi] at h
        rw [Option.some_bind] at h
        injection h with h
        subst h
        exact ⟨rfl, rfl, Or.inr ⟨cb, rfl, hi⟩⟩

theorem WeakPtr.weak_swap_inv {s s' : State T} {this other : Nat}
    (h : WeakPtr.swap this other s = some s') :
    ∃ a b, s.getWeak this = some a ∧ s.getWeak other = some b ∧
      s'.weak = (s.weak.set this (some b)).set other (some a) ∧
      s'.shared = s.shared ∧ s'.heap = s.heap := by
  unfold WeakPtr.swap at h
  cases ha : s.getWeak this with
  | none => rw [ha] at h; simp at h
  | some a =>
    cases hb : s.getWeak other with
    | none => rw [ha, hb] at h; simp at h
    | some b =>
      rw [ha, hb] at h
      simp only [Option.bind_eq_bind, Option.some_bind] at h
      injection h with h
      subst h
      exact ⟨a, b, rfl, rfl, rfl, rfl, rfl⟩

theorem WeakPtr.weak_ctor_default_trans {s s' : State T} (hinv : Inv s)
    (h : WeakPtr.ctor_default s = some s') : Transition 0 0 1 s s' := by
  unfold WeakPtr.ctor_default at h
  injection h with h
  subst h
  refine trans_same_refs hinv (fun b => sharedRefs_congr rfl b) ?_ rfl ?_ ?_
  · intro b
    rw [weakRefs_push (s := s) (x := ⟨none, .null⟩) rfl b]
    simp
  · simp [State.pushWeak]
  · simp [State.pushWeak]

theorem WeakPtr.ctor_shared_trans {s s' : State T} {shared_ptr : Nat} (hinv : Inv s)
    (hlen : s.weak.length + 1 < SIZE_T_MOD)
    (h : WeakPtr.ctor_shared shared_ptr s = some s') : Transition 0 0 1 s s' := by
  obtain ⟨o, cb, ho, hcb, hwk, hsh, hinc⟩ := WeakPtr.ctor_shared_inv h
  have hpos := sharedRefs_pos ho hcb
  exact trans_weak_incr hinv hlen (x := ⟨some cb, o.ptr⟩) rfl (by omega) hwk hsh hinc

theorem WeakPtr.weak_ctor_copy_trans {s s' : State T} {other : Nat} (hinv : Inv s)
    (hlen : s.weak.length + 1 < SIZE_T_MOD)
    (h : WeakPtr.ctor_copy other s = some s') : Transition 0 0 1 s s' := by
  obtain ⟨o, cb, ho, hcb, hwk, hsh, hinc⟩ := WeakPtr.weak_ctor_copy_inv h
  have hpos := weakRefs_pos ho hcb
  exact trans_weak_incr hinv hlen (x := ⟨some cb, o.ptr⟩) rfl (by omega) hwk hsh hinc

theorem WeakPtr.weak_ctor_move_trans {s s' : State T} {other : Nat} (hinv : Inv s)
    (h : WeakPtr.ctor_move other s = some s') : Transition 0 0 1 s s' := by
  obtain ⟨o, ho, hwk, hsh, hheap⟩ := WeakPtr.weak_ctor_move_inv h
  refine trans_same_refs hinv (fun b => sharedRefs_congr hsh b) ?_ hheap ?_ ?_
  · intro b
    unfold weakRefs
    rw [hwk]
    exact weakRefs_move (getWeak_eq_some.mp ho) b
  · rw [hsh]; omega
  · rw [hwk]; simp

theorem WeakPtr.weak_swap_trans {s s' : State T} {this other : Nat} (hinv : Inv s)
    (h : WeakPtr.swap this other s = some s') : Transition 0 0 0 s s' := by
  obtain ⟨a, b, ha, hb, hwk, hsh, hheap⟩ := WeakPtr.weak_swap_inv h
  refine trans_same_refs hinv (fun b => sharedRefs_congr hsh b) ?_ hheap ?_ ?_
  · intro p
    unfold weakRefs
    rw [hwk]
    exact weakRefs_swap (getWeak_eq_some.mp ha) (getWeak_eq_some.mp hb) p
  · rw [hsh]; omega
  · rw [hwk]; simp

theorem WeakPtr.weak_dtor_trans {s s' : State T} {this : Nat} (hinv : Inv s)
    (hlen : s.weak.length < SIZE_T_MOD)
    (h : WeakPtr.dtor this s = some s') : Transition 1 0 0 s s' := by
  obtain ⟨a, ha, hwk, hsh, hheap⟩ := WeakPtr.weak_dtor_inv h
  rcases hheap with ⟨hnone, hh⟩ | ⟨cb, hcb, hrel⟩
  · refine (trans_same_refs (n := 0) (m := 0) hinv (fun b => sharedRefs_congr hsh b) ?_ hh
      ?_ ?_).mono (by omega) (le_refl _) (le_refl _)
    · intro b
      have := weakRefs_set ha hwk b
      simpa [weakRefersTo, hnone] using this
    · rw [hsh]; omega
    · rw [hwk]; simp
  · exact trans_weak_release hinv hlen ha hcb hwk hsh hrel

theorem WeakPtr.weak_assign_trans {s s' : State T} {this arg : Nat} (hinv : Inv s)
    (hlen : s.weak.length + 1 < SIZE_T_MOD)
    (h : WeakPtr.assign this arg s = some s') : Transition 1 0 1 s s' := by
  unfold WeakPtr.assign at h
  simp only [Option.bind_eq_bind, Option.bind_eq_some] at h
  obtain ⟨_, _, s1, h1, s2, h2, h3⟩ := h
  have t1 := WeakPtr.weak_ctor_copy_trans hinv hlen h1
  have t2 := WeakPtr.weak_swap_trans t1.inv h2
  have hl1 := t1.weak_len
  have hl2 := t2.weak_len
  have t3 := WeakPtr.weak_dtor_trans t2.inv (by omega) h3
  exact ((t1.comp t2).comp t3).mono (by omega) (by omega) (by omega)

theorem WeakPtr.weak_assign_move_trans {s s' : State T} {this other : Nat} (hinv : Inv s)
    (hlen : s.weak.length + 1 < SIZE_T_MOD)
    (h : WeakPtr.assign_move this other s = some s') : Transition 1 0 1 s s' := by
  unfold WeakPtr.assign_move at h
  simp only [Option.bind_eq_bind, Option.bind_eq_some] at h
  obtain ⟨_, _, s1, h1, s2, h2, h3⟩ := h
  have t1 := WeakPtr.weak_ctor_move_trans hinv h1
  have t2 := WeakPtr.weak_swap_trans t1.inv h2
  have hl1 := t1.weak_len
  have hl2 := t2.weak_len
  have t3 := WeakPtr.weak_dtor_trans t2.inv (by omega) h3
  exact ((t1.comp t2).comp t3).mono (by omega) (by omega) (by omega)

theorem WeakPtr.assign_shared_trans {s s' : State T} {this shared_ptr : Nat} (hinv : Inv s)
    (hlen : s.weak.length + 1 < SIZE_T_MOD)
    (h : WeakPtr.assign_shared this shared_ptr s = some s') : Transition 1 0 1 s s' := by
  unfold WeakPtr.assign_shared at h
  simp only [Option.bind_eq_bind, Option.bind_eq_some] at h
  obtain ⟨_, _, s1, h1, s2, h2, h3⟩ := h
  have t1 := WeakPtr.ctor_shared_trans hinv hlen h1
  have t2 := WeakPtr.weak_swap_trans t1.inv h2
  have hl1 := t1.weak_len
  have hl2 := t2.weak_len
  have t3 := WeakPtr.weak_dtor_trans t2.inv (by omega) h3
  exact ((t1.comp t2).comp t3).mono (by omega) (by omega) (by omega)

/-! ## expired and lock -/

theorem WeakPtr.expired_inv {s : State T} {this : Nat} {e : Bool}
    (h : WeakPtr.expired this s = some e) :
    ∃ w, s.getWeak this = some w ∧
      ((w.control_block = none ∧ e = false) ∨
        (∃ cb c, w.control_block = some cb ∧ s.heap.read cb = some c ∧
          e = decide (c.shared_count = 0))) := by
  unfold WeakPtr.expired at h
  cases ho : s.getWeak this with
  | none => rw [ho] at h; simp at h
  | some w =>
    rw [ho] at h
    simp only [Option.bind_eq_bind, Option.some_bind] at h
    refine ⟨w, rfl, ?_⟩
    cases hcb : w.control_block with
    | none =>
      rw [hcb] at h
      injection h with h
      exact Or.inl ⟨rfl, h.symm⟩
    | some cb =>
      rw [hcb] at h
      dsimp only at h
      cases hc : s.heap.read cb with
      | none => rw [hc] at h; simp at h
      | some c =>
        rw [hc] at h
        rw [Option.some_bind] at h
        injection h with h
        exact Or.inr ⟨cb, c, rfl, hc, h.symm⟩

theorem WeakPtr.lock_trans {s s' : State T} {this : Nat} (hinv : Inv s)
    (hlen : s.shared.length + 1 < SIZE_T_MOD)
    (h : WeakPtr.lock this s = some s') : Transition 0 1 0 s s' := by
  unfold WeakPtr.lock at h
  simp only [Option.bind_eq_bind, Option.bind_eq_some] at h
  obtain ⟨e, he, h⟩ := h
  cases e with
  | true =>
    simp only [if_true] at h
    exact SharedPtr.ctor_default_trans hinv h
  | false =>
    simp only [Bool.false_eq_true, if_false] at h
    obtain ⟨w, cb, hw, hcb, hsh, hwk, hinc⟩ := SharedPtr.ctor_weak_inv h
    obtain ⟨w', hw', hcase⟩ := WeakPtr.expired_inv he
    rw [hw] at hw'
    injection hw' with hw'
    subst hw'
    rcases hcase with ⟨hnone, _⟩ | ⟨cb', c, hcb', hc, hdec⟩
    · rw [hcb] at hnone; simp at hnone
    · rw [hcb] at hcb'
      injection hcb' with hcb'
      subst hcb'
      obtain ⟨c', hc', hsc, _⟩ := hinv.read_weak hw hcb
      rw [hc] at hc'
      injection hc' with hc'
      subst hc'
      have hne : c.shared_count ≠ 0 := by
        intro h0
        rw [h0] at hdec
        simp at hdec
      exact trans_shared_incr hinv hlen (x := ⟨some cb, w.ptr⟩) rfl (by omega) hsh hwk hinc

/-! ## Every call preserves the invariant -/

theorem step_trans {s s' : State T} {op : Op T} (hinv : Inv s)
    (hlen : s.shared.length + 1 < SIZE_T_MOD) (hlenw : s.weak.length + 1 < SIZE_T_MOD)
    (h : step op s = some s') : Transition 1 1 1 s s' := by
  cases op with
  | shared_default =>
    exact (SharedPtr.ctor_default_trans hinv h).mono (by omega) (by omega) (by omega)
  | shared_raw p del alloc =>
    exact (SharedPtr.ctor_raw_trans hinv h).mono (by omega) (by omega) (by omega)
  | shared_raw_del p del =>
    exact (SharedPtr.ctor_raw_trans hinv h).mono (by omega) (by omega) (by omega)
  | shared_raw_ptr p =>
    exact (SharedPtr.ctor_raw_trans hinv h).mono (by omega) (by omega) (by omega)
  | allocate_shared alloc payload =>
    simp only [step] at h
    injection h with h
    subst h
    exact (allocateShared_trans hinv).mono (by omega) (by omega) (by omega)
  | make_shared payload =>
    simp only [step, makeShared] at h
    injection h with h
    subst h
    exact (allocateShared_trans hinv).mono (by omega) (by omega) (by omega)
  | shared_copy other =>
    exact (SharedPtr.ctor_copy_trans hinv hlen h).mono (by omega) (by omega) (by omega)
  | shared_move other =>
    exact (SharedPtr.ctor_move_trans hinv h).mono (by omega) (by omega) (by omega)
  | shared_assign this other =>
    exact (SharedPtr.assign_trans hinv hlen h).mono (by omega) (by omega) (by omega)
  | shared_assign_move this other =>
    exact (SharedPtr.assign_move_trans hinv hlen h).mono (by omega) (by omega) (by omega)
  | shared_reset this =>
    exact (SharedPtr.reset_trans hinv hlen h).mono (by omega) (by omega) (by omega)
  | shared_reset_ptr this p =>
    exact (SharedPtr.reset_ptr_trans hinv hlen h).mono (by omega) (by omega) (by omega)
  | shared_swap this other =>
    exact (SharedPtr.swap_trans hinv h).mono (by omega) (by omega) (by omega)
  | shared_dtor this =>
    exact (SharedPtr.dtor_trans hinv (by omega) h).mono (by omega) (by omega) (by omega)
  | weak_default =>
    exact (WeakPtr.weak_ctor_default_trans hinv h).mono (by omega) (by omega) (by omega)
  | weak_shared shared_ptr =>
    exact (WeakPtr.ctor_shared_trans hinv hlenw h).mono (by omega) (by omega) (by omega)
  | weak_copy other =>
    exact (WeakPtr.weak_ctor_copy_trans hinv hlenw h).mono (by omega) (by omega) (by omega)
  | weak_move other =>
    exact (WeakPtr.weak_ctor_move_trans hinv h).mono (by omega) (by omega) (by omega)
  | weak_assign this other =>
    exact (WeakPtr.weak_assign_trans hinv hlenw h).mono (by omega) (by omega) (by omega)
  | weak_assign_move this other =>
    exact (WeakPtr.weak_assign_move_trans hinv hlenw h).mono (by omega) (by omega) (by omega)
  | weak_assign_shared this shared_ptr =>
    exact (WeakPtr.assign_shared_trans hinv hlenw h).mono (by omega) (by omega) (by omega)
  | weak_swap this other =>
    exact (WeakPtr.weak_swap_trans hinv h).mono (by omega) (by omega) (by omega)
  | weak_dtor this =>
    exact (WeakPtr.weak_dtor_trans hinv (by omega) h).mono (by omega) (by omega) (by omega)
  | weak_lock this =>
    exact (WeakPtr.lock_trans hinv hlen h).mono (by omega) (by omega) (by omega)

theorem Inv.init : Inv (State.init : State T) := by
  intro b
  unfold BlockOK
  have : (State.init : State T).heap.read b = none := by
    simp [State.init, Heap.read]
  rw [this]
  simp [State.init, sharedRefs, weakRefs, Heap.disposeCount, Heap.releaseCount]

theorem run_inv (ops : List (Op T)) : ∀ (s s' : State T), Inv s →
    s.shared.length + ops.length < SIZE_T_MOD → s.weak.length + ops.length < SIZE_T_MOD →
    run ops s = some s' →
    Inv s' ∧ s'.shared.length ≤ s.shared.length + ops.length ∧
      s'.weak.length ≤ s.weak.length + ops.length := by
  induction ops with
  | nil =>
    intro s s' hinv _ _ h
    simp only [run] at h
    injection h with h
    subst h
    exact ⟨hinv, by simp, by simp⟩
  | cons op ops ih =>
    intro s s' hinv hl hlw h
    simp only [run, Option.bind_eq_some] at h
    obtain ⟨s1, h1, h2⟩ := h
    simp only [List.length_cons] at hl hlw ⊢
    have t := step_trans hinv (by omega) (by omega) h1
    have tl := t.shared_len
    have tlw := t.weak_len
    obtain ⟨hi, hsl, hwl⟩ := ih s1 s' t.inv (by omega) (by omega) h2
    exact ⟨hi, by omega, by omega⟩

theorem Reachable.inv {s : State T} (h : Reachable s) : Inv s := by
  obtain ⟨ops, hlen, hrun⟩ := h
  exact (run_inv ops State.init s Inv.init (by simpa [State.init] using hlen)
    (by simpa [State.init] using hlen) hrun).1

/-- A call made in a state reached with `ops` is a transition. -/
theorem step_of_run {ops : List (Op T)} {op : Op T} {s s' : State T}
    (hlen : ops.length + 1 < SIZE_T_MOD) (hrun : run ops State.init = some s)
    (hstep : step op s = some s') : Transition 1 1 1 s s' := by
  obtain ⟨hinv, hl, hlw⟩ := run_inv ops State.init s Inv.init
    (by simp only [State.init, List.length_nil]; omega)
    (by simp only [State.init, List.length_nil]; omega) hrun
  simp only [State.init, List.length_nil] at hl hlw
  exact step_trans hinv (by omega) (by omega) hstep

/-! ## The SharedPtr operations are defined on live handles -/

theorem getElem?_set_same {α : Type} {l : List α} {i : Nat} (x : α) (h : i < l.length) :
    (l.set i x)[i]? = some x := by
  rw [List.getElem?_set]
  simp [h]

theorem getShared_push_old {s s' : State T} {x : SharedPtr} {i : Nat} {a : SharedPtr}
    (h : s'.shared = s.shared ++ [some x]) (ha : s.getShared i = some a) :
    s'.getShared i = some a := by
  rw [getShared_eq_some] at ha ⊢
  have hlt : i < s.shared.length := by
    by_contra hge
    rw [List.getElem?_eq_none (by omega)] at ha
    simp at ha
  rw [h, List.getElem?_append_left hlt]
  exact ha

theorem getShared_push_new {s s' : State T} {x : SharedPtr}
    (h : s'.shared = s.shared ++ [some x]) : s'.getShared s.shared.length = some x := by
  rw [getShared_eq_some, h]
  simp

theorem getShared_lt {s : State T} {i : Nat} {a : SharedPtr} (ha : s.getShared i = some a) :
    i < s.shared.length := by
  rw [getShared_eq_some] at ha
  by_contra hge
  rw [List.getElem?_eq_none (by omega)] at ha
  simp at ha

theorem getShared_set {s s' : State T} {i j : Nat} {x a : SharedPtr}
    (h : s'.shared = s.shared.set i (some x)) (ha : s.getShared j = some a) :
    ∃ a', s'.getShared j = some a' := by
  have hlt := getShared_lt ha
  rw [getShared_eq_some] at ha
  by_cases hij : i = j
  · subst hij
    exact ⟨x, by rw [getShared_eq_some, h]; simp [hlt]⟩
  · exact ⟨a, by rw [getShared_eq_some, h, List.getElem?_set_ne hij]; exact ha⟩

theorem SharedPtr.ctor_copy_defined {s : State T} {i : Nat} {a : SharedPtr} (hinv : Inv s)
    (ha : s.getShared i = some a) : ∃ s', SharedPtr.ctor_copy i s = some s' := by
  unfold SharedPtr.ctor_copy
  rw [ha]
  simp only [Option.bind_eq_bind, Option.some_bind]
  cases hcb : a.control_block with
  | none => exact ⟨_, rfl⟩
  | some cb =>
    obtain ⟨c, hc, _, _⟩ := hinv.read_shared ha hcb
    dsimp only
    have : shared_increment cb (s.pushShared ⟨some cb, a.ptr⟩).heap
        = some (s.heap.write cb { c with shared_count := incr c.shared_count }) :=
      shared_increment_eq hc
    rw [this]
    exact ⟨_, rfl⟩

theorem SharedPtr.ctor_move_defined {s : State T} {i : Nat} {a : SharedPtr}
    (ha : s.getShared i = some a) : ∃ s', SharedPtr.ctor_move i s = some s' := by
  unfold SharedPtr.ctor_move
  rw [ha]
  exact ⟨_, rfl⟩

theorem SharedPtr.swap_defined {s : State T} {i j : Nat} {a b : SharedPtr}
    (ha : s.getShared i = some a) (hb : s.getShared j = some b) :
    ∃ s', SharedPtr.swap i j s = some s' := by
  unfold SharedPtr.swap
  rw [ha, hb]
  exact ⟨_, rfl⟩

theorem SharedPtr.dtor_defined {s : State T} {i : Nat} {a : SharedPtr} (hinv : Inv s)
    (ha : s.getShared i = some a) : ∃ s', SharedPtr.dtor i s = some s' := by
  unfold SharedPtr.dtor
  rw [ha]
  simp only [Option.bind_eq_bind, Option.some_bind]
  cases hcb : a.control_block with
  | none => exact ⟨_, rfl⟩
  | some cb =>
    obtain ⟨c, hc, _, _⟩ := hinv.read_shared ha hcb
    dsimp only
    rw [shared_release_eq hc]
    exact ⟨_, rfl⟩

/-- After a temporary has been constructed in the next free slot, swapping it
with a live handle and destroying it is defined. -/
theorem swap_dtor_defined {s s1 : State T} {this : Nat} {a x : SharedPtr} (hinv1 : Inv s1)
    (hthis : s1.getShared this = some a) (htmp : s1.getShared s.shared.length = some x) :
    ∃ s2 s3, SharedPtr.swap s.shared.length this s1 = some s2 ∧
      SharedPtr.dtor s.shared.length s2 = some s3 := by
  obtain ⟨s2, h2⟩ := SharedPtr.swap_defined htmp hthis
  have t2 := SharedPtr.swap_trans hinv1 h2
  obtain ⟨p, q, hp, hq, hsh, _, _⟩ := SharedPtr.swap_inv h2
  have hlt := getShared_lt htmp
  have hlive : ∃ y, s2.getShared s.shared.length = some y := by
    by_cases hij : this = s.shared.length
    · exact ⟨p, by rw [getShared_eq_some, hsh, hij]; simp [hlt]⟩
    · refine ⟨q, ?_⟩
      rw [getShared_eq_some, hsh, List.getElem?_set_ne hij]
      simp [hlt]
  obtain ⟨y, hy⟩ := hlive
  obtain ⟨s3, h3⟩ := SharedPtr.dtor_defined t2.inv hy
  exact ⟨s2, s3, h2, h3⟩

theorem SharedPtr.assign_defined {s : State T} {this other : Nat} {a b : SharedPtr}
    (hinv : Inv s) (hlen : s.shared.length + 1 < SIZE_T_MOD)
    (ha : s.getShared this = some a) (hb : s.getShared other = some b) :
    ∃ s', SharedPtr.assign this other s = some s' := by
  obtain ⟨s1, h1⟩ := SharedPtr.ctor_copy_defined hinv hb
  have t1 := SharedPtr.ctor_copy_trans hinv hlen h1
  obtain ⟨o, _, hsh, _, _⟩ := SharedPtr.ctor_copy_inv h1
  obtain ⟨s2, h2⟩ := SharedPtr.swap_defined (getShared_push_old hsh ha) (getShared_push_new hsh)
  have t2 := SharedPtr.swap_trans t1.inv h2
  obtain ⟨p, q, hp, hq, hsh2, _, _⟩ := SharedPtr.swap_inv h2
  have hlt : s.shared.length < (s1.shared.set this (some q)).length := by
    rw [List.length_set, hsh]
    simp
  have hy : s2.getShared s.shared.length = some p := by
    rw [getShared_eq_some, hsh2]
    exact getElem?_set_same _ hlt
  obtain ⟨s3, h3⟩ := SharedPtr.dtor_defined t2.inv hy
  refine ⟨s3, ?_⟩
  unfold SharedPtr.assign
  rw [ha]
  simp only [Option.bind_eq_bind, Option.some_bind]
  rw [h1, Option.some_bind, h2, Option.some_bind, h3]

theorem SharedPtr.assign_move_defined {s : State T} {this other : Nat} {a b : SharedPtr}
    (hinv : Inv s) (ha : s.getShared this = some a) (hb : s.getShared other = some b) :
    ∃ s', SharedPtr.assign_move this other s = some s' := by
  obtain ⟨s1, h1⟩ := SharedPtr.ctor_move_defined (s := s) hb
  have t1 := SharedPtr.ctor_move_trans hinv h1
  obtain ⟨o, ho, hsh, _, _⟩ := SharedPtr.ctor_move_inv h1
  have hother := getShared_lt hb
  have hthis := getShared_lt ha
  have htmp : s1.getShared s.shared.length = some ⟨o.control_block, o.ptr⟩ := by
    rw [getShared_eq_some, hsh, List.getElem?_set_ne (by omega)]
    simp
  have hlive : ∃ a', s1.getShared this = some a' := by
    by_cases hij : other = this
    · refine ⟨⟨none, .null⟩, ?_⟩
      rw [getShared_eq_some, hsh, hij]
      exact getElem?_set_same _ (by simp; omega)
    · refine ⟨a, ?_⟩
      rw [getShared_eq_some, hsh, List.getElem?_set_ne hij, List.getElem?_append_left hthis]
      exact getShared_eq_some.mp ha
  obtain ⟨a', ha'⟩ := hlive
  obtain ⟨s2, s3, h2, h3⟩ := swap_dtor_defined (s := s) t1.inv ha' htmp
  refine ⟨s3, ?_⟩
  unfold SharedPtr.assign_move
  rw [ha]
  simp only [Option.bind_eq_bind, Option.some_bind]
  rw [h1, Option.some_bind, h2, Option.some_bind, h3]

theorem SharedPtr.reset_defined {s : State T} {this : Nat} {a : SharedPtr}
    (hinv : Inv s) (ha : s.getShared this = some a) :
    ∃ s', SharedPtr.reset this s = some s' := by
  have h1 : SharedPtr.ctor_default s = some (s.pushShared ⟨none, .null⟩) := rfl
  have t1 := SharedPtr.ctor_default_trans hinv h1
  have hsh : (s.pushShared ⟨none, .null⟩).shared = s.shared ++ [some ⟨none, .null⟩] := rfl
  obtain ⟨s2, s3, h2, h3⟩ := swap_dtor_defined (s := s) t1.inv (getShared_push_old hsh ha)
    (getShared_push_new hsh)
  refine ⟨s3, ?_⟩
  unfold SharedPtr.reset
  rw [ha]
  simp only [Option.bind_eq_bind, Option.some_bind]
  rw [h1, Option.some_bind, h2, Option.some_bind, h3]

/-- In a state reached through `run` every `SharedPtr` operation on live
handles is defined: copy and move construction, both assignments, `reset()`,
`swap` and destruction. -/
theorem shared_operations_defined (ops : List (Op T)) (s : State T) (i j : Nat)
    (a b : SharedPtr) (hlen : ops.length + 1 < SIZE_T_MOD)
    (hrun : run ops State.init = some s) (ha : s.getShared i = some a)
    (hb : s.getShared j = some b) :
    (∃ s', step (.shared_copy i) s = some s') ∧ (∃ s', step (.shared_move i) s = some s') ∧
    (∃ s', step (.shared_assign i j) s = some s') ∧
    (∃ s', step (.shared_assign_move i j) s = some s') ∧
    (∃ s', step (.shared_reset i) s = some s') ∧
    (∃ s', step (.shared_swap i j) s = some s') ∧
    (∃ s', step (.shared_dtor i) s = some s') := by
  obtain ⟨hinv, hl, _⟩ := run_inv ops State.init s Inv.init
    (by simp only [State.init, List.length_nil]; omega)
    (by simp only [State.init, List.length_nil]; omega) hrun
  simp only [State.init, List.length_nil] at hl
  exact ⟨SharedPtr.ctor_copy_defined hinv ha, SharedPtr.ctor_move_defined ha,
    SharedPtr.assign_defined hinv (by omega) ha hb, SharedPtr.assign_move_defined hinv ha hb,
    SharedPtr.reset_defined hinv ha, SharedPtr.swap_defined ha hb,
    SharedPtr.dtor_defined hinv ha⟩

/-! ## Properties of the specification -/

theorem Inv.block {s : State T} (hinv : Inv s) {b : Nat} {c : BaseControlBlock T}
    (hc : s.heap.read b = some c) :
    c.shared_count = sharedRefs s b ∧ c.weak_count = weakRefs s b ∧
      s.heap.disposeCount b = (if sharedRefs s b = 0 then 1 else 0) ∧
      s.heap.releaseCount b = (if sharedRefs s b = 0 ∧ weakRefs s b = 0 then 1 else 0) := by
  have h := hinv b
  unfold BlockOK at h
  rw [hc] at h
  exact h

theorem Transition.dispose_mono {k n m : Nat} {s s' : State T} (t : Transition k n m s s')
    (b : Nat) :
    s.heap.disposeCount b ≤ s'.heap.disposeCount b := by
  obtain ⟨tr, htr⟩ := t.trace_ext
  unfold Heap.disposeCount
  rw [htr, List.countP_append]
  omega

theorem Transition.release_mono {k n m : Nat} {s s' : State T} (t : Transition k n m s s')
    (b : Nat) :
    s.heap.releaseCount b ≤ s'.heap.releaseCount b := by
  obtain ⟨tr, htr⟩ := t.trace_ext
  unfold Heap.releaseCount
  rw [htr, List.countP_append]
  omega

theorem run_init_inv {ops : List (Op T)} {s : State T} (hlen : ops.length < SIZE_T_MOD)
    (hrun : run ops State.init = some s) : Inv s :=
  Reachable.inv ⟨ops, hlen, hrun⟩

/-- Restricted form of C1, for programs that call only the functions written in
the source (`run`), so without assignment from a `const` operand: in a state
`s` reached by such a program, for a constructed control block `b` and any
further call leading to `s'`: `dispose` has run at most once (it has run in `s`
exactly when no owning handle of `b` is left, and likewise in `s'`), the call
runs `dispose` of `b` if and only if the number of live non-empty `SharedPtr`
handles of `b` drops from 1 to 0 in that call, and otherwise the number of
`dispose` calls is unchanged. -/
theorem dispose_exactly_once_at_last_shared (ops : List (Op T)) (op : Op T) (s s' : State T)
    (b : Nat) (c : BaseControlBlock T) (hlen : ops.length + 1 < SIZE_T_MOD)
    (hrun : run ops State.init = some s) (hb : s.heap.read b = some c)
    (hstep : step op s = some s') :
    s.heap.disposeCount b ≤ 1 ∧ s'.heap.disposeCount b ≤ 1 ∧
    (s.heap.disposeCount b = 1 ↔ sharedRefs s b = 0) ∧
    (s'.heap.disposeCount b = 1 ↔ sharedRefs s' b = 0) ∧
    (s'.heap.disposeCount b = s.heap.disposeCount b + 1 ↔
      (sharedRefs s b = 1 ∧ sharedRefs s' b = 0)) ∧
    (¬ (sharedRefs s b = 1 ∧ sharedRefs s' b = 0) →
      s'.heap.disposeCount b = s.heap.disposeCount b) := by
  have t := step_of_run hlen hrun hstep
  have hinv : Inv s := run_init_inv (by omega) hrun
  obtain ⟨c', hc'⟩ := t.blocks b c hb
  have hd := (hinv.block hb).2.2.1
  have hd' := (t.inv.block hc').2.2.1
  have hmono := t.dispose_mono b
  have hdrop := t.shared_drop b
  rw [hd, hd'] at hmono ⊢
  by_cases h0 : sharedRefs s b = 0
  · by_cases h0' : sharedRefs s' b = 0
    · rw [if_pos h0, if_pos h0'] at hmono ⊢
      exact ⟨by omega, by omega, ⟨fun _ => by omega, fun _ => by omega⟩,
        ⟨fun _ => by omega, fun _ => by omega⟩,
        ⟨fun _ => by omega, fun _ => by omega⟩, fun _ => by omega⟩
    · rw [if_pos h0, if_neg h0'] at hmono ⊢
      exact ⟨by omega, by omega, ⟨fun _ => by omega, fun _ => by omega⟩,
        ⟨fun _ => by omega, fun _ => by omega⟩,
        ⟨fun _ => by omega, fun _ => by omega⟩, fun _ => by omega⟩
  · by_cases h0' : sharedRefs s' b = 0
    · rw [if_neg h0, if_pos h0'] at hmono ⊢
      exact ⟨by omega, by omega, ⟨fun _ => by omega, fun _ => by omega⟩,
        ⟨fun _ => by omega, fun _ => by omega⟩,
        ⟨fun _ => by omega, fun _ => by omega⟩, fun _ => by omega⟩
    · rw [if_neg h0, if_neg h0'] at hmono ⊢
      exact ⟨by omega, by omega, ⟨fun _ => by omega, fun _ => by omega⟩,
        ⟨fun _ => by omega, fun _ => by omega⟩,
        ⟨fun _ => by omega, fun _ => by omega⟩, fun _ => by omega⟩

/-- Restricted form of C4, for programs that call only the functions written in
the source (`run`), so without assignment from a `const` operand: in a state
`s` reached by such a program, for a constructed control block `b` and any
further call leading to `s'`: the block has been deallocated at most once, it
has been deallocated exactly when no handle of either kind is left, and the
call deallocates it if and only if the total number of live handles of `b`
drops from 1 to 0 in that call, whether the handle that goes is the last
`SharedPtr` (`shared_release`) or the last `WeakPtr` (`weak_release`). -/
theorem release_exactly_once_at_last_handle (ops : List (Op T)) (op : Op T) (s s' : State T)
    (b : Nat) (c : BaseControlBlock T) (hlen : ops.length + 1 < SIZE_T_MOD)
    (hrun : run ops State.init = some s) (hb : s.heap.read b = some c)
    (hstep : step op s = some s') :
    s.heap.releaseCount b ≤ 1 ∧ s'.heap.releaseCount b ≤ 1 ∧
    (s.heap.releaseCount b = 1 ↔ c.shared_count = 0 ∧ c.weak_count = 0) ∧
    (s.heap.releaseCount b = 1 ↔ sharedRefs s b = 0 ∧ weakRefs s b = 0) ∧
    (s'.heap.releaseCount b = 1 ↔ sharedRefs s' b = 0 ∧ weakRefs s' b = 0) ∧
    (s'.heap.releaseCount b = s.heap.releaseCount b + 1 ↔
      (sharedRefs s b + weakRefs s b = 1 ∧ sharedRefs s' b + weakRefs s' b = 0)) ∧
    (¬ (sharedRefs s b + weakRefs s b = 1 ∧ sharedRefs s' b + weakRefs s' b = 0) →
      s'.heap.releaseCount b = s.heap.releaseCount b) := by
  have t := step_of_run hlen hrun hstep
  have hinv : Inv s := run_init_inv (by omega) hrun
  obtain ⟨c', hc'⟩ := t.blocks b c hb
  have hsc := (hinv.block hb).1
  have hwc := (hinv.block hb).2.1
  have hr := (hinv.block hb).2.2.2
  have hr' := (t.inv.block hc').2.2.2
  have hmono := t.release_mono b
  have hdrop := t.total_drop b
  rw [hr, hr'] at hmono ⊢
  rw [hsc, hwc]
  by_cases h0 : sharedRefs s b = 0 ∧ weakRefs s b = 0
  · by_cases h0' : sharedRefs s' b = 0 ∧ weakRefs s' b = 0
    · rw [if_pos h0, if_pos h0'] at hmono ⊢
      exact ⟨by omega, by omega, ⟨fun _ => by omega, fun _ => by omega⟩,
        ⟨fun _ => by omega, fun _ => by omega⟩,
        ⟨fun _ => by omega, fun _ => by omega⟩,
        ⟨fun _ => by omega, fun _ => by omega⟩, fun _ => by omega⟩
    · rw [if_pos h0, if_neg h0'] at hmono ⊢
      exact ⟨by omega, by omega, ⟨fun _ => by omega, fun _ => by omega⟩,
        ⟨fun _ => by omega, fun _ => by omega⟩,
        ⟨fun _ => by omega, fun _ => by omega⟩,
        ⟨fun _ => by omega, fun _ => by omega⟩, fun _ => by omega⟩
  · by_cases h0' : sharedRefs s' b = 0 ∧ weakRefs s' b = 0
    · rw [if_neg h0, if_pos h0'] at hmono ⊢
      exact ⟨by omega, by omega, ⟨fun _ => by omega, fun _ => by omega⟩,
        ⟨fun _ => by omega, fun _ => by omega⟩,
        ⟨fun _ => by omega, fun _ => by omega⟩,
        ⟨fun _ => by omega, fun _ => by omega⟩, fun _ => by omega⟩
    · rw [if_neg h0, if_neg h0'] at hmono ⊢
      exact ⟨by omega, by omega, ⟨fun _ => by omega, fun _ => by omega⟩,
        ⟨fun _ => by omega, fun _ => by omega⟩,
        ⟨fun _ => by omega, fun _ => by omega⟩,
        ⟨fun _ => by omega, fun _ => by omega⟩, fun _ => by omega⟩

/-- Example for the restricted form of C1 (Scenario A): destroying `s2`, the
last owner, runs `dispose`. -/
theorem dispose_exactly_once_witness :
    scenarioA_3.heap.disposeCount 0 ≤ 1 ∧ scenarioA_4.heap.disposeCount 0 ≤ 1 ∧
    (scenarioA_3.heap.disposeCount 0 = 1 ↔ sharedRefs scenarioA_3 0 = 0) ∧
    (scenarioA_4.heap.disposeCount 0 = 1 ↔ sharedRefs scenarioA_4 0 = 0) ∧
    (scenarioA_4.heap.disposeCount 0 = scenarioA_3.heap.disposeCount 0 + 1 ↔
      (sharedRefs scenarioA_3 0 = 1 ∧ sharedRefs scenarioA_4 0 = 0)) ∧
    (¬ (sharedRefs scenarioA_3 0 = 1 ∧ sharedRefs scenarioA_4 0 = 0) →
      scenarioA_4.heap.disposeCount 0 = scenarioA_3.heap.disposeCount 0) :=
  dispose_exactly_once_at_last_shared
    [.make_shared (.value 0), .shared_copy 0, .shared_dtor 0] (.shared_dtor 1)
    scenarioA_3 scenarioA_4 0 ⟨1, 0, .ControlBlockMakeShared 0 0⟩ (by decide) (by rfl)
    (by rfl) (by rfl)

/-- Example for the restricted form of C4 (Scenario B continued): the `WeakPtr`
that outlives every `SharedPtr` deallocates the block when it is destroyed. -/
theorem release_exactly_once_witness :
    scenarioB_3.heap.releaseCount 0 ≤ 1 ∧ scenarioB_4.heap.releaseCount 0 ≤ 1 ∧
    (scenarioB_3.heap.releaseCount 0 = 1 ↔ (0 : Nat) = 0 ∧ (1 : Nat) = 0) ∧
    (scenarioB_3.heap.releaseCount 0 = 1 ↔
      sharedRefs scenarioB_3 0 = 0 ∧ weakRefs scenarioB_3 0 = 0) ∧
    (scenarioB_4.heap.releaseCount 0 = 1 ↔
      sharedRefs scenarioB_4 0 = 0 ∧ weakRefs scenarioB_4 0 = 0) ∧
    (scenarioB_4.heap.releaseCount 0 = scenarioB_3.heap.releaseCount 0 + 1 ↔
      (sharedRefs scenarioB_3 0 + weakRefs scenarioB_3 0 = 1 ∧
        sharedRefs scenarioB_4 0 + weakRefs scenarioB_4 0 = 0)) ∧
    (¬ (sharedRefs scenarioB_3 0 + weakRefs scenarioB_3 0 = 1 ∧
        sharedRefs scenarioB_4 0 + weakRefs scenarioB_4 0 = 0) →
      scenarioB_4.heap.releaseCount 0 = scenarioB_3.heap.releaseCount 0) :=
  release_exactly_once_at_last_handle scenarioB (.weak_dtor 0)
    scenarioB_3 scenarioB_4 0 ⟨0, 1, .ControlBlockMakeShared 0 0⟩ (by decide) (by rfl)
    (by rfl) (by rfl)

/-- Restricted form of C2, for programs that call only the functions written in
the source (`run`), so without assignment from a `const` operand: in every
state reached by such a program, `use_count()` of a live non-empty `SharedPtr`
returns the number of live non-empty `SharedPtr` handles that share its control
block (empty, moved-from and destroyed handles are not counted). -/
theorem use_count_eq_live_handles (ops : List (Op T)) (s : State T) (i b : Nat)
    (a : SharedPtr) (hlen : ops.length < SIZE_T_MOD) (hrun : run ops State.init = some s)
    (ha : s.getShared i = some a) (hb : a.control_block = some b) :
    SharedPtr.use_count i s = some (sharedRefs s b) := by
  have hinv : Inv s := run_init_inv hlen hrun
  obtain ⟨c, hc, hsc, _⟩ := hinv.read_shared ha hb
  unfold SharedPtr.use_count
  rw [ha]
  simp only [Option.bind_eq_bind, Option.some_bind]
  rw [hb, Option.some_bind, hc, Option.some_bind, hsc]

/-- Example for the restricted form of C2 (Scenario A): `use_count()` is 1
after `makeShared`, 2 on both handles after the copy, 1 on `s2` after `s1` is
destroyed with the payload not disposed, and destroying `s2` disposes exactly
once. -/
theorem use_count_scenarioA :
    SharedPtr.use_count 0 scenarioA_1 = some 1 ∧
    SharedPtr.use_count 0 scenarioA_2 = some 2 ∧
    SharedPtr.use_count 1 scenarioA_2 = some 2 ∧
    SharedPtr.use_count 1 scenarioA_3 = some 1 ∧
    scenarioA_3.heap.disposeCount 0 = 0 ∧
    run scenarioA State.init = some scenarioA_4 ∧
    scenarioA_4.heap.disposeCount 0 = 1 :=
  ⟨use_count_eq_live_handles [.make_shared (.value 0)] scenarioA_1 0 0 ⟨some 0, .obj 0⟩
      (by decide) (by rfl) (by rfl) (by rfl),
    use_count_eq_live_handles [.make_shared (.value 0), .shared_copy 0] scenarioA_2 0 0
      ⟨some 0, .obj 0⟩ (by decide) (by rfl) (by rfl) (by rfl),
    use_count_eq_live_handles [.make_shared (.value 0), .shared_copy 0] scenarioA_2 1 0
      ⟨some 0, .obj 0⟩ (by decide) (by rfl) (by rfl) (by rfl),
    use_count_eq_live_handles [.make_shared (.value 0), .shared_copy 0, .shared_dtor 0]
      scenarioA_3 1 0 ⟨some 0, .obj 0⟩ (by decide) (by rfl) (by rfl) (by rfl),
    rfl, rfl, rfl⟩

/-- Restricted form of C3, for programs that call only the functions written in
the source (`run`), so without assignment from a `const` operand: in every
state reached by such a program, if a live `WeakPtr` refers to block `b` and no
live `SharedPtr` refers to `b` any more, then `dispose` of `b` has run (once),
the block has not been deallocated, `expired()` returns true, and `lock()`
returns a new empty `SharedPtr` (null control block, null payload) and leaves
the heap, hence `shared_count`, unchanged. -/
theorem weak_does_not_keep_alive (ops : List (Op T)) (s : State T) (i b : Nat)
    (w : WeakPtr) (hlen : ops.length < SIZE_T_MOD) (hrun : run ops State.init = some s)
    (hw : s.getWeak i = some w) (hb : w.control_block = some b)
    (h0 : sharedRefs s b = 0) :
    s.heap.disposeCount b = 1 ∧ s.heap.releaseCount b = 0 ∧
    WeakPtr.expired i s = some true ∧
    WeakPtr.lock i s = some ⟨s.heap, s.shared ++ [some ⟨none, .null⟩], s.weak⟩ := by
  have hinv : Inv s := run_init_inv hlen hrun
  obtain ⟨c, hc, hsc, _⟩ := hinv.read_weak hw hb
  obtain ⟨_, _, hd, hr⟩ := hinv.block hc
  have hpos := weakRefs_pos hw hb
  have hexp : WeakPtr.expired i s = some true := by
    unfold WeakPtr.expired
    rw [hw]
    simp only [Option.bind_eq_bind, Option.some_bind]
    rw [hb]
    dsimp only
    rw [hc, Option.some_bind, hsc, h0]
    rfl
  refine ⟨?_, ?_, hexp, ?_⟩
  · rw [hd, if_pos h0]
  · rw [hr, if_neg (by omega)]
  · unfold WeakPtr.lock
    rw [hexp]
    rfl

/-- Example for the restricted form of C3 (Scenario B): after `s.reset()` the
`WeakPtr` is expired and `lock()` returns an empty `SharedPtr`. -/
theorem weak_does_not_keep_alive_scenarioB :
    scenarioB_3.heap.disposeCount 0 = 1 ∧ scenarioB_3.heap.releaseCount 0 = 0 ∧
    WeakPtr.expired 0 scenarioB_3 = some true ∧
    WeakPtr.lock 0 scenarioB_3 =
      some ⟨scenarioB_3.heap, scenarioB_3.shared ++ [some ⟨none, .null⟩],
        scenarioB_3.weak⟩ :=
  weak_does_not_keep_alive scenarioB scenarioB_3 0 0 ⟨some 0, .obj 0⟩ (by decide) (by rfl)
    (by rfl) (by rfl) (by rfl)

/-- C5 (the code at the failing input): when the payload constructor throws,
`allocateShared` and `makeShared` leave with the exception after one
allocation and no deallocation; the block obtained from the allocator is
never given back, and no `SharedPtr` is created. -/
theorem allocateShared_throw_leaks (alloc : Nat) (s : State T) :
    (allocateShared alloc Construct.throws s).1 = Completion.threw ∧
    (allocateShared alloc Construct.throws s).2.shared = s.shared ∧
    (allocateShared alloc Construct.throws s).2.heap.trace =
      s.heap.trace ++ [Event.allocate alloc s.heap.blocks.length] ∧
    (allocateShared alloc Construct.throws s).2.heap.allocations = s.heap.allocations + 1 ∧
    (allocateShared alloc Construct.throws s).2.heap.deallocations = s.heap.deallocations ∧
    makeShared Construct.throws s = allocateShared stdAllocator Construct.throws s := by
  refine ⟨rfl, rfl, rfl, ?_, ?_, rfl⟩
  · simp [allocateShared, Heap.allocate, Heap.allocations, List.countP_append,
      List.countP_cons]
  · simp [allocateShared, Heap.allocate, Heap.deallocations, List.countP_append,
      List.countP_cons]

/-- C6 (the code at the failing input): on a default-constructed `WeakPtr`, and
on a moved-from one, `expired()` returns false, so `lock()` runs
`SharedPtr<T>(*this)`, which evaluates `++(control_block->shared_count)`
through a null `control_block`; the model has no result for it. -/
theorem lock_empty_weak_dereferences_null :
    (run [Op.weak_default] (State.init : State Nat)).bind (WeakPtr.expired 0) = some false ∧
    (run [Op.weak_default] (State.init : State Nat)).bind (SharedPtr.ctor_weak 0) = none ∧
    (run [Op.weak_default] (State.init : State Nat)).bind (WeakPtr.lock 0) = none ∧
    (run [Op.make_shared (Construct.value 0), Op.weak_shared 0, Op.weak_move 0]
      (State.init : State Nat)).bind (WeakPtr.expired 0) = some false ∧
    (run [Op.make_shared (Construct.value 0), Op.weak_shared 0, Op.weak_move 0]
      (State.init : State Nat)).bind (WeakPtr.lock 0) = none := by
  refine ⟨by rfl, by rfl, by rfl, by rfl, by rfl⟩

/-- In a state reached through `run` the `shared_count` of a constructed
block is the number of live owners, so its successor is a `size_t` value. -/
theorem reached_shared_count_representable (ops : List (Op T)) (s : State T) (cb : Nat)
    (c : BaseControlBlock T) (hlen : ops.length + 1 < SIZE_T_MOD)
    (hrun : run ops State.init = some s) (hc : s.heap.read cb = some c) :
    c.shared_count + 1 < SIZE_T_MOD := by
  obtain ⟨hinv, hl, _⟩ := run_inv ops State.init s Inv.init
    (by simp only [State.init, List.length_nil]; omega)
    (by simp only [State.init, List.length_nil]; omega) hrun
  simp only [State.init, List.length_nil] at hl
  have h1 := (hinv.block hc).1
  have h2 := sharedRefs_le_length s cb
  omega

/-- C7: for a live `WeakPtr` in slot `i` whose control block `cb` has
`shared_count = n > 0` (with `n + 1` representable in `size_t`), `lock()`
returns a new `SharedPtr` with the same control block and the same payload
pointer; afterwards `shared_count` is `n + 1`, `weak_count` and the body of
the block are unchanged, every other block and every handle is unchanged, and
the trace is unchanged (no `dispose`, no `destroy`). -/
theorem lock_live_shares_block (s : State T) (i cb : Nat) (w : WeakPtr) (c : BaseControlBlock T)
    (hw : s.getWeak i = some w) (hcb : w.control_block = some cb)
    (hc : s.heap.read cb = some c) (hn : 0 < c.shared_count)
    (hrep : c.shared_count + 1 < SIZE_T_MOD) :
    ∃ s', WeakPtr.lock i s = some s' ∧
      s'.shared = s.shared ++ [some ⟨some cb, w.ptr⟩] ∧
      s'.getShared s.shared.length = some ⟨w.control_block, w.ptr⟩ ∧
      s'.weak = s.weak ∧
      s'.heap.read cb = some ⟨c.shared_count + 1, c.weak_count, c.body⟩ ∧
      (∀ b, b ≠ cb → s'.heap.read b = s.heap.read b) ∧
      s'.heap.trace = s.heap.trace := by
  have hlt := Heap.read_some_lt hc
  have hexp : WeakPtr.expired i s = some false := by
    unfold WeakPtr.expired
    rw [hw]
    simp only [Option.bind_eq_bind, Option.some_bind]
    rw [hcb]
    dsimp only
    rw [hc, Option.some_bind]
    have : ¬ c.shared_count = 0 := by omega
    simp [this]
  have hlock : WeakPtr.lock i s = some ⟨s.heap.write cb
      { c with shared_count := incr c.shared_count }, s.shared ++ [some ⟨some cb, w.ptr⟩],
      s.weak⟩ := by
    unfold WeakPtr.lock
    rw [hexp]
    simp only [Option.bind_eq_bind, Option.some_bind, Bool.false_eq_true, if_false]
    unfold SharedPtr.ctor_weak
    rw [hw]
    simp only [Option.bind_eq_bind, Option.some_bind]
    rw [hcb, Option.some_bind]
    have : shared_increment cb (s.pushShared ⟨some cb, w.ptr⟩).heap
        = some (s.heap.write cb { c with shared_count := incr c.shared_count }) :=
      shared_increment_eq hc
    rw [this]
    rfl
  refine ⟨_, hlock, rfl, ?_, rfl, ?_, ?_, rfl⟩
  · rw [getShared_eq_some, hcb]
    simp
  · rw [Heap.read_write_same _ hlt, incr_lt hrep]
  · intro b hb
    exact Heap.read_write_ne _ hb

/-- Witness of C7: `lock()` on the `WeakPtr` of `lockProgram`. -/
theorem lock_live_shares_block_witness :
    ∃ s', WeakPtr.lock 1 lockState = some s' ∧
      s'.shared = lockState.shared ++ [some ⟨some 0, Ptr.obj 0⟩] ∧
      s'.getShared lockState.shared.length = some ⟨some 0, Ptr.obj 0⟩ ∧
      s'.weak = lockState.weak ∧
      s'.heap.read 0 = some ⟨1 + 1, 1, .ControlBlockMakeShared 0 7⟩ ∧
      (∀ b, b ≠ 0 → s'.heap.read b = lockState.heap.read b) ∧
      s'.heap.trace = lockState.heap.trace :=
  lock_live_shares_block lockState 1 0 ⟨some 0, .obj 0⟩ ⟨1, 1, .ControlBlockMakeShared 0 7⟩
    (by rfl) (by rfl) (by rfl) (by decide) (by decide)

theorem SharedPtr.get_eq {s : State T} {i : Nat} {a : SharedPtr}
    (h : s.getShared i = some a) : SharedPtr.get i s = some a.ptr := by
  unfold SharedPtr.get
  rw [h]
  rfl

theorem SharedPtr.use_count_eq {s : State T} {i cb : Nat} {a : SharedPtr}
    {c : BaseControlBlock T} (h : s.getShared i = some a) (hcb : a.control_block = some cb)
    (hc : s.heap.read cb = some c) : SharedPtr.use_count i s = some c.shared_count := by
  unfold SharedPtr.use_count
  rw [h]
  simp only [Option.bind_eq_bind, Option.some_bind]
  rw [hcb, Option.some_bind, hc, Option.some_bind]

/-- C9: the constructor `SharedPtr(p, del, alloc)` makes one allocation and
constructs a `ControlBlockDirect` with `shared_count = 1`, `weak_count = 0` and
stored pointer `p` in it; the new handle refers to that block, `get()` returns
`p`, `use_count()` returns 1, other blocks and handles are unchanged, and the
only call recorded is the allocation (no `dispose`, no `destroy`).  The
constructors `SharedPtr(p, del)` and `SharedPtr(p)` are the same with the
default allocator and the default deleter. -/
theorem ctor_raw_creates_direct_block (s : State T) (p : Ptr) (del alloc : Nat) :
    ∃ s', SharedPtr.ctor_raw p del alloc s = some s' ∧
      s'.shared = s.shared ++ [some ⟨some s.heap.blocks.length, p⟩] ∧
      s'.getShared s.shared.length = some ⟨some s.heap.blocks.length, p⟩ ∧
      s'.weak = s.weak ∧
      s'.heap.read s.heap.blocks.length = some ⟨1, 0, .ControlBlockDirect p alloc del⟩ ∧
      (∀ b, b ≠ s.heap.blocks.length → s'.heap.read b = s.heap.read b) ∧
      SharedPtr.get s.shared.length s' = some p ∧
      SharedPtr.use_count s.shared.length s' = some 1 ∧
      s'.heap.trace = s.heap.trace ++ [Event.allocate alloc s.heap.blocks.length] ∧
      (∀ b, s'.heap.disposeCount b = s.heap.disposeCount b ∧
        s'.heap.releaseCount b = s.heap.releaseCount b) ∧
      SharedPtr.ctor_raw_del p del s = SharedPtr.ctor_raw p del stdAllocator s ∧
      SharedPtr.ctor_raw_ptr p s = SharedPtr.ctor_raw p defaultDelete stdAllocator s := by
  have hlt : s.heap.blocks.length < (s.heap.allocate alloc).blocks.length := by
    simp [Heap.allocate]
  have hread : ((s.heap.allocate alloc).write s.heap.blocks.length
      ⟨1, 0, .ControlBlockDirect p alloc del⟩).read s.heap.blocks.length
      = some ⟨1, 0, .ControlBlockDirect p alloc del⟩ := Heap.read_write_same _ hlt
  have hget : (State.mk ((s.heap.allocate alloc).write s.heap.blocks.length
      ⟨1, 0, .ControlBlockDirect p alloc del⟩)
      (s.shared ++ [some ⟨some s.heap.blocks.length, p⟩]) s.weak).getShared s.shared.length
      = some ⟨some s.heap.blocks.length, p⟩ := by
    rw [getShared_eq_some]
    simp
  refine ⟨_, rfl, rfl, hget, rfl, hread, ?_, ?_, ?_, rfl, ?_, rfl, rfl⟩
  · intro b hb
    exact (allocate_write_same alloc _ hb).1
  · exact SharedPtr.get_eq hget
  · exact SharedPtr.use_count_eq hget rfl hread
  · intro b
    constructor
    · simp [SharedPtr.ctor_raw, State.pushShared, Heap.disposeCount, Heap.allocate, Heap.write,
        List.countP_append, List.countP_cons]
    · simp [SharedPtr.ctor_raw, State.pushShared, Heap.releaseCount, Heap.allocate, Heap.write,
        List.countP_append, List.countP_cons]

/-- C10: when the payload constructor returns `obj`, `allocateShared(alloc,
args...)` returns normally after one allocation, with a
`ControlBlockMakeShared` holding `shared_count = 1`, `weak_count = 0` and the
payload `obj`; the new handle refers to that block, `get()` is the address of
the payload inside the block (`cb->get_ptr()`), `use_count()` is 1, and other
blocks and handles are unchanged.  `makeShared(args...)` is the same with the
default allocator. -/
theorem allocateShared_creates_embedded_block (s : State T) (alloc : Nat) (obj : T) :
    (allocateShared alloc (Construct.value obj) s).1 = Completion.returned ∧
    (allocateShared alloc (Construct.value obj) s).2.shared =
      s.shared ++ [some ⟨some s.heap.blocks.length, Ptr.obj s.heap.blocks.length⟩] ∧
    (allocateShared alloc (Construct.value obj) s).2.getShared s.shared.length =
      some ⟨some s.heap.blocks.length, Ptr.obj s.heap.blocks.length⟩ ∧
    (allocateShared alloc (Construct.value obj) s).2.weak = s.weak ∧
    (allocateShared alloc (Construct.value obj) s).2.heap.read s.heap.blocks.length =
      some ⟨1, 0, .ControlBlockMakeShared alloc obj⟩ ∧
    (∀ b, b ≠ s.heap.blocks.length →
      (allocateShared alloc (Construct.value obj) s).2.heap.read b = s.heap.read b) ∧
    SharedPtr.get s.shared.length (allocateShared alloc (Construct.value obj) s).2 =
      some (Ptr.obj s.heap.blocks.length) ∧
    SharedPtr.use_count s.shared.length (allocateShared alloc (Construct.value obj) s).2 =
      some 1 ∧
    (allocateShared alloc (Construct.value obj) s).2.heap.trace =
      s.heap.trace ++ [Event.allocate alloc s.heap.blocks.length] ∧
    makeShared (Construct.value obj) s = allocateShared stdAllocator (Construct.value obj) s := by
  have hlt : s.heap.blocks.length < (s.heap.allocate alloc).blocks.length := by
    simp [Heap.allocate]
  have hread : ((s.heap.allocate alloc).write s.heap.blocks.length
      ⟨1, 0, .ControlBlockMakeShared alloc obj⟩).read s.heap.blocks.length
      = some ⟨1, 0, .ControlBlockMakeShared alloc obj⟩ := Heap.read_write_same _ hlt
  have hget : (State.mk ((s.heap.allocate alloc).write s.heap.blocks.length
      ⟨1, 0, .ControlBlockMakeShared alloc obj⟩)
      (s.shared ++ [some ⟨some s.heap.blocks.length, Ptr.obj s.heap.blocks.length⟩])
      s.weak).getShared s.shared.length
      = some ⟨some s.heap.blocks.length, Ptr.obj s.heap.blocks.length⟩ := by
    rw [getShared_eq_some]
    simp
  refine ⟨rfl, rfl, hget, rfl, hread, ?_, ?_, ?_, rfl, rfl⟩
  · intro b hb
    exact (allocate_write_same alloc _ hb).1
  · exact SharedPtr.get_eq hget
  · exact SharedPtr.use_count_eq hget rfl hread

/-! ## Effect of shared_release and weak_release on their block -/

theorem decr_eq_zero_iff {n : Nat} (h : n < SIZE_T_MOD) : decr n = 0 ↔ n = 1 := by
  unfold SIZE_T_MOD at h
  unfold decr
  omega

theorem decr_pos {n : Nat} (h0 : 0 < n) (h : n < SIZE_T_MOD) : decr n = n - 1 := by
  unfold SIZE_T_MOD at h
  unfold decr
  omega

/-- What `shared_release` does to its own block when `shared_count` is a
positive `size_t` value. -/
theorem shared_release_effect {h h' : Heap T} {cb : Nat} {c : BaseControlBlock T}
    (hc : h.read cb = some c) (h0 : 0 < c.shared_count) (hlt : c.shared_count < SIZE_T_MOD)
    (hr : shared_release cb h = some h') :
    h'.read cb = some ⟨c.shared_count - 1, c.weak_count, c.body⟩ ∧
    h'.disposeCount cb = h.disposeCount cb + (if c.shared_count = 1 then 1 else 0) ∧
    h'.releaseCount cb =
      h.releaseCount cb + (if c.shared_count = 1 ∧ c.weak_count = 0 then 1 else 0) := by
  have hlen := Heap.read_some_lt hc
  have hdec := decr_pos h0 hlt
  rw [shared_release_eq hc] at hr
  injection hr with hr
  subst hr
  refine ⟨?_, ?_, ?_⟩
  · rw [read_set_same _ _ hlen, hdec]
  · simp only [Heap.disposeCount, List.countP_append]
    by_cases h1 : c.shared_count = 1
    · have hz : decr c.shared_count = 0 := (decr_eq_zero_iff hlt).mpr h1
      rw [if_pos hz, if_pos h1]
      by_cases hw : c.weak_count = 0
      · rw [if_pos ⟨hz, hw⟩]
        simp [List.countP_cons]
      · rw [if_neg (fun e => hw e.2)]
        simp [List.countP_cons]
    · have hz : ¬ decr c.shared_count = 0 := fun e => h1 ((decr_eq_zero_iff hlt).mp e)
      rw [if_neg hz, if_neg (fun e => hz e.1), if_neg h1]
      simp
  · simp only [Heap.releaseCount, List.countP_append]
    by_cases h1 : c.shared_count = 1
    · have hz : decr c.shared_count = 0 := (decr_eq_zero_iff hlt).mpr h1
      rw [if_pos hz]
      by_cases hw : c.weak_count = 0
      · rw [if_pos ⟨hz, hw⟩, if_pos ⟨h1, hw⟩]
        simp [List.countP_cons]
      · rw [if_neg (fun e => hw e.2), if_neg (fun e => hw e.2)]
        simp [List.countP_cons]
    · have hz : ¬ decr c.shared_count = 0 := fun e => h1 ((decr_eq_zero_iff hlt).mp e)
      rw [if_neg hz, if_neg (fun e => hz e.1), if_neg (fun e => h1 e.1)]
      simp

/-! ## Closed forms of the SharedPtr constructors, swap and destructor -/

theorem SharedPtr.ctor_copy_empty {s : State T} {other : Nat} {o : SharedPtr}
    (ho : s.getShared other = some o) (hcb : o.control_block = none) :
    SharedPtr.ctor_copy other s = some ⟨s.heap, s.shared ++ [some ⟨none, o.ptr⟩], s.weak⟩ := by
  unfold SharedPtr.ctor_copy
  rw [ho]
  simp only [Option.bind_eq_bind, Option.some_bind]
  rw [hcb]
  rfl

theorem SharedPtr.ctor_copy_nonempty {s : State T} {other cb : Nat} {o : SharedPtr}
    {c : BaseControlBlock T} (ho : s.getShared other = some o)
    (hcb : o.control_block = some cb) (hc : s.heap.read cb = some c) :
    SharedPtr.ctor_copy other s = some ⟨s.heap.write cb
      { c with shared_count := incr c.shared_count },
      s.shared ++ [some ⟨some cb, o.ptr⟩], s.weak⟩ := by
  unfold SharedPtr.ctor_copy
  rw [ho]
  simp only [Option.bind_eq_bind, Option.some_bind]
  rw [hcb]
  dsimp only
  have : shared_increment cb (s.pushShared ⟨some cb, o.ptr⟩).heap
      = some (s.heap.write cb { c with shared_count := incr c.shared_count }) :=
    shared_increment_eq hc
  rw [this]
  rfl

theorem SharedPtr.ctor_move_eq {s : State T} {other : Nat} {o : SharedPtr}
    (ho : s.getShared other = some o) :
    SharedPtr.ctor_move other s = some ⟨s.heap,
      (s.shared ++ [some (SharedPtr.mk o.control_block o.ptr)]).set other
        (some (SharedPtr.mk none Ptr.null)), s.weak⟩ := by
  unfold SharedPtr.ctor_move
  rw [ho]
  rfl

theorem SharedPtr.swap_eq {s : State T} {this other : Nat} {a b : SharedPtr}
    (ha : s.getShared this = some a) (hb : s.getShared other = some b) :
    SharedPtr.swap this other s = some ⟨s.heap,
      (s.shared.set this (some ⟨b.control_block, b.ptr⟩)).set other
        (some ⟨a.control_block, a.ptr⟩), s.weak⟩ := by
  unfold SharedPtr.swap
  rw [ha, hb]
  rfl

theorem SharedPtr.dtor_empty {s : State T} {this : Nat} {a : SharedPtr}
    (ha : s.getShared this = some a) (hcb : a.control_block = none) :
    SharedPtr.dtor this s = some ⟨s.heap, s.shared.set this none, s.weak⟩ := by
  unfold SharedPtr.dtor
  rw [ha]
  simp only [Option.bind_eq_bind, Option.some_bind]
  rw [hcb]

/-! ## Slots -/

theorem getElem?_lt_of_some {α : Type} {l : List α} {i : Nat} {x : α} (h : l[i]? = some x) :
    i < l.length := by
  by_contra hge
  rw [List.getElem?_eq_none (by omega)] at h
  simp at h

/-- The slots after the temporary in the last slot `tmp` has been swapped with
`this` (in either order of the operands) and destroyed. -/
theorem slots_after_swap_dtor {l : List (Option SharedPtr)} {this tmp : Nat} {a x : SharedPtr}
    (hne : this ≠ tmp) (ha : l[this]? = some (some a)) (hx : l[tmp]? = some (some x)) :
    (((l.set this (some x)).set tmp (some a)).set tmp none)[this]? = some (some x) ∧
    (((l.set this (some x)).set tmp (some a)).set tmp none)[tmp]? = some none ∧
    (∀ k, k ≠ this → k ≠ tmp →
      (((l.set this (some x)).set tmp (some a)).set tmp none)[k]? = l[k]?) ∧
    ((l.set tmp (some a)).set this (some x)) = ((l.set this (some x)).set tmp (some a)) ∧
    ((l.set this (some x)).set tmp (some a))[tmp]? = some (some a) := by
  have hthis := getElem?_lt_of_some ha
  have htmp := getElem?_lt_of_some hx
  refine ⟨?_, ?_, ?_, ?_, ?_⟩
  · rw [List.getElem?_set_ne (Ne.symm hne), List.getElem?_set_ne (Ne.symm hne)]
    exact getElem?_set_same _ hthis
  · exact getElem?_set_same _ (by simp [htmp])
  · intro k hk1 hk2
    rw [List.getElem?_set_ne (Ne.symm hk2), List.getElem?_set_ne (Ne.symm hk2),
      List.getElem?_set_ne (Ne.symm hk1)]
  · exact List.set_comm _ _ l (Ne.symm hne)
  · exact getElem?_set_same _ (by simp [htmp])

/-- Effect of `swap` of a live handle `this` with the temporary `tmp` followed
by the destruction of the temporary: `this` takes the value of the temporary,
the temporary dies, no other slot changes, and the block that `this` held
receives one `shared_release`. -/
theorem swap_dtor_effect {s1 s2 s3 : State T} {this tmp : Nat} {a x : SharedPtr}
    (hne : this ≠ tmp) (ha : s1.getShared this = some a) (hx : s1.getShared tmp = some x)
    (h2 : SharedPtr.swap this tmp s1 = some s2 ∨ SharedPtr.swap tmp this s1 = some s2)
    (h3 : SharedPtr.dtor tmp s2 = some s3) :
    s3.getShared this = some x ∧ s3.shared[tmp]? = some none ∧
    (∀ k, k ≠ this → k ≠ tmp → s3.shared[k]? = s1.shared[k]?) ∧
    s3.weak = s1.weak ∧
    (a.control_block = none → s3.heap = s1.heap) ∧
    (∀ cb, a.control_block = some cb → shared_release cb s1.heap = some s3.heap) := by
  have hla := getShared_eq_some.mp ha
  have hlx := getShared_eq_some.mp hx
  obtain ⟨e1, e2, e3, e4, e5⟩ := slots_after_swap_dtor hne hla hlx
  have hs2 : s2 = ⟨s1.heap, (s1.shared.set this (some x)).set tmp (some a), s1.weak⟩ := by
    rcases h2 with h2 | h2
    · rw [SharedPtr.swap_eq ha hx] at h2
      injection h2 with h2
      exact h2.symm
    · rw [SharedPtr.swap_eq hx ha] at h2
      injection h2 with h2
      rw [← h2]
      exact congrArg (fun l => State.mk s1.heap l s1.weak) e4
  subst hs2
  have htmp2 : (State.mk s1.heap ((s1.shared.set this (some x)).set tmp (some a))
      s1.weak).getShared tmp = some a := getShared_eq_some.mpr e5
  obtain ⟨a', ha', hsh, hwk, hheap⟩ := SharedPtr.dtor_inv h3
  rw [htmp2] at ha'
  injection ha' with ha'
  subst ha'
  refine ⟨?_, ?_, ?_, hwk, ?_, ?_⟩
  · rw [getShared_eq_some, hsh]
    exact e1
  · rw [hsh]
    exact e2
  · intro k hk1 hk2
    rw [hsh]
    exact e3 k hk1 hk2
  · intro hnone
    rcases hheap with ⟨_, hh⟩ | ⟨cb, hcb, _⟩
    · exact hh
    · rw [hnone] at hcb
      simp at hcb
  · intro cb hcb
    rcases hheap with ⟨hnone, _⟩ | ⟨cb', hcb', hrel⟩
    · rw [hnone] at hcb
      simp at hcb
    · rw [hcb] at hcb'
      injection hcb' with hcb'
      subst hcb'
      exact hrel

/-- Facts about a state reached through `run`. -/
theorem reached_facts {ops : List (Op T)} {s : State T} (hlen : ops.length + 1 < SIZE_T_MOD)
    (hrun : run ops State.init = some s) :
    Inv s ∧ s.shared.length + 1 < SIZE_T_MOD ∧ s.weak.length + 1 < SIZE_T_MOD := by
  obtain ⟨hinv, hl, hlw⟩ := run_inv ops State.init s Inv.init
    (by simp only [State.init, List.length_nil]; omega)
    (by simp only [State.init, List.length_nil]; omega) hrun
  simp only [State.init, List.length_nil] at hl hlw
  exact ⟨hinv, by omega, by omega⟩

/-- The block of a live non-empty `SharedPtr` in a reached state: its
`shared_count` is the number of owners, positive and below the `size_t` range. -/
theorem reached_block_of_shared {ops : List (Op T)} {s : State T} {i cb : Nat} {a : SharedPtr}
    (hlen : ops.length + 1 < SIZE_T_MOD) (hrun : run ops State.init = some s)
    (ha : s.getShared i = some a) (hcb : a.control_block = some cb) :
    ∃ c, s.heap.read cb = some c ∧ c.shared_count = sharedRefs s cb ∧
      c.weak_count = weakRefs s cb ∧ 0 < c.shared_count ∧
      c.shared_count + 1 < SIZE_T_MOD ∧ c.weak_count + 1 < SIZE_T_MOD := by
  obtain ⟨hinv, hl, hlw⟩ := reached_facts hlen hrun
  obtain ⟨c, hc, hsc, hwc⟩ := hinv.read_shared ha hcb
  have hpos := sharedRefs_pos ha hcb
  have h1 := sharedRefs_le_length s cb
  have h2 := weakRefs_le_length s cb
  exact ⟨c, hc, hsc, hwc, by omega, by omega, by omega⟩

/-- The block of a live non-empty `WeakPtr` in a reached state. -/
theorem reached_block_of_weak {ops : List (Op T)} {s : State T} {i cb : Nat} {w : WeakPtr}
    (hlen : ops.length + 1 < SIZE_T_MOD) (hrun : run ops State.init = some s)
    (hw : s.getWeak i = some w) (hcb : w.control_block = some cb) :
    ∃ c, s.heap.read cb = some c ∧ c.shared_count = sharedRefs s cb ∧
      c.weak_count = weakRefs s cb ∧ 0 < c.weak_count ∧
      c.shared_count + 1 < SIZE_T_MOD ∧ c.weak_count + 1 < SIZE_T_MOD := by
  obtain ⟨hinv, hl, hlw⟩ := reached_facts hlen hrun
  obtain ⟨c, hc, hsc, hwc⟩ := hinv.read_weak hw hcb
  have hpos := weakRefs_pos hw hcb
  have h1 := sharedRefs_le_length s cb
  have h2 := weakRefs_le_length s cb
  exact ⟨c, hc, hsc, hwc, by omega, by omega, by omega⟩

/-! ## Facts about the constructors used by the assignments and by reset -/

theorem SharedPtr.ctor_move_facts {s s1 : State T} {j : Nat} {b : SharedPtr}
    (hb : s.getShared j = some b) (h1 : SharedPtr.ctor_move j s = some s1) :
    s1.getShared s.shared.length = some ⟨b.control_block, b.ptr⟩ ∧
    s1.getShared j = some ⟨none, Ptr.null⟩ ∧
    (∀ k, k < s.shared.length → k ≠ j → s1.shared[k]? = s.shared[k]?) ∧
    s1.weak = s.weak ∧ s1.heap = s.heap := by
  have hlt := getShared_lt hb
  rw [SharedPtr.ctor_move_eq hb] at h1
  injection h1 with h1
  subst h1
  refine ⟨?_, ?_, ?_, rfl, rfl⟩
  · rw [getShared_eq_some]
    show ((s.shared ++ [some (SharedPtr.mk b.control_block b.ptr)]).set j
      (some (SharedPtr.mk none Ptr.null)))[s.shared.length]? = _
    rw [List.getElem?_set_ne (by omega)]
    simp
  · rw [getShared_eq_some]
    exact getElem?_set_same _ (by simp; omega)
  · intro k hk hkj
    show ((s.shared ++ [some (SharedPtr.mk b.control_block b.ptr)]).set j
      (some (SharedPtr.mk none Ptr.null)))[k]? = _
    rw [List.getElem?_set_ne (Ne.symm hkj), List.getElem?_append_left hk]

theorem SharedPtr.ctor_raw_facts (s : State T) (p : Ptr) (del alloc : Nat) :
    ∃ s1, SharedPtr.ctor_raw p del alloc s = some s1 ∧
      s1.shared = s.shared ++ [some ⟨some s.heap.blocks.length, p⟩] ∧
      s1.weak = s.weak ∧
      s1.heap.read s.heap.blocks.length = some ⟨1, 0, .ControlBlockDirect p alloc del⟩ ∧
      (∀ b, b ≠ s.heap.blocks.length → SameBlock s.heap s1.heap b) := by
  have hlt : s.heap.blocks.length < (s.heap.allocate alloc).blocks.length := by
    simp [Heap.allocate]
  refine ⟨_, rfl, rfl, rfl, Heap.read_write_same _ hlt, ?_⟩
  intro b hb
  exact allocate_write_same alloc _ hb

/-- The heap after copy-constructing from a live handle `b` of a reached
state: same trace, the block of `b` (if any) has one more owner, other blocks
are unchanged. -/
theorem copy_heap_facts {ops : List (Op T)} {s s1 : State T} {j : Nat} {b : SharedPtr}
    (hlen : ops.length + 1 < SIZE_T_MOD) (hrun : run ops State.init = some s)
    (hb : s.getShared j = some b) (h1 : SharedPtr.ctor_copy j s = some s1) :
    s1.shared = s.shared ++ [some ⟨b.control_block, b.ptr⟩] ∧ s1.weak = s.weak ∧
    s1.heap.trace = s.heap.trace ∧ (b.control_block = none → s1.heap = s.heap) ∧
    (∀ cb, b.control_block = some cb →
      ∃ c, s.heap.read cb = some c ∧
        s1.heap.read cb = some ⟨c.shared_count + 1, c.weak_count, c.body⟩) ∧
    (∀ cb, b.control_block ≠ some cb → s1.heap.read cb = s.heap.read cb) := by
  cases hcb : b.control_block with
  | none =>
    rw [SharedPtr.ctor_copy_empty hb hcb] at h1
    injection h1 with h1
    subst h1
    refine ⟨rfl, rfl, rfl, fun _ => rfl, ?_, fun _ _ => rfl⟩
    intro cb h
    simp at h
  | some cb2 =>
    obtain ⟨c, hc, _, _, _, hrep, _⟩ := reached_block_of_shared hlen hrun hb hcb
    have hlt := Heap.read_some_lt hc
    rw [SharedPtr.ctor_copy_nonempty hb hcb hc] at h1
    injection h1 with h1
    subst h1
    refine ⟨rfl, rfl, rfl, ?_, ?_, ?_⟩
    · intro h
      simp at h
    · intro cb h
      injection h with h
      subst h
      exact ⟨c, hc, by rw [Heap.read_write_same _ hlt, incr_lt hrep]⟩
    · intro cb hne
      refine Heap.read_write_ne _ ?_
      intro e
      subst e
      exact hne rfl

/-! ## SharedPtr constructors and assignment -/

/-- C11: in a state reached through `run`, copy-constructing a
`SharedPtr` from the live handle in slot `i` returns a new handle with the same
control block and payload pointer; the source and every other handle are
unchanged and nothing is recorded in the trace.  If the source is non-empty its
block exists, its `shared_count` grows by exactly 1, its `weak_count` and every
other block are unchanged; if the source is empty the heap is unchanged. -/
theorem copy_ctor_shares_block (ops : List (Op T)) (s : State T) (i : Nat) (o : SharedPtr)
    (hlen : ops.length + 1 < SIZE_T_MOD) (hrun : run ops State.init = some s)
    (ho : s.getShared i = some o) :
    ∃ s', SharedPtr.ctor_copy i s = some s' ∧
      s'.getShared s.shared.length = some ⟨o.control_block, o.ptr⟩ ∧
      s'.getShared i = some o ∧
      s'.shared = s.shared ++ [some ⟨o.control_block, o.ptr⟩] ∧
      s'.weak = s.weak ∧ s'.heap.trace = s.heap.trace ∧
      (o.control_block = none → s'.heap = s.heap) ∧
      (∀ cb, o.control_block = some cb →
        ∃ c, s.heap.read cb = some c ∧
          s'.heap.read cb = some ⟨c.shared_count + 1, c.weak_count, c.body⟩ ∧
          ∀ b, b ≠ cb → s'.heap.read b = s.heap.read b) := by
  cases hcb : o.control_block with
  | none =>
    refine ⟨_, SharedPtr.ctor_copy_empty ho hcb, ?_, ?_, rfl, rfl, rfl, fun _ => rfl, ?_⟩
    · exact getShared_push_new (s := s) rfl
    · exact getShared_push_old (s := s) rfl ho
    · intro cb h
      simp at h
  | some cb =>
    obtain ⟨c, hc, _, _, _, hrep, _⟩ := reached_block_of_shared hlen hrun ho hcb
    have hlt := Heap.read_some_lt hc
    refine ⟨_, SharedPtr.ctor_copy_nonempty ho hcb hc, ?_, ?_, rfl, rfl, rfl, ?_, ?_⟩
    · exact getShared_push_new (s := s) rfl
    · exact getShared_push_old (s := s) rfl ho
    · intro h
      simp at h
    · intro cb' h
      injection h with h
      subst h
      refine ⟨c, hc, ?_, ?_⟩
      · rw [Heap.read_write_same _ hlt, incr_lt hrep]
      · intro b hb
        exact Heap.read_write_ne _ hb

/-- Witness of C11: copying the owner created by `makeShared(0)`. -/
theorem copy_ctor_shares_block_witness :
    ∃ s', SharedPtr.ctor_copy 0 scenarioA_1 = some s' ∧
      s'.getShared 1 = some ⟨some 0, Ptr.obj 0⟩ ∧ s'.getShared 0 = some ⟨some 0, Ptr.obj 0⟩ ∧
      s'.heap.read 0 = some ⟨1 + 1, 0, .ControlBlockMakeShared 0 0⟩ :=
  (copy_ctor_shares_block [.make_shared (.value 0)] scenarioA_1 0 ⟨some 0, .obj 0⟩
    (by decide) (by rfl) (by rfl)).elim
    (fun s' h => ⟨s', h.1, h.2.1, h.2.2.1,
      (h.2.2.2.2.2.2.2 0 rfl).elim (fun c hc => by
        have h1 : c = ⟨1, 0, .ControlBlockMakeShared 0 0⟩ := by
          have := hc.1
          injection this with this
          exact this.symm
        rw [hc.2.1, h1])⟩)

/-- C12: move-constructing a `SharedPtr` from the live handle in slot `i`
returns a new handle holding the former control block and payload pointer of
the source, leaves the source empty (null control block, null payload), leaves
every other handle unchanged, and leaves the heap unchanged: no counter of any
block changes and nothing is recorded in the trace. -/
theorem move_ctor_transfers (s : State T) (i : Nat) (o : SharedPtr)
    (ho : s.getShared i = some o) :
    ∃ s', SharedPtr.ctor_move i s = some s' ∧
      s'.getShared s.shared.length = some ⟨o.control_block, o.ptr⟩ ∧
      s'.getShared i = some ⟨none, Ptr.null⟩ ∧
      (∀ k, k < s.shared.length → k ≠ i → s'.shared[k]? = s.shared[k]?) ∧
      s'.weak = s.weak ∧ s'.heap = s.heap := by
  have hlt := getShared_lt ho
  refine ⟨_, SharedPtr.ctor_move_eq ho, ?_, ?_, ?_, rfl, rfl⟩
  · rw [getShared_eq_some]
    show ((s.shared ++ [some (SharedPtr.mk o.control_block o.ptr)]).set i
      (some (SharedPtr.mk none Ptr.null)))[s.shared.length]? = _
    rw [List.getElem?_set_ne (by omega)]
    simp
  · rw [getShared_eq_some]
    exact getElem?_set_same _ (by simp; omega)
  · intro k hk hki
    show ((s.shared ++ [some (SharedPtr.mk o.control_block o.ptr)]).set i
      (some (SharedPtr.mk none Ptr.null)))[k]? = _
    rw [List.getElem?_set_ne (Ne.symm hki), List.getElem?_append_left hk]

/-- Witness of C12: moving from the owner created by `makeShared(0)`. -/
theorem move_ctor_transfers_witness :
    ∃ s', SharedPtr.ctor_move 0 scenarioA_1 = some s' ∧
      s'.getShared scenarioA_1.shared.length = some ⟨some 0, Ptr.obj 0⟩ ∧
      s'.getShared 0 = some ⟨none, Ptr.null⟩ ∧
      (∀ k, k < scenarioA_1.shared.length → k ≠ 0 →
        s'.shared[k]? = scenarioA_1.shared[k]?) ∧
      s'.weak = scenarioA_1.weak ∧ s'.heap = scenarioA_1.heap :=
  move_ctor_transfers scenarioA_1 0 ⟨some 0, .obj 0⟩ (by rfl)

/-- What one `shared_release` does to the block of a live handle of a reached
state, when it is applied to a heap `h1` in which that block is as in the
reached state. -/
theorem release_of_live_handle {ops : List (Op T)} {s : State T} {h1 h3 : Heap T}
    {i cb : Nat} {a : SharedPtr} (hlen : ops.length + 1 < SIZE_T_MOD)
    (hrun : run ops State.init = some s) (ha : s.getShared i = some a)
    (hcb : a.control_block = some cb) (hsame : SameBlock s.heap h1 cb)
    (hrel : shared_release cb h1 = some h3) :
    ∃ c, s.heap.read cb = some c ∧ 0 < c.shared_count ∧
      h3.read cb = some ⟨c.shared_count - 1, c.weak_count, c.body⟩ ∧
      h3.disposeCount cb = s.heap.disposeCount cb + (if sharedRefs s cb = 1 then 1 else 0) ∧
      h3.releaseCount cb = s.heap.releaseCount cb +
        (if sharedRefs s cb = 1 ∧ weakRefs s cb = 0 then 1 else 0) := by
  obtain ⟨c, hc, hsc, hwc, hpos, hrep, _⟩ := reached_block_of_shared hlen hrun ha hcb
  have hc1 : h1.read cb = some c := by rw [hsame.1, hc]
  obtain ⟨e1, e2, e3⟩ := shared_release_effect hc1 hpos (by omega) hrel
  refine ⟨c, hc, hpos, e1, ?_, ?_⟩
  · rw [e2, hsc, hsame.2.1]
  · rw [e3, hsc, hwc, hsame.2.2]

/-- Restricted form of C13, for programs that call only the functions written
in the source (`run`), so without assignment from a `const` operand: in a state
reached by such a program, copy assignment `a = b` of the live handles in slots
`i` and `j`, where `a` is empty or the two handles have different control
blocks, is the copy construction of a temporary from `b` followed by exactly
one `shared_release` on the block `a` held (none if `a` was empty). Afterwards
`a` has the control block and payload pointer of `b`, `b` and every other
handle are unchanged, the block of `b` (if any) has `shared_count` increased by
exactly 1, and the block `a` held has `shared_count` decreased by 1 and is
disposed exactly when `a` was its only owner. -/
theorem copy_assign_effect (ops : List (Op T)) (s : State T) (i j : Nat) (a b : SharedPtr)
    (hlen : ops.length + 1 < SIZE_T_MOD) (hrun : run ops State.init = some s)
    (ha : s.getShared i = some a) (hb : s.getShared j = some b)
    (hdiff : a.control_block = none ∨ a.control_block ≠ b.control_block) :
    ∃ s1 s', SharedPtr.ctor_copy j s = some s1 ∧ SharedPtr.assign i j s = some s' ∧
      s'.getShared i = some ⟨b.control_block, b.ptr⟩ ∧ s'.getShared j = some b ∧
      (∀ k, k < s.shared.length → k ≠ i → s'.shared[k]? = s.shared[k]?) ∧
      s'.weak = s.weak ∧
      (a.control_block = none → s'.heap = s1.heap) ∧
      (∀ cb1, a.control_block = some cb1 → shared_release cb1 s1.heap = some s'.heap) ∧
      (b.control_block = none → s1.heap = s.heap) ∧
      (∀ cb2, b.control_block = some cb2 →
        ∃ c2, s.heap.read cb2 = some c2 ∧
          s'.heap.read cb2 = some ⟨c2.shared_count + 1, c2.weak_count, c2.body⟩) ∧
      (∀ cb1, a.control_block = some cb1 →
        ∃ c1, s.heap.read cb1 = some c1 ∧ 0 < c1.shared_count ∧
          s'.heap.read cb1 = some ⟨c1.shared_count - 1, c1.weak_count, c1.body⟩ ∧
          s'.heap.disposeCount cb1 =
            s.heap.disposeCount cb1 + (if sharedRefs s cb1 = 1 then 1 else 0) ∧
          s'.heap.releaseCount cb1 = s.heap.releaseCount cb1 +
            (if sharedRefs s cb1 = 1 ∧ weakRefs s cb1 = 0 then 1 else 0)) := by
  obtain ⟨hinv, hl, _⟩ := reached_facts hlen hrun
  obtain ⟨s', hassign⟩ := SharedPtr.assign_defined hinv hl ha hb
  have hsplit := hassign
  unfold SharedPtr.assign at hsplit
  simp only [Option.bind_eq_bind, Option.bind_eq_some] at hsplit
  obtain ⟨_, _, s1, h1, s2, h2, h3⟩ := hsplit
  obtain ⟨hsh1, hwk1, htr1, hnone1, hsome1, hframe1⟩ := copy_heap_facts hlen hrun hb h1
  have hi := getShared_lt ha
  have hj := getShared_lt hb
  have hne : i ≠ s.shared.length := by omega
  obtain ⟨e1, _, e3, e4, e5, e6⟩ := swap_dtor_effect hne (getShared_push_old hsh1 ha)
    (getShared_push_new hsh1) (Or.inl h2) h3
  have hslots : ∀ k, k < s.shared.length → k ≠ i → s'.shared[k]? = s.shared[k]? := by
    intro k hk hki
    rw [e3 k hki (by omega), hsh1, List.getElem?_append_left hk]
  have hacb : ∀ cb1, a.control_block = some cb1 → b.control_block ≠ some cb1 := by
    intro cb1 h e
    rcases hdiff with hd | hd
    · rw [hd] at h
      simp at h
    · exact hd (by rw [h, e])
  refine ⟨s1, s', h1, hassign, e1, ?_, hslots, by rw [e4, hwk1], e5, e6, hnone1, ?_, ?_⟩
  · by_cases hji : j = i
    · subst hji
      have hab : a = b := Option.some.inj (ha.symm.trans hb)
      subst hab
      exact e1
    · rw [getShared_eq_some, hslots j hj hji]
      exact getShared_eq_some.mp hb
  · intro cb2 hcb2
    obtain ⟨c2, hc2, hc2'⟩ := hsome1 cb2 hcb2
    refine ⟨c2, hc2, ?_⟩
    cases hcb1 : a.control_block with
    | none => rw [e5 hcb1]; exact hc2'
    | some cb1 =>
      have hne12 : cb2 ≠ cb1 := by
        intro e
        subst e
        exact hacb cb2 hcb1 hcb2
      rw [(shared_release_frame hne12 (e6 cb1 hcb1)).1]
      exact hc2'
  · intro cb1 hcb1
    have hsame : SameBlock s.heap s1.heap cb1 :=
      ⟨hframe1 cb1 (hacb cb1 hcb1), by simp only [Heap.disposeCount, htr1],
        by simp only [Heap.releaseCount, htr1]⟩
    exact release_of_live_handle hlen hrun ha hcb1 hsame (e6 cb1 hcb1)

/-- Example for the restricted form of C13: `a = b` for the owners of two
different blocks; the block of `a` loses its only owner and is disposed, the
block of `b` has two owners. -/
theorem copy_assign_effect_witness :
    ∃ s', SharedPtr.assign 0 1 twoOwners = some s' ∧
      s'.getShared 0 = some ⟨some 1, Ptr.obj 1⟩ ∧ s'.getShared 1 = some ⟨some 1, Ptr.obj 1⟩ ∧
      s'.heap.disposeCount 0 =
        twoOwners.heap.disposeCount 0 + (if sharedRefs twoOwners 0 = 1 then 1 else 0) :=
  (copy_assign_effect twoOwnersProgram twoOwners 0 1 ⟨some 0, .obj 0⟩ ⟨some 1, .obj 1⟩
    (by decide) (by rfl) (by rfl) (by rfl) (Or.inr (by decide))).elim
    (fun _ h => h.elim (fun s' h => ⟨s', h.2.1, h.2.2.1, h.2.2.2.1,
      (h.2.2.2.2.2.2.2.2.2.2 0 rfl).elim (fun _ hc => hc.2.2.2.1)⟩))

theorem SharedPtr.reset_empty {s : State T} {i : Nat} {a : SharedPtr}
    (ha : s.getShared i = some a) (hcb : a.control_block = none) :
    ∃ s', SharedPtr.reset i s = some s' ∧ s'.heap = s.heap ∧ s'.weak = s.weak ∧
      s'.getShared i = some ⟨none, Ptr.null⟩ := by
  have hi := getShared_lt ha
  have hne : s.shared.length ≠ i := by omega
  have hsh : (s.pushShared ⟨none, .null⟩).shared = s.shared ++ [some ⟨none, .null⟩] := rfl
  have ha1 := getShared_push_old hsh ha
  have hx1 := getShared_push_new hsh
  have h2 := SharedPtr.swap_eq hx1 ha1
  have hlen1 : s.shared.length < (s.pushShared ⟨none, .null⟩).shared.length := by
    rw [hsh]
    simp
  have htmp : (State.mk (s.pushShared ⟨none, .null⟩).heap
      (((s.pushShared ⟨none, .null⟩).shared.set s.shared.length
        (some ⟨a.control_block, a.ptr⟩)).set i (some ⟨none, .null⟩))
      (s.pushShared ⟨none, .null⟩).weak).getShared s.shared.length = some a := by
    rw [getShared_eq_some]
    show ((List.set _ s.shared.length (some (SharedPtr.mk a.control_block a.ptr))).set i
      (some (SharedPtr.mk none Ptr.null)))[s.shared.length]? = _
    rw [List.getElem?_set_ne (Ne.symm hne)]
    exact getElem?_set_same _ hlen1
  have h3 := SharedPtr.dtor_empty htmp hcb
  have hfin : SharedPtr.reset i s = some ⟨s.heap,
      ((((s.shared ++ [some (SharedPtr.mk none Ptr.null)]).set s.shared.length
        (some (SharedPtr.mk a.control_block a.ptr))).set i
        (some (SharedPtr.mk none Ptr.null))).set s.shared.length none), s.weak⟩ := by
    unfold SharedPtr.reset
    rw [ha]
    simp only [Option.bind_eq_bind, Option.some_bind]
    have h1 : SharedPtr.ctor_default s = some (s.pushShared ⟨none, .null⟩) := rfl
    rw [h1, Option.some_bind, h2, Option.some_bind]
    exact h3
  refine ⟨_, hfin, rfl, rfl, ?_⟩
  rw [getShared_eq_some]
  show (((List.set _ s.shared.length (some (SharedPtr.mk a.control_block a.ptr))).set i
    (some (SharedPtr.mk none Ptr.null))).set s.shared.length none)[i]? = _
  rw [List.getElem?_set_ne hne]
  exact getElem?_set_same _ (by simp; omega)

/-- C17: the default constructor creates an empty handle (null control block,
`get()` null) and leaves the heap unchanged; for a live empty handle in slot
`i`, copy construction from it, move construction from it, `reset()` on it,
`swap` with another live empty handle and its destruction are all defined and
leave the heap unchanged: no counter of any block changes and nothing
(`dispose`, `destroy`) is recorded in the trace. -/
theorem empty_handle_operations (s : State T) (i j : Nat) (a b : SharedPtr)
    (ha : s.getShared i = some a) (hcb : a.control_block = none)
    (hb : s.getShared j = some b) (hbcb : b.control_block = none) :
    (∃ s', SharedPtr.ctor_default s = some s' ∧
      s'.getShared s.shared.length = some ⟨none, Ptr.null⟩ ∧
      SharedPtr.get s.shared.length s' = some Ptr.null ∧ s'.heap = s.heap) ∧
    (∃ s', SharedPtr.ctor_copy i s = some s' ∧
      s'.getShared s.shared.length = some ⟨none, a.ptr⟩ ∧ s'.heap = s.heap) ∧
    (∃ s', SharedPtr.ctor_move i s = some s' ∧
      s'.getShared s.shared.length = some ⟨none, a.ptr⟩ ∧ s'.heap = s.heap) ∧
    (∃ s', SharedPtr.reset i s = some s' ∧ s'.getShared i = some ⟨none, Ptr.null⟩ ∧
      s'.heap = s.heap) ∧
    (∃ s', SharedPtr.swap i j s = some s' ∧ s'.getShared i = some ⟨none, b.ptr⟩ ∧
      s'.getShared j = some ⟨none, a.ptr⟩ ∧ s'.heap = s.heap) ∧
    (∃ s', SharedPtr.dtor i s = some s' ∧ s'.heap = s.heap) := by
  have hnew : (s.pushShared ⟨none, .null⟩).getShared s.shared.length
      = some ⟨none, Ptr.null⟩ := getShared_push_new (s := s) rfl
  refine ⟨⟨_, rfl, hnew, SharedPtr.get_eq hnew, rfl⟩,
    ⟨_, SharedPtr.ctor_copy_empty ha hcb, getShared_push_new (s := s) rfl, rfl⟩, ?_, ?_,
    ?_, ⟨_, SharedPtr.dtor_empty ha hcb, rfl⟩⟩
  · have hm := SharedPtr.ctor_move_eq ha
    obtain ⟨hn, _, _, _, hh⟩ := SharedPtr.ctor_move_facts ha hm
    refine ⟨_, hm, ?_, hh⟩
    rw [hn, hcb]
  · obtain ⟨s', h, hh, _, hg⟩ := SharedPtr.reset_empty ha hcb
    exact ⟨s', h, hg, hh⟩
  · have hi := getShared_lt ha
    have hj := getShared_lt hb
    refine ⟨_, SharedPtr.swap_eq ha hb, ?_, ?_, rfl⟩
    · rw [getShared_eq_some]
      show ((s.shared.set i (some (SharedPtr.mk b.control_block b.ptr))).set j
        (some (SharedPtr.mk a.control_block a.ptr)))[i]? = _
      by_cases hij : j = i
      · subst hij
        have hab : a = b := Option.some.inj (ha.symm.trans hb)
        subst hab
        rw [hcb]
        exact getElem?_set_same _ (by simp; omega)
      · rw [List.getElem?_set_ne hij, hbcb]
        exact getElem?_set_same _ hi
    · rw [getShared_eq_some]
      show ((s.shared.set i (some (SharedPtr.mk b.control_block b.ptr))).set j
        (some (SharedPtr.mk a.control_block a.ptr)))[j]? = _
      rw [hcb]
      exact getElem?_set_same _ (by simp; omega)

/-- Witness of C17: two default-constructed handles. -/
theorem empty_handle_operations_witness :
    (∃ s', SharedPtr.ctor_copy 0 emptyPair = some s' ∧
      s'.getShared emptyPair.shared.length = some ⟨none, Ptr.null⟩ ∧
      s'.heap = emptyPair.heap) ∧
    (∃ s', SharedPtr.reset 0 emptyPair = some s' ∧ s'.getShared 0 = some ⟨none, Ptr.null⟩ ∧
      s'.heap = emptyPair.heap) ∧
    (∃ s', SharedPtr.swap 0 1 emptyPair = some s' ∧ s'.getShared 0 = some ⟨none, Ptr.null⟩ ∧
      s'.getShared 1 = some ⟨none, Ptr.null⟩ ∧ s'.heap = emptyPair.heap) ∧
    (∃ s', SharedPtr.dtor 0 emptyPair = some s' ∧ s'.heap = emptyPair.heap) ∧
    run emptyPairProgram State.init = some emptyPair :=
  ⟨(empty_handle_operations emptyPair 0 1 ⟨none, .null⟩ ⟨none, .null⟩ (by rfl) rfl (by rfl)
      rfl).2.1,
    (empty_handle_operations emptyPair 0 1 ⟨none, .null⟩ ⟨none, .null⟩ (by rfl) rfl (by rfl)
      rfl).2.2.2.1,
    (empty_handle_operations emptyPair 0 1 ⟨none, .null⟩ ⟨none, .null⟩ (by rfl) rfl (by rfl)
      rfl).2.2.2.2.1,
    (empty_handle_operations emptyPair 0 1 ⟨none, .null⟩ ⟨none, .null⟩ (by rfl) rfl (by rfl)
      rfl).2.2.2.2.2, by rfl⟩

/-! ## WeakPtr constructors -/

theorem getWeak_lt {s : State T} {i : Nat} {w : WeakPtr} (hw : s.getWeak i = some w) :
    i < s.weak.length :=
  getElem?_lt_of_some (getWeak_eq_some.mp hw)

theorem getWeak_push_old {s s' : State T} {x : WeakPtr} {i : Nat} {w : WeakPtr}
    (h : s'.weak = s.weak ++ [some x]) (hw : s.getWeak i = some w) :
    s'.getWeak i = some w := by
  have hlt := getWeak_lt hw
  rw [getWeak_eq_some] at hw ⊢
  rw [h, List.getElem?_append_left hlt]
  exact hw

theorem getWeak_push_new {s s' : State T} {x : WeakPtr}
    (h : s'.weak = s.weak ++ [some x]) : s'.getWeak s.weak.length = some x := by
  rw [getWeak_eq_some, h]
  simp

theorem WeakPtr.ctor_shared_eq {s : State T} {shared_ptr cb : Nat} {o : SharedPtr}
    {c : BaseControlBlock T} (ho : s.getShared shared_ptr = some o)
    (hcb : o.control_block = some cb) (hc : s.heap.read cb = some c) :
    WeakPtr.ctor_shared shared_ptr s = some ⟨s.heap.write cb
      { c with weak_count := incr c.weak_count }, s.shared,
      s.weak ++ [some (WeakPtr.mk (some cb) o.ptr)]⟩ := by
  unfold WeakPtr.ctor_shared
  rw [ho]
  simp only [Option.bind_eq_bind, Option.some_bind]
  rw [hcb, Option.some_bind]
  have : weak_increment cb (s.pushWeak ⟨some cb, o.ptr⟩).heap
      = some (s.heap.write cb { c with weak_count := incr c.weak_count }) :=
    weak_increment_eq hc
  rw [this]
  rfl

theorem WeakPtr.weak_ctor_copy_eq {s : State T} {other cb : Nat} {w : WeakPtr}
    {c : BaseControlBlock T} (hw : s.getWeak other = some w)
    (hcb : w.control_block = some cb) (hc : s.heap.read cb = some c) :
    WeakPtr.ctor_copy other s = some ⟨s.heap.write cb
      { c with weak_count := incr c.weak_count }, s.shared,
      s.weak ++ [some (WeakPtr.mk (some cb) w.ptr)]⟩ := by
  unfold WeakPtr.ctor_copy
  rw [hw]
  simp only [Option.bind_eq_bind, Option.some_bind]
  rw [hcb, Option.some_bind]
  have : weak_increment cb (s.pushWeak ⟨some cb, w.ptr⟩).heap
      = some (s.heap.write cb { c with weak_count := incr c.weak_count }) :=
    weak_increment_eq hc
  rw [this]
  rfl

theorem WeakPtr.weak_ctor_move_eq {s : State T} {other : Nat} {w : WeakPtr}
    (hw : s.getWeak other = some w) :
    WeakPtr.ctor_move other s = some ⟨s.heap, s.shared,
      (s.weak ++ [some (WeakPtr.mk w.control_block w.ptr)]).set other
        (some (WeakPtr.mk none Ptr.null))⟩ := by
  unfold WeakPtr.ctor_move
  rw [hw]
  rfl

/-- C18: in a state reached through `run`, constructing a `WeakPtr` from
the live non-empty `SharedPtr` in slot `i` returns a new `WeakPtr` with the
control block and payload pointer of the source; the `weak_count` of that
block grows by exactly 1, its `shared_count` (hence `use_count()` of the
source) is unchanged, and every other block, every `SharedPtr`, every other
`WeakPtr` and the trace are unchanged. -/
theorem weak_from_shared (ops : List (Op T)) (s : State T) (i cb : Nat) (o : SharedPtr)
    (hlen : ops.length + 1 < SIZE_T_MOD) (hrun : run ops State.init = some s)
    (ho : s.getShared i = some o) (hcb : o.control_block = some cb) :
    ∃ s' c, WeakPtr.ctor_shared i s = some s' ∧
      s'.getWeak s.weak.length = some ⟨o.control_block, o.ptr⟩ ∧
      s'.weak = s.weak ++ [some ⟨o.control_block, o.ptr⟩] ∧ s'.shared = s.shared ∧
      s'.heap.trace = s.heap.trace ∧ s.heap.read cb = some c ∧
      s'.heap.read cb = some ⟨c.shared_count, c.weak_count + 1, c.body⟩ ∧
      (∀ b, b ≠ cb → s'.heap.read b = s.heap.read b) ∧
      SharedPtr.use_count i s = some c.shared_count ∧
      SharedPtr.use_count i s' = some c.shared_count := by
  obtain ⟨c, hc, _, _, _, _, hrep⟩ := reached_block_of_shared hlen hrun ho hcb
  have hlt := Heap.read_some_lt hc
  have hread : (s.heap.write cb { c with weak_count := incr c.weak_count }).read cb
      = some ⟨c.shared_count, c.weak_count + 1, c.body⟩ := by
    rw [Heap.read_write_same _ hlt, incr_lt hrep]
  refine ⟨_, c, WeakPtr.ctor_shared_eq ho hcb hc, ?_, ?_, rfl, rfl, hc, hread, ?_,
    SharedPtr.use_count_eq ho hcb hc, ?_⟩
  · rw [hcb]
    exact getWeak_push_new (s := s) rfl
  · rw [hcb]
  · intro b hb
    exact Heap.read_write_ne _ hb
  · exact SharedPtr.use_count_eq (s := ⟨s.heap.write cb
      { c with weak_count := incr c.weak_count }, s.shared,
      s.weak ++ [some (WeakPtr.mk (some cb) o.ptr)]⟩)
      (c := ⟨c.shared_count, c.weak_count + 1, c.body⟩) ho hcb hread

/-- Witness of C18: `w = WeakPtr(s)` after `s = makeShared(0)`. -/
theorem weak_from_shared_witness :
    ∃ s' c, WeakPtr.ctor_shared 0 scenarioA_1 = some s' ∧
      s'.getWeak 0 = some ⟨some 0, Ptr.obj 0⟩ ∧
      scenarioA_1.heap.read 0 = some c ∧
      s'.heap.read 0 = some ⟨c.shared_count, c.weak_count + 1, c.body⟩ ∧
      SharedPtr.use_count 0 scenarioA_1 = some c.shared_count ∧
      SharedPtr.use_count 0 s' = some c.shared_count :=
  (weak_from_shared [.make_shared (.value 0)] scenarioA_1 0 0 ⟨some 0, .obj 0⟩
    (by decide) (by rfl) (by rfl) rfl).elim
    (fun s' h => h.elim (fun c h => ⟨s', c, h.1, h.2.1, h.2.2.2.2.2.1, h.2.2.2.2.2.2.1,
      h.2.2.2.2.2.2.2.2.1, h.2.2.2.2.2.2.2.2.2⟩))

/-- C19: in a state reached through `run`, copy-constructing a `WeakPtr`
from the live non-empty `WeakPtr` in slot `i` returns a new handle with the same
control block and payload pointer, increases the `weak_count` of the block by
exactly 1 and leaves its `shared_count`, every other block and the trace
unchanged; move-constructing a `WeakPtr` from the live handle in slot `i`
returns a new handle with the control block and payload pointer of the source,
leaves the source empty and leaves the heap unchanged. -/
theorem weak_copy_and_move (ops : List (Op T)) (s : State T) (i : Nat) (w : WeakPtr)
    (hlen : ops.length + 1 < SIZE_T_MOD) (hrun : run ops State.init = some s)
    (hw : s.getWeak i = some w) :
    (∀ cb, w.control_block = some cb →
      ∃ s' c, WeakPtr.ctor_copy i s = some s' ∧
        s'.getWeak s.weak.length = some ⟨w.control_block, w.ptr⟩ ∧
        s'.getWeak i = some w ∧ s'.shared = s.shared ∧
        s'.heap.trace = s.heap.trace ∧ s.heap.read cb = some c ∧
        s'.heap.read cb = some ⟨c.shared_count, c.weak_count + 1, c.body⟩ ∧
        (∀ b, b ≠ cb → s'.heap.read b = s.heap.read b)) ∧
    (∃ s', WeakPtr.ctor_move i s = some s' ∧
      s'.getWeak s.weak.length = some ⟨w.control_block, w.ptr⟩ ∧
      s'.getWeak i = some ⟨none, Ptr.null⟩ ∧
      (∀ k, k < s.weak.length → k ≠ i → s'.weak[k]? = s.weak[k]?) ∧
      s'.shared = s.shared ∧ s'.heap = s.heap) := by
  have hi := getWeak_lt hw
  constructor
  · intro cb hcb
    obtain ⟨c, hc, _, _, _, _, hrep⟩ := reached_block_of_weak hlen hrun hw hcb
    have hlt := Heap.read_some_lt hc
    refine ⟨_, c, WeakPtr.weak_ctor_copy_eq hw hcb hc, ?_, ?_, rfl, rfl, hc, ?_, ?_⟩
    · rw [hcb]
      exact getWeak_push_new (s := s) rfl
    · exact getWeak_push_old (s := s) rfl hw
    · rw [Heap.read_write_same _ hlt, incr_lt hrep]
    · intro b hb
      exact Heap.read_write_ne _ hb
  · refine ⟨_, WeakPtr.weak_ctor_move_eq hw, ?_, ?_, ?_, rfl, rfl⟩
    · rw [getWeak_eq_some]
      show ((s.weak ++ [some (WeakPtr.mk w.control_block w.ptr)]).set i
        (some (WeakPtr.mk none Ptr.null)))[s.weak.length]? = _
      rw [List.getElem?_set_ne (by omega)]
      simp
    · rw [getWeak_eq_some]
      exact getElem?_set_same _ (by simp; omega)
    · intro k hk hki
      show ((s.weak ++ [some (WeakPtr.mk w.control_block w.ptr)]).set i
        (some (WeakPtr.mk none Ptr.null)))[k]? = _
      rw [List.getElem?_set_ne (Ne.symm hki), List.getElem?_append_left hk]

/-- Witness of C19: copying and moving the `WeakPtr` of Scenario B, whose block
has no owner left. -/
theorem weak_copy_and_move_witness :
    (∃ s' c, WeakPtr.ctor_copy 0 scenarioB_3 = some s' ∧
      s'.getWeak 1 = some ⟨some 0, Ptr.obj 0⟩ ∧ scenarioB_3.heap.read 0 = some c ∧
      s'.heap.read 0 = some ⟨c.shared_count, c.weak_count + 1, c.body⟩) ∧
    (∃ s', WeakPtr.ctor_move 0 scenarioB_3 = some s' ∧
      s'.getWeak 1 = some ⟨some 0, Ptr.obj 0⟩ ∧ s'.getWeak 0 = some ⟨none, Ptr.null⟩ ∧
      s'.heap = scenarioB_3.heap) :=
  ⟨((weak_copy_and_move scenarioB scenarioB_3 0 ⟨some 0, .obj 0⟩ (by decide) (by rfl)
      (by rfl)).1 0 rfl).elim
      (fun s' h => h.elim (fun c h => ⟨s', c, h.1, h.2.1, h.2.2.2.2.2.1, h.2.2.2.2.2.2.1⟩)),
    (weak_copy_and_move scenarioB scenarioB_3 0 ⟨some 0, .obj 0⟩ (by decide) (by rfl)
      (by rfl)).2.elim
      (fun s' h => ⟨s', h.1, h.2.1, h.2.2.1, h.2.2.2.2.2⟩)⟩

/-- C20 (the code at the failing inputs): the `WeakPtr` constructors increment
`control_block->weak_count` without a null check.  Each program below runs to
a state whose source handle is empty; copying a default-constructed or a
moved-from `WeakPtr`, constructing a `WeakPtr` from an empty `SharedPtr`, and
`operator=(WeakPtr)` with an empty argument then dereference a null
`control_block` (the model has no result for them), whereas copying the empty
`SharedPtr` is defined and leaves the heap unchanged. -/
theorem weak_from_empty_dereferences_null :
    (∃ s : State Nat, run [Op.weak_default] State.init = some s ∧
      s.getWeak 0 = some ⟨none, Ptr.null⟩ ∧ WeakPtr.ctor_copy 0 s = none) ∧
    (∃ s : State Nat,
      run [Op.make_shared (Construct.value 0), Op.weak_shared 0, Op.weak_move 0] State.init
        = some s ∧
      s.getWeak 0 = some ⟨none, Ptr.null⟩ ∧ WeakPtr.ctor_copy 0 s = none) ∧
    (∃ s : State Nat, run [Op.shared_default] State.init = some s ∧
      s.getShared 0 = some ⟨none, Ptr.null⟩ ∧ WeakPtr.ctor_shared 0 s = none ∧
      ∃ s', SharedPtr.ctor_copy 0 s = some s' ∧
        s'.getShared 1 = some ⟨none, Ptr.null⟩ ∧ s'.heap = s.heap) ∧
    (∃ s : State Nat, run [Op.weak_default, Op.weak_default] State.init = some s ∧
      s.getWeak 0 = some ⟨none, Ptr.null⟩ ∧ s.getWeak 1 = some ⟨none, Ptr.null⟩ ∧
      WeakPtr.assign 0 1 s = none) := by
  refine ⟨⟨⟨⟨[], []⟩, [], [some ⟨none, .null⟩]⟩, by rfl, by rfl, by rfl⟩,
    ⟨⟨⟨[some ⟨1, 1, .ControlBlockMakeShared 0 0⟩], [.allocate 0 0]⟩,
      [some ⟨some 0, .obj 0⟩], [some ⟨none, .null⟩, some ⟨some 0, .obj 0⟩]⟩,
      by rfl, by rfl, by rfl⟩,
    ⟨⟨⟨[], []⟩, [some ⟨none, .null⟩], []⟩, by rfl, by rfl, by rfl, _, by rfl, by rfl, by rfl⟩,
    ⟨⟨⟨[], []⟩, [], [some ⟨none, .null⟩, some ⟨none, .null⟩]⟩, by rfl, by rfl, by rfl,
      by rfl⟩⟩

/-! ## The calls made inside a member function -/

theorem run_append (a b : List (Op T)) (s : State T) :
    run (a ++ b) s = (run a s).bind (run b) := by
  induction a generalizing s with
  | nil => simp [run]
  | cons op a ih =>
    simp only [List.cons_append, run]
    cases step op s with
    | none => simp
    | some s1 => simp [ih]

theorem run_cons_some {op : Op T} {ops : List (Op T)} {s s' : State T}
    (h : run (op :: ops) s = some s') : ∃ s1, step op s = some s1 ∧ run ops s1 = some s' := by
  simp only [run, Option.bind_eq_some] at h
  exact h

theorem run_three {p q r : Op T} {s s1 s2 s3 : State T} (h1 : step p s = some s1)
    (h2 : step q s1 = some s2) (h3 : step r s2 = some s3) : run [p, q, r] s = some s3 := by
  simp only [run, h1, h2, h3, Option.some_bind]

theorem body_primitive (s : State T) (op p : Op T) (hp : p ∈ Op.body s op) :
    p.isPrimitive = true := by
  cases op <;> simp only [Op.body, List.mem_cons, List.mem_singleton, List.not_mem_nil,
    or_false] at hp <;> rcases hp with rfl | rfl | rfl <;> rfl

/-- A public call is the sequence of the calls of its body. -/
theorem step_run_body {op : Op T} {s s' : State T} (h : step op s = some s') :
    run (Op.body s op) s = some s' := by
  cases op with
  | shared_assign this other =>
    simp only [step, SharedPtr.assign, Option.bind_eq_bind, Option.bind_eq_some] at h
    obtain ⟨_, _, s1, h1, s2, h2, h3⟩ := h
    exact run_three h1 h2 h3
  | shared_assign_move this other =>
    simp only [step, SharedPtr.assign_move, Option.bind_eq_bind, Option.bind_eq_some] at h
    obtain ⟨_, _, s1, h1, s2, h2, h3⟩ := h
    exact run_three h1 h2 h3
  | shared_reset this =>
    simp only [step, SharedPtr.reset, Option.bind_eq_bind, Option.bind_eq_some] at h
    obtain ⟨_, _, s1, h1, s2, h2, h3⟩ := h
    exact run_three h1 h2 h3
  | shared_reset_ptr this p =>
    simp only [step, SharedPtr.reset_ptr, Option.bind_eq_bind, Option.bind_eq_some] at h
    obtain ⟨_, _, s1, h1, s2, h2, h3⟩ := h
    exact run_three h1 h2 h3
  | weak_assign this arg =>
    simp only [step, WeakPtr.assign, Option.bind_eq_bind, Option.bind_eq_some] at h
    obtain ⟨_, _, s1, h1, s2, h2, h3⟩ := h
    exact run_three h1 h2 h3
  | weak_assign_move this other =>
    simp only [step, WeakPtr.assign_move, Option.bind_eq_bind, Option.bind_eq_some] at h
    obtain ⟨_, _, s1, h1, s2, h2, h3⟩ := h
    exact run_three h1 h2 h3
  | weak_assign_shared this shared_ptr =>
    simp only [step, WeakPtr.assign_shared, Option.bind_eq_bind, Option.bind_eq_some] at h
    obtain ⟨_, _, s1, h1, s2, h2, h3⟩ := h
    exact run_three h1 h2 h3
  | _ => simp only [Op.body, run, h, Option.some_bind]

/-! ## Bodies of the blocks and provenance of the events -/

@[simp] theorem isAllocate_disposeEvent (cb b : Nat) (body : BlockBody T) :
    Event.isAllocate b (disposeEvent cb body) = false := by
  cases body <;> rfl

@[simp] theorem isAllocate_deallocate (a cb b : Nat) :
    Event.isAllocate b (Event.deallocate a cb) = false := rfl

@[simp] theorem isAllocate_allocate (a cb b : Nat) :
    Event.isAllocate b (Event.allocate a cb) = decide (cb = b) := rfl

theorem Ext.ext_refl (h : Heap T) : Ext 0 h h := by
  refine ⟨rfl, rfl, fun b c hc => ⟨c, hc, rfl⟩, fun _ _ hn => hn, [], by simp, ?_, ?_⟩
  · intro e he
    simp at he
  · intro b
    have : ¬ (h.blocks.length ≤ b ∧ b < h.blocks.length) := by omega
    rw [if_neg this]
    rfl

theorem Ext.ext_trans {n m : Nat} {h h1 h2 : Heap T} (e1 : Ext n h h1) (e2 : Ext m h1 h2) :
    Ext (n + m) h h2 := by
  obtain ⟨t1, ht1, hev1, hcnt1⟩ := e1.events
  obtain ⟨t2, ht2, hev2, hcnt2⟩ := e2.events
  have hl1 := e1.len
  have hl2 := e2.len
  refine ⟨by omega, by have := e1.allocs; have := e2.allocs; omega, ?_, ?_, t1 ++ t2,
    by rw [ht2, ht1, List.append_assoc], ?_, ?_⟩
  · intro b c hc
    obtain ⟨c1, hc1, hb1⟩ := e1.bodies b c hc
    obtain ⟨c2, hc2, hb2⟩ := e2.bodies b c1 hc1
    exact ⟨c2, hc2, hb2.trans hb1⟩
  · intro b hb hn
    exact e2.unconstructed b (by omega) (e1.unconstructed b hb hn)
  · intro e he b
    rcases List.mem_append.mp he with he | he
    · obtain ⟨hd, hr, ha⟩ := hev1 e he b
      refine ⟨?_, ?_, ?_⟩
      · intro hp
        obtain ⟨c1, hc1, heq⟩ := hd hp
        obtain ⟨c2, hc2, hb2⟩ := e2.bodies b c1 hc1
        exact ⟨c2, hc2, by rw [hb2]; exact heq⟩
      · intro hp
        obtain ⟨c1, hc1, heq⟩ := hr hp
        obtain ⟨c2, hc2, hb2⟩ := e2.bodies b c1 hc1
        exact ⟨c2, hc2, by rw [hb2]; exact heq⟩
      · intro hp
        obtain ⟨hlo, hhi, hal⟩ := ha hp
        refine ⟨hlo, by omega, ?_⟩
        intro c2 hc2
        cases hc1 : h1.read b with
        | none =>
          rw [e2.unconstructed b hhi hc1] at hc2
          simp at hc2
        | some c1 =>
          obtain ⟨c2', hc2', hb2⟩ := e2.bodies b c1 hc1
          rw [hc2] at hc2'
          injection hc2' with hc2'
          subst hc2'
          rw [hb2]
          exact hal c1 hc1
    · obtain ⟨hd, hr, ha⟩ := hev2 e he b
      refine ⟨hd, hr, ?_⟩
      intro hp
      obtain ⟨hlo, hhi, hal⟩ := ha hp
      exact ⟨by omega, hhi, hal⟩
  · intro b
    rw [List.countP_append, hcnt1 b, hcnt2 b]
    split_ifs <;> omega

/-- A store to the counters of block `cb` together with calls of `dispose` and
`destroy` of that block. -/
theorem Ext.counter {h : Heap T} {cb : Nat} {c d : BaseControlBlock T}
    (hc : h.read cb = some c) (hbody : d.body = c.body) (t : List Event)
    (ht : ∀ e ∈ t, e = disposeEvent cb c.body ∨ e = Event.deallocate c.body.alloc cb) :
    Ext 0 h ⟨h.blocks.set cb (some d), h.trace ++ t⟩ := by
  have hlt := Heap.read_some_lt hc
  have hself : (Heap.mk (h.blocks.set cb (some d)) (h.trace ++ t)).read cb = some d :=
    read_set_same _ _ hlt
  refine ⟨by simp, ?_, ?_, ?_, t, rfl, ?_, ?_⟩
  · simp only [Heap.allocations, List.countP_append, Nat.add_zero, Nat.add_right_eq_self]
    rw [List.countP_eq_zero]
    intro e he
    rcases ht e he with rfl | rfl
    · cases c.body <;> simp [disposeEvent]
    · simp
  · intro b c0 hc0
    by_cases hb : b = cb
    · subst hb
      rw [hc] at hc0
      injection hc0 with hc0
      subst hc0
      exact ⟨d, hself, hbody⟩
    · exact ⟨c0, by rw [read_set_ne _ _ hb]; exact hc0, rfl⟩
  · intro b _ hn
    have hb : b ≠ cb := by
      intro e
      subst e
      rw [hc] at hn
      simp at hn
    rw [read_set_ne _ _ hb]
    exact hn
  · intro e he b
    rcases ht e he with rfl | rfl
    · refine ⟨?_, ?_, ?_⟩
      · intro hp
        simp at hp
        subst hp
        exact ⟨d, hself, by rw [hbody]⟩
      · intro hp
        simp at hp
      · intro hp
        simp at hp
    · refine ⟨?_, ?_, ?_⟩
      · intro hp
        simp at hp
      · intro hp
        simp at hp
        subst hp
        exact ⟨d, hself, by rw [hbody]⟩
      · intro hp
        simp at hp
  · intro b
    have hno : ¬ (h.blocks.length ≤ b ∧
        b < (Heap.mk (h.blocks.set cb (some d)) (h.trace ++ t)).blocks.length) := by
      simp only [List.length_set]
      omega
    rw [if_neg hno, List.countP_eq_zero]
    intro e he
    rcases ht e he with rfl | rfl <;> simp

theorem Ext.ext_allocate_write {h : Heap T} (a x y : Nat) (body : BlockBody T)
    (hb : body.alloc = a) :
    Ext 1 h ((h.allocate a).write h.blocks.length ⟨x, y, body⟩) := by
  have hlt : h.blocks.length < (h.allocate a).blocks.length := by simp [Heap.allocate]
  have hnew : ((h.allocate a).write h.blocks.length ⟨x, y, body⟩).read h.blocks.length
      = some ⟨x, y, body⟩ := Heap.read_write_same _ hlt
  have hlen : ((h.allocate a).write h.blocks.length ⟨x, y, body⟩).blocks.length
      = h.blocks.length + 1 := by simp [Heap.allocate, Heap.write]
  refine ⟨hlen, ?_, ?_, ?_, [Event.allocate a h.blocks.length], rfl, ?_, ?_⟩
  · simp [Heap.allocations, Heap.allocate, Heap.write, List.countP_append]
  · intro b c hc
    have hne : b ≠ h.blocks.length := Nat.ne_of_lt (Heap.read_some_lt hc)
    exact ⟨c, by rw [(allocate_write_same a _ hne).1]; exact hc, rfl⟩
  · intro b hlt' hn
    rw [(allocate_write_same a _ (Nat.ne_of_lt hlt')).1]
    exact hn
  · intro e he b
    simp only [List.mem_singleton] at he
    subst he
    refine ⟨by simp, by simp, ?_⟩
    intro hp
    simp at hp
    subst hp
    refine ⟨le_refl _, by omega, ?_⟩
    intro c' hc'
    rw [hnew] at hc'
    injection hc' with hc'
    subst hc'
    rw [hb]
  · intro b
    rw [hlen]
    simp only [List.countP_cons, List.countP_nil, isAllocate_allocate, decide_eq_true_eq,
      Nat.zero_add]
    split_ifs <;> omega

theorem Ext.ext_allocate (h : Heap T) (a : Nat) : Ext 1 h (h.allocate a) := by
  have hlen : (h.allocate a).blocks.length = h.blocks.length + 1 := by simp [Heap.allocate]
  refine ⟨hlen, ?_, ?_, ?_, [Event.allocate a h.blocks.length], rfl, ?_, ?_⟩
  · simp [Heap.allocations, Heap.allocate, List.countP_append]
  · intro b c hc
    have hne : b ≠ h.blocks.length := Nat.ne_of_lt (Heap.read_some_lt hc)
    exact ⟨c, by rw [allocate_read_old a hne]; exact hc, rfl⟩
  · intro b hlt' hn
    rw [allocate_read_old a (Nat.ne_of_lt hlt')]
    exact hn
  · intro e he b
    simp only [List.mem_singleton] at he
    subst he
    refine ⟨by simp, by simp, ?_⟩
    intro hp
    simp at hp
    subst hp
    refine ⟨le_refl _, by omega, ?_⟩
    intro c' hc'
    rw [allocate_read_new] at hc'
    simp at hc'
  · intro b
    rw [hlen]
    simp only [List.countP_cons, List.countP_nil, isAllocate_allocate, decide_eq_true_eq,
      Nat.zero_add]
    split_ifs <;> omega

theorem shared_release_ext {h h' : Heap T} {cb : Nat} (hr : shared_release cb h = some h') :
    Ext 0 h h' := by
  obtain ⟨c, hc⟩ := shared_release_some hr
  rw [shared_release_eq hc] at hr
  injection hr with hr
  subst hr
  rw [List.append_assoc]
  refine Ext.counter hc (d := { c with shared_count := decr c.shared_count }) rfl _ ?_
  intro e he
  rcases List.mem_append.mp he with he | he
  · split_ifs at he
    · simp only [List.mem_singleton] at he
      exact Or.inl he
    · simp at he
  · split_ifs at he
    · simp only [List.mem_singleton] at he
      exact Or.inr he
    · simp at he

theorem weak_release_ext {h h' : Heap T} {cb : Nat} (hr : weak_release cb h = some h') :
    Ext 0 h h' := by
  obtain ⟨c, hc⟩ := weak_release_some hr
  rw [weak_release_eq hc] at hr
  injection hr with hr
  subst hr
  refine Ext.counter hc (d := { c with weak_count := decr c.weak_count }) rfl _ ?_
  intro e he
  split_ifs at he
  · simp only [List.mem_singleton] at he
    exact Or.inr he
  · simp at he

theorem shared_increment_ext {h h' : Heap T} {cb : Nat}
    (hr : shared_increment cb h = some h') : Ext 0 h h' := by
  obtain ⟨c, hc⟩ := shared_increment_some hr
  rw [shared_increment_eq hc] at hr
  injection hr with hr
  subst hr
  have := Ext.counter hc (d := { c with shared_count := incr c.shared_count }) rfl []
    (by simp)
  simpa [Heap.write] using this

theorem weak_increment_ext {h h' : Heap T} {cb : Nat}
    (hr : weak_increment cb h = some h') : Ext 0 h h' := by
  obtain ⟨c, hc⟩ := weak_increment_some hr
  rw [weak_increment_eq hc] at hr
  injection hr with hr
  subst hr
  have := Ext.counter hc (d := { c with weak_count := incr c.weak_count }) rfl []
    (by simp)
  simpa [Heap.write] using this

/-! ## Every call extends the heap -/

theorem ext_of_heap_eq {h h' : Heap T} (e : h' = h) : Ext 0 h h' := by
  subst e
  exact Ext.ext_refl _

theorem allocateShared_ext (alloc : Nat) (payload : Construct T) (s : State T) :
    Ext 1 s.heap (allocateShared alloc payload s).2.heap := by
  cases payload with
  | value obj => exact Ext.ext_allocate_write alloc 1 0 _ rfl
  | throws => exact Ext.ext_allocate _ alloc

theorem prim_ext {p : Op T} {s s' : State T} (hp : p.isPrimitive = true)
    (h : step p s = some s') : Ext p.allocateCalls s.heap s'.heap := by
  cases p with
  | shared_default =>
    simp only [step, SharedPtr.ctor_default] at h
    injection h with h
    subst h
    exact Ext.ext_refl _
  | shared_raw p del alloc =>
    simp only [step, SharedPtr.ctor_raw] at h
    injection h with h
    subst h
    exact Ext.ext_allocate_write alloc 1 0 _ rfl
  | shared_raw_del p del =>
    simp only [step, SharedPtr.ctor_raw_del, SharedPtr.ctor_raw] at h
    injection h with h
    subst h
    exact Ext.ext_allocate_write stdAllocator 1 0 _ rfl
  | shared_raw_ptr p =>
    simp only [step, SharedPtr.ctor_raw_ptr, SharedPtr.ctor_raw] at h
    injection h with h
    subst h
    exact Ext.ext_allocate_write stdAllocator 1 0 _ rfl
  | allocate_shared alloc payload =>
    simp only [step] at h
    injection h with h
    subst h
    exact allocateShared_ext alloc payload s
  | make_shared payload =>
    simp only [step, makeShared] at h
    injection h with h
    subst h
    exact allocateShared_ext stdAllocator payload s
  | shared_copy other =>
    obtain ⟨o, _, _, _, hcase⟩ := SharedPtr.ctor_copy_inv h
    rcases hcase with ⟨_, hh⟩ | ⟨cb, _, hinc⟩
    · exact ext_of_heap_eq hh
    · exact shared_increment_ext hinc
  | shared_move other =>
    obtain ⟨o, _, _, _, hh⟩ := SharedPtr.ctor_move_inv h
    exact ext_of_heap_eq hh
  | shared_swap this other =>
    obtain ⟨a, b, _, _, _, _, hh⟩ := SharedPtr.swap_inv h
    exact ext_of_heap_eq hh
  | shared_dtor this =>
    obtain ⟨a, _, _, _, hcase⟩ := SharedPtr.dtor_inv h
    rcases hcase with ⟨_, hh⟩ | ⟨cb, _, hrel⟩
    · exact ext_of_heap_eq hh
    · exact shared_release_ext hrel
  | weak_default =>
    simp only [step, WeakPtr.ctor_default] at h
    injection h with h
    subst h
    exact Ext.ext_refl _
  | weak_shared shared_ptr =>
    obtain ⟨o, cb, _, _, _, _, hinc⟩ := WeakPtr.ctor_shared_inv h
    exact weak_increment_ext hinc
  | weak_copy other =>
    obtain ⟨o, cb, _, _, _, _, hinc⟩ := WeakPtr.weak_ctor_copy_inv h
    exact weak_increment_ext hinc
  | weak_move other =>
    obtain ⟨o, _, _, _, hh⟩ := WeakPtr.weak_ctor_move_inv h
    exact ext_of_heap_eq hh
  | weak_swap this other =>
    obtain ⟨a, b, _, _, _, _, hh⟩ := WeakPtr.weak_swap_inv h
    exact ext_of_heap_eq hh
  | weak_dtor this =>
    obtain ⟨a, _, _, _, hcase⟩ := WeakPtr.weak_dtor_inv h
    rcases hcase with ⟨_, hh⟩ | ⟨cb, _, hrel⟩
    · exact ext_of_heap_eq hh
    · exact weak_release_ext hrel
  | weak_lock this =>
    simp only [step, WeakPtr.lock, Option.bind_eq_bind, Option.bind_eq_some] at h
    obtain ⟨e, _, h⟩ := h
    cases e with
    | true =>
      simp only [if_true, SharedPtr.ctor_default] at h
      injection h with h
      subst h
      exact Ext.ext_refl _
    | false =>
      simp only [Bool.false_eq_true, if_false] at h
      obtain ⟨w, cb, _, _, _, _, hinc⟩ := SharedPtr.ctor_weak_inv h
      exact shared_increment_ext hinc
  | shared_assign _ _ => simp [Op.isPrimitive] at hp
  | shared_assign_move _ _ => simp [Op.isPrimitive] at hp
  | shared_reset _ => simp [Op.isPrimitive] at hp
  | shared_reset_ptr _ _ => simp [Op.isPrimitive] at hp
  | weak_assign _ _ => simp [Op.isPrimitive] at hp
  | weak_assign_move _ _ => simp [Op.isPrimitive] at hp
  | weak_assign_shared _ _ => simp [Op.isPrimitive] at hp

theorem run_three_ext {p q r : Op T} {s s' : State T} (h : run [p, q, r] s = some s')
    (hp : p.isPrimitive = true) (hq : q.isPrimitive = true) (hr : r.isPrimitive = true) :
    Ext (p.allocateCalls + q.allocateCalls + r.allocateCalls) s.heap s'.heap := by
  obtain ⟨s1, h1, h⟩ := run_cons_some h
  obtain ⟨s2, h2, h⟩ := run_cons_some h
  obtain ⟨s3, h3, h⟩ := run_cons_some h
  simp only [run] at h
  injection h with h
  subst h
  exact ((prim_ext hp h1).ext_trans (prim_ext hq h2)).ext_trans (prim_ext hr h3)

/-- Every call of the interface extends the heap, with as many new blocks as
it makes calls of `allocate`. -/
theorem step_ext {op : Op T} {s s' : State T} (h : step op s = some s') :
    Ext op.allocateCalls s.heap s'.heap := by
  have hb := step_run_body h
  cases op with
  | shared_assign this other => exact run_three_ext hb rfl rfl rfl
  | shared_assign_move this other => exact run_three_ext hb rfl rfl rfl
  | shared_reset this => exact run_three_ext hb rfl rfl rfl
  | shared_reset_ptr this p => exact run_three_ext hb rfl rfl rfl
  | weak_assign this arg => exact run_three_ext hb rfl rfl rfl
  | weak_assign_move this other => exact run_three_ext hb rfl rfl rfl
  | weak_assign_shared this shared_ptr => exact run_three_ext hb rfl rfl rfl
  | _ => exact prim_ext rfl h

/-- The heap after a program extends the heap before it. -/
theorem run_ext (ops : List (Op T)) : ∀ (s s' : State T), run ops s = some s' →
    Ext (ops.map Op.allocateCalls).sum s.heap s'.heap := by
  induction ops with
  | nil =>
    intro s s' h
    simp only [run] at h
    injection h with h
    subst h
    exact Ext.ext_refl _
  | cons op ops ih =>
    intro s s' h
    obtain ⟨s1, h1, h2⟩ := run_cons_some h
    simp only [List.map_cons, List.sum_cons]
    exact (step_ext h1).ext_trans (ih s1 s' h2)

/-! ## The events of a reached state -/

theorem filter_eq_replicate {α : Type} (p : α → Bool) (l : List α) (x : α)
    (h : ∀ e ∈ l, p e = true → e = x) : l.filter p = List.replicate (l.countP p) x := by
  rw [List.eq_replicate_iff]
  refine ⟨by rw [List.countP_eq_length_filter], ?_⟩
  intro e he
  have := List.mem_filter.mp he
  exact h e this.1 this.2

/-- The whole trace of a reached state is made of calls on its blocks. -/
theorem reached_events {ops : List (Op T)} {s : State T} (hrun : run ops State.init = some s) :
    EventsOK 0 s.heap s.heap.trace := by
  obtain ⟨t, ht, hev⟩ := (run_ext ops State.init s hrun).events
  have : s.heap.trace = t := by
    rw [ht]
    simp [State.init]
  rw [this]
  exact hev

/-- The `dispose` calls on a constructed block of a reached state: none while
an owner is left, afterwards the single call of the deleter (or payload
destructor) stored in the block. -/
theorem reached_dispose_events {ops : List (Op T)} {s : State T} {b : Nat}
    {c : BaseControlBlock T} (hlen : ops.length + 1 < SIZE_T_MOD)
    (hrun : run ops State.init = some s) (hc : s.heap.read b = some c) :
    s.heap.trace.filter (Event.isDispose b) =
      if sharedRefs s b = 0 then [disposeEvent b c.body] else [] := by
  obtain ⟨hinv, _, _⟩ := reached_facts hlen hrun
  have hcount := (hinv.block hc).2.2.1
  have hev := (reached_events hrun).1
  rw [filter_eq_replicate (Event.isDispose b) s.heap.trace (disposeEvent b c.body)]
  · have : s.heap.trace.countP (Event.isDispose b) = s.heap.disposeCount b := rfl
    rw [this, hcount]
    by_cases h0 : sharedRefs s b = 0
    · rw [if_pos h0, if_pos h0]
      rfl
    · rw [if_neg h0, if_neg h0]
      rfl
  · intro e he hp
    obtain ⟨c', hc', heq⟩ := (hev e he b).1 hp
    rw [hc] at hc'
    injection hc' with hc'
    subst hc'
    exact heq

/-- The deallocations of a constructed block of a reached state: none while a
handle is left, afterwards the single call of `deallocate` on the allocator
stored in the block. -/
theorem reached_deallocate_events {ops : List (Op T)} {s : State T} {b : Nat}
    {c : BaseControlBlock T} (hlen : ops.length + 1 < SIZE_T_MOD)
    (hrun : run ops State.init = some s) (hc : s.heap.read b = some c) :
    s.heap.trace.filter (Event.isDeallocate b) =
      if sharedRefs s b = 0 ∧ weakRefs s b = 0 then [Event.deallocate c.body.alloc b]
      else [] := by
  obtain ⟨hinv, _, _⟩ := reached_facts hlen hrun
  have hcount := (hinv.block hc).2.2.2
  have hev := (reached_events hrun).1
  rw [filter_eq_replicate (Event.isDeallocate b) s.heap.trace
    (Event.deallocate c.body.alloc b)]
  · have : s.heap.trace.countP (Event.isDeallocate b) = s.heap.releaseCount b := rfl
    rw [this, hcount]
    by_cases h0 : sharedRefs s b = 0 ∧ weakRefs s b = 0
    · rw [if_pos h0, if_pos h0]
      rfl
    · rw [if_neg h0, if_neg h0]
      rfl
  · intro e he hp
    obtain ⟨c', hc', heq⟩ := (hev e he b).2.1 hp
    rw [hc] at hc'
    injection hc' with hc'
    subst hc'
    exact heq

/-- The allocations of a constructed block of a reached state: the single call
of `allocate` on the allocator stored in the block. -/
theorem reached_allocate_events {ops : List (Op T)} {s : State T} {b : Nat}
    {c : BaseControlBlock T} (hrun : run ops State.init = some s)
    (hc : s.heap.read b = some c) :
    s.heap.trace.filter (Event.isAllocate b) = [Event.allocate c.body.alloc b] := by
  obtain ⟨hev, hcount⟩ := reached_events hrun
  have hlt := Heap.read_some_lt hc
  rw [filter_eq_replicate (Event.isAllocate b) s.heap.trace (Event.allocate c.body.alloc b)]
  · rw [hcount b, if_pos ⟨Nat.zero_le _, hlt⟩]
    rfl
  · intro e he hp
    exact ((hev e he b).2.2 hp).2.2 c hc

/-- A program keeps the constructed blocks and their derived parts. -/
theorem run_bodies {ops : List (Op T)} {s s' : State T} {b : Nat} {c : BaseControlBlock T}
    (hrun : run ops s = some s') (hc : s.heap.read b = some c) :
    ∃ c', s'.heap.read b = some c' ∧ c'.body = c.body :=
  (run_ext ops s s' hrun).bodies b c hc

/-- A program run after a reached state ends in a reached state. -/
theorem run_init_append {ops1 ops2 : List (Op T)} {s0 s : State T}
    (h0 : run ops1 State.init = some s0) (h1 : run ops2 s0 = some s) :
    run (ops1 ++ ops2) State.init = some s := by
  rw [run_append, h0]
  exact h1

/-! ## The release functions of the control block -/

/-- C25: `shared_release` on a constructed block with `shared_count = s ≥ 1`
(a `size_t` value) and `weak_count = w` returns with `shared_count = s - 1`
and `weak_count = w`, leaves every other block alone, and appends to the trace
the call of `dispose` exactly when `s = 1`, followed by the call of `destroy`
(the deallocation) exactly when `s = 1` and `w = 0`; when both are made,
`dispose` comes first. -/
theorem shared_release_contract (h : Heap T) (cb : Nat) (c : BaseControlBlock T)
    (hc : h.read cb = some c) (h1 : 1 ≤ c.shared_count) (hlt : c.shared_count < SIZE_T_MOD) :
    ∃ h', shared_release cb h = some h' ∧
      h'.read cb = some ⟨c.shared_count - 1, c.weak_count, c.body⟩ ∧
      (∀ b, b ≠ cb → h'.read b = h.read b) ∧
      h'.trace = h.trace ++ (if c.shared_count = 1 then [disposeEvent cb c.body] else [])
        ++ (if c.shared_count = 1 ∧ c.weak_count = 0
              then [Event.deallocate c.body.alloc cb] else []) ∧
      (h'.disposeCount cb = h.disposeCount cb + 1 ↔ c.shared_count = 1) ∧
      (h'.disposeCount cb = h.disposeCount cb ↔ c.shared_count ≠ 1) ∧
      (h'.releaseCount cb = h.releaseCount cb + 1 ↔ c.shared_count = 1 ∧ c.weak_count = 0) ∧
      (h'.releaseCount cb = h.releaseCount cb ↔ ¬ (c.shared_count = 1 ∧ c.weak_count = 0)) := by
  have hrel := shared_release_eq hc
  obtain ⟨e1, e2, e3⟩ := shared_release_effect hc h1 hlt hrel
  refine ⟨_, hrel, e1, ?_, ?_, ?_, ?_, ?_, ?_⟩
  · intro b hb
    exact read_set_ne _ _ hb
  · show h.trace ++ _ ++ _ = _
    by_cases hs : c.shared_count = 1
    · have hz : decr c.shared_count = 0 := (decr_eq_zero_iff hlt).mpr hs
      by_cases hw : c.weak_count = 0
      · rw [if_pos hz, if_pos ⟨hz, hw⟩, if_pos hs, if_pos ⟨hs, hw⟩]
      · rw [if_pos hz, if_neg (fun e => hw e.2), if_pos hs, if_neg (fun e => hw e.2)]
    · have hz : ¬ decr c.shared_count = 0 := fun e => hs ((decr_eq_zero_iff hlt).mp e)
      rw [if_neg hz, if_neg (fun e => hz e.1), if_neg hs, if_neg (fun e => hs e.1)]
  · rw [e2]
    by_cases hs : c.shared_count = 1
    · rw [if_pos hs]
      exact ⟨fun _ => hs, fun _ => rfl⟩
    · rw [if_neg hs]
      exact ⟨fun e => by omega, fun e => absurd e hs⟩
  · rw [e2]
    by_cases hs : c.shared_count = 1
    · rw [if_pos hs]
      exact ⟨fun e => by omega, fun e => absurd hs e⟩
    · rw [if_neg hs]
      exact ⟨fun _ => hs, fun _ => rfl⟩
  · rw [e3]
    by_cases hs : c.shared_count = 1 ∧ c.weak_count = 0
    · rw [if_pos hs]
      exact ⟨fun _ => hs, fun _ => rfl⟩
    · rw [if_neg hs]
      exact ⟨fun e => by omega, fun e => absurd e hs⟩
  · rw [e3]
    by_cases hs : c.shared_count = 1 ∧ c.weak_count = 0
    · rw [if_pos hs]
      exact ⟨fun e => by omega, fun e => absurd hs e⟩
    · rw [if_neg hs]
      exact ⟨fun _ => hs, fun _ => rfl⟩

/-- Witness of C25: the last owner of a block without `WeakPtr` goes; `dispose`
and then `destroy` are called. -/
theorem shared_release_contract_witness :
    ∃ h', shared_release 0 scenarioA_1.heap = some h' ∧
      h'.read 0 = some ⟨1 - 1, 0, .ControlBlockMakeShared 0 0⟩ ∧
      h'.trace = [Event.allocate 0 0, Event.destroyObj 0, Event.deallocate 0 0] :=
  (shared_release_contract scenarioA_1.heap 0 ⟨1, 0, .ControlBlockMakeShared 0 0⟩ (by rfl)
    (by decide) (by decide)).elim
    (fun h' h => ⟨h', h.1, h.2.1, h.2.2.2.1⟩)

/-- What `weak_release` does to its own block when `weak_count` is a positive
`size_t` value. -/
theorem weak_release_effect {h : Heap T} {cb : Nat} {c : BaseControlBlock T}
    (hc : h.read cb = some c) (h0 : 0 < c.weak_count) (hlt : c.weak_count < SIZE_T_MOD) :
    weak_release cb h = some
      ⟨h.blocks.set cb (some ⟨c.shared_count, c.weak_count - 1, c.body⟩),
        h.trace ++ (if c.weak_count = 1 ∧ c.shared_count = 0
          then [Event.deallocate c.body.alloc cb] else [])⟩ := by
  rw [weak_release_eq hc, decr_pos h0 hlt]
  have hz := decr_eq_zero_iff hlt
  rw [decr_pos h0 hlt] at hz
  by_cases hs : c.weak_count = 1 ∧ c.shared_count = 0
  · rw [if_pos ⟨hs.2, hz.mpr hs.1⟩, if_pos hs]
  · rw [if_neg (fun e => hs ⟨hz.mp e.2, e.1⟩), if_neg hs]

/-- C26: `weak_release` on a constructed block with `weak_count = w ≥ 1` (a
`size_t` value) and `shared_count = s` returns with `weak_count = w - 1` and
`shared_count = s`, leaves every other block alone, never calls `dispose`, and
appends to the trace the call of `destroy` (the deallocation) exactly when
`w = 1` and `s = 0`. -/
theorem weak_release_contract (h : Heap T) (cb : Nat) (c : BaseControlBlock T)
    (hc : h.read cb = some c) (h1 : 1 ≤ c.weak_count) (hlt : c.weak_count < SIZE_T_MOD) :
    ∃ h', weak_release cb h = some h' ∧
      h'.read cb = some ⟨c.shared_count, c.weak_count - 1, c.body⟩ ∧
      (∀ b, b ≠ cb → h'.read b = h.read b) ∧
      h'.trace = h.trace ++ (if c.weak_count = 1 ∧ c.shared_count = 0
        then [Event.deallocate c.body.alloc cb] else []) ∧
      (∀ b, h'.disposeCount b = h.disposeCount b) ∧
      (h'.releaseCount cb = h.releaseCount cb + 1 ↔ c.weak_count = 1 ∧ c.shared_count = 0) ∧
      (h'.releaseCount cb = h.releaseCount cb ↔ ¬ (c.weak_count = 1 ∧ c.shared_count = 0)) := by
  have hlen := Heap.read_some_lt hc
  refine ⟨_, weak_release_effect hc h1 hlt, read_set_same _ _ hlen, ?_, rfl, ?_, ?_, ?_⟩
  · intro b hb
    exact read_set_ne _ _ hb
  · intro b
    simp only [Heap.disposeCount, List.countP_append]
    by_cases hs : c.weak_count = 1 ∧ c.shared_count = 0
    · rw [if_pos hs]
      simp [List.countP_cons]
    · rw [if_neg hs]
      simp
  · simp only [Heap.releaseCount, List.countP_append]
    by_cases hs : c.weak_count = 1 ∧ c.shared_count = 0
    · rw [if_pos hs]
      simp [List.countP_cons, hs]
    · rw [if_neg hs]
      simp [hs]
  · simp only [Heap.releaseCount, List.countP_append]
    by_cases hs : c.weak_count = 1 ∧ c.shared_count = 0
    · rw [if_pos hs]
      simp [List.countP_cons, hs]
    · rw [if_neg hs]
      simp [hs]

/-- Witness of C26: the last `WeakPtr` of an expired block goes (Scenario B);
`destroy` is called. -/
theorem weak_release_contract_witness :
    ∃ h', weak_release 0 scenarioB_3.heap = some h' ∧
      h'.read 0 = some ⟨0, 1 - 1, .ControlBlockMakeShared 0 0⟩ ∧
      h'.trace = [Event.allocate 0 0, Event.destroyObj 0, Event.deallocate 0 0] :=
  (weak_release_contract scenarioB_3.heap 0 ⟨0, 1, .ControlBlockMakeShared 0 0⟩ (by rfl)
    (by decide) (by decide)).elim
    (fun h' h => ⟨h', h.1, h.2.1, h.2.2.2.1⟩)

/-! ## Invariants of the reached states -/

/-- Restricted form of C27, for programs that call only the functions written
in the source (`run`), so without assignment from a `const` operand: in every
state reached by such a program, for every constructed control block `b`:
`dispose` has run (once) if and only if `shared_count = 0` (I1), the block has
been deallocated (once) if and only if `shared_count = 0` and `weak_count = 0`
(I2); a block to which a live handle of either kind refers has not been
deallocated, and the payload of a block to which a live `SharedPtr` refers has
not been disposed. -/
theorem payload_and_block_liveness (ops : List (Op T)) (s : State T) (b : Nat)
    (c : BaseControlBlock T) (hlen : ops.length + 1 < SIZE_T_MOD)
    (hrun : run ops State.init = some s) (hb : s.heap.read b = some c) :
    (0 < s.heap.disposeCount b ↔ c.shared_count = 0) ∧
    (s.heap.disposeCount b = 0 ↔ 0 < c.shared_count) ∧
    s.heap.disposeCount b ≤ 1 ∧
    (0 < s.heap.releaseCount b ↔ c.shared_count = 0 ∧ c.weak_count = 0) ∧
    (s.heap.releaseCount b = 0 ↔ 0 < c.shared_count ∨ 0 < c.weak_count) ∧
    s.heap.releaseCount b ≤ 1 ∧
    (∀ i a, s.getShared i = some a → a.control_block = some b →
      s.heap.disposeCount b = 0 ∧ s.heap.releaseCount b = 0) ∧
    (∀ i w, s.getWeak i = some w → w.control_block = some b →
      s.heap.releaseCount b = 0) := by
  obtain ⟨hinv, _, _⟩ := reached_facts hlen hrun
  obtain ⟨hsc, hwc, hd, hr⟩ := hinv.block hb
  rw [hd, hr, hsc, hwc]
  refine ⟨?_, ?_, ?_, ?_, ?_, ?_, ?_, ?_⟩
  · by_cases h0 : sharedRefs s b = 0
    · rw [if_pos h0]
      exact ⟨fun _ => h0, fun _ => by omega⟩
    · rw [if_neg h0]
      exact ⟨fun e => by omega, fun e => absurd e h0⟩
  · by_cases h0 : sharedRefs s b = 0
    · rw [if_pos h0]
      exact ⟨fun e => by omega, fun e => by omega⟩
    · rw [if_neg h0]
      exact ⟨fun _ => by omega, fun _ => rfl⟩
  · by_cases h0 : sharedRefs s b = 0
    · rw [if_pos h0]
    · rw [if_neg h0]
      omega
  · by_cases h0 : sharedRefs s b = 0 ∧ weakRefs s b = 0
    · rw [if_pos h0]
      exact ⟨fun _ => h0, fun _ => by omega⟩
    · rw [if_neg h0]
      exact ⟨fun e => by omega, fun e => absurd e h0⟩
  · by_cases h0 : sharedRefs s b = 0 ∧ weakRefs s b = 0
    · rw [if_pos h0]
      exact ⟨fun e => by omega, fun e => by omega⟩
    · rw [if_neg h0]
      exact ⟨fun _ => by omega, fun _ => rfl⟩
  · by_cases h0 : sharedRefs s b = 0 ∧ weakRefs s b = 0
    · rw [if_pos h0]
    · rw [if_neg h0]
      omega
  · intro i a ha hcb
    have hpos := sharedRefs_pos ha hcb
    rw [if_neg (by omega), if_neg (by omega)]
    exact ⟨rfl, rfl⟩
  · intro i w hw hcb
    have hpos := weakRefs_pos hw hcb
    rw [if_neg (by omega)]

/-- Example for the restricted form of C27: in Scenario B after `s.reset()` the
payload is disposed and the block, still observed by `w`, is not deallocated.
-/
theorem payload_and_block_liveness_witness :
    (0 < scenarioB_3.heap.disposeCount 0 ↔ (0 : Nat) = 0) ∧
    (scenarioB_3.heap.releaseCount 0 = 0 ↔ 0 < (0 : Nat) ∨ 0 < (1 : Nat)) :=
  ⟨(payload_and_block_liveness scenarioB scenarioB_3 0 ⟨0, 1, .ControlBlockMakeShared 0 0⟩
      (by decide) (by rfl) (by rfl)).1,
    (payload_and_block_liveness scenarioB scenarioB_3 0 ⟨0, 1, .ControlBlockMakeShared 0 0⟩
      (by decide) (by rfl) (by rfl)).2.2.2.2.1⟩

/-! ## WeakPtr calls and the owners -/

theorem OwnersUntouched.of_heap_eq {s s' : State T} (hh : s'.heap = s.heap)
    (hs : s'.shared = s.shared) : OwnersUntouched s s' := by
  refine ⟨fun b c hc => ⟨c, by rw [hh]; exact hc, rfl⟩, ⟨[], by rw [hh]; simp, ?_⟩, hs⟩
  intro e he
  simp at he

theorem OwnersUntouched.owners_comp {s s1 s2 : State T} (h1 : OwnersUntouched s s1)
    (h2 : OwnersUntouched s1 s2) : OwnersUntouched s s2 := by
  obtain ⟨a1, ⟨t1, ht1, hd1⟩, b1⟩ := h1
  obtain ⟨a2, ⟨t2, ht2, hd2⟩, b2⟩ := h2
  refine ⟨?_, ⟨t1 ++ t2, by rw [ht2, ht1, List.append_assoc], ?_⟩, b2.trans b1⟩
  · intro b c hc
    obtain ⟨c1, hc1, e1⟩ := a1 b c hc
    obtain ⟨c2, hc2, e2⟩ := a2 b c1 hc1
    exact ⟨c2, hc2, e2.trans e1⟩
  · intro e he b
    rcases List.mem_append.mp he with he | he
    · exact hd1 e he b
    · exact hd2 e he b

theorem OwnersUntouched.of_weak_increment {s s' : State T} {cb : Nat}
    (hinc : weak_increment cb s.heap = some s'.heap) (hs : s'.shared = s.shared) :
    OwnersUntouched s s' := by
  obtain ⟨c, hc⟩ := weak_increment_some hinc
  have hlt := Heap.read_some_lt hc
  rw [weak_increment_eq hc] at hinc
  injection hinc with hinc
  refine ⟨?_, ⟨[], by rw [← hinc]; simp, ?_⟩, hs⟩
  · intro b c0 hc0
    rw [← hinc]
    by_cases hb : b = cb
    · subst hb
      rw [hc] at hc0
      injection hc0 with hc0
      subst hc0
      exact ⟨_, Heap.read_write_same _ hlt, rfl⟩
    · exact ⟨c0, by rw [Heap.read_write_ne _ hb]; exact hc0, rfl⟩
  · intro e he
    simp at he

theorem OwnersUntouched.of_weak_release {s s' : State T} {cb : Nat}
    (hrel : weak_release cb s.heap = some s'.heap) (hs : s'.shared = s.shared) :
    OwnersUntouched s s' := by
  obtain ⟨c, hc⟩ := weak_release_some hrel
  have hlt := Heap.read_some_lt hc
  rw [weak_release_eq hc] at hrel
  injection hrel with hrel
  refine ⟨?_, ⟨_, by rw [← hrel], ?_⟩, hs⟩
  · intro b c0 hc0
    rw [← hrel]
    by_cases hb : b = cb
    · subst hb
      rw [hc] at hc0
      injection hc0 with hc0
      subst hc0
      exact ⟨_, read_set_same _ _ hlt, rfl⟩
    · exact ⟨c0, by rw [read_set_ne _ _ hb]; exact hc0, rfl⟩
  · intro e he b
    split_ifs at he
    · simp only [List.mem_singleton] at he
      subst he
      rfl
    · simp at he

theorem weak_prim_owners {p : Op T} {s s' : State T} (h : step p s = some s')
    (hp : p.isPrimitive = true) (hw : p.isWeakNotLock = true) : OwnersUntouched s s' := by
  cases p with
  | weak_default =>
    simp only [step, WeakPtr.ctor_default] at h
    injection h with h
    subst h
    exact OwnersUntouched.of_heap_eq rfl rfl
  | weak_shared shared_ptr =>
    obtain ⟨o, cb, _, _, _, hs, hinc⟩ := WeakPtr.ctor_shared_inv h
    exact OwnersUntouched.of_weak_increment hinc hs
  | weak_copy other =>
    obtain ⟨o, cb, _, _, _, hs, hinc⟩ := WeakPtr.weak_ctor_copy_inv h
    exact OwnersUntouched.of_weak_increment hinc hs
  | weak_move other =>
    obtain ⟨o, _, _, hs, hh⟩ := WeakPtr.weak_ctor_move_inv h
    exact OwnersUntouched.of_heap_eq hh hs
  | weak_swap this other =>
    obtain ⟨a, b, _, _, _, hs, hh⟩ := WeakPtr.weak_swap_inv h
    exact OwnersUntouched.of_heap_eq hh hs
  | weak_dtor this =>
    obtain ⟨a, _, _, hs, hcase⟩ := WeakPtr.weak_dtor_inv h
    rcases hcase with ⟨_, hh⟩ | ⟨cb, _, hrel⟩
    · exact OwnersUntouched.of_heap_eq hh hs
    · exact OwnersUntouched.of_weak_release hrel hs
  | weak_assign _ _ => simp [Op.isPrimitive] at hp
  | weak_assign_move _ _ => simp [Op.isPrimitive] at hp
  | weak_assign_shared _ _ => simp [Op.isPrimitive] at hp
  | _ => simp [Op.isWeakNotLock] at hw

theorem weak_three_owners {p q r : Op T} {s s' : State T} (h : run [p, q, r] s = some s')
    (hp : p.isPrimitive = true) (hq : q.isPrimitive = true) (hr : r.isPrimitive = true)
    (hpw : p.isWeakNotLock = true) (hqw : q.isWeakNotLock = true)
    (hrw : r.isWeakNotLock = true) : OwnersUntouched s s' := by
  obtain ⟨s1, h1, h⟩ := run_cons_some h
  obtain ⟨s2, h2, h⟩ := run_cons_some h
  obtain ⟨s3, h3, h⟩ := run_cons_some h
  simp only [run] at h
  injection h with h
  subst h
  exact ((weak_prim_owners h1 hp hpw).owners_comp (weak_prim_owners h2 hq hqw)).owners_comp
    (weak_prim_owners h3 hr hrw)

theorem weak_step_owners {op : Op T} {s s' : State T} (hw : op.isWeakNotLock = true)
    (h : step op s = some s') : OwnersUntouched s s' := by
  have hb := step_run_body h
  cases op with
  | weak_assign this arg => exact weak_three_owners hb rfl rfl rfl rfl rfl rfl
  | weak_assign_move this other => exact weak_three_owners hb rfl rfl rfl rfl rfl rfl
  | weak_assign_shared this shared_ptr => exact weak_three_owners hb rfl rfl rfl rfl rfl rfl
  | weak_default => exact weak_prim_owners h rfl rfl
  | weak_shared _ => exact weak_prim_owners h rfl rfl
  | weak_copy _ => exact weak_prim_owners h rfl rfl
  | weak_move _ => exact weak_prim_owners h rfl rfl
  | weak_swap _ _ => exact weak_prim_owners h rfl rfl
  | weak_dtor _ => exact weak_prim_owners h rfl rfl
  | _ => simp [Op.isWeakNotLock] at hw

theorem WeakPtr.weak_dtor_eq {s : State T} {this cb : Nat} {w : WeakPtr} {h' : Heap T}
    (hw : s.getWeak this = some w) (hcb : w.control_block = some cb)
    (hrel : weak_release cb s.heap = some h') :
    WeakPtr.dtor this s = some ⟨h', s.shared, s.weak.set this none⟩ := by
  unfold WeakPtr.dtor
  rw [hw]
  simp only [Option.bind_eq_bind, Option.some_bind]
  rw [hcb]
  dsimp only
  rw [hrel, Option.some_bind]

/-- C21: a call of a `WeakPtr` constructor, assignment operator, `swap` or
destructor, made in any state, leaves the `shared_count` of every constructed
block and every `SharedPtr` object unchanged and calls no `dispose`
(`expired()` and `use_count()` are `const`, return a value and have no state
result).  In a state reached through `run`, destroying a live `WeakPtr`
of a block with `shared_count > 0` is defined, lowers `weak_count` by exactly
1, changes nothing else in the heap and records no call: the payload is
neither disposed nor the block deallocated. -/
theorem weak_calls_leave_owners (ops : List (Op T)) (s : State T)
    (hlen : ops.length + 1 < SIZE_T_MOD) (hrun : run ops State.init = some s) :
    (∀ (t t' : State T) (op : Op T), op.isWeakNotLock = true → step op t = some t' →
      (∀ b c, t.heap.read b = some c →
        ∃ c', t'.heap.read b = some c' ∧ c'.shared_count = c.shared_count) ∧
      (∃ tr, t'.heap.trace = t.heap.trace ++ tr ∧ ∀ e ∈ tr, ∀ b, Event.isDispose b e = false) ∧
      (∀ b, t'.heap.disposeCount b = t.heap.disposeCount b) ∧
      t'.shared = t.shared) ∧
    (∀ i w cb c, s.getWeak i = some w → w.control_block = some cb →
      s.heap.read cb = some c → 0 < c.shared_count →
      ∃ s', WeakPtr.dtor i s = some s' ∧ 0 < c.weak_count ∧
        s'.heap.read cb = some ⟨c.shared_count, c.weak_count - 1, c.body⟩ ∧
        (∀ b, b ≠ cb → s'.heap.read b = s.heap.read b) ∧
        s'.heap.trace = s.heap.trace ∧
        s'.heap.disposeCount cb = 0 ∧ s'.heap.releaseCount cb = 0 ∧
        s'.shared = s.shared) := by
  constructor
  · intro t t' op hw hstep
    obtain ⟨h1, ⟨tr, htr, hd⟩, h3⟩ := weak_step_owners hw hstep
    refine ⟨h1, ⟨tr, htr, hd⟩, ?_, h3⟩
    intro b
    simp only [Heap.disposeCount, htr, List.countP_append, Nat.add_right_eq_self]
    rw [List.countP_eq_zero]
    intro e he
    rw [hd e he b]
    simp
  · intro i w cb c hw hcb hc hpos
    obtain ⟨c', hc', hsc, hwc, hwpos, _, hwlt⟩ := reached_block_of_weak hlen hrun hw hcb
    rw [hc] at hc'
    injection hc' with hc'
    subst hc'
    obtain ⟨hinv, _, _⟩ := reached_facts hlen hrun
    obtain ⟨_, _, hd, hr⟩ := hinv.block hc
    have hlt := Heap.read_some_lt hc
    have hrel := weak_release_effect hc hwpos (by omega)
    rw [if_neg (fun e => by omega)] at hrel
    refine ⟨_, WeakPtr.weak_dtor_eq hw hcb hrel, hwpos, read_set_same _ _ hlt, ?_, by simp,
      ?_, ?_, rfl⟩
    · intro b hb
      exact read_set_ne _ _ hb
    · show (s.heap.trace ++ []).countP (Event.isDispose cb) = 0
      rw [List.append_nil]
      have : s.heap.trace.countP (Event.isDispose cb) = s.heap.disposeCount cb := rfl
      rw [this, hd, if_neg (by omega)]
    · show (s.heap.trace ++ []).countP (Event.isDeallocate cb) = 0
      rw [List.append_nil]
      have : s.heap.trace.countP (Event.isDeallocate cb) = s.heap.releaseCount cb := rfl
      rw [this, hr, if_neg (by omega)]

/-- Witness of C21: destroying the `WeakPtr` of a block that has an owner. -/
theorem weak_calls_leave_owners_witness :
    ∃ s', WeakPtr.dtor 1 lockState = some s' ∧
      s'.heap.read 0 = some ⟨1, 1 - 1, .ControlBlockMakeShared 0 7⟩ ∧
      s'.heap.trace = lockState.heap.trace ∧ s'.shared = lockState.shared :=
  ((weak_calls_leave_owners lockProgram lockState (by decide) (by rfl)).2 1
    ⟨some 0, .obj 0⟩ 0 ⟨1, 1, .ControlBlockMakeShared 0 7⟩ (by rfl) rfl (by rfl)
    (by decide)).elim
    (fun s' h => ⟨s', h.1, h.2.2.1, h.2.2.2.2.1, h.2.2.2.2.2.2.2⟩)

/-! ## Custom deleter (Scenario C) -/

/-- Restricted form of C22, for programs that call only the functions written
in the source (`run`), so without assignment from a `const` operand: let such a
program reach `s0`, construct a `SharedPtr` from `(p, del)` (its block gets the
next address `cb`) and go on with any calls (copies, moves, assignments,
destructions, ...) to a state `s`. Then the block `cb` still stores `p` and
`del`; the `dispose` calls recorded for `cb` are none while a live `SharedPtr`
refers to `cb`, and exactly the one call `del(p)` once no owner is left; the
payload destructor is never called for `cb`, and no other deleter or argument
is ever used. A call that takes the number of owners from 1 to 0 is the one
that makes the call `del(p)`. -/
theorem custom_deleter_exactly_once (ops1 ops2 : List (Op T)) (s0 s : State T) (p : Ptr)
    (del : Nat) (hlen : ops1.length + ops2.length + 3 < SIZE_T_MOD)
    (h0 : run ops1 State.init = some s0)
    (h1 : run (Op.shared_raw_del p del :: ops2) s0 = some s) :
    (∃ c, s.heap.read s0.heap.blocks.length = some c ∧
      c.body = .ControlBlockDirect p stdAllocator del) ∧
    s.heap.trace.filter (Event.isDispose s0.heap.blocks.length) =
      (if sharedRefs s s0.heap.blocks.length = 0
        then [Event.deleter s0.heap.blocks.length del p] else []) ∧
    (0 < sharedRefs s s0.heap.blocks.length →
      ∀ e ∈ s.heap.trace, Event.isDispose s0.heap.blocks.length e = false) ∧
    Event.destroyObj s0.heap.blocks.length ∉ s.heap.trace ∧
    (∀ d q, Event.deleter s0.heap.blocks.length d q ∈ s.heap.trace → d = del ∧ q = p) ∧
    (∀ op s', step op s = some s' → sharedRefs s s0.heap.blocks.length = 1 →
      sharedRefs s' s0.heap.blocks.length = 0 →
      s.heap.trace.filter (Event.isDispose s0.heap.blocks.length) = [] ∧
      s'.heap.trace.filter (Event.isDispose s0.heap.blocks.length) =
        [Event.deleter s0.heap.blocks.length del p]) := by
  obtain ⟨s1, hs1, hrun2⟩ := run_cons_some h1
  obtain ⟨s1', hs1', _, _, hread1, _⟩ := SharedPtr.ctor_raw_facts s0 p del stdAllocator
  have hs : s1' = s1 := Option.some.inj (hs1'.symm.trans hs1)
  subst hs
  obtain ⟨c, hc, hbody⟩ := run_bodies hrun2 hread1
  have hreach : run (ops1 ++ Op.shared_raw_del p del :: ops2) State.init = some s :=
    run_init_append h0 h1
  have hlen' : (ops1 ++ Op.shared_raw_del p del :: ops2).length + 1 < SIZE_T_MOD := by
    simp only [List.length_append, List.length_cons]
    omega
  have hfilter := reached_dispose_events hlen' hreach hc
  rw [hbody] at hfilter
  have hfilter' : s.heap.trace.filter (Event.isDispose s0.heap.blocks.length) =
      (if sharedRefs s s0.heap.blocks.length = 0
        then [Event.deleter s0.heap.blocks.length del p] else []) := hfilter
  have hmem : ∀ e ∈ s.heap.trace, Event.isDispose s0.heap.blocks.length e = true →
      sharedRefs s s0.heap.blocks.length = 0 ∧ e = Event.deleter s0.heap.blocks.length del p := by
    intro e he hp
    have hin : e ∈ s.heap.trace.filter (Event.isDispose s0.heap.blocks.length) :=
      List.mem_filter.mpr ⟨he, hp⟩
    rw [hfilter'] at hin
    by_cases hz : sharedRefs s s0.heap.blocks.length = 0
    · rw [if_pos hz] at hin
      simp only [List.mem_singleton] at hin
      exact ⟨hz, hin⟩
    · rw [if_neg hz] at hin
      simp at hin
  refine ⟨⟨c, hc, hbody⟩, hfilter', ?_, ?_, ?_, ?_⟩
  · intro hpos e he
    cases hp : Event.isDispose s0.heap.blocks.length e with
    | false => rfl
    | true =>
      have := (hmem e he hp).1
      omega
  · intro hin
    have := (hmem _ hin (by simp [Event.isDispose])).2
    simp at this
  · intro d q hin
    have := (hmem _ hin (by simp [Event.isDispose])).2
    injection this with _ h2 h3
    exact ⟨h2, h3⟩
  · intro op s' hstep hone hzero
    have hreach' : run ((ops1 ++ Op.shared_raw_del p del :: ops2) ++ [op]) State.init
        = some s' := by
      refine run_init_append hreach ?_
      simp only [run, hstep, Option.some_bind]
    have hlen'' : ((ops1 ++ Op.shared_raw_del p del :: ops2) ++ [op]).length + 1
        < SIZE_T_MOD := by
      simp only [List.length_append, List.length_cons, List.length_nil]
      omega
    obtain ⟨c', hc', hbody'⟩ := (step_ext hstep).bodies _ c hc
    have hf' := reached_dispose_events hlen'' hreach' hc'
    rw [hbody', hbody, if_pos hzero] at hf'
    rw [hfilter', if_neg (by omega)]
    exact ⟨rfl, hf'⟩

/-- Example for the restricted form of C22 (Scenario C): after a copy, a move
and the destruction of both owners the trace holds the single call
`customDeleter(rawPtr)`; one step earlier it holds none. -/
theorem custom_deleter_scenarioC :
    scenarioC_5.heap.trace.filter (Event.isDispose 0) = [Event.deleter 0 3 (Ptr.raw 7)] ∧
    scenarioC_4.heap.trace.filter (Event.isDispose 0) = [] ∧
    Event.destroyObj 0 ∉ scenarioC_5.heap.trace ∧
    run scenarioC State.init = some scenarioC_5 :=
  ⟨((custom_deleter_exactly_once [] [.shared_copy 0, .shared_move 1, .shared_dtor 0,
      .shared_dtor 2] State.init scenarioC_5 (Ptr.raw 7) 3 (by decide) (by rfl)
      (by rfl)).2.1).trans (if_pos (by decide)),
    ((custom_deleter_exactly_once [] [.shared_copy 0, .shared_move 1, .shared_dtor 0]
      State.init scenarioC_4 (Ptr.raw 7) 3 (by decide) (by rfl)
      (by rfl)).2.1).trans (if_neg (by decide)),
    (custom_deleter_exactly_once [] [.shared_copy 0, .shared_move 1, .shared_dtor 0,
      .shared_dtor 2] State.init scenarioC_5 (Ptr.raw 7) 3 (by decide) (by rfl)
      (by rfl)).2.2.2.1, by rfl⟩

/-! ## Converting copy (Scenario D) -/

theorem allocateCalls_eq (s : State T) (op : Op T) :
    op.allocateCalls = (Op.body s op).countP Op.isAllocatingCtor := by
  cases op <;> rfl

/-- Restricted form of C24, for programs that call only the functions written
in the source (`run`), so without assignment from a `const` operand: in a state
`s` reached by such a program, with the calls of the allocator recorded in the
trace (each stands for `allocate(alloc, 1)` or `deallocate(alloc, block, 1)`):
a successful `allocateShared` (`makeShared` with the default allocator) makes
exactly one call of `allocate`, for the combined `ControlBlockMakeShared`; the
raw-pointer constructor makes exactly one, for a `ControlBlockDirect` that
stores the pointer given by the client; any call of the interface makes as many
allocations as there are such constructor calls in its body, which is 1 for
these constructors and for `reset(p)` (it constructs `SharedPtr<Y>(p)`) and 0
for every other function. Every constructed block has been allocated exactly
once, through the allocator stored in it, and has been deallocated at most
once, through the same allocator: never while a handle refers to it, exactly
once when none is left. -/
theorem one_allocation_per_block (ops : List (Op T)) (s : State T)
    (hlen : ops.length + 1 < SIZE_T_MOD) (hrun : run ops State.init = some s) :
    (∀ alloc obj,
      (allocateShared alloc (Construct.value obj) s).2.heap.trace =
        s.heap.trace ++ [Event.allocate alloc s.heap.blocks.length] ∧
      (allocateShared alloc (Construct.value obj) s).2.heap.read s.heap.blocks.length =
        some ⟨1, 0, .ControlBlockMakeShared alloc obj⟩ ∧
      (allocateShared alloc (Construct.value obj) s).2.heap.allocations =
        s.heap.allocations + 1 ∧
      makeShared (Construct.value obj) s = allocateShared stdAllocator (Construct.value obj) s) ∧
    (∀ p del alloc, ∃ s', SharedPtr.ctor_raw p del alloc s = some s' ∧
      s'.heap.trace = s.heap.trace ++ [Event.allocate alloc s.heap.blocks.length] ∧
      s'.heap.read s.heap.blocks.length = some ⟨1, 0, .ControlBlockDirect p alloc del⟩ ∧
      s'.heap.allocations = s.heap.allocations + 1) ∧
    (∀ op s', step op s = some s' →
      s'.heap.allocations = s.heap.allocations + (Op.body s op).countP Op.isAllocatingCtor ∧
      s'.heap.blocks.length =
        s.heap.blocks.length + (Op.body s op).countP Op.isAllocatingCtor) ∧
    (∀ op : Op T, op.isAllocatingCtor = true ∨ (∃ this p, op = Op.shared_reset_ptr this p) →
      (Op.body s op).countP Op.isAllocatingCtor = 1) ∧
    (∀ op : Op T, op.isAllocatingCtor = false → (∀ this p, op ≠ Op.shared_reset_ptr this p) →
      (Op.body s op).countP Op.isAllocatingCtor = 0) ∧
    (∀ b c, s.heap.read b = some c →
      s.heap.trace.filter (Event.isAllocate b) = [Event.allocate c.body.alloc b] ∧
      s.heap.trace.filter (Event.isDeallocate b) =
        (if sharedRefs s b = 0 ∧ weakRefs s b = 0
          then [Event.deallocate c.body.alloc b] else []) ∧
      s.heap.releaseCount b ≤ 1) := by
  refine ⟨?_, ?_, ?_, ?_, ?_, ?_⟩
  · intro alloc obj
    have hlt : s.heap.blocks.length < (s.heap.allocate alloc).blocks.length := by
      simp [Heap.allocate]
    exact ⟨rfl, Heap.read_write_same _ hlt,
      (Ext.ext_allocate_write (h := s.heap) alloc 1 0 (.ControlBlockMakeShared alloc obj)
        rfl).allocs, rfl⟩
  · intro p del alloc
    have hlt : s.heap.blocks.length < (s.heap.allocate alloc).blocks.length := by
      simp [Heap.allocate]
    exact ⟨_, rfl, rfl, Heap.read_write_same _ hlt,
      (Ext.ext_allocate_write (h := s.heap) alloc 1 0 (.ControlBlockDirect p alloc del)
        rfl).allocs⟩
  · intro op s' hstep
    have e := step_ext hstep
    rw [allocateCalls_eq s op] at e
    exact ⟨e.allocs, e.len⟩
  · intro op hop
    cases op <;> simp [Op.body, Op.isAllocatingCtor] at hop ⊢
  · intro op hop hne
    cases op <;> simp [Op.body, Op.isAllocatingCtor] at hop hne ⊢
  · intro b c hc
    obtain ⟨hinv, _, _⟩ := reached_facts hlen hrun
    refine ⟨reached_allocate_events hrun hc, reached_deallocate_events hlen hrun hc, ?_⟩
    rw [(hinv.block hc).2.2.2]
    split_ifs <;> omega

/-- Example for the restricted form of C24 (Scenario C): the block of the
raw-pointer constructor was allocated once and deallocated once, through the
same allocator. -/
theorem one_allocation_scenarioC :
    scenarioC_5.heap.trace.filter (Event.isAllocate 0) = [Event.allocate 0 0] ∧
    scenarioC_5.heap.trace.filter (Event.isDeallocate 0) = [Event.deallocate 0 0] :=
  ⟨((one_allocation_per_block scenarioC scenarioC_5 (by decide) (by rfl)).2.2.2.2.2 0
      ⟨0, 0, .ControlBlockDirect (.raw 7) 0 3⟩ (by rfl)).1,
    (((one_allocation_per_block scenarioC scenarioC_5 (by decide) (by rfl)).2.2.2.2.2 0
      ⟨0, 0, .ControlBlockDirect (.raw 7) 0 3⟩ (by rfl)).2.1).trans (if_pos (by decide))⟩

/-! ## The calls inside a public call and the invariant -/

theorem body_length_le (s : State T) (op : Op T) : (Op.body s op).length ≤ 3 := by
  cases op <;> simp [Op.body]

/-- Every call in the body of a public call made in a reached state is made in
a state that satisfies the invariant, and is a transition. -/
theorem body_call_inv {ops : List (Op T)} {s s' : State T} {op p : Op T}
    {pre post : List (Op T)} (hlen : ops.length + 4 < SIZE_T_MOD)
    (hrun : run ops State.init = some s) (hstep : step op s = some s')
    (hbody : Op.body s op = pre ++ p :: post) :
    ∃ sk sk', run pre s = some sk ∧ step p sk = some sk' ∧ run post sk' = some s' ∧ Inv sk ∧
      sk.shared.length + 1 < SIZE_T_MOD ∧ sk.weak.length + 1 < SIZE_T_MOD ∧
      Transition 1 1 1 sk sk' := by
  have hb := step_run_body hstep
  rw [hbody, run_append] at hb
  simp only [Option.bind_eq_some] at hb
  obtain ⟨sk, hpre, hrest⟩ := hb
  obtain ⟨sk', hp, hpost⟩ := run_cons_some hrest
  have hl3 := body_length_le s op
  rw [hbody] at hl3
  simp only [List.length_append, List.length_cons] at hl3
  obtain ⟨hinv, hl, hlw⟩ := run_inv ops State.init s Inv.init
    (by simp only [State.init, List.length_nil]; omega)
    (by simp only [State.init, List.length_nil]; omega) hrun
  simp only [State.init, List.length_nil] at hl hlw
  obtain ⟨hinvk, hlk, hlwk⟩ := run_inv pre s sk hinv (by omega) (by omega) hpre
  exact ⟨sk, sk', hpre, hp, hpost, hinvk, by omega, by omega,
    step_trans hinvk (by omega) (by omega) hp⟩

/-- A transition between states that satisfy the invariant never takes the
`shared_count` of a constructed block away from 0. -/
theorem Transition.zero_stays {k n m : Nat} {s s' : State T} (hinv : Inv s)
    (t : Transition k n m s s') {b : Nat} {c : BaseControlBlock T}
    (hc : s.heap.read b = some c) (hz : c.shared_count = 0) :
    ∃ c', s'.heap.read b = some c' ∧ c'.shared_count = 0 := by
  obtain ⟨c', hc'⟩ := t.blocks b c hc
  obtain ⟨hsc, _, hd, _⟩ := hinv.block hc
  obtain ⟨hsc', _, hd', _⟩ := t.inv.block hc'
  have hmono := t.dispose_mono b
  refine ⟨c', hc', ?_⟩
  rw [hd, hd', if_pos (by omega)] at hmono
  by_contra hne
  rw [if_neg (by omega)] at hmono
  omega

theorem WeakPtr.expired_eq {s : State T} {i cb : Nat} {w : WeakPtr} {c : BaseControlBlock T}
    (hw : s.getWeak i = some w) (hcb : w.control_block = some cb)
    (hc : s.heap.read cb = some c) :
    WeakPtr.expired i s = some (decide (c.shared_count = 0)) := by
  unfold WeakPtr.expired
  rw [hw]
  simp only [Option.bind_eq_bind, Option.some_bind]
  rw [hcb]
  dsimp only
  rw [hc, Option.some_bind]

theorem SharedPtr.ctor_weak_eq {s : State T} {i cb : Nat} {w : WeakPtr}
    {c : BaseControlBlock T} (hw : s.getWeak i = some w) (hcb : w.control_block = some cb)
    (hc : s.heap.read cb = some c) :
    SharedPtr.ctor_weak i s = some ⟨s.heap.write cb
      { c with shared_count := incr c.shared_count },
      s.shared ++ [some (SharedPtr.mk (some cb) w.ptr)], s.weak⟩ := by
  unfold SharedPtr.ctor_weak
  rw [hw]
  simp only [Option.bind_eq_bind, Option.some_bind]
  rw [hcb, Option.some_bind]
  have : shared_increment cb (s.pushShared ⟨some cb, w.ptr⟩).heap
      = some (s.heap.write cb { c with shared_count := incr c.shared_count }) :=
    shared_increment_eq hc
  rw [this]
  rfl

theorem WeakPtr.lock_eq {s : State T} {i cb : Nat} {w : WeakPtr} {c : BaseControlBlock T}
    (hw : s.getWeak i = some w) (hcb : w.control_block = some cb)
    (hc : s.heap.read cb = some c) :
    WeakPtr.lock i s =
      if c.shared_count = 0 then SharedPtr.ctor_default s else SharedPtr.ctor_weak i s := by
  unfold WeakPtr.lock
  rw [WeakPtr.expired_eq hw hcb hc]
  simp only [Option.bind_eq_bind, Option.some_bind, decide_eq_true_eq]

/-- Restricted form of C28, for programs that call only the functions written
in the source (`run`), so without assignment from a `const` operand: in a state
`s` reached by such a program, the two places that execute `++shared_count` do
so on a count of at least 1: the copy constructor of a live non-empty
`SharedPtr` (also as the first call of copy assignment), and `lock()`, which on
a block with `shared_count = 0` does not call the private constructor but
returns an empty handle and leaves the heap alone. Moreover no call made during
a public call (constructor, `swap` or destructor of its body, in the
intermediate state where it is made) and hence no public call takes the
`shared_count` of a constructed block away from 0. -/
theorem no_increment_from_zero (ops : List (Op T)) (s : State T)
    (hlen : ops.length + 4 < SIZE_T_MOD) (hrun : run ops State.init = some s) :
    (∀ j o cb, s.getShared j = some o → o.control_block = some cb →
      ∃ c s', s.heap.read cb = some c ∧ 1 ≤ c.shared_count ∧
        SharedPtr.ctor_copy j s = some s' ∧ shared_increment cb s.heap = some s'.heap ∧
        s'.heap.read cb = some ⟨c.shared_count + 1, c.weak_count, c.body⟩) ∧
    (∀ j w cb c, s.getWeak j = some w → w.control_block = some cb →
      s.heap.read cb = some c →
      (c.shared_count = 0 → WeakPtr.lock j s = some (s.pushShared ⟨none, Ptr.null⟩)) ∧
      (1 ≤ c.shared_count → ∃ s', WeakPtr.lock j s = some s' ∧
        SharedPtr.ctor_weak j s = some s' ∧ shared_increment cb s.heap = some s'.heap ∧
        s'.heap.read cb = some ⟨c.shared_count + 1, c.weak_count, c.body⟩)) ∧
    (∀ op s', step op s = some s' → ∀ pre p post, Op.body s op = pre ++ p :: post →
      ∃ sk sk', run pre s = some sk ∧ step p sk = some sk' ∧
        ∀ b c, sk.heap.read b = some c → c.shared_count = 0 →
          ∃ c', sk'.heap.read b = some c' ∧ c'.shared_count = 0) ∧
    (∀ op s', step op s = some s' → ∀ b c, s.heap.read b = some c → c.shared_count = 0 →
      ∃ c', s'.heap.read b = some c' ∧ c'.shared_count = 0) := by
  obtain ⟨hinv, hl, hlw⟩ := reached_facts (by omega) hrun
  refine ⟨?_, ?_, ?_, ?_⟩
  · intro j o cb ho hcb
    obtain ⟨c, hc, _, _, hpos, hrep, _⟩ := reached_block_of_shared (by omega)
      hrun ho hcb
    have hlt := Heap.read_some_lt hc
    refine ⟨c, _, hc, hpos, SharedPtr.ctor_copy_nonempty ho hcb hc, shared_increment_eq hc, ?_⟩
    rw [Heap.read_write_same _ hlt, incr_lt hrep]
  · intro j w cb c hw hcb hc
    have hlock := WeakPtr.lock_eq hw hcb hc
    constructor
    · intro hz
      rw [hlock, if_pos hz]
      rfl
    · intro hpos
      have hrep : c.shared_count + 1 < SIZE_T_MOD := by
        have h1 := (hinv.block hc).1
        have h2 := sharedRefs_le_length s cb
        omega
      have hlt := Heap.read_some_lt hc
      rw [hlock, if_neg (by omega)]
      refine ⟨_, SharedPtr.ctor_weak_eq hw hcb hc, SharedPtr.ctor_weak_eq hw hcb hc,
        shared_increment_eq hc, ?_⟩
      rw [Heap.read_write_same _ hlt, incr_lt hrep]
  · intro op s' hstep pre p post hbody
    obtain ⟨sk, sk', hpre, hp, _, hinvk, _, _, t⟩ := body_call_inv hlen hrun hstep hbody
    exact ⟨sk, sk', hpre, hp, fun b c hc hz => t.zero_stays hinvk hc hz⟩
  · intro op s' hstep b c hc hz
    exact (step_trans hinv hl hlw hstep).zero_stays hinv hc hz

/-- Example for the restricted form of C28: in Scenario B after `s.reset()` the
block has `shared_count = 0`; `lock()` returns an empty handle and the count
stays 0. -/
theorem no_increment_from_zero_witness :
    WeakPtr.lock 0 scenarioB_3 = some (scenarioB_3.pushShared ⟨none, Ptr.null⟩) ∧
    (∃ c', (scenarioB_3.pushShared ⟨none, Ptr.null⟩).heap.read 0 = some c' ∧
      c'.shared_count = 0) :=
  ⟨((no_increment_from_zero scenarioB scenarioB_3 (by decide) (by rfl)).2.1 0
      ⟨some 0, .obj 0⟩ 0 ⟨0, 1, .ControlBlockMakeShared 0 0⟩ (by rfl) rfl (by rfl)).1 rfl,
    (no_increment_from_zero scenarioB scenarioB_3 (by decide)
      (by rfl)).2.2.2 (Op.weak_lock 0) (scenarioB_3.pushShared ⟨none, Ptr.null⟩) (by rfl) 0
      ⟨0, 1, .ControlBlockMakeShared 0 0⟩ (by rfl) rfl⟩

/-- Restricted form of C30, for programs that call only the functions written
in the source (`run`), so without assignment from a `const` operand: in a state
`s` reached by such a program, the `weak_count` of every constructed block is
the number of live non-empty `WeakPtr` handles that refer to it (and
`shared_count` the number of such `SharedPtr` handles), both below the `size_t`
range. Every destructor call made during a public call, in the intermediate
state `sk` where it is made, applies `weak_release` (`shared_release`) to a
block whose `weak_count` (`shared_count`) is at least 1 and leaves it one
lower: no counter wraps below zero. -/
theorem counters_never_wrap (ops : List (Op T)) (s : State T)
    (hlen : ops.length + 4 < SIZE_T_MOD) (hrun : run ops State.init = some s) :
    (∀ b c, s.heap.read b = some c →
      c.weak_count = weakRefs s b ∧ c.shared_count = sharedRefs s b ∧
      c.weak_count + 1 < SIZE_T_MOD ∧ c.shared_count + 1 < SIZE_T_MOD) ∧
    (∀ op s', step op s = some s' → ∀ pre p post, Op.body s op = pre ++ p :: post →
      ∃ sk sk', run pre s = some sk ∧ step p sk = some sk' ∧
        (∀ i w cb, p = Op.weak_dtor i → sk.getWeak i = some w → w.control_block = some cb →
          ∃ c, sk.heap.read cb = some c ∧ 1 ≤ c.weak_count ∧
            weak_release cb sk.heap = some sk'.heap ∧
            sk'.heap.read cb = some ⟨c.shared_count, c.weak_count - 1, c.body⟩) ∧
        (∀ i a cb, p = Op.shared_dtor i → sk.getShared i = some a →
          a.control_block = some cb →
          ∃ c, sk.heap.read cb = some c ∧ 1 ≤ c.shared_count ∧
            shared_release cb sk.heap = some sk'.heap ∧
            sk'.heap.read cb = some ⟨c.shared_count - 1, c.weak_count, c.body⟩)) := by
  obtain ⟨hinv, hl, hlw⟩ := reached_facts (by omega) hrun
  constructor
  · intro b c hc
    obtain ⟨hsc, hwc, _, _⟩ := hinv.block hc
    have h1 := sharedRefs_le_length s b
    have h2 := weakRefs_le_length s b
    exact ⟨hwc, hsc, by omega, by omega⟩
  · intro op s' hstep pre p post hbody
    obtain ⟨sk, sk', hpre, hp, _, hinvk, hlk, hlwk, _⟩ :=
      body_call_inv hlen hrun hstep hbody
    refine ⟨sk, sk', hpre, hp, ?_, ?_⟩
    · intro i w cb hpe hw hcb
      subst hpe
      obtain ⟨c, hc, _, hwc⟩ := hinvk.read_weak hw hcb
      have hpos := weakRefs_pos hw hcb
      have hle := weakRefs_le_length sk cb
      have hlt := Heap.read_some_lt hc
      have hrel := weak_release_effect hc (by omega) (by omega)
      have hd := WeakPtr.weak_dtor_eq hw hcb hrel
      have hs : sk' = _ := Option.some.inj (hp.symm.trans hd)
      subst hs
      exact ⟨c, hc, by omega, hrel, read_set_same _ _ hlt⟩
    · intro i a cb hpe ha hcb
      subst hpe
      obtain ⟨c, hc, hsc, _⟩ := hinvk.read_shared ha hcb
      have hpos := sharedRefs_pos ha hcb
      have hle := sharedRefs_le_length sk cb
      obtain ⟨a', ha', _, _, hcase⟩ := SharedPtr.dtor_inv hp
      rw [ha] at ha'
      injection ha' with ha'
      subst ha'
      rcases hcase with ⟨hnone, _⟩ | ⟨cb', hcb', hrel⟩
      · rw [hcb] at hnone
        simp at hnone
      · rw [hcb] at hcb'
        injection hcb' with hcb'
        subst hcb'
        exact ⟨c, hc, by omega, hrel,
          (shared_release_effect hc (by omega) (by omega) hrel).1⟩

/-- Example for the restricted form of C30: copy assignment `a = b` between the
owners of two blocks; the destructor of the temporary, the third call of the
body, releases the old block of `a` while its `shared_count` is 1. -/
theorem counters_never_wrap_witness :
    step (Op.shared_assign 0 1) twoOwners = some twoOwnersAssigned ∧
    ∃ sk sk', run [Op.shared_copy 1, Op.shared_swap 0 2] twoOwners = some sk ∧
      step (Op.shared_dtor 2) sk = some sk' ∧
      (∀ a cb, sk.getShared 2 = some a → a.control_block = some cb →
        ∃ c, sk.heap.read cb = some c ∧ 1 ≤ c.shared_count ∧
          shared_release cb sk.heap = some sk'.heap ∧
          sk'.heap.read cb = some ⟨c.shared_count - 1, c.weak_count, c.body⟩) :=
  ⟨by rfl,
    ((counters_never_wrap twoOwnersProgram twoOwners (by decide) (by rfl)).2
      (Op.shared_assign 0 1) twoOwnersAssigned (by rfl)
      [Op.shared_copy 1, Op.shared_swap 0 2] (Op.shared_dtor 2) [] rfl).elim
      (fun sk h => h.elim (fun sk' h => ⟨sk, sk', h.1, h.2.1,
        fun a cb ha hcb => h.2.2.2 2 a cb rfl ha hcb⟩))⟩

/-! ## Payload destruction that runs client code -/

/-- With a payload that is plain data (its destruction runs no code on the
handles) `shared_release` is the function of the model above. -/
theorem shared_release_running_plain (cb : Nat) (s : State T) :
    shared_release_running some cb s =
      (shared_release cb s.heap).map (fun h => { s with heap := h }) := by
  unfold shared_release_running shared_release_dispose shared_release_destroy
    dispose_running shared_release
  cases hc : s.heap.read cb with
  | none => simp
  | some c =>
    simp only [Option.bind_eq_bind, Option.some_bind]
    cases hc1 : (s.heap.write cb { c with shared_count := decr c.shared_count }).read cb with
    | none => simp
    | some c1 =>
      simp only [Option.some_bind]
      by_cases h0 : c1.shared_count = 0
      · simp only [if_pos h0]
        cases hd : dispose cb (s.heap.write cb { c with shared_count := decr c.shared_count })
          with
        | none => simp
        | some h2 =>
          simp only [Option.some_bind]
          cases hc2 : h2.read cb with
          | none => simp
          | some c2 =>
            simp only [Option.some_bind]
            by_cases h00 : c2.shared_count = 0 ∧ c2.weak_count = 0
            · simp only [if_pos h00]
              cases destroy cb h2 <;> simp
            · simp only [if_neg h00, Option.map_some']
      · simp only [if_neg h0, Option.some_bind]
        rw [hc1]
        have h00 : ¬ (c1.shared_count = 0 ∧ c1.weak_count = 0) := fun e => h0 e.1
        simp only [Option.some_bind, if_neg h00, Option.map_some']

/-- With a payload that is plain data `~SharedPtr()` is the destructor of the
model above. -/
theorem SharedPtr.dtor_running_plain (this : Nat) (s : State T) :
    SharedPtr.dtor_running some this s = SharedPtr.dtor this s := by
  unfold SharedPtr.dtor_running SharedPtr.dtor
  cases ha : s.getShared this with
  | none => simp
  | some a =>
    simp only [Option.bind_eq_bind, Option.some_bind]
    cases hcb : a.control_block with
    | none => simp
    | some cb =>
      simp only [shared_release_running_plain]
      cases shared_release cb s.heap <;> simp

/-- C29 (the code at the failing input): a payload owns the only `WeakPtr` to
its own block (`selfWeak`, reached by `makeShared` and the construction of the
`WeakPtr`) and the last `SharedPtr` is destroyed.  `dispose()` runs the
payload destructor, which destroys that `WeakPtr`; its `weak_release` sees
both counters at 0 and deallocates the block.  Back in `shared_release` the
block has already been deallocated once; the last statement still reads the
counters from its storage, finds 0 and 0, and calls `destroy()` again: the
block is deallocated twice. -/
theorem reentrant_dispose_releases_twice :
    run [Op.make_shared (Construct.value 0), Op.weak_shared 0] State.init = some selfWeak ∧
    shared_release_dispose (WeakPtr.dtor 0) 0 selfWeak = some selfWeakDisposed ∧
    selfWeakDisposed.heap.releaseCount 0 = 1 ∧
    selfWeakDisposed.heap.read 0 = some ⟨0, 0, .ControlBlockMakeShared 0 0⟩ ∧
    shared_release_destroy 0 selfWeakDisposed =
      some { selfWeakDisposed with heap := selfWeakDestroyed.heap } ∧
    SharedPtr.dtor_running (WeakPtr.dtor 0) 0 selfWeak = some selfWeakDestroyed ∧
    selfWeakDestroyed.heap.trace.filter (Event.isDeallocate 0) =
      [Event.deallocate 0 0, Event.deallocate 0 0] ∧
    selfWeakDestroyed.heap.releaseCount 0 = 2 := by
  refine ⟨by rfl, by rfl, by rfl, by rfl, by rfl, by rfl, by rfl, by rfl⟩

/-! ## Self-assignment and swap -/

theorem set_self_of_getElem? {α : Type} {l : List α} {i : Nat} {x : α} (h : l[i]? = some x) :
    l.set i x = l := by
  induction l generalizing i with
  | nil => rfl
  | cons a l ih =>
    cases i with
    | zero =>
      simp at h
      subst h
      rfl
    | succ i =>
      simp at h
      simp [ih h]

/-- C32: for a live handle `a` in slot `i` of any state, self move assignment
`a = std::move(a)` is defined and leaves `a` with its control block and payload
pointer; every other handle, every `WeakPtr` and the whole heap (all counters,
the trace) are unchanged, so neither `dispose` nor `destroy` is called; the
temporary of the operator is destroyed empty. -/
theorem self_move_assign_safe (s : State T) (i : Nat) (a : SharedPtr)
    (ha : s.getShared i = some a) :
    ∃ s', SharedPtr.assign_move i i s = some s' ∧ s'.getShared i = some a ∧
      (∀ k, k < s.shared.length → k ≠ i → s'.shared[k]? = s.shared[k]?) ∧
      s'.shared[s.shared.length]? = some none ∧
      s'.weak = s.weak ∧ s'.heap = s.heap := by
  have hi := getShared_lt ha
  have hne : i ≠ s.shared.length := by omega
  have h1 := SharedPtr.ctor_move_eq ha
  obtain ⟨hnew, hsrc, hother, _, _⟩ := SharedPtr.ctor_move_facts ha h1
  have h2 := SharedPtr.swap_eq hnew hsrc
  have hlen1 : s.shared.length < ((s.shared ++ [some (SharedPtr.mk a.control_block a.ptr)]).set
      i (some (SharedPtr.mk none Ptr.null))).length := by
    simp
  have htmp : (State.mk s.heap
      ((((s.shared ++ [some (SharedPtr.mk a.control_block a.ptr)]).set i
        (some (SharedPtr.mk none Ptr.null))).set s.shared.length
        (some (SharedPtr.mk none Ptr.null))).set i
        (some (SharedPtr.mk a.control_block a.ptr))) s.weak).getShared s.shared.length
      = some ⟨none, Ptr.null⟩ := by
    rw [getShared_eq_some]
    show ((List.set _ s.shared.length (some (SharedPtr.mk none Ptr.null))).set i
      (some (SharedPtr.mk a.control_block a.ptr)))[s.shared.length]? = _
    rw [List.getElem?_set_ne hne]
    exact getElem?_set_same _ hlen1
  have h3 := SharedPtr.dtor_empty htmp rfl
  have hfin : SharedPtr.assign_move i i s = some ⟨s.heap,
      ((((s.shared ++ [some (SharedPtr.mk a.control_block a.ptr)]).set i
        (some (SharedPtr.mk none Ptr.null))).set s.shared.length
        (some (SharedPtr.mk none Ptr.null))).set i
        (some (SharedPtr.mk a.control_block a.ptr))).set s.shared.length none, s.weak⟩ := by
    unfold SharedPtr.assign_move
    rw [ha]
    simp only [Option.bind_eq_bind, Option.some_bind]
    rw [h1, Option.some_bind, h2, Option.some_bind]
    exact h3
  refine ⟨_, hfin, ?_, ?_, ?_, rfl, rfl⟩
  · rw [getShared_eq_some]
    show (List.set (List.set _ i (some (SharedPtr.mk a.control_block a.ptr)))
      s.shared.length none)[i]? = _
    rw [List.getElem?_set_ne (Ne.symm hne)]
    exact getElem?_set_same _ (by simp; omega)
  · intro k hk hki
    show (List.set (List.set (List.set (List.set _ i _) s.shared.length _) i _)
      s.shared.length none)[k]? = _
    rw [List.getElem?_set_ne (by omega), List.getElem?_set_ne (Ne.symm hki),
      List.getElem?_set_ne (by omega), List.getElem?_set_ne (Ne.symm hki),
      List.getElem?_append_left hk]
  · show (List.set _ s.shared.length none)[s.shared.length]? = _
    exact getElem?_set_same _ (by simp)

/-- Witness of C32: `a = std::move(a)` for the only owner of a block. -/
theorem self_move_assign_safe_witness :
    ∃ s', SharedPtr.assign_move 0 0 scenarioA_1 = some s' ∧
      s'.getShared 0 = some ⟨some 0, Ptr.obj 0⟩ ∧ s'.heap = scenarioA_1.heap :=
  (self_move_assign_safe scenarioA_1 0 ⟨some 0, .obj 0⟩ (by rfl)).elim
    (fun s' h => ⟨s', h.1, h.2.1, h.2.2.2.2.2⟩)

theorem set_swap_back {α : Type} {l : List α} {i j : Nat} {x y : α} (hx : l[i]? = some x)
    (hy : l[j]? = some y) (hij : i ≠ j) :
    (((l.set i y).set j x).set i x).set j y = l := by
  have hi := getElem?_lt_of_some hx
  have hj := getElem?_lt_of_some hy
  apply List.ext_getElem?
  intro k
  by_cases hkj : k = j
  · subst hkj
    rw [getElem?_set_same _ (by simp; omega), hy]
  · rw [List.getElem?_set_ne (Ne.symm hkj)]
    by_cases hki : k = i
    · subst hki
      rw [getElem?_set_same _ (by simp; omega), hx]
    · rw [List.getElem?_set_ne (Ne.symm hki), List.getElem?_set_ne (Ne.symm hkj),
        List.getElem?_set_ne (Ne.symm hki)]

theorem SharedPtr.swap_swap {s : State T} {i j : Nat} {a b : SharedPtr}
    (ha : s.getShared i = some a) (hb : s.getShared j = some b) :
    ∃ s', SharedPtr.swap i j s = some s' ∧ s'.heap = s.heap ∧ s'.weak = s.weak ∧
      s'.getShared j = some a ∧ (i ≠ j → s'.getShared i = some b) ∧
      (∀ k, k ≠ i → k ≠ j → s'.shared[k]? = s.shared[k]?) ∧
      SharedPtr.swap i j s' = some s := by
  have hi := getShared_lt ha
  have hj := getShared_lt hb
  have hla := getShared_eq_some.mp ha
  have hlb := getShared_eq_some.mp hb
  have hj' : (State.mk s.heap ((s.shared.set i (some b)).set j (some a)) s.weak).getShared j
      = some a := by
    rw [getShared_eq_some]
    exact getElem?_set_same _ (by simp; omega)
  refine ⟨_, SharedPtr.swap_eq ha hb, rfl, rfl, hj', ?_, ?_, ?_⟩
  · intro hij
    rw [getShared_eq_some]
    show ((s.shared.set i (some b)).set j (some a))[i]? = _
    rw [List.getElem?_set_ne (Ne.symm hij)]
    exact getElem?_set_same _ hi
  · intro k hki hkj
    show ((s.shared.set i (some b)).set j (some a))[k]? = _
    rw [List.getElem?_set_ne (Ne.symm hkj), List.getElem?_set_ne (Ne.symm hki)]
  · by_cases hij : i = j
    · subst hij
      have hab : a = b := Option.some.inj (ha.symm.trans hb)
      subst hab
      rw [SharedPtr.swap_eq hj' hj']
      have hl : ((((s.shared.set i (some a)).set i (some a)).set i (some a)).set i (some a))
          = s.shared := by
        rw [List.set_set, List.set_set, List.set_set]
        exact set_self_of_getElem? hla
      exact congrArg (fun l => some (State.mk s.heap l s.weak)) hl
    · have hi' : (State.mk s.heap ((s.shared.set i (some b)).set j (some a)) s.weak).getShared i
          = some b := by
        rw [getShared_eq_some]
        show ((s.shared.set i (some b)).set j (some a))[i]? = _
        rw [List.getElem?_set_ne (Ne.symm hij)]
        exact getElem?_set_same _ hi
      rw [SharedPtr.swap_eq hi' hj']
      exact congrArg (fun l => some (State.mk s.heap l s.weak)) (set_swap_back hla hlb hij)

theorem WeakPtr.weak_swap_eq {s : State T} {this other : Nat} {a b : WeakPtr}
    (ha : s.getWeak this = some a) (hb : s.getWeak other = some b) :
    WeakPtr.swap this other s = some ⟨s.heap, s.shared,
      (s.weak.set this (some ⟨b.control_block, b.ptr⟩)).set other
        (some ⟨a.control_block, a.ptr⟩)⟩ := by
  unfold WeakPtr.swap
  rw [ha, hb]
  rfl

theorem WeakPtr.weak_swap_swap {s : State T} {i j : Nat} {a b : WeakPtr}
    (ha : s.getWeak i = some a) (hb : s.getWeak j = some b) :
    ∃ s', WeakPtr.swap i j s = some s' ∧ s'.heap = s.heap ∧ s'.shared = s.shared ∧
      s'.getWeak j = some a ∧ (i ≠ j → s'.getWeak i = some b) ∧
      (∀ k, k ≠ i → k ≠ j → s'.weak[k]? = s.weak[k]?) ∧
      WeakPtr.swap i j s' = some s := by
  have hi := getWeak_lt ha
  have hj := getWeak_lt hb
  have hla := getWeak_eq_some.mp ha
  have hlb := getWeak_eq_some.mp hb
  have hj' : (State.mk s.heap s.shared ((s.weak.set i (some b)).set j (some a))).getWeak j
      = some a := by
    rw [getWeak_eq_some]
    exact getElem?_set_same _ (by simp; omega)
  refine ⟨_, WeakPtr.weak_swap_eq ha hb, rfl, rfl, hj', ?_, ?_, ?_⟩
  · intro hij
    rw [getWeak_eq_some]
    show ((s.weak.set i (some b)).set j (some a))[i]? = _
    rw [List.getElem?_set_ne (Ne.symm hij)]
    exact getElem?_set_same _ hi
  · intro k hki hkj
    show ((s.weak.set i (some b)).set j (some a))[k]? = _
    rw [List.getElem?_set_ne (Ne.symm hkj), List.getElem?_set_ne (Ne.symm hki)]
  · by_cases hij : i = j
    · subst hij
      have hab : a = b := Option.some.inj (ha.symm.trans hb)
      subst hab
      rw [WeakPtr.weak_swap_eq hj' hj']
      have hl : ((((s.weak.set i (some a)).set i (some a)).set i (some a)).set i (some a))
          = s.weak := by
        rw [List.set_set, List.set_set, List.set_set]
        exact set_self_of_getElem? hla
      exact congrArg (fun l => some (State.mk s.heap s.shared l)) hl
    · have hi' : (State.mk s.heap s.shared ((s.weak.set i (some b)).set j (some a))).getWeak i
          = some b := by
        rw [getWeak_eq_some]
        show ((s.weak.set i (some b)).set j (some a))[i]? = _
        rw [List.getElem?_set_ne (Ne.symm hij)]
        exact getElem?_set_same _ hi
      rw [WeakPtr.weak_swap_eq hi' hj']
      exact congrArg (fun l => some (State.mk s.heap s.shared l)) (set_swap_back hla hlb hij)

/-- C33: for any state, `swap` on two live `SharedPtr` handles `a` (slot `i`)
and `b` (slot `j`) is defined and exchanges their (control block, payload
pointer) pairs; every other handle, every `WeakPtr` and the whole heap (all
counters of all blocks, the trace) are unchanged, so no `dispose` and no
`destroy` is called; a second `swap` of the same slots gives back the state
before the first.  The same holds for `swap` on two live `WeakPtr` handles. -/
theorem swap_exchanges_and_restores (s : State T) :
    (∀ i j a b, s.getShared i = some a → s.getShared j = some b →
      ∃ s', SharedPtr.swap i j s = some s' ∧ s'.heap = s.heap ∧ s'.weak = s.weak ∧
        s'.getShared j = some a ∧ (i ≠ j → s'.getShared i = some b) ∧
        (∀ k, k ≠ i → k ≠ j → s'.shared[k]? = s.shared[k]?) ∧
        SharedPtr.swap i j s' = some s) ∧
    (∀ i j a b, s.getWeak i = some a → s.getWeak j = some b →
      ∃ s', WeakPtr.swap i j s = some s' ∧ s'.heap = s.heap ∧ s'.shared = s.shared ∧
        s'.getWeak j = some a ∧ (i ≠ j → s'.getWeak i = some b) ∧
        (∀ k, k ≠ i → k ≠ j → s'.weak[k]? = s.weak[k]?) ∧
        WeakPtr.swap i j s' = some s) := by
  constructor
  · intro i j a b ha hb
    exact SharedPtr.swap_swap ha hb
  · intro i j a b ha hb
    exact WeakPtr.weak_swap_swap ha hb

/-- Witness of C33: swapping the owners of two blocks, and swapping the empty
`WeakPtr` with the `WeakPtr` of a block. -/
theorem swap_exchanges_and_restores_witness :
    (∃ s', SharedPtr.swap 0 1 twoOwners = some s' ∧ s'.heap = twoOwners.heap ∧
      s'.getShared 1 = some ⟨some 0, Ptr.obj 0⟩ ∧ s'.getShared 0 = some ⟨some 1, Ptr.obj 1⟩ ∧
      SharedPtr.swap 0 1 s' = some twoOwners) ∧
    (∃ s', WeakPtr.swap 0 1 lockState = some s' ∧ s'.heap = lockState.heap ∧
      s'.getWeak 1 = some ⟨none, Ptr.null⟩ ∧ s'.getWeak 0 = some ⟨some 0, Ptr.obj 0⟩ ∧
      WeakPtr.swap 0 1 s' = some lockState) :=
  ⟨((swap_exchanges_and_restores twoOwners).1 0 1 ⟨some 0, .obj 0⟩ ⟨some 1, .obj 1⟩
      (by rfl) (by rfl)).elim
      (fun s' h => ⟨s', h.1, h.2.1, h.2.2.2.1, h.2.2.2.2.1 (by decide), h.2.2.2.2.2.2⟩),
    ((swap_exchanges_and_restores lockState).2 0 1 ⟨none, .null⟩ ⟨some 0, .obj 0⟩
      (by rfl) (by rfl)).elim
      (fun s' h => ⟨s', h.1, h.2.1, h.2.2.2.1, h.2.2.2.2.1 (by decide), h.2.2.2.2.2.2⟩)⟩

/-! ## Order of dispose and destroy -/

theorem TraceOrdered.append_ordered {t tn : List Event} (ht : TraceOrdered t)
    (hn : AppendOrdered t tn) : TraceOrdered (t ++ tn) := by
  intro t1 e t2 b heq hp
  rcases List.append_eq_append_iff.mp heq with ⟨a', h1, h2⟩ | ⟨c', h1, h2⟩
  · obtain ⟨d, hd, hdd⟩ := hn a' e t2 b h2 hp
    exact ⟨d, by rw [h1]; exact hd, hdd⟩
  · cases c' with
    | nil =>
      simp only [List.nil_append] at h2
      obtain ⟨d, hd, hdd⟩ := hn [] e t2 b h2.symm hp
      simp only [List.append_nil] at h1 hd
      exact ⟨d, by rw [← h1]; exact hd, hdd⟩
    | cons x c'' =>
      simp only [List.cons_append, List.cons.injEq] at h2
      obtain ⟨hx, _⟩ := h2
      subst hx
      exact ht t1 e c'' b h1 hp

theorem AppendOrdered.of_no_deallocate {t tn : List Event}
    (hno : ∀ e ∈ tn, ∀ b, Event.isDeallocate b e = false) : AppendOrdered t tn := by
  intro n1 e n2 b heq hp
  have he : e ∈ tn := by
    rw [heq]
    simp
  rw [hno e he b] at hp
  simp at hp

theorem AppendOrdered.of_disposed {t : List Event} {r : Event} {k : Nat}
    (hr : ∀ b, Event.isDeallocate b r = true → b = k)
    (hd : ∃ d ∈ t, Event.isDispose k d = true) : AppendOrdered t [r] := by
  intro n1 e n2 b heq hp
  cases n1 with
  | nil =>
    simp only [List.nil_append, List.cons.injEq] at heq
    obtain ⟨he, _⟩ := heq
    subst he
    have := hr b hp
    subst this
    simpa using hd
  | cons x n1' =>
    simp only [List.cons_append, List.cons.injEq] at heq
    obtain ⟨_, h2⟩ := heq
    cases n1' <;> simp at h2

theorem AppendOrdered.of_dispose_first {t : List Event} {d r : Event} {k : Nat}
    (hdr : ∀ b, Event.isDeallocate b d = false)
    (hr : ∀ b, Event.isDeallocate b r = true → b = k)
    (hd : Event.isDispose k d = true) : AppendOrdered t [d, r] := by
  intro n1 e n2 b heq hp
  cases n1 with
  | nil =>
    simp only [List.nil_append, List.cons.injEq] at heq
    obtain ⟨he, _⟩ := heq
    subst he
    rw [hdr b] at hp
    simp at hp
  | cons x n1' =>
    simp only [List.cons_append, List.cons.injEq] at heq
    obtain ⟨hx, h2⟩ := heq
    subst hx
    cases n1' with
    | nil =>
      simp only [List.nil_append, List.cons.injEq] at h2
      obtain ⟨he, _⟩ := h2
      subst he
      have := hr b hp
      subst this
      exact ⟨d, by simp, hd⟩
    | cons y n1'' =>
      simp only [List.cons_append, List.cons.injEq] at h2
      obtain ⟨_, h3⟩ := h2
      cases n1'' <;> simp at h3

theorem shared_release_ordered {h h' : Heap T} {cb : Nat}
    (hr : shared_release cb h = some h') :
    ∃ tn, h'.trace = h.trace ++ tn ∧ AppendOrdered h.trace tn := by
  obtain ⟨c, hc⟩ := shared_release_some hr
  rw [shared_release_eq hc] at hr
  injection hr with hr
  subst hr
  refine ⟨_, List.append_assoc _ _ _, ?_⟩
  by_cases hz : decr c.shared_count = 0
  · by_cases hw : c.weak_count = 0
    · rw [if_pos hz, if_pos ⟨hz, hw⟩]
      refine AppendOrdered.of_dispose_first (k := cb) (by simp) ?_ (by simp)
      intro b hb
      have : cb = b := by simpa using hb
      exact this.symm
    · rw [if_pos hz, if_neg (fun e => hw e.2)]
      exact AppendOrdered.of_no_deallocate (by simp)
  · rw [if_neg hz, if_neg (fun e => hz e.1)]
    exact AppendOrdered.of_no_deallocate (by simp)

theorem weak_release_ordered {s : State T} {h' : Heap T} {cb : Nat} (hinv : Inv s)
    (hr : weak_release cb s.heap = some h') :
    ∃ tn, h'.trace = s.heap.trace ++ tn ∧ AppendOrdered s.heap.trace tn := by
  obtain ⟨c, hc⟩ := weak_release_some hr
  rw [weak_release_eq hc] at hr
  injection hr with hr
  subst hr
  refine ⟨_, rfl, ?_⟩
  by_cases hz : c.shared_count = 0 ∧ decr c.weak_count = 0
  · rw [if_pos hz]
    refine AppendOrdered.of_disposed (k := cb) ?_ ?_
    · intro b hb
      have : cb = b := by simpa using hb
      exact this.symm
    · obtain ⟨hsc, _, hd, _⟩ := hinv.block hc
      have hpos : 0 < s.heap.trace.countP (Event.isDispose cb) := by
        have : s.heap.trace.countP (Event.isDispose cb) = s.heap.disposeCount cb := rfl
        rw [this, hd, if_pos (by omega)]
        omega
      exact List.countP_pos_iff.mp hpos
  · rw [if_neg hz]
    exact AppendOrdered.of_no_deallocate (by simp)

theorem ordered_of_heap_eq {h h' : Heap T} (e : h' = h) :
    ∃ tn, h'.trace = h.trace ++ tn ∧ AppendOrdered h.trace tn := by
  subst e
  exact ⟨[], by simp, AppendOrdered.of_no_deallocate (by simp)⟩

theorem ordered_of_allocate {h h' : Heap T} {a n : Nat}
    (e : h'.trace = h.trace ++ [Event.allocate a n]) :
    ∃ tn, h'.trace = h.trace ++ tn ∧ AppendOrdered h.trace tn :=
  ⟨_, e, AppendOrdered.of_no_deallocate (by simp)⟩

theorem ordered_of_increment {h h' : Heap T} (e : h'.trace = h.trace) :
    ∃ tn, h'.trace = h.trace ++ tn ∧ AppendOrdered h.trace tn :=
  ⟨[], by rw [e]; simp, AppendOrdered.of_no_deallocate (by simp)⟩

theorem shared_increment_same_trace {h h' : Heap T} {cb : Nat}
    (hr : shared_increment cb h = some h') : h'.trace = h.trace := by
  obtain ⟨c, hc⟩ := shared_increment_some hr
  rw [shared_increment_eq hc] at hr
  injection hr with hr
  subst hr
  rfl

theorem weak_increment_same_trace {h h' : Heap T} {cb : Nat}
    (hr : weak_increment cb h = some h') : h'.trace = h.trace := by
  obtain ⟨c, hc⟩ := weak_increment_some hr
  rw [weak_increment_eq hc] at hr
  injection hr with hr
  subst hr
  rfl

theorem prim_ordered {p : Op T} {s s' : State T} (h : step p s = some s') (hinv : Inv s)
    (hp : p.isPrimitive = true) :
    ∃ tn, s'.heap.trace = s.heap.trace ++ tn ∧ AppendOrdered s.heap.trace tn := by
  cases p with
  | shared_default =>
    simp only [step, SharedPtr.ctor_default] at h
    injection h with h
    subst h
    exact ordered_of_heap_eq rfl
  | shared_raw p del alloc =>
    simp only [step, SharedPtr.ctor_raw] at h
    injection h with h
    subst h
    exact ordered_of_allocate rfl
  | shared_raw_del p del =>
    simp only [step, SharedPtr.ctor_raw_del, SharedPtr.ctor_raw] at h
    injection h with h
    subst h
    exact ordered_of_allocate rfl
  | shared_raw_ptr p =>
    simp only [step, SharedPtr.ctor_raw_ptr, SharedPtr.ctor_raw] at h
    injection h with h
    subst h
    exact ordered_of_allocate rfl
  | allocate_shared alloc payload =>
    simp only [step] at h
    injection h with h
    subst h
    cases payload <;> exact ordered_of_allocate rfl
  | make_shared payload =>
    simp only [step, makeShared] at h
    injection h with h
    subst h
    cases payload <;> exact ordered_of_allocate rfl
  | shared_copy other =>
    obtain ⟨o, _, _, _, hcase⟩ := SharedPtr.ctor_copy_inv h
    rcases hcase with ⟨_, hh⟩ | ⟨cb, _, hinc⟩
    · exact ordered_of_heap_eq hh
    · exact ordered_of_increment (shared_increment_same_trace hinc)
  | shared_move other =>
    obtain ⟨o, _, _, _, hh⟩ := SharedPtr.ctor_move_inv h
    exact ordered_of_heap_eq hh
  | shared_swap this other =>
    obtain ⟨a, b, _, _, _, _, hh⟩ := SharedPtr.swap_inv h
    exact ordered_of_heap_eq hh
  | shared_dtor this =>
    obtain ⟨a, _, _, _, hcase⟩ := SharedPtr.dtor_inv h
    rcases hcase with ⟨_, hh⟩ | ⟨cb, _, hrel⟩
    · exact ordered_of_heap_eq hh
    · exact shared_release_ordered hrel
  | weak_default =>
    simp only [step, WeakPtr.ctor_default] at h
    injection h with h
    subst h
    exact ordered_of_heap_eq rfl
  | weak_shared shared_ptr =>
    obtain ⟨o, cb, _, _, _, _, hinc⟩ := WeakPtr.ctor_shared_inv h
    exact ordered_of_increment (weak_increment_same_trace hinc)
  | weak_copy other =>
    obtain ⟨o, cb, _, _, _, _, hinc⟩ := WeakPtr.weak_ctor_copy_inv h
    exact ordered_of_increment (weak_increment_same_trace hinc)
  | weak_move other =>
    obtain ⟨o, _, _, _, hh⟩ := WeakPtr.weak_ctor_move_inv h
    exact ordered_of_heap_eq hh
  | weak_swap this other =>
    obtain ⟨a, b, _, _, _, _, hh⟩ := WeakPtr.weak_swap_inv h
    exact ordered_of_heap_eq hh
  | weak_dtor this =>
    obtain ⟨a, _, _, _, hcase⟩ := WeakPtr.weak_dtor_inv h
    rcases hcase with ⟨_, hh⟩ | ⟨cb, _, hrel⟩
    · exact ordered_of_heap_eq hh
    · exact weak_release_ordered hinv hrel
  | weak_lock this =>
    simp only [step, WeakPtr.lock, Option.bind_eq_bind, Option.bind_eq_some] at h
    obtain ⟨e, _, h⟩ := h
    cases e with
    | true =>
      simp only [if_true, SharedPtr.ctor_default] at h
      injection h with h
      subst h
      exact ordered_of_heap_eq rfl
    | false =>
      simp only [Bool.false_eq_true, if_false] at h
      obtain ⟨w, cb, _, _, _, _, hinc⟩ := SharedPtr.ctor_weak_inv h
      exact ordered_of_increment (shared_increment_same_trace hinc)
  | shared_assign _ _ => simp [Op.isPrimitive] at hp
  | shared_assign_move _ _ => simp [Op.isPrimitive] at hp
  | shared_reset _ => simp [Op.isPrimitive] at hp
  | shared_reset_ptr _ _ => simp [Op.isPrimitive] at hp
  | weak_assign _ _ => simp [Op.isPrimitive] at hp
  | weak_assign_move _ _ => simp [Op.isPrimitive] at hp
  | weak_assign_shared _ _ => simp [Op.isPrimitive] at hp

theorem run_prims_ordered (prims : List (Op T)) : ∀ (s s' : State T),
    (∀ p ∈ prims, Op.isPrimitive p = true) → Inv s →
    s.shared.length + prims.length < SIZE_T_MOD → s.weak.length + prims.length < SIZE_T_MOD →
    TraceOrdered s.heap.trace → run prims s = some s' → TraceOrdered s'.heap.trace := by
  induction prims with
  | nil =>
    intro s s' _ _ _ _ ho h
    simp only [run] at h
    injection h with h
    subst h
    exact ho
  | cons p prims ih =>
    intro s s' hp hinv hl hlw ho h
    obtain ⟨s1, h1, h2⟩ := run_cons_some h
    simp only [List.length_cons] at hl hlw
    have t := step_trans hinv (by omega) (by omega) h1
    have tl := t.shared_len
    have tlw := t.weak_len
    obtain ⟨tn, htn, hord⟩ := prim_ordered h1 hinv (hp p (by simp))
    have ho1 : TraceOrdered s1.heap.trace := by
      rw [htn]
      exact ho.append_ordered hord
    exact ih s1 s' (fun q hq => hp q (by simp [hq])) t.inv (by omega) (by omega) ho1 h2

theorem step_ordered {op : Op T} {s s' : State T} (hinv : Inv s)
    (hl : s.shared.length + 3 < SIZE_T_MOD) (hlw : s.weak.length + 3 < SIZE_T_MOD)
    (ho : TraceOrdered s.heap.trace) (h : step op s = some s') :
    TraceOrdered s'.heap.trace := by
  have hb := step_run_body h
  have h3 := body_length_le s op
  exact run_prims_ordered (Op.body s op) s s' (fun p hp => body_primitive s op p hp) hinv
    (by omega) (by omega) ho hb

theorem run_ordered (ops : List (Op T)) : ∀ (s s' : State T), Inv s →
    s.shared.length + ops.length + 3 < SIZE_T_MOD →
    s.weak.length + ops.length + 3 < SIZE_T_MOD →
    TraceOrdered s.heap.trace → run ops s = some s' → TraceOrdered s'.heap.trace := by
  induction ops with
  | nil =>
    intro s s' _ _ _ ho h
    simp only [run] at h
    injection h with h
    subst h
    exact ho
  | cons op ops ih =>
    intro s s' hinv hl hlw ho h
    obtain ⟨s1, h1, h2⟩ := run_cons_some h
    simp only [List.length_cons] at hl hlw
    have t := step_trans hinv (by omega) (by omega) h1
    have tl := t.shared_len
    have tlw := t.weak_len
    exact ih s1 s' t.inv (by omega) (by omega)
      (step_ordered hinv (by omega) (by omega) ho h1) h2

/-- Once a block has been deallocated, a later state that extends the heap
still holds the same record for it and no further call on it. -/
theorem released_stays {n : Nat} {s s' : State T} {b : Nat} {c : BaseControlBlock T}
    (hinv : Inv s) (hinv' : Inv s') (hext : Ext n s.heap s'.heap)
    (hc : s.heap.read b = some c) (hrel : 0 < s.heap.releaseCount b) :
    s'.heap.read b = some c ∧ s'.heap.disposeCount b = s.heap.disposeCount b ∧
      s'.heap.releaseCount b = s.heap.releaseCount b ∧
      c.shared_count = 0 ∧ c.weak_count = 0 ∧ sharedRefs s b = 0 ∧ weakRefs s b = 0 := by
  obtain ⟨hsc, hwc, hd, hr⟩ := hinv.block hc
  obtain ⟨c', hc', hbody⟩ := hext.bodies b c hc
  obtain ⟨hsc', hwc', hd', hr'⟩ := hinv'.block hc'
  obtain ⟨t, ht, _⟩ := hext.events
  have hmono : s.heap.releaseCount b ≤ s'.heap.releaseCount b := by
    unfold Heap.releaseCount
    rw [ht, List.countP_append]
    omega
  have h0 : sharedRefs s b = 0 ∧ weakRefs s b = 0 := by
    by_contra hne
    rw [hr, if_neg hne] at hrel
    omega
  have h0' : sharedRefs s' b = 0 ∧ weakRefs s' b = 0 := by
    by_contra hne
    rw [hr', if_neg hne] at hmono
    omega
  have hcc : c' = c := by
    rcases c with ⟨x, y, z⟩
    rcases c' with ⟨x', y', z'⟩
    simp only at hsc hwc hsc' hwc' hbody
    have e1 : x' = x := by omega
    have e2 : y' = y := by omega
    rw [e1, e2, hbody]
  rw [hcc] at hc'
  refine ⟨hc', ?_, ?_, by omega, by omega, h0.1, h0.2⟩
  · rw [hd, hd', if_pos h0.1, if_pos h0'.1]
  · rw [hr, hr', if_pos h0, if_pos h0']

/-- Restricted form of C34, for programs that call only the functions written
in the source (`run`), so without assignment from a `const` operand: in a state
`s` reached by such a program, for a constructed block `b`: every deallocation
of `b` recorded in the trace comes after a `dispose` of `b`; and once `b` has
been deallocated no handle refers to it, both counters are 0, and every later
call, also each constructor, `swap` and destructor call inside a public call,
leaves the record of `b` (its counters) as it is and records no `dispose` and
no deallocation of `b`: no increment, decrement, `dispose` or `destroy` is
applied to `b` any more. -/
theorem release_after_dispose_and_final (ops : List (Op T)) (s : State T) (b : Nat)
    (c : BaseControlBlock T) (hlen : ops.length + 4 < SIZE_T_MOD)
    (hrun : run ops State.init = some s) (hb : s.heap.read b = some c) :
    (∀ t1 e t2, s.heap.trace = t1 ++ e :: t2 → Event.isDeallocate b e = true →
      ∃ d ∈ t1, Event.isDispose b d = true) ∧
    (0 < s.heap.releaseCount b →
      c.shared_count = 0 ∧ c.weak_count = 0 ∧ sharedRefs s b = 0 ∧ weakRefs s b = 0 ∧
      ∀ op s', step op s = some s' →
        s'.heap.read b = some c ∧
        s'.heap.disposeCount b = s.heap.disposeCount b ∧
        s'.heap.releaseCount b = s.heap.releaseCount b ∧
        ∀ pre p post, Op.body s op = pre ++ p :: post →
          ∃ sk sk', run pre s = some sk ∧ step p sk = some sk' ∧
            sk.heap.read b = some c ∧ sk'.heap.read b = some c ∧
            ∃ t, sk'.heap.trace = sk.heap.trace ++ t ∧
              ∀ e ∈ t, Event.isDispose b e = false ∧ Event.isDeallocate b e = false) := by
  obtain ⟨hinv, hl, hlw⟩ := reached_facts (by omega) hrun
  constructor
  · intro t1 e t2 heq hp
    have hord : TraceOrdered s.heap.trace := by
      refine run_ordered ops State.init s Inv.init
        (by simp only [State.init, List.length_nil]; omega)
        (by simp only [State.init, List.length_nil]; omega) ?_ hrun
      intro t1 e t2 b heq _
      simp [State.init] at heq
    exact hord t1 e t2 b heq hp
  · intro hrel
    have hself := released_stays hinv hinv (Ext.ext_refl s.heap) hb hrel
    refine ⟨hself.2.2.2.1, hself.2.2.2.2.1, hself.2.2.2.2.2.1, hself.2.2.2.2.2.2, ?_⟩
    intro op s' hstep
    have t := step_trans hinv hl hlw hstep
    have hs' := released_stays hinv t.inv (step_ext hstep) hb hrel
    refine ⟨hs'.1, hs'.2.1, hs'.2.2.1, ?_⟩
    intro pre p post hbody
    obtain ⟨sk, sk', hpre, hp, _, hinvk, _, _, tk⟩ := body_call_inv hlen hrun hstep hbody
    have hk := released_stays hinv hinvk (run_ext pre s sk hpre) hb hrel
    have hrelk : 0 < sk.heap.releaseCount b := by
      rw [hk.2.2.1]
      exact hrel
    have hk' := released_stays hinvk tk.inv (step_ext hp) hk.1 hrelk
    obtain ⟨tn, htn, _⟩ := (step_ext hp).events
    refine ⟨sk, sk', hpre, hp, hk.1, hk'.1, tn, htn, ?_⟩
    have hd0 : tn.countP (Event.isDispose b) = 0 := by
      have := hk'.2.1
      unfold Heap.disposeCount at this
      rw [htn, List.countP_append] at this
      omega
    have hr0 : tn.countP (Event.isDeallocate b) = 0 := by
      have := hk'.2.2.1
      unfold Heap.releaseCount at this
      rw [htn, List.countP_append] at this
      omega
    intro e he
    constructor
    · have := List.countP_eq_zero.mp hd0 e he
      simpa using this
    · have := List.countP_eq_zero.mp hr0 e he
      simpa using this

/-- Example for the restricted form of C34 (Scenario A): the deallocation of
the block comes after the destruction of the payload. -/
theorem release_after_dispose_scenarioA :
    ∃ d ∈ [Event.allocate 0 0, Event.destroyObj 0], Event.isDispose 0 d = true :=
  (release_after_dispose_and_final scenarioA scenarioA_4 0
    ⟨0, 0, .ControlBlockMakeShared 0 0⟩ (by decide) (by rfl) (by rfl)).1
    [Event.allocate 0 0, Event.destroyObj 0] (Event.deallocate 0 0) [] rfl rfl

/-! ## Assignment from a const operand -/

/-- A program that calls only functions written in the source runs under
`calls` as it does under `run`. -/
theorem calls_source (ops : List (Op T)) (s : State T) :
    calls (ops.map Call.source) s = run ops s := by
  induction ops generalizing s with
  | nil => rfl
  | cons op ops ih =>
    simp only [List.map_cons, calls, call, run]
    cases step op s with
    | none => rfl
    | some s1 => simp only [Option.some_bind, ih]

/-- C2 (the code at the failing input): after `s1 = makeShared(0)`, the copy
`s2(s1)`, the move `s3(std::move(s2))` and the assignment `s2 = cs1` with a
`const` operand, three live handles share block 0 while `use_count()` returns 2
on each of them: the implicitly declared copy assignment copies the members
without `++shared_count`. -/
theorem const_assign_use_count_too_small :
    ∃ s, calls constAssignDerived State.init = some s ∧
      s.getShared 0 = some ⟨some 0, Ptr.obj 0⟩ ∧ s.getShared 1 = some ⟨some 0, Ptr.obj 0⟩ ∧
      s.getShared 2 = some ⟨some 0, Ptr.obj 0⟩ ∧ sharedRefs s 0 = 3 ∧
      SharedPtr.use_count 0 s = some 2 ∧ SharedPtr.use_count 1 s = some 2 ∧
      SharedPtr.use_count 2 s = some 2 :=
  ⟨_, rfl, by rfl, by rfl, by rfl, by rfl, by rfl, by rfl, by rfl⟩

/-- C1 (the code at the failing input): all handles derive from
`s1 = makeShared(0)` by copy construction, move construction and the copy
assignment `s2 = cs1` with a `const` operand.  After `~s1` two handles `s2`,
`s3` are live and nothing is disposed; `~s2` then calls `dispose()` although
the number of live handles only drops from 2 to 1, and after a further copy
of `s3` and its destruction `dispose()` has been called twice. -/
theorem const_assign_disposes_early_and_twice :
    (∃ s, calls (constAssignDerived ++ [.source (.shared_dtor 0)]) State.init = some s ∧
      sharedRefs s 0 = 2 ∧ s.heap.disposeCount 0 = 0 ∧
      ∃ s', call (.source (.shared_dtor 1)) s = some s' ∧
        sharedRefs s' 0 = 1 ∧ s'.getShared 2 = some ⟨some 0, Ptr.obj 0⟩ ∧
        s'.heap.disposeCount 0 = 1) ∧
    (∃ s, calls (constAssignDerived ++ [.source (.shared_dtor 0), .source (.shared_dtor 1),
        .source (.shared_copy 2), .source (.shared_dtor 3)]) State.init = some s ∧
      sharedRefs s 0 = 1 ∧ s.heap.disposeCount 0 = 2) :=
  ⟨⟨_, rfl, by rfl, by rfl, _, rfl, by rfl, by rfl, by rfl⟩, ⟨_, rfl, by rfl, by rfl⟩⟩

/-- C3 (the code at the failing input): after `s = makeShared(0)`, `w(s)`,
`t = cs` with a `const` operand, `s.reset()` and `t.reset()` no `SharedPtr`
refers to block 0 and `dispose()` has run, but the second `reset()` has
decremented `shared_count` from 0 to `2 ^ 64 - 1`: `w.expired()` is false and
`w.lock()` returns a non-empty `SharedPtr` to the destroyed payload and changes
`shared_count`. -/
theorem const_assign_weak_not_expired :
    ∃ s, calls constAssignWeak State.init = some s ∧
      sharedRefs s 0 = 0 ∧ s.getWeak 0 = some ⟨some 0, Ptr.obj 0⟩ ∧
      s.heap.disposeCount 0 = 1 ∧
      s.heap.read 0 = some ⟨18446744073709551615, 1, .ControlBlockMakeShared 0 0⟩ ∧
      WeakPtr.expired 0 s = some false ∧
      ∃ s', WeakPtr.lock 0 s = some s' ∧ s'.getShared 4 = some ⟨some 0, Ptr.obj 0⟩ ∧
        s'.heap.read 0 = some ⟨0, 1, .ControlBlockMakeShared 0 0⟩ :=
  ⟨_, rfl, by rfl, by rfl, by rfl, by rfl, by rfl, _, rfl, by rfl, by rfl⟩

/-- C4 (the code at the failing input): all calls are on handles of block 0.
After the assignment `s2 = cs1` with a `const` operand `shared_count` is 2 for
three handles, so `~s1` and `~s2` bring it to 0 and `~s2` deallocates the
block while `s3` is live; a copy of `s3` and its destruction deallocate the
block a second time. -/
theorem const_assign_releases_twice :
    (∃ s, calls (constAssignDerived ++ [.source (.shared_dtor 0), .source (.shared_dtor 1)])
        State.init = some s ∧
      s.getShared 2 = some ⟨some 0, Ptr.obj 0⟩ ∧ sharedRefs s 0 = 1 ∧
      s.heap.read 0 = some ⟨0, 0, .ControlBlockMakeShared 0 0⟩ ∧
      s.heap.releaseCount 0 = 1) ∧
    (∃ s, calls (constAssignDerived ++ [.source (.shared_dtor 0), .source (.shared_dtor 1),
        .source (.shared_copy 2), .source (.shared_dtor 3)]) State.init = some s ∧
      s.getShared 2 = some ⟨some 0, Ptr.obj 0⟩ ∧ s.heap.releaseCount 0 = 2) :=
  ⟨⟨_, rfl, by rfl, by rfl, by rfl, by rfl⟩, ⟨_, rfl, by rfl, by rfl⟩⟩

/-- C13 (the code at the failing input): `a = makeShared(0); b = makeShared(1);
a = cb;` with a `const` operand.  Afterwards `a` has the block and the pointer
of `b`, but the heap is unchanged: `shared_count` of `b`'s block is still 1
with two live handles, and the former block of `a`, which has no handle left,
has received no `shared_release` (`shared_count` still 1, not disposed). -/
theorem const_assign_touches_no_counter :
    ∃ s s', calls [.source (.make_shared (.value 0)), .source (.make_shared (.value 1))]
        State.init = some s ∧
      SharedPtr.assign_implicit 0 1 s = some s' ∧
      s'.getShared 0 = some ⟨some 1, Ptr.obj 1⟩ ∧ s'.getShared 1 = some ⟨some 1, Ptr.obj 1⟩ ∧
      s'.heap = s.heap ∧
      s'.heap.read 1 = some ⟨1, 0, .ControlBlockMakeShared 0 1⟩ ∧ sharedRefs s' 1 = 2 ∧
      s'.heap.read 0 = some ⟨1, 0, .ControlBlockMakeShared 0 0⟩ ∧ sharedRefs s' 0 = 0 ∧
      s'.heap.disposeCount 0 = 0 :=
  ⟨_, _, rfl, rfl, by rfl, by rfl, by rfl, by rfl, by rfl, by rfl, by rfl, by rfl⟩

/-- C22 (the code at the failing input): the handles are made from
`SharedPtr(p, del)` by a copy, a move and the copy `t = cs` with a `const`
operand, which leaves `shared_count == 2` for the three owners.  `~s` and `~t`
bring the count to 0 and `~t` calls `del(p)` while `u` is still live, so the
deleter runs before the last `SharedPtr` is destroyed; a copy of `u` and its
destruction call `del(p)` a second time. -/
theorem const_assign_deleter_early_and_twice :
    (∃ s, calls constAssignDeleter State.init = some s ∧
      s.getShared 2 = some ⟨some 0, Ptr.raw 7⟩ ∧ sharedRefs s 0 = 1 ∧
      s.heap.trace.filter (Event.isDispose 0) = [Event.deleter 0 3 (Ptr.raw 7)]) ∧
    (∃ s, calls (constAssignDeleter ++ [.source (.shared_copy 2), .source (.shared_dtor 3)])
        State.init = some s ∧
      s.getShared 2 = some ⟨some 0, Ptr.raw 7⟩ ∧
      s.heap.trace.filter (Event.isDispose 0)
        = [Event.deleter 0 3 (Ptr.raw 7), Event.deleter 0 3 (Ptr.raw 7)]) :=
  ⟨⟨_, rfl, by rfl, by rfl, by rfl⟩, ⟨_, rfl, by rfl, by rfl⟩⟩

/-- C24 (the code at the failing input): `a = makeShared(0); b = makeShared(1);
a = cb; ~a; ~b;` with a `const` operand.  Every handle has been destroyed, yet
block 0, allocated once by `makeShared`, has never been passed to
`deallocate`: the assignment dropped its only handle without a
`shared_release`, so the block and its payload leak. -/
theorem const_assign_leaks_block :
    ∃ s, calls [.source (.make_shared (.value 0)), .source (.make_shared (.value 1)),
        .shared_assign_const 0 1, .source (.shared_dtor 0), .source (.shared_dtor 1)]
        State.init = some s ∧
      s.shared = [none, none] ∧ s.weak = [] ∧
      s.heap.trace.filter (Event.isAllocate 0) = [Event.allocate 0 0] ∧
      s.heap.releaseCount 0 = 0 ∧ s.heap.disposeCount 0 = 0 ∧
      s.heap.read 0 = some ⟨1, 0, .ControlBlockMakeShared 0 0⟩ :=
  ⟨_, rfl, by rfl, by rfl, by rfl, by rfl, by rfl, by rfl⟩

/-- C27 (the code at the failing input): after `b = makeShared(0)`,
`SharedPtr a;`, `a = cb` with a `const` operand and `~a`, the payload of
block 0 is disposed and the block is deallocated while the live `SharedPtr`
`b` still refers to it; after `~b` the payload is disposed although
`shared_count` is `2 ^ 64 - 1`, not 0. -/
theorem const_assign_live_handle_of_released_block :
    (∃ s, calls (constAssign ++ [.source (.shared_dtor 1)]) State.init = some s ∧
      s.getShared 0 = some ⟨some 0, Ptr.obj 0⟩ ∧ sharedRefs s 0 = 1 ∧
      s.heap.disposeCount 0 = 1 ∧ s.heap.releaseCount 0 = 1) ∧
    (∃ s, calls (constAssign ++ [.source (.shared_dtor 1), .source (.shared_dtor 0)])
        State.init = some s ∧
      s.heap.read 0 = some ⟨18446744073709551615, 0, .ControlBlockMakeShared 0 0⟩ ∧
      s.heap.disposeCount 0 = 1) :=
  ⟨⟨_, rfl, by rfl, by rfl, by rfl, by rfl⟩, ⟨_, rfl, by rfl, by rfl⟩⟩

/-- C28 (the code at the failing input): after `s = makeShared(0)`, `w(s)`,
`SharedPtr t;`, `t = cs` with a `const` operand and `s.reset()`, the payload is
disposed and `shared_count` is 0 while `t` is live; the copy constructor
`SharedPtr u(t)` then increments `shared_count` from 0 to 1 and hands out the
disposed payload. -/
theorem const_assign_increment_from_zero :
    ∃ s, calls [.source (.make_shared (.value 0)), .source (.weak_shared 0),
        .source .shared_default, .shared_assign_const 1 0, .source (.shared_reset 0)]
        State.init = some s ∧
      s.getShared 1 = some ⟨some 0, Ptr.obj 0⟩ ∧ s.heap.disposeCount 0 = 1 ∧
      s.heap.read 0 = some ⟨0, 1, .ControlBlockMakeShared 0 0⟩ ∧
      ∃ s', call (.source (.shared_copy 1)) s = some s' ∧
        s'.heap.read 0 = some ⟨1, 1, .ControlBlockMakeShared 0 0⟩ ∧
        s'.getShared 3 = some ⟨some 0, Ptr.obj 0⟩ :=
  ⟨_, rfl, by rfl, by rfl, by rfl, _, rfl, by rfl, by rfl⟩

/-- C30 (the code at the failing input): after `s = makeShared(0)`, `w(s)`,
`SharedPtr t;`, `t = cs` with a `const` operand and `~s`, `shared_count` is 0
while one `SharedPtr` of the block is live; `~t` applies `shared_release` at
`shared_count == 0` and the counter wraps to `2 ^ 64 - 1`. -/
theorem const_assign_counter_wraps :
    ∃ s, calls [.source (.make_shared (.value 0)), .source (.weak_shared 0),
        .source .shared_default, .shared_assign_const 1 0, .source (.shared_dtor 0)]
        State.init = some s ∧
      sharedRefs s 0 = 1 ∧ weakRefs s 0 = 1 ∧
      s.heap.read 0 = some ⟨0, 1, .ControlBlockMakeShared 0 0⟩ ∧
      ∃ s', call (.source (.shared_dtor 1)) s = some s' ∧
        s'.heap.read 0 = some ⟨18446744073709551615, 1, .ControlBlockMakeShared 0 0⟩ :=
  ⟨_, rfl, by rfl, by rfl, by rfl, _, rfl, by rfl⟩

/-- C34 (the code at the failing input): after `b = makeShared(0)`,
`SharedPtr a;`, `a = cb` with a `const` operand and `~a`, block 0 has been
deallocated while `b` holds it.  The copy `SharedPtr c(b)` then increments its
`shared_count`, `~c` disposes and deallocates the block again, and `~b`
decrements the counter once more: dispose, release, increment and decrement are
all applied after the first release. -/
theorem const_assign_operations_after_release :
    ∃ s1 s2 s3 s4, calls (constAssign ++ [.source (.shared_dtor 1)]) State.init = some s1 ∧
      s1.heap.trace = [Event.allocate 0 0, Event.destroyObj 0, Event.deallocate 0 0] ∧
      s1.heap.read 0 = some ⟨0, 0, .ControlBlockMakeShared 0 0⟩ ∧
      call (.source (.shared_copy 0)) s1 = some s2 ∧
      s2.heap.read 0 = some ⟨1, 0, .ControlBlockMakeShared 0 0⟩ ∧
      call (.source (.shared_dtor 2)) s2 = some s3 ∧
      s3.heap.trace = [Event.allocate 0 0, Event.destroyObj 0, Event.deallocate 0 0,
        Event.destroyObj 0, Event.deallocate 0 0] ∧
      call (.source (.shared_dtor 0)) s3 = some s4 ∧
      s4.heap.read 0 = some ⟨18446744073709551615, 0, .ControlBlockMakeShared 0 0⟩ :=
  ⟨_, _, _, _, rfl, by rfl, by rfl, rfl, by rfl, rfl, by rfl, rfl, by rfl⟩

end SmartPointers

namespace StackStorages

theorem sub_size_t_eq {a b : Nat} (hb : b ≤ a) (ha : a < SIZE_T_MOD) : sub_size_t a b = a - b := by
  unfold sub_size_t SIZE_T_MOD at *
  omega

/-- Without wrap-around of `count * sizeof(T)` and of the new `sz_`, a call
that returns yields an aligned region above the old `sz_` that ends inside
the buffer, and `sz_` becomes the end of the region. -/
theorem allocate_sound_without_wrap {N : Nat} (size align count : Nat) (st : StackStorage N)
    (halign : 0 < align) (hfit : st.sz_ + count * size + align < SIZE_T_MOD) :
    (∀ off st', StackStorage.allocate size align st count = (Allocation.returned off, st') →
      off % align = 0 ∧ st.sz_ ≤ off ∧ off + count * size ≤ N ∧
      st'.sz_ = off + count * size) ∧
    (∀ st', StackStorage.allocate size align st count = (Allocation.bad_alloc, st') →
      N < st.sz_ + count * size + align - st.sz_ % align) := by
  have hmod : st.sz_ % align < align := Nat.mod_lt _ halign
  have hle : st.sz_ % align ≤ st.sz_ := Nat.mod_le _ _
  have hn : (count * size) % SIZE_T_MOD = count * size := by
    apply Nat.mod_eq_of_lt
    omega
  have h1 : (st.sz_ + count * size) % SIZE_T_MOD = st.sz_ + count * size := by
    apply Nat.mod_eq_of_lt
    omega
  have hsz : sub_size_t ((st.sz_ + count * size) % SIZE_T_MOD + align) (st.sz_ % align)
      = st.sz_ + count * size + align - st.sz_ % align := by
    rw [h1, sub_size_t_eq (by omega) hfit]
  have hoff : sub_size_t (st.sz_ + count * size + align - st.sz_ % align) (count * size)
      = st.sz_ + align - st.sz_ % align := by
    rw [sub_size_t_eq (by omega) (by omega)]
    omega
  have hdvd : (st.sz_ + align - st.sz_ % align) % align = 0 := by
    have : st.sz_ + align - st.sz_ % align = align * (st.sz_ / align + 1) := by
      have := Nat.div_add_mod st.sz_ align
      rw [Nat.mul_add, Nat.mul_one]
      omega
    rw [this]
    exact Nat.mul_mod_right _ _
  constructor
  · intro off st' h
    simp only [StackStorage.allocate, hn, hsz, hoff] at h
    split at h
    · simp at h
    · rename_i hN
      simp only [Prod.mk.injEq, Allocation.returned.injEq] at h
      obtain ⟨hoff2, hst⟩ := h
      rw [← hoff2, ← hst]
      refine ⟨hdvd, by omega, by omega, ?_⟩
      simp only
      omega
  · intro st' h
    simp only [StackStorage.allocate, hn, hsz] at h
    split at h
    · rename_i hN
      exact hN
    · simp at h

/-- Claim C39, failing call: in a `StackStorage<64>` with `sz_ = 0` the call
`allocate<T>(2 ^ 63)` for a type with `sizeof(T) = alignof(T) = 2` returns
`storage + 2` and leaves `sz_ = 2`, although the requested region of
`2 ^ 63 * 2` bytes does not fit into the 64 bytes of the buffer: the product
`count * sizeof(T)` wraps to 0 and `bad_alloc` is not thrown. -/
theorem allocate_wraps_and_returns :
    StackStorage.allocate 2 2 (⟨0⟩ : StackStorage 64) 9223372036854775808
      = (Allocation.returned 2, ⟨2⟩) ∧
    ¬ ((2 : Int) + (9223372036854775808 * 2 : Nat) ≤ (64 : Nat)) := by
  constructor
  · decide
  · decide

end StackStorages

namespace Strings

/-- The model of `find` on an occurrence and on an absent substring that is
not longer than the string. -/
theorem find_examples :
    String.find 9 (String.ofCStr ['a', 'b', 'c', 'a', 'b']) (String.ofCStr ['c', 'a'])
      = Outcome.returned 2 ∧
    String.find 9 (String.ofCStr ['a', 'b', 'c', 'a', 'b']) (String.ofCStr ['c', 'b'])
      = Outcome.returned 5 := by
  constructor <;> decide

theorem memcmp_eq_spec (array data : List Char) (n i j : Nat) (hi : i + n ≤ array.length)
    (hj : j + n ≤ data.length) :
    (memcmp_eq array data i j n = Outcome.returned true ∧
      ∀ k, k < n → array[i + k]? = data[j + k]?) ∨
    (memcmp_eq array data i j n = Outcome.returned false ∧
      ∃ k, k < n ∧ array[i + k]? ≠ data[j + k]?) := by
  induction n generalizing i j with
  | zero =>
    left
    exact ⟨rfl, fun k hk => absurd hk (Nat.not_lt_zero k)⟩
  | succ n ih =>
    have h1 : array[i]? = some array[i] := List.getElem?_eq_getElem (by omega)
    have h2 : data[j]? = some data[j] := List.getElem?_eq_getElem (by omega)
    simp only [memcmp_eq, h1, h2]
    by_cases hxy : array[i] = data[j]
    · rw [if_pos hxy]
      rcases ih (i + 1) (j + 1) (by omega) (by omega) with ⟨r, hr⟩ | ⟨r, k, hk, hne⟩
      · left
        refine ⟨r, ?_⟩
        intro k hk
        cases k with
        | zero => simp only [Nat.add_zero, h1, h2, hxy]
        | succ k =>
          have := hr k (by omega)
          have e1 : i + (k + 1) = i + 1 + k := by omega
          have e2 : j + (k + 1) = j + 1 + k := by omega
          rw [e1, e2]
          exact this
      · right
        refine ⟨r, k + 1, by omega, ?_⟩
        have e1 : i + (k + 1) = i + 1 + k := by omega
        have e2 : j + (k + 1) = j + 1 + k := by omega
        rw [e1, e2]
        exact hne
    · rw [if_neg hxy]
      right
      refine ⟨rfl, 0, by omega, ?_⟩
      simp only [Nat.add_zero, h1, h2, ne_eq, Option.some.injEq]
      exact hxy

theorem find_loop_spec (s substring : String) (hs : s.WellFormed) (hsub : substring.WellFormed)
    (hle : substring.sz ≤ s.sz) (hsz : s.sz < SIZE_T_MOD) (fuel i : Nat)
    (hi : i ≤ s.sz - substring.sz + 1) (hfuel : s.sz - substring.sz + 2 ≤ fuel + i)
    (hno : ∀ j, j < i → ¬ Occurs s substring j) :
    (∃ r, String.find_loop s substring fuel i = Outcome.returned r ∧ Occurs s substring r ∧
      ∀ j, j < r → ¬ Occurs s substring j) ∨
    (String.find_loop s substring fuel i = Outcome.returned s.sz ∧
      ∀ j, ¬ Occurs s substring j) := by
  have hM : SIZE_T_MOD = 18446744073709551616 := rfl
  rw [hM] at hsz
  have hb : sub_size_t s.sz substring.sz = s.sz - substring.sz := by
    simp only [sub_size_t, hM]
    omega
  induction fuel generalizing i with
  | zero => omega
  | succ fuel ih =>
    simp only [String.find_loop, hb]
    by_cases hin : i ≤ s.sz - substring.sz
    · rw [if_pos hin]
      rcases memcmp_eq_spec s.array substring.array substring.sz i 0
        (by rw [hs.1]; have := hs.2; omega) (by rw [hsub.1]; have := hsub.2; omega)
        with ⟨r, hr⟩ | ⟨r, k, hk, hne⟩
      · rw [r]
        left
        refine ⟨i, rfl, ⟨by omega, ?_⟩, hno⟩
        intro k hk
        have := hr k hk
        rw [Nat.zero_add] at this
        exact this
      · rw [r]
        have e : (i + 1) % SIZE_T_MOD = i + 1 := by
          rw [hM]
          omega
        simp only [e]
        apply ih (i + 1) (by omega) (by omega)
        intro j hj
        by_cases hji : j = i
        · rw [hji]
          intro hocc
          apply hne
          have := hocc.2 k hk
          rw [Nat.zero_add]
          exact this
        · exact hno j (by omega)
    · rw [if_neg hin]
      right
      refine ⟨rfl, ?_⟩
      intro j hocc
      have h1 := hocc.1
      exact hno j (by omega) hocc

/-- For a substring that is not longer than the string, `find` returns the
smallest index at which the substring occurs inside the first `size()`
characters, or `size()` when there is none, and reads no character outside the
array; `size() - substring.size() + 2` iterations of the model are enough. -/
theorem find_spec_not_longer (s substring : String) (hs : s.WellFormed)
    (hsub : substring.WellFormed) (hle : substring.sz ≤ s.sz) (hsz : s.sz < SIZE_T_MOD)
    (fuel : Nat) (hfuel : s.sz - substring.sz + 2 ≤ fuel) :
    (∃ r, String.find fuel s substring = Outcome.returned r ∧ Occurs s substring r ∧
      ∀ j, j < r → ¬ Occurs s substring j) ∨
    (String.find fuel s substring = Outcome.returned s.sz ∧ ∀ j, ¬ Occurs s substring j) :=
  find_loop_spec s substring hs hsub hle hsz fuel 0 (by omega) (by omega)
    (fun j hj => absurd hj (Nat.not_lt_zero j))

/-- Claim C37, failing call: `String("a").find(String("bc"))` does not return
`size() = 1`.  The bound `sz - substring.sz` of the loop wraps to
`2 ^ 64 - 1`, the loop goes on after index 0 and 1, and at `i = 2` `memcmp`
reads `array[2]`, beyond `size()` and outside the two characters allocated for
`"a"`, whatever number of iterations (at least 3) the model is given. -/
theorem find_longer_substring_reads_outside (fuel : Nat) :
    sub_size_t (String.ofCStr ['a']).sz (String.ofCStr ['b', 'c']).sz = 18446744073709551615 ∧
    (String.ofCStr ['a']).array.length = 2 ∧
    String.find (fuel + 3) (String.ofCStr ['a']) (String.ofCStr ['b', 'c'])
      = Outcome.out_of_bounds 2 := by
  refine ⟨by decide, by decide, ?_⟩
  have h0 : memcmp_eq (String.ofCStr ['a']).array (String.ofCStr ['b', 'c']).array 0 0 2
      = Outcome.returned false := by decide
  have h1 : memcmp_eq (String.ofCStr ['a']).array (String.ofCStr ['b', 'c']).array 1 0 2
      = Outcome.returned false := by decide
  have h2 : memcmp_eq (String.ofCStr ['a']).array (String.ofCStr ['b', 'c']).array 2 0 2
      = Outcome.out_of_bounds 2 := by decide
  have hb : sub_size_t (String.ofCStr ['a']).sz (String.ofCStr ['b', 'c']).sz
      = 18446744073709551615 := by decide
  have hsz : (String.ofCStr ['b', 'c']).sz = 2 := rfl
  have e1 : (0 + 1) % SIZE_T_MOD = 1 := by decide
  have e2 : (1 + 1) % SIZE_T_MOD = 2 := by decide
  simp only [String.find, String.find_loop, hb, hsz, h0, h1, h2, e1, e2]
  decide

end Strings

namespace BigIntegers

/-! ## Digit vectors and their values -/

theorem base_eq : MOD = 1000000000 := rfl

theorem Good.nil : Good [] := by
  intro d hd
  simp at hd

theorem good_cons {d : Int} {ds : List Int} : Good (d :: ds) ↔ (0 ≤ d ∧ d < MOD) ∧ Good ds := by
  simp [Good]

theorem good_append {a b : List Int} : Good (a ++ b) ↔ Good a ∧ Good b := by
  simp only [Good, List.mem_append]
  constructor
  · intro h
    exact ⟨fun d hd => h d (Or.inl hd), fun d hd => h d (Or.inr hd)⟩
  · rintro ⟨h1, h2⟩ d (hd | hd)
    · exact h1 d hd
    · exact h2 d hd

theorem good_reverse {a : List Int} : Good a.reverse ↔ Good a := by
  simp [Good]

theorem good_singleton {d : Int} : Good [d] ↔ 0 ≤ d ∧ d < MOD := by
  simp [Good]

theorem value_digits_append (a b : List Int) :
    value_digits (a ++ b) = value_digits a + MOD ^ a.length * value_digits b := by
  induction a with
  | nil => simp [value_digits]
  | cons x a ih =>
    show value_digits (x :: (a ++ b)) = _
    simp only [value_digits, ih, List.length_cons, pow_succ]
    ring

theorem value_digits_reverse_cons (d : Int) (l : List Int) :
    value_digits (d :: l).reverse = value_digits l.reverse + MOD ^ l.length * d := by
  rw [List.reverse_cons, value_digits_append]
  simp [value_digits]

theorem value_digits_reverse_snoc (l : List Int) (d : Int) :
    value_digits (l ++ [d]).reverse = d + MOD * value_digits l.reverse := by
  simp [value_digits]

theorem pow_MOD_pos (n : Nat) : 0 < MOD ^ n := by
  apply pow_pos
  decide

theorem value_digits_bounds {ds : List Int} (h : Good ds) :
    0 ≤ value_digits ds ∧ value_digits ds < MOD ^ ds.length := by
  induction ds with
  | nil => simp [value_digits]
  | cons d ds ih =>
    obtain ⟨⟨h0, h1⟩, hds⟩ := good_cons.mp h
    obtain ⟨i0, i1⟩ := ih hds
    simp only [value_digits, List.length_cons, pow_succ]
    generalize MOD ^ ds.length = P at *
    simp only [base_eq] at *
    constructor <;> omega

theorem value_digits_nonneg {ds : List Int} (h : Good ds) : 0 ≤ value_digits ds :=
  (value_digits_bounds h).1

/-- A vector whose most significant limb is not zero denotes at least
`MOD ^ (size - 1)`. -/
theorem value_digits_lower {l : List Int} {d : Int} (h : Good (d :: l)) (hd : d ≠ 0) :
    MOD ^ l.length ≤ value_digits (d :: l).reverse := by
  rw [value_digits_reverse_cons]
  obtain ⟨⟨h0, _⟩, hl⟩ := good_cons.mp h
  have := value_digits_nonneg (good_reverse.mpr hl)
  have hp := pow_MOD_pos l.length
  have : MOD ^ l.length * 1 ≤ MOD ^ l.length * d :=
    Int.mul_le_mul_of_nonneg_left (by omega) (le_of_lt hp)
  omega

/-! ## Leading zero limbs -/

/-- Limbs listed from the most significant one without a leading zero limb,
except for the single limb of zero. -/
theorem pop_zeroes_spec (l : List Int) :
    value_digits (pop_zeroes l).reverse = value_digits l.reverse ∧
    (Good l → Good (pop_zeroes l)) ∧ (l ≠ [] → pop_zeroes l ≠ []) ∧
    (pop_zeroes l).length ≤ l.length ∧
    (∀ x y r, pop_zeroes l = x :: y :: r → x ≠ 0) := by
  induction l with
  | nil => simp [pop_zeroes]
  | cons x l ih =>
    cases l with
    | nil => simp [pop_zeroes]
    | cons y r =>
      simp only [pop_zeroes]
      split
      · rename_i hx
        obtain ⟨i1, i2, i3, i4, i5⟩ := ih
        refine ⟨?_, ?_, ?_, ?_, i5⟩
        · rw [i1, value_digits_reverse_cons x (y :: r), hx]
          simp
        · intro hg
          exact i2 (good_cons.mp hg).2
        · intro _
          exact i3 (by simp)
        · simp only [List.length_cons] at i4 ⊢
          omega
      · rename_i hx
        refine ⟨rfl, fun h => h, fun h => h, le_refl _, ?_⟩
        intro x' y' r' he
        simp only [List.cons.injEq] at he
        rw [← he.1]
        exact hx

/-- A vector in canonical form: limbs in `[0, MOD)`, at least one limb, the
most significant limb non-zero unless it is the only one. -/
theorem canonical_zero {l : List Int} (hg : Good l) (hne : l ≠ [])
    (hlead : ∀ x y r, l = x :: y :: r → x ≠ 0) (hv : value_digits l.reverse = 0) : l = [0] := by
  cases l with
  | nil => exact absurd rfl hne
  | cons x l =>
    cases l with
    | nil =>
      simp [value_digits] at hv
      rw [hv]
    | cons y r =>
      have hx := hlead x y r rfl
      have := value_digits_lower hg hx
      have hp := pow_MOD_pos (y :: r).length
      omega

/-! ## Canonical digit vectors -/

theorem normalised_iff (t : BigInteger) :
    t.Normalised ↔ Canonical t.digits ∧ (t.sign = 0 ∨ t.sign = 1 ∨ t.sign = -1) ∧
      (t.sign = 0 ↔ t.digits = [0]) := by
  simp only [BigInteger.Normalised, Canonical, Good, and_assoc]

theorem canonical_lead {ds : List Int} (h : Canonical ds) :
    ∀ x y r, ds.reverse = x :: y :: r → x ≠ 0 := by
  intro x y r he hx
  obtain ⟨_, _, h3⟩ := h
  have hlen : ds.length = (x :: y :: r).length := by rw [← he, List.length_reverse]
  have hl : ds.getLast? = some x := by
    rw [← List.head?_reverse, he]
    rfl
  apply h3
  · rw [hlen]
    simp
  · rw [hl, hx]

theorem canonical_of_lead {ds : List Int} (hg : Good ds) (hne : ds ≠ [])
    (hl : ∀ x y r, ds.reverse = x :: y :: r → x ≠ 0) : Canonical ds := by
  refine ⟨hg, hne, ?_⟩
  intro hlen hlast
  rw [← List.head?_reverse] at hlast
  have hlen2 : 1 < ds.reverse.length := by rw [List.length_reverse]; exact hlen
  cases hr : ds.reverse with
  | nil => rw [hr] at hlen2; simp at hlen2
  | cons x l =>
    cases l with
    | nil => rw [hr] at hlen2; simp at hlen2
    | cons y r =>
      rw [hr] at hlast
      simp only [List.head?_cons, Option.some.injEq] at hlast
      exact hl x y r hr hlast

theorem canonical_value_zero {ds : List Int} (h : Canonical ds) (hv : value_digits ds = 0) :
    ds = [0] := by
  have := canonical_zero (good_reverse.mpr h.1) (by simpa using h.2.1) (canonical_lead h)
    (by simpa using hv)
  have h2 : ds.reverse.reverse = [0].reverse := by rw [this]
  simpa using h2

theorem canonical_value_pos {ds : List Int} (h : Canonical ds) (hne : ds ≠ [0]) :
    0 < value_digits ds := by
  have h0 := value_digits_nonneg h.1
  rcases lt_or_eq_of_le h0 with h1 | h1
  · exact h1
  · exact absurd (canonical_value_zero h h1.symm) hne

theorem canonical_zero_digits : Canonical [0] := by
  refine ⟨?_, by simp, by simp⟩
  rw [good_singleton]
  decide

/-- A canonical vector of `n + 1` limbs denotes at least `MOD ^ n`, unless it
is the vector of zero. -/
theorem canonical_lower {ds : List Int} (h : Canonical ds) (hlen : 1 < ds.length) :
    MOD ^ (ds.length - 1) ≤ value_digits ds := by
  have hl := canonical_lead h
  cases hr : ds.reverse with
  | nil =>
    have : ds.reverse.length = 0 := by rw [hr]; rfl
    rw [List.length_reverse] at this
    omega
  | cons x l =>
    have hlen2 : ds.length = l.length + 1 := by
      rw [← List.length_reverse, hr]
      rfl
    cases l with
    | nil => simp at hlen2; omega
    | cons y r =>
      have hx := hl x y r hr
      have hg : Good (x :: y :: r) := by
        rw [← hr]
        exact good_reverse.mpr h.1
      have := value_digits_lower hg hx
      rw [← hr, List.reverse_reverse] at this
      rw [hlen2]
      simpa using this

/-! ## removeLeadZeroes -/

theorem removeLeadZeroes_digits (t : BigInteger) (hg : Good t.digits) (hne : t.digits ≠ []) :
    Canonical t.removeLeadZeroes.digits ∧
    value_digits t.removeLeadZeroes.digits = value_digits t.digits ∧
    t.removeLeadZeroes.digits.length ≤ t.digits.length := by
  obtain ⟨p1, p2, p3, p4, p5⟩ := pop_zeroes_spec t.digits.reverse
  simp only [BigInteger.removeLeadZeroes]
  refine ⟨?_, ?_, ?_⟩
  · apply canonical_of_lead
    · exact good_reverse.mpr (p2 (good_reverse.mpr hg))
    · have := p3 (by simpa using hne)
      simpa using this
    · intro x y r he
      rw [List.reverse_reverse] at he
      exact p5 x y r he
  · rw [p1, List.reverse_reverse]
  · simpa using p4

theorem single_zero_iff (ds : List Int) :
    (ds.length = 1 ∧ ds.getLast? = some 0) ↔ ds = [0] := by
  constructor
  · rintro ⟨h1, h2⟩
    cases ds with
    | nil => simp at h1
    | cons x l =>
      cases l with
      | nil =>
        simp only [List.getLast?_singleton, Option.some.injEq] at h2
        rw [h2]
      | cons y r => simp at h1
  · intro h
    rw [h]
    simp

theorem removeLeadZeroes_sign (t : BigInteger) :
    t.removeLeadZeroes.sign = if t.removeLeadZeroes.digits = [0] then 0 else t.sign := by
  simp only [BigInteger.removeLeadZeroes]
  by_cases h : (pop_zeroes t.digits.reverse).reverse = [0]
  · rw [if_pos h, if_pos ((single_zero_iff _).mpr h)]
  · rw [if_neg h, if_neg (fun h2 => h ((single_zero_iff _).mp h2))]

/-- Member function `removeLeadZeroes` normalises a `BigInteger` whose limbs
are in `[0, MOD)` and whose sign is 0 only when the limbs denote 0, and keeps
its value. -/
theorem removeLeadZeroes_spec (t : BigInteger) (hg : Good t.digits) (hne : t.digits ≠ [])
    (hs : t.sign = 0 ∨ t.sign = 1 ∨ t.sign = -1) (hz : t.sign = 0 → value_digits t.digits = 0) :
    t.removeLeadZeroes.Normalised ∧ t.removeLeadZeroes.value = t.value ∧
    value_digits t.removeLeadZeroes.digits = value_digits t.digits ∧
    (t.removeLeadZeroes.sign = 0 ∨ t.removeLeadZeroes.sign = t.sign) := by
  obtain ⟨hc, hv, _⟩ := removeLeadZeroes_digits t hg hne
  have hsg := removeLeadZeroes_sign t
  by_cases hd : t.removeLeadZeroes.digits = [0]
  · rw [if_pos hd] at hsg
    have hv0 : value_digits t.digits = 0 := by
      rw [← hv, hd]
      simp [value_digits]
    refine ⟨?_, ?_, hv, Or.inl hsg⟩
    · rw [normalised_iff]
      exact ⟨hc, Or.inl hsg, by simp [hsg, hd]⟩
    · simp [BigInteger.value, hsg, hv0]
  · rw [if_neg hd] at hsg
    have hpos := canonical_value_pos hc hd
    refine ⟨?_, ?_, hv, Or.inr hsg⟩
    · rw [normalised_iff]
      refine ⟨hc, by rw [hsg]; exact hs, ?_⟩
      rw [hsg]
      constructor
      · intro h0
        have := hz h0
        omega
      · intro h
        exact absurd h hd
    · simp [BigInteger.value, hsg, hv]

/-! ## Facts about normalised numbers -/

theorem Normalised.canonical {t : BigInteger} (h : t.Normalised) : Canonical t.digits :=
  ((normalised_iff t).mp h).1

theorem Normalised.value_digits_pos {t : BigInteger} (h : t.Normalised) (hs : t.sign ≠ 0) :
    0 < value_digits t.digits := by
  obtain ⟨hc, _, hz⟩ := (normalised_iff t).mp h
  exact canonical_value_pos hc (fun hd => hs (hz.mpr hd))

theorem Normalised.value_digits_zero {t : BigInteger} (h : t.Normalised) (hs : t.sign = 0) :
    value_digits t.digits = 0 := by
  obtain ⟨hc, _, hz⟩ := (normalised_iff t).mp h
  rw [hz.mp hs]
  simp [value_digits]

theorem removeLeadZeroes_of_normalised {t : BigInteger} (h : t.Normalised) :
    t.removeLeadZeroes = t := by
  obtain ⟨hc, _, hz⟩ := (normalised_iff t).mp h
  have hl := canonical_lead hc
  have hp : pop_zeroes t.digits.reverse = t.digits.reverse := by
    cases hr : t.digits.reverse with
    | nil => rfl
    | cons x l =>
      cases l with
      | nil => rfl
      | cons y r =>
        simp only [pop_zeroes]
        rw [if_neg (hl x y r hr)]
  have hd : t.removeLeadZeroes.digits = t.digits := by
    simp only [BigInteger.removeLeadZeroes, hp, List.reverse_reverse]
  have hsg := removeLeadZeroes_sign t
  rw [hd] at hsg
  have hs : t.removeLeadZeroes.sign = t.sign := by
    rw [hsg]
    split
    · rename_i h0
      exact (hz.mpr h0).symm
    · rfl
  cases t with
  | mk s d =>
    cases hrl : BigInteger.removeLeadZeroes ⟨s, d⟩ with
    | mk s' d' =>
      rw [hrl] at hd hs
      simp only at hd hs
      rw [hd, hs]

/-! ## less -/

theorem less_loop_spec (x y : List Int) (hlen : x.length = y.length) (hx : Good x)
    (hy : Good y) :
    less_loop x y = decide (value_digits x.reverse < value_digits y.reverse) := by
  induction x generalizing y with
  | nil =>
    cases y with
    | nil => simp [less_loop, value_digits]
    | cons b y => simp at hlen
  | cons a x ih =>
    cases y with
    | nil => simp at hlen
    | cons b y =>
      simp only [List.length_cons, Nat.add_right_cancel_iff] at hlen
      obtain ⟨⟨a0, a1⟩, hx'⟩ := good_cons.mp hx
      obtain ⟨⟨b0, b1⟩, hy'⟩ := good_cons.mp hy
      have ihx := ih y hlen hx' hy'
      obtain ⟨vx0, vx1⟩ := value_digits_bounds (good_reverse.mpr hx')
      obtain ⟨vy0, vy1⟩ := value_digits_bounds (good_reverse.mpr hy')
      rw [List.length_reverse] at vx1 vy1
      rw [value_digits_reverse_cons, value_digits_reverse_cons, ← hlen]
      rw [← hlen] at vy1
      have hp := pow_MOD_pos x.length
      generalize MOD ^ x.length = P at *
      simp only [less_loop]
      by_cases h1 : a < b
      · rw [if_pos h1]
        have : P * (a + 1) ≤ P * b := Int.mul_le_mul_of_nonneg_left (by omega) (le_of_lt hp)
        have e : P * (a + 1) = P * a + P := by ring
        symm
        rw [decide_eq_true_iff]
        omega
      · rw [if_neg h1]
        by_cases h2 : a > b
        · rw [if_pos h2]
          have : P * (b + 1) ≤ P * a := Int.mul_le_mul_of_nonneg_left (by omega) (le_of_lt hp)
          have e : P * (b + 1) = P * b + P := by ring
          symm
          rw [decide_eq_false_iff_not]
          omega
        · rw [if_neg h2, ihx]
          have e : a = b := by omega
          rw [e]
          simp

/-- Function `less` compares the values of canonical digit vectors. -/
theorem less_spec (a b : List Int) (ha : Canonical a) (hb : Canonical b) :
    less a b = decide (value_digits a < value_digits b) := by
  obtain ⟨va0, va1⟩ := value_digits_bounds ha.1
  obtain ⟨vb0, vb1⟩ := value_digits_bounds hb.1
  have hane : 1 ≤ a.length := List.length_pos.mpr ha.2.1
  have hbne : 1 ≤ b.length := List.length_pos.mpr hb.2.1
  have hM : (1 : Int) ≤ MOD := by decide
  simp only [less]
  by_cases h1 : a.length < b.length
  · rw [if_pos h1]
    have hl := canonical_lower hb (by omega)
    have : MOD ^ a.length ≤ MOD ^ (b.length - 1) := pow_le_pow_right₀ hM (by omega)
    symm
    rw [decide_eq_true_iff]
    omega
  · rw [if_neg h1]
    by_cases h2 : a.length > b.length
    · rw [if_pos h2]
      have hl := canonical_lower ha (by omega)
      have : MOD ^ b.length ≤ MOD ^ (a.length - 1) := pow_le_pow_right₀ hM (by omega)
      symm
      rw [decide_eq_false_iff_not]
      omega
    · rw [if_neg h2]
      have := less_loop_spec a.reverse b.reverse (by simp; omega) (good_reverse.mpr ha.1)
        (good_reverse.mpr hb.1)
      simpa using this

/-! ## plus, minus and the multiplication loops -/

theorem tdiv_MOD {v : Int} (hv : 0 ≤ v) : Int.tdiv v MOD = v / 1000000000 := by
  rw [Int.tdiv_eq_ediv hv (by decide)]
  rfl

theorem tmod_MOD {v : Int} (hv : 0 ≤ v) : Int.tmod v MOD = v % 1000000000 := by
  rw [Int.tmod_eq_emod hv (by decide)]
  rfl

theorem plus_rest_spec (b : List Int) (c : Int) (hb : Good b) (hc : c = 0 ∨ c = 1) :
    Good (plus_rest MOD b c) ∧
    value_digits (plus_rest MOD b c) = value_digits b + c := by
  induction b generalizing c with
  | nil =>
    have e0 : plus_rest MOD [] 0 = [] := by decide
    have e1 : plus_rest MOD [] 1 = [1] := by decide
    rcases hc with rfl | rfl
    · rw [e0]
      exact ⟨Good.nil, by simp [value_digits]⟩
    · rw [e1]
      exact ⟨good_singleton.mpr (by decide), by simp [value_digits]⟩
  | cons y b ih =>
    obtain ⟨⟨y0, y1⟩, hb'⟩ := good_cons.mp hb
    simp only [base_eq] at y1
    have hv : 0 ≤ 0 + (y + c) := by omega
    simp only [plus_rest, tdiv_MOD hv, tmod_MOD hv]
    obtain ⟨i1, i2⟩ := ih ((0 + (y + c)) / 1000000000) hb' (by omega)
    simp only [base_eq] at i2
    refine ⟨?_, ?_⟩
    · rw [good_cons]
      refine ⟨?_, i1⟩
      simp only [base_eq]
      omega
    · simp only [value_digits, i2, base_eq]
      omega

/-- Function `plus` adds the numbers denoted by two digit vectors. -/
theorem plus_loop_spec (a b : List Int) (c : Int) (ha : Good a) (hb : Good b)
    (hc : c = 0 ∨ c = 1) :
    Good (plus_loop MOD a b c) ∧
    value_digits (plus_loop MOD a b c) = value_digits a + value_digits b + c := by
  induction a generalizing b c with
  | nil =>
    simp only [plus_loop, value_digits]
    have := plus_rest_spec b c hb hc
    constructor
    · exact this.1
    · rw [this.2]
      omega
  | cons x a ih =>
    obtain ⟨⟨x0, x1⟩, ha'⟩ := good_cons.mp ha
    simp only [base_eq] at x1
    cases b with
    | nil =>
      simp only [plus_loop]
      split
      · have hv : 0 ≤ x + (0 + c) := by omega
        simp only [tdiv_MOD hv, tmod_MOD hv]
        obtain ⟨i1, i2⟩ := ih [] ((x + (0 + c)) / 1000000000) ha' Good.nil (by omega)
        simp only [base_eq] at i2
        refine ⟨?_, ?_⟩
        · rw [good_cons]
          refine ⟨?_, i1⟩
          simp only [base_eq]
          omega
        · simp only [value_digits, i2, base_eq]
          omega
      · rename_i hc0
        simp only [ne_eq, not_not] at hc0
        refine ⟨ha, ?_⟩
        simp only [value_digits, hc0]
        omega
    | cons y b =>
      obtain ⟨⟨y0, y1⟩, hb'⟩ := good_cons.mp hb
      simp only [base_eq] at y1
      have hv : 0 ≤ x + (y + c) := by omega
      simp only [plus_loop, tdiv_MOD hv, tmod_MOD hv]
      obtain ⟨i1, i2⟩ := ih b ((x + (y + c)) / 1000000000) ha' hb' (by omega)
      simp only [base_eq] at i2
      refine ⟨?_, ?_⟩
      · rw [good_cons]
        refine ⟨?_, i1⟩
        simp only [base_eq]
        omega
      · simp only [value_digits, i2, base_eq]
        omega

/-- Function `minus` subtracts a number from one that is not smaller. -/
theorem minus_loop_spec (a b : List Int) (c : Int) (ha : Good a) (hb : Good b)
    (hc : c = 0 ∨ c = 1) (hle : value_digits b + c ≤ value_digits a) :
    Good (minus_loop MOD a b c) ∧ (minus_loop MOD a b c).length = a.length ∧
    value_digits (minus_loop MOD a b c) = value_digits a - value_digits b - c := by
  induction a generalizing b c with
  | nil =>
    have := value_digits_nonneg hb
    simp only [value_digits] at hle
    simp only [minus_loop, value_digits]
    refine ⟨Good.nil, by simp, ?_⟩
    omega
  | cons x a ih =>
    obtain ⟨⟨x0, x1⟩, ha'⟩ := good_cons.mp ha
    simp only [base_eq] at x1
    have va := value_digits_nonneg ha'
    cases b with
    | nil =>
      simp only [value_digits, base_eq] at hle
      simp only [minus_loop]
      split
      · rename_i hc0
        have hc1 : c = 1 := by
          rcases hc with h | h
          · exact absurd h hc0
          · exact h
        subst hc1
        by_cases hneg : x - (0 + 1) < 0
        · simp only [if_pos hneg]
          obtain ⟨i1, i2, i3⟩ := ih [] 1 ha' Good.nil (Or.inr rfl) (by
            simp only [value_digits]
            omega)
          simp only [base_eq] at i3
          refine ⟨?_, ?_, ?_⟩
          · rw [good_cons]
            refine ⟨?_, i1⟩
            simp only [base_eq]
            omega
          · simp [i2]
          · simp only [value_digits, i3, base_eq]
            omega
        · simp only [if_neg hneg]
          obtain ⟨i1, i2, i3⟩ := ih [] 0 ha' Good.nil (Or.inl rfl) (by
            simp only [value_digits]
            omega)
          simp only [base_eq] at i3
          refine ⟨?_, ?_, ?_⟩
          · rw [good_cons]
            refine ⟨?_, i1⟩
            simp only [base_eq]
            omega
          · simp [i2]
          · simp only [value_digits, i3, base_eq]
            omega
      · rename_i hc0
        simp only [ne_eq, not_not] at hc0
        refine ⟨ha, rfl, ?_⟩
        simp only [value_digits, hc0]
        omega
    | cons y b =>
      obtain ⟨⟨y0, y1⟩, hb'⟩ := good_cons.mp hb
      simp only [base_eq] at y1
      have vb := value_digits_nonneg hb'
      simp only [value_digits, base_eq] at hle
      simp only [minus_loop]
      by_cases hneg : x - (y + c) < 0
      · simp only [if_pos hneg]
        obtain ⟨i1, i2, i3⟩ := ih b 1 ha' hb' (Or.inr rfl) (by omega)
        simp only [base_eq] at i3
        refine ⟨?_, ?_, ?_⟩
        · rw [good_cons]
          refine ⟨?_, i1⟩
          simp only [base_eq]
          omega
        · simp [i2]
        · simp only [value_digits, i3, base_eq]
          omega
      · simp only [if_neg hneg]
        obtain ⟨i1, i2, i3⟩ := ih b 0 ha' hb' (Or.inl rfl) (by omega)
        simp only [base_eq] at i3
        refine ⟨?_, ?_, ?_⟩
        · rw [good_cons]
          refine ⟨?_, i1⟩
          simp only [base_eq]
          omega
        · simp [i2]
        · simp only [value_digits, i3, base_eq]
          omega

theorem limb_mul_bounds {d y : Int} (hd : 0 ≤ d ∧ d < MOD) (hy : 0 ≤ y ∧ y < MOD) :
    0 ≤ d * y ∧ d * y ≤ 999999998000000001 := by
  obtain ⟨d0, d1⟩ := hd
  obtain ⟨y0, y1⟩ := hy
  simp only [base_eq] at d1 y1
  constructor
  · exact mul_nonneg d0 y0
  · have : d * y ≤ 999999999 * 999999999 := mul_le_mul (by omega) (by omega) y0 (by omega)
    omega

/-- The inner loop of `operator*=` adds `d * other` to `res` when the sum
fits into `res`. -/
theorem mul_row_spec (d : Int) (hd : 0 ≤ d ∧ d < MOD) (res b : List Int) (carry : Int)
    (hb : Good b) (hr : Good res) (hc : 0 ≤ carry ∧ carry < MOD)
    (hfit : value_digits res + d * value_digits b + carry < MOD ^ res.length) :
    Good (mul_row d b res carry) ∧ (mul_row d b res carry).length = res.length ∧
    value_digits (mul_row d b res carry) = value_digits res + d * value_digits b + carry := by
  induction res generalizing b carry with
  | nil =>
    have hvb := value_digits_nonneg hb
    have : 0 ≤ d * value_digits b := mul_nonneg hd.1 hvb
    simp only [value_digits, List.length_nil, pow_zero] at hfit
    have e : mul_row d b [] carry = [] := by
      cases b <;> rfl
    rw [e]
    refine ⟨Good.nil, rfl, ?_⟩
    simp only [value_digits]
    omega
  | cons r res ih =>
    obtain ⟨⟨r0, r1⟩, hr'⟩ := good_cons.mp hr
    obtain ⟨c0, c1⟩ := hc
    simp only [base_eq] at r1 c1
    have vr := value_digits_nonneg hr'
    simp only [value_digits, List.length_cons, pow_succ, base_eq] at hfit
    cases b with
    | nil =>
      simp only [value_digits, mul_zero, add_zero] at hfit
      simp only [mul_row, mul_zero, add_zero]
      split
      · have hv : 0 ≤ r + carry := by omega
        simp only [tdiv_MOD hv, tmod_MOD hv]
        obtain ⟨i1, i2, i3⟩ := ih [] ((r + carry) / 1000000000) Good.nil hr'
          (by simp only [base_eq]; omega) (by
            simp only [value_digits, mul_zero, add_zero, base_eq]
            generalize (1000000000 : Int) ^ res.length = P at *
            omega)
        refine ⟨?_, ?_, ?_⟩
        · rw [good_cons]
          refine ⟨?_, i1⟩
          simp only [base_eq]
          omega
        · simp [i2]
        · simp only [value_digits, i3, base_eq, mul_zero, add_zero]
          omega
      · rename_i hc0
        simp only [ne_eq, not_not] at hc0
        refine ⟨hr, rfl, ?_⟩
        simp only [value_digits, hc0, mul_zero, add_zero]
    | cons y b =>
      obtain ⟨hy, hb'⟩ := good_cons.mp hb
      obtain ⟨m0, m1⟩ := limb_mul_bounds hd hy
      have vb := value_digits_nonneg hb'
      have hx : 0 ≤ d * value_digits b := mul_nonneg hd.1 vb
      have e : d * (y + 1000000000 * value_digits b)
          = d * y + 1000000000 * (d * value_digits b) := by ring
      simp only [value_digits, base_eq] at hfit
      rw [e] at hfit
      have hv : 0 ≤ r + d * y + carry := by omega
      simp only [mul_row, tdiv_MOD hv, tmod_MOD hv]
      obtain ⟨i1, i2, i3⟩ := ih b ((r + d * y + carry) / 1000000000) hb' hr'
        (by simp only [base_eq]; omega) (by
          simp only [base_eq]
          generalize (1000000000 : Int) ^ res.length = P at *
          omega)
      refine ⟨?_, ?_, ?_⟩
      · rw [good_cons]
        refine ⟨?_, i1⟩
        simp only [base_eq]
        omega
      · simp [i2]
      · simp only [value_digits, i3, base_eq]
        rw [e]
        omega

/-- The loops of `operator*=` add the product of the two numbers to `res`
when the sum fits into `res`. -/
theorem mul_loop_spec (other a res : List Int) (ho : Good other) (ha : Good a)
    (hr : Good res)
    (hfit : value_digits res + value_digits a * value_digits other < MOD ^ res.length) :
    Good (mul_loop other a res) ∧ (mul_loop other a res).length = res.length ∧
    value_digits (mul_loop other a res)
      = value_digits res + value_digits a * value_digits other := by
  induction a generalizing res with
  | nil =>
    simp only [mul_loop, value_digits, zero_mul, add_zero]
    exact ⟨hr, by simp, by simp⟩
  | cons d a ih =>
    obtain ⟨hd, ha'⟩ := good_cons.mp ha
    have vo := value_digits_nonneg ho
    have va := value_digits_nonneg ha'
    have vr := value_digits_nonneg hr
    have hx : 0 ≤ value_digits a * value_digits other := mul_nonneg va vo
    have hy : 0 ≤ d * value_digits other := mul_nonneg hd.1 vo
    have e : (d + MOD * value_digits a) * value_digits other
        = d * value_digits other + MOD * (value_digits a * value_digits other) := by ring
    simp only [value_digits] at hfit ⊢
    rw [e] at hfit ⊢
    simp only [base_eq] at hfit ⊢
    obtain ⟨j1, j2, j3⟩ := mul_row_spec d hd res other 0 ho hr (by decide) (by
      simp only [base_eq]
      omega)
    simp only [mul_loop]
    cases hrow : mul_row d other res 0 with
    | nil =>
      rw [hrow] at j2
      have hres : res = [] := List.length_eq_zero.mp j2.symm
      subst hres
      simp only [value_digits, List.length_nil, pow_zero] at hfit ⊢
      refine ⟨Good.nil, by simp, ?_⟩
      omega
    | cons r res1 =>
      rw [hrow] at j1 j2 j3
      obtain ⟨hr1, hres1⟩ := good_cons.mp j1
      simp only [base_eq] at hr1
      simp only [value_digits, base_eq, add_zero] at j3
      simp only [List.length_cons] at j2
      rw [← j2, pow_succ] at hfit
      obtain ⟨i1, i2, i3⟩ := ih res1 ha' hres1 (by
        simp only [base_eq]
        generalize (1000000000 : Int) ^ res1.length = P at *
        omega)
      refine ⟨?_, ?_, ?_⟩
      · rw [good_cons]
        exact ⟨by simp only [base_eq]; exact hr1, i1⟩
      · simp only [List.length_cons, i2, j2]
      · simp only [value_digits, i3, base_eq]
        omega

/-! ## Member functions on normalised numbers -/

theorem ofLongLong_zero : BigInteger.ofLongLong 0 = ⟨0, [0]⟩ := rfl

theorem ofLongLong_limb {m : Int} (h0 : 0 < m) (h1 : m < MOD) :
    BigInteger.ofLongLong m = ⟨1, [m]⟩ := by
  simp only [base_eq] at h1
  have hne : m ≠ 0 := by omega
  have hn : ¬ m < 0 := by omega
  have hd : m / 1000000000 = 0 := by omega
  have hm : m % 1000000000 = m := by omega
  simp only [BigInteger.ofLongLong, ctor_loop, if_pos hne, if_pos h0, if_neg hn,
    tdiv_MOD (le_of_lt h0), tmod_MOD (le_of_lt h0), hd, hm, gt_iff_lt, lt_self_iff_false,
    if_false, ne_eq, not_false_eq_true, if_true, hne]

theorem normalised_zero : (BigInteger.ofLongLong 0).Normalised := by decide

theorem ofLongLong_limb_spec {m : Int} (h0 : 0 ≤ m) (h1 : m < MOD) :
    (BigInteger.ofLongLong m).Normalised ∧ value_digits (BigInteger.ofLongLong m).digits = m ∧
    (BigInteger.ofLongLong m).value = m ∧ 0 ≤ (BigInteger.ofLongLong m).sign := by
  rcases lt_or_eq_of_le h0 with h | h
  · rw [ofLongLong_limb h h1]
    refine ⟨?_, by simp [value_digits], by simp [BigInteger.value, value_digits], by simp⟩
    rw [normalised_iff]
    refine ⟨⟨good_singleton.mpr ⟨h0, h1⟩, by simp, by simp⟩, by simp, ?_⟩
    simp only [one_ne_zero, List.cons.injEq, and_true, false_iff]
    omega
  · subst h
    exact ⟨normalised_zero, by decide, by decide, by decide⟩

/-- Function `operator*` multiplies the values of normalised numbers. -/
theorem mul_spec (a b : BigInteger) (ha : a.Normalised) (hb : b.Normalised) :
    (a.mul b).Normalised ∧ (a.mul b).value = a.value * b.value ∧
    value_digits (a.mul b).digits = value_digits a.digits * value_digits b.digits ∧
    ((a.mul b).sign = 0 ∨ (a.mul b).sign = a.sign * b.sign) := by
  obtain ⟨ca, sa, za⟩ := (normalised_iff a).mp ha
  obtain ⟨cb, sb, zb⟩ := (normalised_iff b).mp hb
  obtain ⟨a0, a1⟩ := value_digits_bounds ca.1
  obtain ⟨b0, b1⟩ := value_digits_bounds cb.1
  have hzero : Good (List.replicate (a.digits.length + b.digits.length + 1) (0 : Int)) := by
    intro d hd
    rw [List.eq_of_mem_replicate hd]
    decide
  have vzero : ∀ n, value_digits (List.replicate n (0 : Int)) = 0 := by
    intro n
    induction n with
    | zero => rfl
    | succ n ih => simp [List.replicate_succ, value_digits, ih]
  have hfit : value_digits (List.replicate (a.digits.length + b.digits.length + 1) (0 : Int))
      + value_digits a.digits * value_digits b.digits
      < MOD ^ (List.replicate (a.digits.length + b.digits.length + 1) (0 : Int)).length := by
    rw [vzero, List.length_replicate, zero_add, pow_succ, pow_add]
    have hp1 := pow_MOD_pos a.digits.length
    have hp2 := pow_MOD_pos b.digits.length
    have h1 : value_digits a.digits * value_digits b.digits
        < MOD ^ a.digits.length * MOD ^ b.digits.length :=
      mul_lt_mul'' a1 b1 a0 b0
    have h2 : MOD ^ a.digits.length * MOD ^ b.digits.length * 1
        ≤ MOD ^ a.digits.length * MOD ^ b.digits.length * MOD :=
      Int.mul_le_mul_of_nonneg_left (by decide) (le_of_lt (mul_pos hp1 hp2))
    omega
  obtain ⟨m1, m2, m3⟩ := mul_loop_spec b.digits a.digits _ cb.1 ca.1 hzero hfit
  rw [vzero, zero_add] at m3
  rw [List.length_replicate] at m2
  have hres := removeLeadZeroes_spec
    ⟨a.sign * b.sign, mul_loop b.digits a.digits
      (List.replicate (a.digits.length + b.digits.length + 1) 0)⟩ m1
    (by
      intro h
      simp only at h
      rw [h] at m2
      simp at m2)
    (by
      simp only
      rcases sa with h | h | h <;> rcases sb with h' | h' | h' <;> rw [h, h'] <;> decide)
    (by
      simp only
      intro h
      rw [m3]
      rcases Int.mul_eq_zero.mp h with h | h
      · rw [Normalised.value_digits_zero ha h, zero_mul]
      · rw [Normalised.value_digits_zero hb h, mul_zero])
  obtain ⟨r1, r2, r3, r4⟩ := hres
  refine ⟨r1, ?_, ?_, r4⟩
  · show (BigInteger.removeLeadZeroes _).value = _
    rw [r2]
    simp only [BigInteger.value, m3]
    ring
  · show value_digits (BigInteger.removeLeadZeroes _).digits = _
    rw [r3, m3]

theorem Normalised.value_nonneg {t : BigInteger} (h : t.Normalised) (hs : 0 ≤ t.sign) :
    t.value = value_digits t.digits := by
  obtain ⟨_, s, _⟩ := (normalised_iff t).mp h
  rcases s with s | s | s
  · rw [BigInteger.value, s, Normalised.value_digits_zero h s]
    simp
  · rw [BigInteger.value, s]
    simp
  · omega

/-- Function `operator<` compares the values of normalised numbers that are
not negative. -/
theorem lt_spec (a b : BigInteger) (ha : a.Normalised) (hb : b.Normalised)
    (hsa : 0 ≤ a.sign) (hsb : 0 ≤ b.sign) :
    a.lt b = decide (value_digits a.digits < value_digits b.digits) := by
  obtain ⟨ca, sa, za⟩ := (normalised_iff a).mp ha
  obtain ⟨cb, sb, zb⟩ := (normalised_iff b).mp hb
  have hl := less_spec a.digits b.digits ca cb
  have va := value_digits_nonneg ca.1
  have vb := value_digits_nonneg cb.1
  simp only [BigInteger.lt]
  by_cases h1 : a.sign < b.sign
  · rw [if_pos h1]
    have ea : a.sign = 0 := by omega
    have eb : b.sign ≠ 0 := by omega
    have := Normalised.value_digits_zero ha ea
    have := Normalised.value_digits_pos hb eb
    symm
    rw [decide_eq_true_iff]
    omega
  · rw [if_neg h1]
    by_cases h2 : a.sign > b.sign
    · rw [if_pos h2]
      have eb : b.sign = 0 := by omega
      have := Normalised.value_digits_zero hb eb
      symm
      rw [decide_eq_false_iff_not]
      omega
    · rw [if_neg h2, if_pos hsa, hl]

theorem eq_zero_spec (t : BigInteger) (h : t.Normalised) :
    t.eq (BigInteger.ofLongLong 0) = decide (t.sign = 0) := by
  obtain ⟨c, s, z⟩ := (normalised_iff t).mp h
  rw [ofLongLong_zero]
  simp only [BigInteger.eq]
  by_cases h0 : t.sign = 0
  · have hd := z.mp h0
    simp [h0, hd, eq_loop]
  · simp [h0]

theorem abs_spec (t : BigInteger) (h : t.Normalised) :
    t.abs.Normalised ∧ 0 ≤ t.abs.sign ∧ t.abs.digits = t.digits ∧
    (t.abs.sign = 0 ↔ t.sign = 0) := by
  obtain ⟨c, s, z⟩ := (normalised_iff t).mp h
  simp only [BigInteger.abs]
  by_cases h1 : t.sign = -1
  · rw [if_pos h1]
    have e : (-1 : Int) * -1 = 1 := by decide
    simp only [BigInteger.neg, BigInteger.changeSign, h1, e]
    refine ⟨?_, by simp, by simp, by simp⟩
    rw [normalised_iff]
    refine ⟨c, Or.inr (Or.inl rfl), ?_⟩
    simp only [one_ne_zero, false_iff]
    intro hd
    rw [z.mpr hd] at h1
    omega
  · rw [if_neg h1]
    refine ⟨h, by omega, rfl, Iff.rfl⟩

/-- Member function `levelUp(x)` appends the limb `x` below the limbs of a
number that is not negative. -/
theorem levelUp_spec (t : BigInteger) (x : Int) (h : t.Normalised) (hs : 0 ≤ t.sign)
    (hx : 0 ≤ x ∧ x < MOD) :
    (t.levelUp x).Normalised ∧ 0 ≤ (t.levelUp x).sign ∧
    value_digits (t.levelUp x).digits = x + MOD * value_digits t.digits := by
  obtain ⟨c, s, z⟩ := (normalised_iff t).mp h
  simp only [BigInteger.levelUp]
  have hsign : ∀ sg : Int, sg = (if x ≠ 0 then 1
      else if t.digits.any (fun d => decide (d ≠ 0)) = true then 1 else t.sign) →
      (sg = 0 ∨ sg = 1) ∧ (sg = 0 → value_digits (x :: t.digits) = 0) := by
    intro sg hsg
    by_cases hx0 : x ≠ 0
    · rw [if_pos hx0] at hsg
      exact ⟨Or.inr hsg, fun h0 => by omega⟩
    · rw [if_neg hx0] at hsg
      by_cases hany : t.digits.any (fun d => decide (d ≠ 0)) = true
      · rw [if_pos hany] at hsg
        exact ⟨Or.inr hsg, fun h0 => by omega⟩
      · rw [if_neg hany] at hsg
        constructor
        · omega
        · intro h0
          have := Normalised.value_digits_zero h (hsg ▸ h0)
          simp only [ne_eq, not_not] at hx0
          simp only [value_digits, this, hx0]
          simp
  obtain ⟨hs1, hs2⟩ := hsign _ rfl
  have hres := removeLeadZeroes_spec
    ⟨if x ≠ 0 then 1 else if t.digits.any (fun d => decide (d ≠ 0)) = true then 1 else t.sign,
      x :: t.digits⟩
    (good_cons.mpr ⟨hx, c.1⟩) (by simp)
    (by
      rcases hs1 with h1 | h1
      · exact Or.inl h1
      · exact Or.inr (Or.inl h1))
    hs2
  obtain ⟨r1, _, r3, r4⟩ := hres
  refine ⟨r1, ?_, ?_⟩
  · rcases r4 with r4 | r4
    · rw [r4]
    · rw [r4]
      rcases hs1 with h1 | h1
      · exact le_of_eq h1.symm
      · exact le_of_lt (lt_of_lt_of_eq Int.zero_lt_one h1.symm)
  · rw [r3]
    rfl

/-- Member `operator-=` subtracts a number that is not larger, both numbers
being normalised and not negative. -/
theorem sub_assign_spec (t other : BigInteger) (ht : t.Normalised) (ho : other.Normalised)
    (hst : 0 ≤ t.sign) (hso : 0 ≤ other.sign)
    (hle : value_digits other.digits ≤ value_digits t.digits) :
    (t.sub_assign other).Normalised ∧ 0 ≤ (t.sub_assign other).sign ∧
    value_digits (t.sub_assign other).digits
      = value_digits t.digits - value_digits other.digits := by
  obtain ⟨ct, st, zt⟩ := (normalised_iff t).mp ht
  obtain ⟨co, so, zo⟩ := (normalised_iff other).mp ho
  have hst2 : t.sign = 0 ∨ t.sign = 1 := by omega
  have hso2 : other.sign = 0 ∨ other.sign = 1 := by omega
  have hsign : ∀ r : BigInteger, (r.sign = 0 ∨ r.sign = t.sign) → 0 ≤ r.sign := by
    intro r hr
    rcases hr with hr | hr
    · exact le_of_eq hr.symm
    · rw [hr]
      exact hst
  simp only [BigInteger.sub_assign, BigInteger.add_assign, BigInteger.neg,
    BigInteger.changeSign]
  by_cases h1 : t.sign * (other.sign * -1) ≥ 0
  · rw [if_pos h1]
    have hv0 : value_digits other.digits = 0 := by
      rcases hso2 with h | h
      · exact Normalised.value_digits_zero ho h
      · rcases hst2 with h' | h'
        · have := Normalised.value_digits_zero ht h'
          have := value_digits_nonneg co.1
          omega
        · rw [h, h'] at h1
          exact absurd h1 (by decide)
    obtain ⟨p1, p2⟩ := plus_loop_spec t.digits other.digits 0 ct.1 co.1 (Or.inl rfl)
    have hne : plus t.digits other.digits MOD ≠ [] := by
      simp only [plus]
      cases ht' : t.digits with
      | nil => exact absurd ht' ct.2.1
      | cons x a =>
        cases ho' : other.digits with
        | nil => exact absurd ho' co.2.1
        | cons y b => simp [plus_loop]
    obtain ⟨r1, _, r3, r4⟩ := removeLeadZeroes_spec ⟨t.sign, plus t.digits other.digits MOD⟩
      p1 hne st (by
        intro h0
        simp only at h0 ⊢
        simp only [plus]
        rw [p2, hv0, Normalised.value_digits_zero ht h0]
        rfl)
    refine ⟨r1, hsign _ r4, ?_⟩
    rw [r3]
    simp only [plus]
    rw [p2, hv0]
    omega
  · rw [if_neg h1]
    have e1 : t.sign = 1 := by
      rcases hst2 with h | h
      · rw [h] at h1
        simp at h1
      · exact h
    have e2 : other.sign = 1 := by
      rcases hso2 with h | h
      · rw [h] at h1
        simp at h1
      · exact h
    have hl := less_spec t.digits other.digits ct co
    have hnl : ¬ less t.digits other.digits = true := by
      rw [hl, decide_eq_true_iff]
      omega
    rw [if_pos hnl]
    obtain ⟨q1, q2, q3⟩ := minus_loop_spec t.digits other.digits 0 ct.1 co.1 (Or.inl rfl)
      (by omega)
    obtain ⟨r1, _, r3, r4⟩ := removeLeadZeroes_spec ⟨t.sign, minus t.digits other.digits MOD⟩
      q1 (by
        intro h
        simp only [minus] at h
        rw [h] at q2
        exact ct.2.1 (List.length_eq_zero.mp q2.symm))
      st (by
        intro h0
        simp only at h0
        omega)
    refine ⟨r1, hsign _ r4, ?_⟩
    rw [r3]
    simp only [minus]
    rw [q3]
    omega

/-! ## The loops of operator/= -/

theorem skip_zeroes_spec (rest tmp : List Int) (hr : Good rest) (ht : Good tmp) :
    Good (skip_zeroes rest tmp).1 ∧ Good (skip_zeroes rest tmp).2 ∧
    (skip_zeroes rest tmp).1.length ≤ rest.length ∧
    value_digits (skip_zeroes rest tmp).1.reverse = value_digits rest.reverse ∧
    value_digits (skip_zeroes rest tmp).2.reverse * MOD ^ (skip_zeroes rest tmp).1.length
      = value_digits tmp.reverse * MOD ^ rest.length := by
  induction rest generalizing tmp with
  | nil => exact ⟨hr, ht, le_refl _, rfl, rfl⟩
  | cons d rest ih =>
    obtain ⟨hd, hr'⟩ := good_cons.mp hr
    simp only [skip_zeroes]
    by_cases h0 : d = 0
    · rw [if_pos h0]
      obtain ⟨i1, i2, i3, i4, i5⟩ := ih (tmp ++ [0])
        hr' (good_append.mpr ⟨ht, good_singleton.mpr (by decide)⟩)
      refine ⟨i1, i2, ?_, ?_, ?_⟩
      · simp only [List.length_cons]
        omega
      · rw [i4, value_digits_reverse_cons, h0]
        simp
      · rw [i5, value_digits_reverse_snoc, List.length_cons, pow_succ]
        ring
    · rw [if_neg h0]
      exact ⟨hr, ht, le_refl _, rfl, rfl⟩

/-- The loop that moves limbs of the dividend into `cur`, entered after at
least one limb was moved: the quotient digit still to be pushed is counted
with `tmp`. -/
theorem take_limbs_spec (mod_b : BigInteger) (hb : mod_b.Normalised) (hsb : mod_b.sign = 1)
    (rest : List Int) (cur : BigInteger) (cnt : Nat) (tmp : List Int) (hcnt : 1 ≤ cnt)
    (hr : Good rest) (ht : Good tmp) (hc : cur.Normalised) (hcs : 0 ≤ cur.sign)
    (hcv : value_digits cur.digits < MOD * value_digits mod_b.digits) :
    Good (take_limbs mod_b rest cur cnt tmp).1 ∧
    (take_limbs mod_b rest cur cnt tmp).1.length ≤ rest.length ∧
    (take_limbs mod_b rest cur cnt tmp).2.1.Normalised ∧
    0 ≤ (take_limbs mod_b rest cur cnt tmp).2.1.sign ∧
    value_digits (take_limbs mod_b rest cur cnt tmp).2.1.digits
      < MOD * value_digits mod_b.digits ∧
    Good (take_limbs mod_b rest cur cnt tmp).2.2 ∧
    (value_digits (take_limbs mod_b rest cur cnt tmp).2.2.reverse * MOD
        * value_digits mod_b.digits
      + value_digits (take_limbs mod_b rest cur cnt tmp).2.1.digits)
        * MOD ^ (take_limbs mod_b rest cur cnt tmp).1.length
      + value_digits (take_limbs mod_b rest cur cnt tmp).1.reverse
    = (value_digits tmp.reverse * MOD * value_digits mod_b.digits + value_digits cur.digits)
        * MOD ^ rest.length + value_digits rest.reverse := by
  induction rest generalizing cur cnt tmp with
  | nil => exact ⟨hr, le_refl _, hc, hcs, hcv, ht, rfl⟩
  | cons d rest ih =>
    obtain ⟨hd, hr'⟩ := good_cons.mp hr
    simp only [take_limbs]
    by_cases hlt : cur.lt mod_b = true
    · rw [if_pos hlt]
      have hcnt2 : cnt + 1 > 1 := by omega
      rw [if_pos hcnt2]
      rw [lt_spec cur mod_b hc hb hcs (by omega), decide_eq_true_iff] at hlt
      obtain ⟨l1, l2, l3⟩ := levelUp_spec cur d hc hcs hd
      have hd' := hd
      simp only [base_eq] at hd' hcv hlt l3
      obtain ⟨i1, i2, i3, i4, i5, i6, i7⟩ := ih (cur.levelUp d) (cnt + 1) (tmp ++ [0])
        (by omega) hr' (good_append.mpr ⟨ht, good_singleton.mpr (by decide)⟩) l1 l2 (by
          simp only [base_eq]
          omega)
      refine ⟨i1, ?_, i3, i4, i5, i6, ?_⟩
      · simp only [List.length_cons]
        omega
      · rw [i7, value_digits_reverse_snoc, value_digits_reverse_cons, List.length_cons, pow_succ]
        simp only [base_eq]
        rw [l3]
        ring
    · rw [if_neg hlt]
      exact ⟨hr, le_refl _, hc, hcs, hcv, ht, rfl⟩

/-- The binary search finds the quotient digit: the largest `q` with
`q * mod_b <= cur`. -/
theorem search_spec (cur mod_b : BigInteger) (hc : cur.Normalised) (hcs : 0 ≤ cur.sign)
    (hb : mod_b.Normalised) (hsb : mod_b.sign = 1) (fuel : Nat) (l r : Int) (h0 : 0 ≤ l)
    (hlr : l < r) (hr : r ≤ MOD) (hfuel : r - l ≤ 2 ^ fuel)
    (hlow : value_digits mod_b.digits * l ≤ value_digits cur.digits)
    (hhigh : value_digits cur.digits < value_digits mod_b.digits * r) :
    l ≤ search cur mod_b fuel l r ∧ search cur mod_b fuel l r < r ∧
    value_digits mod_b.digits * search cur mod_b fuel l r ≤ value_digits cur.digits ∧
    value_digits cur.digits < value_digits mod_b.digits * (search cur mod_b fuel l r + 1) := by
  induction fuel generalizing l r with
  | zero =>
    simp only [pow_zero] at hfuel
    have e : r = l + 1 := by omega
    subst e
    simp only [search]
    exact ⟨le_refl _, hlr, hlow, hhigh⟩
  | succ fuel ih =>
    simp only [search]
    by_cases hgap : r - l > 1
    · rw [if_pos hgap]
      have hm : Int.tdiv (l + r) 2 = (l + r) / 2 := Int.tdiv_eq_ediv (by omega) (by decide)
      rw [hm]
      simp only [base_eq] at hr
      rw [pow_succ] at hfuel
      have hm0 : 0 < (l + r) / 2 := by omega
      have hm1 : (l + r) / 2 < MOD := by
        simp only [base_eq]
        omega
      obtain ⟨n1, n2, _, n4⟩ := ofLongLong_limb_spec (le_of_lt hm0) hm1
      obtain ⟨p1, _, p3, p4⟩ := mul_spec mod_b (BigInteger.ofLongLong ((l + r) / 2)) hb n1
      have psign : 0 ≤ (mod_b.mul (BigInteger.ofLongLong ((l + r) / 2))).sign := by
        rcases p4 with p4 | p4
        · exact le_of_eq p4.symm
        · rw [p4, hsb, one_mul]
          exact n4
      rw [lt_spec cur _ hc p1 hcs psign, p3, n2]
      by_cases hcmp : value_digits cur.digits < value_digits mod_b.digits * ((l + r) / 2)
      · rw [decide_eq_true hcmp, if_pos rfl]
        obtain ⟨i1, i2, i3, i4⟩ := ih l ((l + r) / 2) h0 (by omega) (by
          simp only [base_eq]
          omega) (by omega) hlow hcmp
        exact ⟨i1, by omega, i3, i4⟩
      · rw [decide_eq_false hcmp, if_neg (by simp)]
        obtain ⟨i1, i2, i3, i4⟩ := ih ((l + r) / 2) r (by omega) (by omega) (by
          simp only [base_eq]
          omega) (by omega) (by omega) hhigh
        exact ⟨by omega, i2, i3, i4⟩
    · rw [if_neg hgap]
      have e : r = l + 1 := by omega
      subst e
      exact ⟨le_refl _, hlr, hlow, hhigh⟩

theorem div_loop_nil (mod_b : BigInteger) (fuel : Nat) (cur : BigInteger) (tmp : List Int) :
    div_loop mod_b fuel [] cur tmp = tmp := by
  cases fuel <;> rfl

/-- The main loop of `operator/=`: with `n` the number made of the quotient
digits pushed so far, the remainder `cur` and the limbs still to be visited,
the digits in `tmp` after the loop denote the quotient of `n` by `mod_b`. -/
theorem div_loop_spec (mod_b : BigInteger) (hb : mod_b.Normalised) (hsb : mod_b.sign = 1)
    (fuel : Nat) (rest : List Int) (cur : BigInteger) (tmp : List Int) (n : Int)
    (hfuel : rest.length < fuel) (hr : Good rest) (ht : Good tmp) (hc : cur.Normalised)
    (hcs : 0 ≤ cur.sign) (hcv : value_digits cur.digits < value_digits mod_b.digits)
    (hn : n = (value_digits tmp.reverse * value_digits mod_b.digits + value_digits cur.digits)
      * MOD ^ rest.length + value_digits rest.reverse) :
    Good (div_loop mod_b fuel rest cur tmp) ∧
    value_digits (div_loop mod_b fuel rest cur tmp).reverse * value_digits mod_b.digits ≤ n ∧
    n < (value_digits (div_loop mod_b fuel rest cur tmp).reverse + 1)
      * value_digits mod_b.digits := by
  induction fuel generalizing rest cur tmp with
  | zero => omega
  | succ fuel ih =>
    have hc0 := value_digits_nonneg (Normalised.canonical hc).1
    cases rest with
    | nil =>
      rw [div_loop_nil]
      simp only [List.length_nil, pow_zero, List.reverse_nil, value_digits, mul_one,
        add_zero] at hn
      refine ⟨ht, ?_, ?_⟩
      · omega
      · rw [add_mul, one_mul]
        omega
    | cons d rest =>
      have key : ∀ sk : List Int × List Int,
          sk = (if cur.eq (BigInteger.ofLongLong 0) = true then skip_zeroes (d :: rest) tmp
            else (d :: rest, tmp)) →
          Good sk.1 ∧ Good sk.2 ∧ sk.1.length ≤ (d :: rest).length ∧
          n = (value_digits sk.2.reverse * value_digits mod_b.digits + value_digits cur.digits)
            * MOD ^ sk.1.length + value_digits sk.1.reverse := by
        intro sk hsk
        by_cases hz : cur.eq (BigInteger.ofLongLong 0) = true
        · rw [if_pos hz] at hsk
          rw [eq_zero_spec cur hc, decide_eq_true_iff] at hz
          have hv0 := Normalised.value_digits_zero hc hz
          obtain ⟨s1, s2, s3, s4, s5⟩ := skip_zeroes_spec (d :: rest) tmp hr ht
          rw [hsk]
          refine ⟨s1, s2, s3, ?_⟩
          rw [hn, hv0, s4, add_zero, add_zero]
          linear_combination (-(value_digits mod_b.digits)) * s5
        · rw [if_neg hz] at hsk
          rw [hsk]
          exact ⟨hr, ht, le_refl _, hn⟩
      simp only [div_loop]
      generalize hsk : (if cur.eq (BigInteger.ofLongLong 0) = true
        then skip_zeroes (d :: rest) tmp else (d :: rest, tmp)) = sk
      obtain ⟨k1, k2, k3, k4⟩ := key sk hsk.symm
      obtain ⟨rest1, tmp1⟩ := sk
      simp only at k1 k2 k3 k4 ⊢
      cases rest1 with
      | nil =>
        simp only
        rw [div_loop_nil]
        simp only [List.length_nil, pow_zero, List.reverse_nil, value_digits, mul_one,
          add_zero] at k4
        refine ⟨k2, ?_, ?_⟩
        · omega
        · rw [add_mul, one_mul]
          omega
      | cons e rest1 =>
        simp only
        obtain ⟨he, hr1⟩ := good_cons.mp k1
        have hlt : cur.lt mod_b = true := by
          rw [lt_spec cur mod_b hc hb hcs (by omega), decide_eq_true_iff]
          exact hcv
        have htk : take_limbs mod_b (e :: rest1) cur 0 tmp1
            = take_limbs mod_b rest1 (cur.levelUp e) 1 tmp1 := by
          simp only [take_limbs]
          rw [if_pos hlt]
          simp
        rw [htk]
        obtain ⟨l1, l2, l3⟩ := levelUp_spec cur e hc hcs he
        have hbpos := Normalised.value_digits_pos hb (by omega)
        have hlv : value_digits (cur.levelUp e).digits < MOD * value_digits mod_b.digits := by
          have he' := he
          simp only [base_eq] at he' l3 ⊢
          omega
        obtain ⟨t1, t2, t3, t4, t5, t6, t7⟩ := take_limbs_spec mod_b hb hsb rest1
          (cur.levelUp e) 1 tmp1 (le_refl _) hr1 k2 l1 l2 hlv
        generalize take_limbs mod_b rest1 (cur.levelUp e) 1 tmp1 = tk at t1 t2 t3 t4 t5 t6 t7 ⊢
        obtain ⟨rest2, cur2, tmp2⟩ := tk
        simp only at t1 t2 t3 t4 t5 t6 t7 ⊢
        have hc2 := value_digits_nonneg (Normalised.canonical t3).1
        obtain ⟨q1, q2, q3, q4⟩ := search_spec cur2 mod_b t3 t4 hb hsb 64 0 MOD (le_refl _)
          (by decide) (le_refl _) (by decide) (by omega) (by rw [mul_comm]; exact t5)
        generalize search cur2 mod_b 64 0 MOD = q at q1 q2 q3 q4 ⊢
        obtain ⟨n1, n2, _, n4⟩ := ofLongLong_limb_spec q1 q2
        obtain ⟨p1, _, p3, p4⟩ := mul_spec mod_b (BigInteger.ofLongLong q) hb n1
        have psign : 0 ≤ (mod_b.mul (BigInteger.ofLongLong q)).sign := by
          rcases p4 with p4 | p4
          · exact le_of_eq p4.symm
          · rw [p4, hsb, one_mul]
            exact n4
        rw [n2] at p3
        obtain ⟨u1, u2, u3⟩ := sub_assign_spec cur2 (mod_b.mul (BigInteger.ofLongLong q)) t3 p1
          t4 psign (by rw [p3]; exact q3)
        rw [p3] at u3
        simp only [List.length_cons] at k3 hfuel
        apply ih rest2 _ (tmp2 ++ [q]) (by omega) t1
          (good_append.mpr ⟨t6, good_singleton.mpr ⟨q1, q2⟩⟩) u1 u2
        · rw [u3]
          rw [mul_add, mul_one] at q4
          omega
        · rw [u3, value_digits_reverse_snoc]
          rw [k4, value_digits_reverse_cons, List.length_cons, pow_succ]
          rw [value_digits_reverse_cons, List.length_cons, pow_succ] at hn
          have e1 : (value_digits tmp1.reverse * value_digits mod_b.digits
                + value_digits cur.digits) * (MOD ^ rest1.length * MOD)
              + (value_digits rest1.reverse + MOD ^ rest1.length * e)
              = (value_digits tmp1.reverse * MOD * value_digits mod_b.digits
                + (e + MOD * value_digits cur.digits)) * MOD ^ rest1.length
              + value_digits rest1.reverse := by ring
          rw [e1, ← l3, ← t7]
          ring

/-! ## Addition when the left operand is not zero -/

theorem plus_ne_nil {a b : List Int} (ha : a ≠ []) (hb : b ≠ []) : plus a b MOD ≠ [] := by
  simp only [plus]
  cases a with
  | nil => exact absurd rfl ha
  | cons x a =>
    cases b with
    | nil => exact absurd rfl hb
    | cons y b => simp [plus_loop]

/-- Function `operator+` adds the values of normalised numbers, unless the
left operand is zero and the right operand is not. -/
theorem add_spec (a b : BigInteger) (ha : a.Normalised) (hb : b.Normalised)
    (hz : a.sign = 0 → b.sign = 0) :
    (a.add b).Normalised ∧ (a.add b).value = a.value + b.value := by
  obtain ⟨ca, sa, za⟩ := (normalised_iff a).mp ha
  obtain ⟨cb, sb, zb⟩ := (normalised_iff b).mp hb
  have va := value_digits_nonneg ca.1
  have vb := value_digits_nonneg cb.1
  simp only [BigInteger.add, BigInteger.add_assign, BigInteger.changeSign]
  by_cases h1 : a.sign * b.sign ≥ 0
  · rw [if_pos h1]
    obtain ⟨p1, p2⟩ := plus_loop_spec a.digits b.digits 0 ca.1 cb.1 (Or.inl rfl)
    obtain ⟨r1, r2, _, _⟩ := removeLeadZeroes_spec ⟨a.sign, plus a.digits b.digits MOD⟩ p1
      (plus_ne_nil ca.2.1 cb.2.1) sa (by
        intro h0
        simp only at h0 ⊢
        simp only [plus]
        rw [p2, Normalised.value_digits_zero ha h0, Normalised.value_digits_zero hb (hz h0)]
        rfl)
    refine ⟨r1, ?_⟩
    rw [r2]
    simp only [BigInteger.value, plus]
    rw [p2, add_zero, mul_add]
    by_cases hb0 : b.sign = 0
    · rw [Normalised.value_digits_zero hb hb0]
      simp
    · have ha0 : a.sign ≠ 0 := by
        intro h
        have := Normalised.value_digits_zero ha h
        rcases sb with h' | h' | h'
        · exact hb0 h'
        · rw [h, h'] at h1
          exact hb0 (hz h)
        · exact hb0 (hz h)
      have e : a.sign = b.sign := by
        rcases sa with h | h | h <;> rcases sb with h' | h' | h'
        all_goals first
          | exact absurd h ha0
          | exact absurd h' hb0
          | (rw [h, h'] at h1; exact absurd h1 (by decide))
          | (rw [h, h'])
      rw [e]
  · rw [if_neg h1]
    have hopp : b.sign = -a.sign ∧ (a.sign = 1 ∨ a.sign = -1) := by
      rcases sa with h | h | h <;> rcases sb with h' | h' | h'
      all_goals first
        | (rw [h, h'] at h1; exact absurd (by decide) h1)
        | (rw [h, h']; exact ⟨by decide, by decide⟩)
    obtain ⟨hneg, hsa⟩ := hopp
    have hl := less_spec a.digits b.digits ca cb
    by_cases hlt : value_digits a.digits < value_digits b.digits
    · have hless : ¬ ¬ less a.digits b.digits = true := by
        rw [hl, decide_eq_true_iff]
        exact fun h => h hlt
      rw [if_neg hless]
      obtain ⟨q1, q2, q3⟩ := minus_loop_spec b.digits a.digits 0 cb.1 ca.1 (Or.inl rfl)
        (by omega)
      obtain ⟨r1, r2, _, _⟩ := removeLeadZeroes_spec
        ⟨a.sign * -1, minus b.digits a.digits MOD⟩ q1 (by
          intro h
          simp only [minus] at h
          rw [h] at q2
          exact cb.2.1 (List.length_eq_zero.mp q2.symm)) (by
          simp only
          rcases hsa with h | h <;> rw [h] <;> decide) (by
          intro h0
          simp only at h0
          omega)
      refine ⟨r1, ?_⟩
      rw [r2]
      simp only [BigInteger.value, minus]
      rw [q3, hneg]
      ring
    · have hless : ¬ less a.digits b.digits = true := by
        rw [hl, decide_eq_true_iff]
        exact hlt
      rw [if_pos hless]
      obtain ⟨q1, q2, q3⟩ := minus_loop_spec a.digits b.digits 0 ca.1 cb.1 (Or.inl rfl)
        (by omega)
      obtain ⟨r1, r2, _, _⟩ := removeLeadZeroes_spec
        ⟨a.sign, minus a.digits b.digits MOD⟩ q1 (by
          intro h
          simp only [minus] at h
          rw [h] at q2
          exact ca.2.1 (List.length_eq_zero.mp q2.symm)) sa (by
          intro h0
          simp only at h0
          omega)
      refine ⟨r1, ?_⟩
      rw [r2]
      simp only [BigInteger.value, minus]
      rw [q3, hneg]
      ring

/-! ## Claims about BigInteger -/

theorem tdiv_signs (s t x y : Int) (hs : s = 1 ∨ s = -1) (ht : t = 1 ∨ t = -1) (hx : 0 ≤ x)
    (hy : 0 ≤ y) : Int.tdiv (s * x) (t * y) = s * t * (x / y) := by
  have h := Int.tdiv_eq_ediv hx hy
  rcases hs with rfl | rfl <;> rcases ht with rfl | rfl <;>
    simp [Int.neg_tdiv, Int.tdiv_neg, h]

theorem quotient_unique {n q v : Int} (hv : 0 < v) (h1 : q * v ≤ n) (h2 : n < (q + 1) * v) :
    n / v = q := by
  apply le_antisymm
  · have : n / v < q + 1 := (Int.ediv_lt_iff_lt_mul hv).mpr h2
    omega
  · exact (Int.le_ediv_iff_mul_le hv).mpr h1

/-- Claim C35, failing call: `BigInteger(0) + BigInteger(5)` has the limbs of
5 but keeps the sign field 0 of its left operand, so `operator==` with
`BigInteger(0 + 5)`, whose sign field is 1, is false. -/
theorem add_to_zero_keeps_sign_zero :
    (BigInteger.ofLongLong 0).add (BigInteger.ofLongLong 5) = ⟨0, [5]⟩ ∧
    BigInteger.ofLongLong (0 + 5) = ⟨1, [5]⟩ ∧
    ((BigInteger.ofLongLong 0).add (BigInteger.ofLongLong 5)).eq (BigInteger.ofLongLong (0 + 5))
      = false := by
  refine ⟨by decide, by decide, by decide⟩

/-- Claim C36: for every normalised `a` and every normalised `b` that is not
zero, the value of `a / b` is the quotient of the values of `a` and `b`
truncated toward zero, and `a / b` is normalised (limbs in `[0, 10 ^ 9)`, no
leading zero limb, sign 0 exactly for the value 0). -/
theorem division_truncates_toward_zero (a b : BigInteger) (ha : a.Normalised)
    (hb : b.Normalised) (hb0 : b.value ≠ 0) :
    (a.div b).value = Int.tdiv a.value b.value ∧ (a.div b).Normalised ∧
    ((a.div b).sign = 0 ↔ (a.div b).value = 0) := by
  obtain ⟨ca, sa, za⟩ := (normalised_iff a).mp ha
  obtain ⟨cb, sb, zb⟩ := (normalised_iff b).mp hb
  have hbs : b.sign ≠ 0 := by
    intro h
    apply hb0
    simp [BigInteger.value, h]
  have hmain : (a.div b).value = Int.tdiv a.value b.value ∧ (a.div b).Normalised := by
    simp only [BigInteger.div, BigInteger.div_assign]
    by_cases h0 : a.sign = 0
    · rw [if_pos h0]
      refine ⟨?_, ha⟩
      simp [BigInteger.value, h0]
    · rw [if_neg h0]
      obtain ⟨na, nas, nad, naz⟩ := abs_spec a ha
      obtain ⟨nb, nbs, nbd, nbz⟩ := abs_spec b hb
      have va := Normalised.value_digits_pos ha h0
      have vb := Normalised.value_digits_pos hb hbs
      have sa' : a.sign = 1 ∨ a.sign = -1 := by omega
      have sb' : b.sign = 1 ∨ b.sign = -1 := by omega
      have hq := tdiv_signs a.sign b.sign (value_digits a.digits) (value_digits b.digits) sa' sb'
        (le_of_lt va) (le_of_lt vb)
      have hlts := lt_spec a.abs b.abs na nb nas nbs
      rw [nad, nbd] at hlts
      rw [hlts]
      by_cases hlt : value_digits a.digits < value_digits b.digits
      · rw [decide_eq_true hlt, if_pos rfl]
        refine ⟨?_, normalised_zero⟩
        simp only [BigInteger.value] at hq ⊢
        rw [hq, Int.ediv_eq_zero_of_lt (le_of_lt va) hlt]
        simp [ofLongLong_zero, value_digits]
      · rw [decide_eq_false hlt, if_neg (by simp)]
        have habs_b : b.abs.sign = 1 := by
          have : b.abs.sign ≠ 0 := fun h => hbs (nbz.mp h)
          obtain ⟨_, s, _⟩ := (normalised_iff b.abs).mp nb
          omega
        obtain ⟨d1, d2, d3⟩ := div_loop_spec b.abs nb habs_b (a.digits.length + 1)
          a.abs.digits.reverse (BigInteger.ofLongLong 0) [] (value_digits a.digits)
          (by rw [List.length_reverse, nad]; omega) (good_reverse.mpr (nad ▸ ca.1)) Good.nil
          normalised_zero (by decide) (by rw [nbd]; exact vb) (by
            rw [List.reverse_reverse, nad]
            simp [ofLongLong_zero, value_digits])
        rw [nbd] at d2 d3
        generalize div_loop b.abs (a.digits.length + 1) a.abs.digits.reverse
          (BigInteger.ofLongLong 0) [] = out at d1 d2 d3 ⊢
        have hquo := quotient_unique vb d2 d3
        have hq1 : 1 ≤ value_digits a.digits / value_digits b.digits :=
          (Int.le_ediv_iff_mul_le vb).mpr (by omega)
        have hsign : a.sign * b.sign = 1 ∨ a.sign * b.sign = -1 := by
          rcases sa' with h | h <;> rcases sb' with h' | h' <;> rw [h, h'] <;> decide
        obtain ⟨r1, r2, _, _⟩ := removeLeadZeroes_spec ⟨a.sign * b.sign, out.reverse⟩
          (good_reverse.mpr d1) (by
            intro h
            simp only at h
            rw [h] at hquo
            simp only [value_digits] at hquo
            omega) (Or.inr hsign) (by
            intro h
            simp only at h
            omega)
        refine ⟨?_, r1⟩
        rw [r2]
        simp only [BigInteger.value] at hq ⊢
        rw [hq, hquo]
  refine ⟨hmain.1, hmain.2, ?_⟩
  obtain ⟨_, s, z⟩ := (normalised_iff _).mp hmain.2
  constructor
  · intro h
    simp [BigInteger.value, h]
  · intro h
    by_contra hne
    have := Normalised.value_digits_pos hmain.2 hne
    simp only [BigInteger.value] at h
    rcases Int.mul_eq_zero.mp h with h | h
    · exact hne h
    · omega

/-- The quotient of `-3000000007` by `5`. -/
theorem division_truncates_witness :
    ((⟨-1, [7, 3]⟩ : BigInteger).div ⟨1, [5]⟩).value
      = Int.tdiv (BigInteger.value ⟨-1, [7, 3]⟩) (BigInteger.value ⟨1, [5]⟩) ∧
    ((⟨-1, [7, 3]⟩ : BigInteger).div ⟨1, [5]⟩).Normalised ∧
    (((⟨-1, [7, 3]⟩ : BigInteger).div ⟨1, [5]⟩).sign = 0
      ↔ ((⟨-1, [7, 3]⟩ : BigInteger).div ⟨1, [5]⟩).value = 0) :=
  division_truncates_toward_zero ⟨-1, [7, 3]⟩ ⟨1, [5]⟩ (by decide) (by decide) (by decide)

end BigIntegers

namespace Deques

variable {T : Type}

theorem cell_some {data : List (List (Option T))} {p : Nat} {x : Option T}
    (h : cell data p = some x) :
    ∃ block, data[p / 128]? = some block ∧ block[p % 128]? = some x ∧ p % 128 < block.length := by
  simp only [cell, block_sz, Option.bind_eq_some] at h
  obtain ⟨block, h1, h2⟩ := h
  refine ⟨block, h1, h2, ?_⟩
  by_contra hlt
  rw [List.getElem?_eq_none (by omega)] at h2
  simp at h2

/-- Writing one cell changes that cell only. -/
theorem cell_set {data : List (List (Option T))} {p : Nat} {block : List (Option T)}
    (x : Option T) (h1 : data[p / 128]? = some block) (h2 : p % 128 < block.length) (j : Nat) :
    cell (data.set (p / 128) (block.set (p % 128) x)) j
      = if j = p then some x else cell data j := by
  have hlen : p / 128 < data.length := by
    by_contra hlt
    rw [List.getElem?_eq_none (by omega)] at h1
    simp at h1
  simp only [cell, block_sz, List.getElem?_set]
  by_cases hq : p / 128 = j / 128
  · rw [if_pos hq, if_pos hlen]
    simp only [Option.some_bind, List.getElem?_set]
    by_cases hr : p % 128 = j % 128
    · have : j = p := by omega
      rw [if_pos hr, if_pos h2, if_pos this]
    · have : ¬ j = p := by
        intro h
        rw [h] at hr
        exact hr rfl
      rw [if_neg hr, if_neg this, ← hq, h1]
      rfl
  · have : ¬ j = p := by
      intro h
      rw [h] at hq
      exact hq rfl
    rw [if_neg hq, if_neg this]

theorem set_blocks {data : List (List (Option T))} {q r : Nat} {block : List (Option T)}
    (x : Option T) (h1 : data[q]? = some block)
    (hu : ∀ b ∈ data, b.length = 128) :
    ∀ b ∈ data.set q (block.set r x), b.length = 128 := by
  intro b hb
  rcases List.mem_or_eq_of_mem_set hb with h | h
  · exact hu b h
  · rw [h, List.length_set]
    exact hu block (List.mem_iff_getElem?.mpr ⟨_, h1⟩)

theorem construct_cell_eq {data : List (List (Option T))} {p : Nat} {c : Option T} (value : T)
    (h : cell data p = some c) :
    ∃ block, data[p / 128]? = some block ∧ p % 128 < block.length ∧
      construct data p value = some (data.set (p / 128) (block.set (p % 128) (some value))) := by
  obtain ⟨block, h1, _, h3⟩ := cell_some h
  refine ⟨block, h1, h3, ?_⟩
  simp only [construct, block_sz, h1, if_pos h3]

theorem destroy_cell_eq {data : List (List (Option T))} {p : Nat} {x : T}
    (h : cell data p = some (some x)) :
    ∃ block, data[p / 128]? = some block ∧ p % 128 < block.length ∧
      destroy data p = some (data.set (p / 128) (block.set (p % 128) none)) := by
  obtain ⟨block, h1, h2, h3⟩ := cell_some h
  refine ⟨block, h1, h3, ?_⟩
  simp only [destroy, block_sz, h1, h2]

theorem fresh_block_get (r : Nat) :
    (fresh_block T)[r]? = if r < 128 then some none else none := by
  simp only [fresh_block, block_sz, List.getElem?_replicate]

/-- The cells after `relocate`: the old cells are shifted by
`128 * block_count`, between new cells without objects. -/
theorem cell_relocate (data : List (List (Option T))) (bc : Nat) (hlen : data.length = bc)
    (p : Nat) :
    cell (List.replicate bc (fresh_block T) ++ data ++ List.replicate bc (fresh_block T)) p =
      if p < 128 * bc then some none
      else if p < 2 * (128 * bc) then cell data (p - 128 * bc)
      else if p < 3 * (128 * bc) then some none
      else none := by
  have hmod : p % 128 < 128 := Nat.mod_lt _ (by decide)
  simp only [cell, block_sz, List.append_assoc]
  by_cases h1 : p < 128 * bc
  · rw [if_pos h1, List.getElem?_append_left (by rw [List.length_replicate]; omega),
      List.getElem?_replicate, if_pos (by omega)]
    simp only [Option.some_bind, fresh_block_get, if_pos hmod]
  · rw [if_neg h1, List.getElem?_append_right (by rw [List.length_replicate]; omega),
      List.length_replicate]
    by_cases h2 : p < 2 * (128 * bc)
    · rw [if_pos h2, List.getElem?_append_left (by omega)]
      have e1 : (p - 128 * bc) / 128 = p / 128 - bc := by omega
      have e2 : (p - 128 * bc) % 128 = p % 128 := by omega
      rw [e1, e2]
    · rw [if_neg h2, List.getElem?_append_right (by omega), List.getElem?_replicate]
      by_cases h3 : p < 3 * (128 * bc)
      · rw [if_pos h3, if_pos (by omega)]
        simp only [Option.some_bind, fresh_block_get, if_pos hmod]
      · rw [if_neg h3, if_neg (by omega)]
        rfl

theorem relocate_blocks (data : List (List (Option T))) (bc : Nat)
    (hu : ∀ b ∈ data, b.length = 128) :
    ∀ b ∈ List.replicate bc (fresh_block T) ++ data ++ List.replicate bc (fresh_block T),
      b.length = 128 := by
  intro b hb
  simp only [List.mem_append, List.mem_replicate] at hb
  rcases hb with (⟨_, h⟩ | h) | ⟨_, h⟩
  · rw [h]
    simp [fresh_block, block_sz]
  · exact hu b h
  · rw [h]
    simp [fresh_block, block_sz]

/-! ## The layout of the cells under the four calls -/

theorem layout_cell_free {data : List (List (Option T))} {b e c : Nat} {l : List T}
    (h : Layout data b e c l) {p : Nat} (hp : p < c) (hout : p < b ∨ e ≤ p) :
    cell data p = some none := by
  rw [h p]
  by_cases h1 : p < b
  · rw [if_pos h1]
  · rw [if_neg h1, if_neg (by omega), if_pos hp]

theorem layout_cell_used {data : List (List (Option T))} {b e c : Nat} {l : List T}
    (h : Layout data b e c l) {p : Nat} (h1 : b ≤ p) (h2 : p < e) (hlen : e = b + l.length) :
    ∃ x, l[p - b]? = some x ∧ cell data p = some (some x) := by
  have hlt : p - b < l.length := by omega
  refine ⟨l[p - b], List.getElem?_eq_getElem hlt, ?_⟩
  rw [h p, if_neg (by omega), if_pos h2, List.getElem?_eq_getElem hlt]
  rfl

theorem layout_push_back {data : List (List (Option T))} {b e c : Nat} {l : List T}
    (h : Layout data b e c l) (hlen : e = b + l.length) (hc : e < c)
    {block : List (Option T)} (h1 : data[e / 128]? = some block) (h2 : e % 128 < block.length)
    (value : T) :
    Layout (data.set (e / 128) (block.set (e % 128) (some value))) b (e + 1) c
      (l ++ [value]) := by
  intro p
  rw [cell_set _ h1 h2, h p]
  by_cases hp : p = e
  · subst hp
    have f1 : ¬ p < b := by omega
    have f2 : p < p + 1 := by omega
    have f3 : p - b = l.length := by omega
    simp only [f1, f2, f3, ↓reduceIte]
    simp
  · by_cases hb : p < b
    · simp only [hp, hb, ↓reduceIte]
    · by_cases he : p < e
      · have f2 : p < e + 1 := by omega
        simp only [hp, hb, he, f2, ↓reduceIte]
        rw [List.getElem?_append_left (by omega)]
      · have f2 : ¬ p < e + 1 := by omega
        simp only [hp, hb, he, f2, ↓reduceIte]

theorem layout_push_front {data : List (List (Option T))} {b e c : Nat} {l : List T}
    (h : Layout data b e c l) (hb1 : 1 ≤ b) (hbe : b ≤ e)
    {block : List (Option T)} (h1 : data[(b - 1) / 128]? = some block)
    (h2 : (b - 1) % 128 < block.length) (value : T) :
    Layout (data.set ((b - 1) / 128) (block.set ((b - 1) % 128) (some value))) (b - 1) e c
      (value :: l) := by
  intro p
  rw [cell_set _ h1 h2, h p]
  by_cases hp : p = b - 1
  · subst hp
    have f2 : b - 1 < e := by omega
    simp only [f2, ↓reduceIte, lt_self_iff_false, Nat.sub_self]
    simp
  · by_cases hb : p < b
    · have f1 : p < b - 1 := by omega
      simp only [hp, hb, f1, ↓reduceIte]
    · have f1 : ¬ p < b - 1 := by omega
      by_cases he : p < e
      · have f3 : p - (b - 1) = (p - b) + 1 := by omega
        simp only [hp, hb, he, f1, f3, ↓reduceIte, List.getElem?_cons_succ]
      · simp only [hp, hb, he, f1, ↓reduceIte]

theorem layout_pop_back {data : List (List (Option T))} {b e c : Nat} {l : List T}
    (h : Layout data b e c l) (hlen : e = b + l.length) (hc : e < c) (hne : 0 < l.length)
    {block : List (Option T)} (h1 : data[(e - 1) / 128]? = some block)
    (h2 : (e - 1) % 128 < block.length) :
    Layout (data.set ((e - 1) / 128) (block.set ((e - 1) % 128) none)) b (e - 1) c
      l.dropLast := by
  intro p
  rw [cell_set _ h1 h2, h p]
  by_cases hp : p = e - 1
  · subst hp
    have f1 : ¬ e - 1 < b := by omega
    have f3 : e - 1 < c := by omega
    simp only [f1, f3, ↓reduceIte, lt_self_iff_false]
  · by_cases hb : p < b
    · simp only [hp, hb, ↓reduceIte]
    · by_cases he : p < e
      · have f2 : p < e - 1 := by omega
        have f3 : p - b < l.length - 1 := by omega
        simp only [hp, hb, he, f2, f3, ↓reduceIte, List.getElem?_dropLast]
      · have f2 : ¬ p < e - 1 := by omega
        simp only [hp, hb, he, f2, ↓reduceIte]

theorem layout_pop_front {data : List (List (Option T))} {b e c : Nat} {l : List T}
    (h : Layout data b e c l) (hlen : e = b + l.length)
    {block : List (Option T)} (h1 : data[b / 128]? = some block)
    (h2 : b % 128 < block.length) :
    Layout (data.set (b / 128) (block.set (b % 128) none)) (b + 1) e c l.tail := by
  intro p
  rw [cell_set _ h1 h2, h p]
  by_cases hp : p = b
  · subst hp
    have f1 : p < p + 1 := by omega
    simp only [f1, ↓reduceIte]
  · by_cases hb : p < b
    · have f1 : p < b + 1 := by omega
      simp only [hp, hb, f1, ↓reduceIte]
    · have f1 : ¬ p < b + 1 := by omega
      by_cases he : p < e
      · have f3 : p - (b + 1) + 1 = p - b := by omega
        simp only [hp, hb, he, f1, ↓reduceIte, List.getElem?_tail, f3]
      · simp only [hp, hb, he, f1, ↓reduceIte]

theorem layout_relocate {data : List (List (Option T))} {b e bc : Nat} {l : List T}
    (h : Layout data b e (128 * bc) l) (hlen : data.length = bc) (hbe : b ≤ e)
    (hc : e ≤ 128 * bc) :
    Layout (List.replicate bc (fresh_block T) ++ data ++ List.replicate bc (fresh_block T))
      (b + 128 * bc) (e + 128 * bc) (128 * (3 * bc)) l := by
  intro p
  rw [cell_relocate data bc hlen]
  by_cases h1 : p < 128 * bc
  · have f1 : p < b + 128 * bc := by omega
    simp only [h1, f1, ↓reduceIte]
  · by_cases h2 : p < 2 * (128 * bc)
    · simp only [h1, h2, ↓reduceIte]
      rw [h (p - 128 * bc)]
      by_cases hb : p < b + 128 * bc
      · have f1 : p - 128 * bc < b := by omega
        simp only [hb, f1, ↓reduceIte]
      · have f1 : ¬ p - 128 * bc < b := by omega
        by_cases he : p < e + 128 * bc
        · have f2 : p - 128 * bc < e := by omega
          have f3 : p - 128 * bc - b = p - (b + 128 * bc) := by omega
          simp only [hb, he, f1, f2, f3, ↓reduceIte]
        · have f2 : ¬ p - 128 * bc < e := by omega
          have f3 : p - 128 * bc < 128 * bc := by omega
          have f4 : p < 128 * (3 * bc) := by omega
          simp only [hb, he, f1, f2, f3, f4, ↓reduceIte]
    · have f1 : ¬ p < b + 128 * bc := by omega
      have f2 : ¬ p < e + 128 * bc := by omega
      by_cases h3 : p < 3 * (128 * bc)
      · have f4 : p < 128 * (3 * bc) := by omega
        simp only [h1, h2, h3, f1, f2, f4, ↓reduceIte]
      · have f4 : ¬ p < 128 * (3 * bc) := by omega
        simp only [h1, h2, h3, f1, f2, f4, ↓reduceIte]

/-- Member function `relocate` when `3 * 128 * block_count` does not wrap. -/
theorem relocate_eq (d : Deque T) (hlen : d.data.length = d.block_count)
    (hfit : 3 * (128 * d.block_count) < SIZE_T_MOD) (he : d.end_pos ≤ 128 * d.block_count)
    (hb : d.begin_pos ≤ d.end_pos) :
    d.relocate = some ⟨List.replicate d.block_count (fresh_block T) ++ d.data
        ++ List.replicate d.block_count (fresh_block T),
      d.begin_pos + 128 * d.block_count, d.end_pos + 128 * d.block_count,
      3 * d.block_count⟩ := by
  have hM : SIZE_T_MOD = 18446744073709551616 := rfl
  rw [hM] at hfit
  have e1 : d.block_count * block_sz % SIZE_T_MOD = 128 * d.block_count := by
    rw [hM, block_sz]
    omega
  have e2 : (d.begin_pos + 128 * d.block_count) % SIZE_T_MOD
      = d.begin_pos + 128 * d.block_count := by
    rw [hM]
    omega
  have e3 : (d.end_pos + 128 * d.block_count) % SIZE_T_MOD
      = d.end_pos + 128 * d.block_count := by
    rw [hM]
    omega
  have e4 : d.block_count * 3 % SIZE_T_MOD = 3 * d.block_count := by
    rw [hM]
    omega
  have hcond : 3 * d.block_count < SIZE_T_MOD ∧ d.block_count ≤ d.data.length := by
    rw [hM]
    constructor <;> omega
  simp only [Deque.relocate, if_pos hcond, e1, e2, e3, e4,
    List.take_of_length_le (le_of_eq hlen)]

/-! ## The four calls keep the representation invariant -/

theorem rep_init : Rep (Deque.init : Deque T) [] 0 := by
  simp only [Rep]
  refine ⟨rfl, ?_, le_refl _, rfl, by simp [Deque.init], by simp [Deque.init],
    by simp [Deque.init], by simp [Deque.init], ?_⟩
  · intro block hb
    simp only [Deque.init, List.mem_singleton] at hb
    rw [hb]
    simp [fresh_block, block_sz]
  · intro p
    have hmod : p % 128 < 128 := Nat.mod_lt _ (by decide)
    simp only [Deque.init, cell, block_sz]
    by_cases h0 : p < 128
    · have e : p / 128 = 0 := by omega
      rw [e]
      simp only [List.getElem?_cons_zero, Option.some_bind, fresh_block_get, if_pos hmod]
      by_cases h1 : p < 1
      · simp only [h1, ↓reduceIte]
      · have h2 : p < 128 * 1 := by omega
        simp only [h1, h2, ↓reduceIte]
    · have h1 : ¬ p < 1 := by omega
      have h2 : ¬ p < 128 * 1 := by omega
      have e : [fresh_block T][p / 128]? = none := List.getElem?_eq_none (by simp; omega)
      rw [e]
      simp only [h1, h2, ↓reduceIte]
      rfl

theorem push_back_rep (d : Deque T) (l : List T) (n : Nat) (value : T) (h : Rep d l n)
    (hn : 9 * (n + 1) + 512 < SIZE_T_MOD) :
    ∃ d', d.push_back value = some d' ∧ Rep d' (l ++ [value]) (n + 1) := by
  obtain ⟨hlen, hu, hb1, hend, hcap, ba, bb, bc, hl⟩ := h
  have hM : SIZE_T_MOD = 18446744073709551616 := rfl
  rw [hM] at hn
  have hfree := layout_cell_free hl hcap (Or.inr (le_refl _))
  obtain ⟨block, h1, h2, hcon⟩ := construct_cell_eq value hfree
  have e1 : (d.end_pos + 1) % SIZE_T_MOD = d.end_pos + 1 := by
    rw [hM]
    omega
  have e2 : (block_sz * d.block_count) % SIZE_T_MOD = 128 * d.block_count := by
    rw [hM, block_sz]
    omega
  have hl' := layout_push_back hl hend hcap h1 h2 value
  have hu' := set_blocks (some value) h1 hu (r := d.end_pos % 128)
  simp only [Deque.push_back, hcon, Option.some_bind, e1, e2]
  by_cases hrel : d.end_pos + 1 = 128 * d.block_count
  · rw [if_pos hrel]
    rw [relocate_eq _ (by simp [hlen]) (by simp only [hM]; omega) (by simp only; omega)
      (by simp only; omega)]
    refine ⟨_, rfl, ?_⟩
    simp only [Rep]
    refine ⟨by simp [hlen]; omega, relocate_blocks _ _ hu', by omega, ?_, by omega, by omega,
      by omega, by omega, ?_⟩
    · simp only [List.length_append, List.length_singleton]
      omega
    · exact layout_relocate hl' (by simp [hlen]) (by omega) (by omega)
  · rw [if_neg hrel]
    refine ⟨_, rfl, ?_⟩
    simp only [Rep]
    refine ⟨by simp [hlen], hu', hb1, ?_, by omega, by omega, by omega, by omega, hl'⟩
    simp only [List.length_append, List.length_singleton]
    omega

theorem push_front_rep (d : Deque T) (l : List T) (n : Nat) (value : T) (h : Rep d l n)
    (hn : 9 * (n + 1) + 512 < SIZE_T_MOD) :
    ∃ d', d.push_front value = some d' ∧ Rep d' (value :: l) (n + 1) := by
  obtain ⟨hlen, hu, hb1, hend, hcap, ba, bb, bc, hl⟩ := h
  have hM : SIZE_T_MOD = 18446744073709551616 := rfl
  rw [hM] at hn
  have hfree := layout_cell_free hl (p := d.begin_pos - 1) (by omega) (Or.inl (by omega))
  obtain ⟨block, h1, h2, hcon⟩ := construct_cell_eq value hfree
  have e1 : (d.begin_pos + (SIZE_T_MOD - 1)) % SIZE_T_MOD = d.begin_pos - 1 := by
    rw [hM]
    omega
  have hl' := layout_push_front hl hb1 (by omega) h1 h2 value
  have hu' := set_blocks (some value) h1 hu (r := (d.begin_pos - 1) % 128)
  simp only [Deque.push_front, e1, hcon, Option.some_bind]
  by_cases hrel : d.begin_pos - 1 = 0
  · rw [if_pos hrel]
    rw [relocate_eq _ (by simp [hlen]) (by simp only [hM]; omega) (by simp only; omega)
      (by simp only; omega)]
    refine ⟨_, rfl, ?_⟩
    simp only [Rep]
    refine ⟨by simp [hlen]; omega, relocate_blocks _ _ hu', by omega, ?_, by omega, by omega,
      by omega, by omega, ?_⟩
    · simp only [List.length_cons]
      omega
    · exact layout_relocate hl' (by simp [hlen]) (by omega) (by omega)
  · rw [if_neg hrel]
    refine ⟨_, rfl, ?_⟩
    simp only [Rep]
    refine ⟨by simp [hlen], hu', by omega, ?_, by omega, by omega, by omega, by omega, hl'⟩
    simp only [List.length_cons]
    omega

theorem pop_back_rep (d : Deque T) (l : List T) (n : Nat) (h : Rep d l n)
    (hne : 0 < l.length) (hn : 9 * (n + 1) + 512 < SIZE_T_MOD) :
    ∃ d', d.pop_back = some d' ∧ Rep d' l.dropLast (n + 1) := by
  obtain ⟨hlen, hu, hb1, hend, hcap, ba, bb, bc, hl⟩ := h
  have hM : SIZE_T_MOD = 18446744073709551616 := rfl
  rw [hM] at hn
  obtain ⟨x, _, hused⟩ := layout_cell_used hl (p := d.end_pos - 1) (by omega) (by omega) hend
  obtain ⟨block, h1, h2, hdes⟩ := destroy_cell_eq hused
  have e1 : (d.end_pos + (SIZE_T_MOD - 1)) % SIZE_T_MOD = d.end_pos - 1 := by
    rw [hM]
    omega
  have hl' := layout_pop_back hl hend hcap hne h1 h2
  have hu' := set_blocks none h1 hu (r := (d.end_pos - 1) % 128)
  simp only [Deque.pop_back, e1, hdes, Option.some_bind]
  refine ⟨_, rfl, ?_⟩
  simp only [Rep]
  refine ⟨by simp [hlen], hu', hb1, ?_, by omega, by omega, by omega, by omega, hl'⟩
  simp only [List.length_dropLast]
  omega

theorem pop_front_rep (d : Deque T) (l : List T) (n : Nat) (h : Rep d l n)
    (hne : 0 < l.length) (hn : 9 * (n + 1) + 512 < SIZE_T_MOD) :
    ∃ d', d.pop_front = some d' ∧ Rep d' l.tail (n + 1) := by
  obtain ⟨hlen, hu, hb1, hend, hcap, ba, bb, bc, hl⟩ := h
  have hM : SIZE_T_MOD = 18446744073709551616 := rfl
  rw [hM] at hn
  obtain ⟨x, _, hused⟩ := layout_cell_used hl (p := d.begin_pos) (le_refl _) (by omega) hend
  obtain ⟨block, h1, h2, hdes⟩ := destroy_cell_eq hused
  have e1 : (d.begin_pos + 1) % SIZE_T_MOD = d.begin_pos + 1 := by
    rw [hM]
    omega
  have hl' := layout_pop_front hl hend h1 h2
  have hu' := set_blocks none h1 hu (r := d.begin_pos % 128)
  simp only [Deque.pop_front, e1, hdes, Option.some_bind]
  refine ⟨_, rfl, ?_⟩
  simp only [Rep]
  refine ⟨by simp [hlen], hu', by omega, ?_, by omega, by omega, by omega, by omega, hl'⟩
  simp only [List.length_tail]
  omega

/-- Every call allowed on the sequence is defined on the deque and keeps the
representation invariant. -/
theorem step_rep (op : Op T) (d : Deque T) (l l' : List T) (n : Nat) (h : Rep d l n)
    (hn : 9 * (n + 1) + 512 < SIZE_T_MOD) (ha : abstract_step op l = some l') :
    ∃ d', step op d = some d' ∧ Rep d' l' (n + 1) := by
  cases op with
  | push_back value =>
    simp only [abstract_step, Option.some.injEq] at ha
    rw [← ha]
    exact push_back_rep d l n value h hn
  | push_front value =>
    simp only [abstract_step, Option.some.injEq] at ha
    rw [← ha]
    exact push_front_rep d l n value h hn
  | pop_back =>
    simp only [abstract_step] at ha
    split at ha
    · simp at ha
    · simp only [Option.some.injEq] at ha
      rw [← ha]
      exact pop_back_rep d l n h (by omega) hn
  | pop_front =>
    simp only [abstract_step] at ha
    split at ha
    · simp at ha
    · simp only [Option.some.injEq] at ha
      rw [← ha]
      exact pop_front_rep d l n h (by omega) hn

theorem run_rep (ops : List (Op T)) (d : Deque T) (l l' : List T) (n : Nat) (h : Rep d l n)
    (hn : 9 * (n + ops.length) + 512 < SIZE_T_MOD) (ha : abstract_run ops l = some l') :
    ∃ d', run ops d = some d' ∧ Rep d' l' (n + ops.length) := by
  induction ops generalizing d l n with
  | nil =>
    simp only [abstract_run, Option.some.injEq] at ha
    rw [← ha]
    exact ⟨d, rfl, h⟩
  | cons op ops ih =>
    simp only [abstract_run, Option.bind_eq_some] at ha
    obtain ⟨l1, ha1, ha2⟩ := ha
    simp only [List.length_cons] at hn ⊢
    have hM : SIZE_T_MOD = 18446744073709551616 := rfl
    obtain ⟨d1, hs, hr⟩ := step_rep op d l l1 n h (by rw [hM] at hn ⊢; omega) ha1
    obtain ⟨d', hrun, hrep⟩ := ih d1 l1 (n + 1) hr (by rw [hM] at hn ⊢; omega) ha2
    refine ⟨d', ?_, ?_⟩
    · simp only [run, hs, Option.some_bind, hrun]
    · have e : n + (ops.length + 1) = n + 1 + ops.length := by omega
      rw [e]
      exact hrep

/-- A deque in a state that satisfies the representation invariant and is
small enough for `size_t` presents its sequence. -/
theorem rep_refines (d : Deque T) (l : List T) (n : Nat) (h : Rep d l n)
    (hn : 9 * n + 512 < SIZE_T_MOD) : Refines d l := by
  obtain ⟨hlen, hu, hb1, hend, hcap, ba, bb, bc, hl⟩ := h
  have hM : SIZE_T_MOD = 18446744073709551616 := rfl
  rw [hM] at hn
  refine ⟨?_, ?_, hb1, by omega, hcap, hlen, hu⟩
  · simp only [Deque.size, hM]
    omega
  · intro i hi
    have e : (i + d.begin_pos) % SIZE_T_MOD = i + d.begin_pos := by
      rw [hM]
      omega
    obtain ⟨x, hx, hused⟩ := layout_cell_used hl (p := i + d.begin_pos) (by omega) (by omega)
      hend
    have e2 : i + d.begin_pos - d.begin_pos = i := by omega
    rw [e2] at hx
    simp only [Deque.subscript, e, hused, hx]
    rfl

theorem abstract_run_append (a b : List (Op T)) (l : List T) :
    abstract_run (a ++ b) l = (abstract_run a l).bind (abstract_run b) := by
  induction a generalizing l with
  | nil => simp [abstract_run]
  | cons op a ih =>
    simp only [List.cons_append, abstract_run]
    cases abstract_step op l with
    | none => simp
    | some l1 => simp [ih]

/-- Claim C38: for every sequence of calls of `push_back`, `push_front`,
`pop_back` and `pop_front` that never pops the empty sequence and is short
enough for `size_t` positions (`9 * length + 512 < 2 ^ 64`), started on the
empty `Deque`, the calls are all defined (every write and every destructor
call hits an allocated cell), and after the whole sequence as well as after
each of its initial parts the deque presents the abstract sequence obtained by
the same calls: `size()` is its length, `operator[](i)` is its `i`-th element
for all `i < size()`, and `1 <= begin_pos <= end_pos < 128 * block_count`. -/
theorem deque_refines_sequence (ops : List (Op T)) (l : List T)
    (hlen : 9 * ops.length + 512 < SIZE_T_MOD) (habs : abstract_run ops [] = some l) :
    (∃ d, run ops Deque.init = some d ∧ Refines d l) ∧
    ∀ k, k ≤ ops.length → ∃ dk lk, abstract_run (ops.take k) [] = some lk ∧
      run (ops.take k) Deque.init = some dk ∧ Refines dk lk := by
  have hM : SIZE_T_MOD = 18446744073709551616 := rfl
  constructor
  · obtain ⟨d, h1, h2⟩ := run_rep ops Deque.init [] l 0 rep_init (by rw [hM] at hlen ⊢; omega)
      habs
    exact ⟨d, h1, rep_refines d l _ h2 (by rw [hM] at hlen ⊢; omega)⟩
  · intro k hk
    have hsplit : abstract_run (ops.take k ++ ops.drop k) [] = some l := by
      rw [List.take_append_drop]
      exact habs
    rw [abstract_run_append, Option.bind_eq_some] at hsplit
    obtain ⟨lk, hlk, _⟩ := hsplit
    have hlen2 : (ops.take k).length = k := by
      rw [List.length_take]
      omega
    obtain ⟨dk, h1, h2⟩ := run_rep (ops.take k) Deque.init [] lk 0 rep_init
      (by rw [hM] at hlen ⊢; omega) hlk
    exact ⟨dk, lk, hlk, h1, rep_refines dk lk _ h2 (by rw [hM] at hlen ⊢; omega)⟩

/-- The calls `push_back(1); push_front(2); pop_back()` on an empty
`Deque<Nat>`. -/
theorem deque_refines_sequence_witness :
    (∃ d, run [Op.push_back 1, Op.push_front 2, Op.pop_back] (Deque.init : Deque Nat) = some d ∧
      Refines d [2]) ∧
    ∀ k, k ≤ [Op.push_back 1, Op.push_front 2, (Op.pop_back : Op Nat)].length →
      ∃ dk lk, abstract_run ([Op.push_back 1, Op.push_front 2, Op.pop_back].take k) [] = some lk ∧
        run ([Op.push_back 1, Op.push_front 2, Op.pop_back].take k) (Deque.init : Deque Nat)
          = some dk ∧ Refines dk lk :=
  deque_refines_sequence [Op.push_back 1, Op.push_front 2, Op.pop_back] [2] (by decide) rfl

end Deques
